import Mathlib

/-!
# Bw-tree index of peloton (`src/backend/index/bwtree.cpp`)

A shallow embedding of the sequential behaviour of the `BWTree` class: the
mapping table, base nodes and delta chains, the four modification operators,
leaf and inner split, consolidation of a leaf and the query functions.

Keys are any linearly ordered type `K` (the comparator is `<`, the equality
checker is `=`), values any type `V` with decidable equality.

The class declaration (`bwtree.h`) is not part of the sources at hand.  The
helpers it declares are modelled from the specification; each such definition
says so in its doc comment.  The functions of `bwtree.cpp` are translated
statement by statement.  A compare-and-swap whose expected value was read by
the same sequential caller succeeds, so only the success branch of each retry
loop is kept.  Loops that can fail to terminate take fuel.

The table registry of `storage::Database` (`src/backend/storage/database.cpp`)
is embedded in the section `Registry`.
-/

namespace BwTree

/-- Logical page identifier, a signed integer (`Search` tests `leaf_pid < 0`). -/
abbrev PID := Int

/-- Modelled from the spec: the null page identifier that denotes "absent"; any
negative value would do, the operators only allocate non-negative identifiers. -/
def NULL_PID : PID := -1

/-- Nodes of the tree: the two base variants and the five delta variants.  A delta
carries the node it was prepended to (`base`).  `LeafNode` and `InnerNode` carry
the parent and sideways pointers; the slot array of a base with `slot_use`
entries is a list.  `SeparatorNode.right = none` is the bound "plus infinity". -/
inductive Node (K V : Type) where
  | LeafNode (parent : PID) (level : Nat) (next_leaf prev_leaf : PID)
      (slots : List (K × List V))
  | InnerNode (parent : PID) (level : Nat) (next : PID) (child0 : PID)
      (slots : List (K × PID))
  | InsertNode (key : K) (value : V) (level size length : Nat) (base : Node K V)
  | UpdateNode (key : K) (value : V) (level size length : Nat) (base : Node K V)
  | DeleteNode (key : K) (value : Option V) (level size length : Nat) (base : Node K V)
  | SplitNode (key : K) (sibling : PID) (level size length : Nat) (base : Node K V)
  | SeparatorNode (left : K) (right : Option K) (child : PID)
      (level size length : Nat) (base : Node K V)

/-- Modelled from the spec: the configuration of an index.  `IsLeafFull size length`
and `IsInnerFull size length` decide from the size and the chain length stored in
a chain head whether the node is to be split.  `unique_keys` is the flag the
index is built with; no function of `bwtree.cpp` reads it. -/
structure Config where
  IsLeafFull : Nat → Nat → Bool
  IsInnerFull : Nat → Nat → Bool
  unique_keys : Bool

/-- Modelled from the spec: a split is triggered when the chain is longer than
`delta_chain` or the size exceeds the size threshold of the node kind.  The index
is built as `BuildIndex` of the tests builds it, with `unique_keys = false`. -/
def specConfig (delta_chain delta_leaf_size delta_inner_size : Nat) : Config where
  IsLeafFull := fun size length => decide (delta_chain < length ∨ delta_leaf_size < size)
  IsInnerFull := fun size length => decide (delta_chain < length ∨ delta_inner_size < size)
  unique_keys := false

/-- The thresholds the spec lists as defaults: chain 8, leaf 128 slots, inner 128. -/
def defaultConfig : Config := specConfig 8 128 128

/-- The default thresholds on an index built with `unique_keys = true`. -/
def uniqueConfig : Config := { defaultConfig with unique_keys := true }

/-- The index: mapping table, root and leaf-chain ends, and the allocation counter
of `AllocatePID`. -/
structure BWTree (K V : Type) where
  mapping_table : PID → Option (Node K V)
  m_root : PID
  m_headleaf : PID
  m_tailleaf : PID
  next_pid : Nat

namespace Node

variable {K V : Type}

/-- Modelled from the spec: a base node is not a delta, the five delta variants are. -/
def IsDelta : Node K V → Bool
  | LeafNode _ _ _ _ _ => false
  | InnerNode _ _ _ _ _ => false
  | _ => true

/-- Modelled from the spec: `level`, 0 for leaves, positive for inner nodes. -/
def GetLevel : Node K V → Nat
  | LeafNode _ l _ _ _ => l
  | InnerNode _ l _ _ _ => l
  | InsertNode _ _ l _ _ _ => l
  | UpdateNode _ _ l _ _ _ => l
  | DeleteNode _ _ l _ _ _ => l
  | SplitNode _ _ l _ _ _ => l
  | SeparatorNode _ _ _ l _ _ _ => l

/-- Modelled from the spec: `size`, the slot count a base holds or a delta records. -/
def GetSize : Node K V → Nat
  | LeafNode _ _ _ _ s => s.length
  | InnerNode _ _ _ _ s => s.length
  | InsertNode _ _ _ s _ _ => s
  | UpdateNode _ _ _ s _ _ => s
  | DeleteNode _ _ _ s _ _ => s
  | SplitNode _ _ _ s _ _ => s
  | SeparatorNode _ _ _ _ s _ _ => s

/-- Modelled from the spec: `chain_length`, 0 for bases. -/
def GetLength : Node K V → Nat
  | LeafNode _ _ _ _ _ => 0
  | InnerNode _ _ _ _ _ => 0
  | InsertNode _ _ _ _ n _ => n
  | UpdateNode _ _ _ _ n _ => n
  | DeleteNode _ _ _ _ n _ => n
  | SplitNode _ _ _ _ n _ => n
  | SeparatorNode _ _ _ _ _ n _ => n

/-- Modelled from the spec: a node is a leaf when its level is 0. -/
def IsLeaf (n : Node K V) : Bool := n.GetLevel == 0

/-- Modelled from the spec: `DeltaNode::GetBase`, the node a delta was prepended
to (one step down the chain).  A base node is returned as it is. -/
def GetBase : Node K V → Node K V
  | InsertNode _ _ _ _ _ b => b
  | UpdateNode _ _ _ _ _ b => b
  | DeleteNode _ _ _ _ _ b => b
  | SplitNode _ _ _ _ _ b => b
  | SeparatorNode _ _ _ _ _ _ b => b
  | n => n

/-- Modelled from the spec: `GetBaseNode`, the base node at the bottom of a chain. -/
def GetBaseNode : Node K V → Node K V
  | InsertNode _ _ _ _ _ b => GetBaseNode b
  | UpdateNode _ _ _ _ _ b => GetBaseNode b
  | DeleteNode _ _ _ _ _ b => GetBaseNode b
  | SplitNode _ _ _ _ _ b => GetBaseNode b
  | SeparatorNode _ _ _ _ _ _ b => GetBaseNode b
  | n => n

/-- Modelled from the spec: the `parent` field of a node.  Deltas are allocated from
their payload and a level only and no function of `bwtree.cpp` assigns their
parent, so a delta reads as `NULL_PID`. -/
def GetParent : Node K V → PID
  | LeafNode p _ _ _ _ => p
  | InnerNode p _ _ _ _ => p
  | _ => NULL_PID

/-- Modelled from the spec: the sideways `next` pointer of a base node. -/
def GetNext : Node K V → PID
  | LeafNode _ _ n _ _ => n
  | InnerNode _ _ n _ _ => n
  | _ => NULL_PID

/-- Modelled from the spec: the `prev_leaf` pointer of a leaf base. -/
def GetPrev : Node K V → PID
  | LeafNode _ _ _ p _ => p
  | _ => NULL_PID

/-- Effect of `base_node->SetParent(pid)` seen from the chain head: the base node at
the bottom of the chain gets the new parent. -/
def SetParent (pid : PID) : Node K V → Node K V
  | LeafNode _ l n p s => LeafNode pid l n p s
  | InnerNode _ l n c s => InnerNode pid l n c s
  | InsertNode k v l s n b => InsertNode k v l s n (SetParent pid b)
  | UpdateNode k v l s n b => UpdateNode k v l s n (SetParent pid b)
  | DeleteNode k v l s n b => DeleteNode k v l s n (SetParent pid b)
  | SplitNode k q l s n b => SplitNode k q l s n (SetParent pid b)
  | SeparatorNode a r c l s n b => SeparatorNode a r c l s n (SetParent pid b)

/-- Effect of `base_node->SetNext(pid)` seen from the chain head. -/
def SetNext (pid : PID) : Node K V → Node K V
  | LeafNode q l _ p s => LeafNode q l pid p s
  | InnerNode q l _ c s => InnerNode q l pid c s
  | InsertNode k v l s n b => InsertNode k v l s n (SetNext pid b)
  | UpdateNode k v l s n b => UpdateNode k v l s n (SetNext pid b)
  | DeleteNode k v l s n b => DeleteNode k v l s n (SetNext pid b)
  | SplitNode k q l s n b => SplitNode k q l s n (SetNext pid b)
  | SeparatorNode a r c l s n b => SeparatorNode a r c l s n (SetNext pid b)

/-- Effect of `leaf->SetPrev(pid)` on the base leaf seen from the chain head. -/
def SetPrev (pid : PID) : Node K V → Node K V
  | LeafNode q l n _ s => LeafNode q l n pid s
  | InnerNode q l n c s => InnerNode q l n c s
  | InsertNode k v l s n b => InsertNode k v l s n (SetPrev pid b)
  | UpdateNode k v l s n b => UpdateNode k v l s n (SetPrev pid b)
  | DeleteNode k v l s n b => DeleteNode k v l s n (SetPrev pid b)
  | SplitNode k q l s n b => SplitNode k q l s n (SetPrev pid b)
  | SeparatorNode a r c l s n b => SeparatorNode a r c l s n (SetPrev pid b)

end Node

open Node

section Slots

variable {K V : Type} [LinearOrder K] [DecidableEq V]

/-- Modelled from the spec: the step of `GetAllData` (in `bwtree.h`) for an insert
delta: the value joins the value list of the slot of its key, or a new slot is
put at the sorted position. -/
def insertSlot (k : K) (v : V) : List (K × List V) → List (K × List V)
  | [] => [(k, [v])]
  | (k', vs) :: rest =>
      if k = k' then (k', vs ++ [v]) :: rest
      else if k < k' then (k, [v]) :: (k', vs) :: rest
      else (k', vs) :: insertSlot k v rest

/-- Modelled from the spec: the step of `GetAllData` for an update delta: the value
list of the key is rewritten. -/
def updateSlot (k : K) (v : V) : List (K × List V) → List (K × List V)
  | [] => []
  | (k', vs) :: rest =>
      if k = k' then (k', [v]) :: rest else (k', vs) :: updateSlot k v rest

/-- Modelled from the spec: the step of `GetAllData` for a delete delta without
value: the slot of the key goes. -/
def deleteKeySlot (k : K) (slots : List (K × List V)) : List (K × List V) :=
  slots.filter (fun s => decide (s.1 ≠ k))

/-- Modelled from the spec: the step of `GetAllData` for a delete delta with value
("with a value, removes just that pair"): every occurrence of the value leaves the
value list of the key, as `DeleteTest` fixes it (2 of 5 values remain after one
delete of a value that was inserted three times); a slot left without values
goes. -/
def deletePairSlot (k : K) (v : V) : List (K × List V) → List (K × List V)
  | [] => []
  | (k', vs) :: rest =>
      if k = k' then
        (if vs.filter (fun w => decide (w ≠ v)) = [] then deletePairSlot k v rest
         else (k', vs.filter (fun w => decide (w ≠ v))) :: deletePairSlot k v rest)
      else (k', vs) :: deletePairSlot k v rest

/-- Modelled from the spec: `GetAllData`, the logical sorted slots of a leaf chain.
The deltas are interpreted last-in first-out on top of the slots of the base; a
split delta truncates the content at its split key. -/
def GetAllData : Node K V → List (K × List V)
  | LeafNode _ _ _ _ slots => slots
  | InnerNode _ _ _ _ _ => []
  | InsertNode k v _ _ _ b => insertSlot k v (GetAllData b)
  | UpdateNode k v _ _ _ b => updateSlot k v (GetAllData b)
  | DeleteNode k none _ _ _ b => deleteKeySlot k (GetAllData b)
  | DeleteNode k (some v) _ _ _ b => deletePairSlot k v (GetAllData b)
  | SplitNode sk _ _ _ _ b => (GetAllData b).filter (fun s => decide (s.1 < sk))
  | SeparatorNode _ _ _ _ _ _ b => GetAllData b

/-- Modelled from the spec: `VectorContainsKey2`, whether some slot has the key. -/
def VectorContainsKey2 (data : List (K × List V)) (key : K) : Bool :=
  data.any (fun s => decide (key = s.1))

/-- Modelled from the spec: `LeafContainsKey`, whether the key is in the logical
content of the leaf chain. -/
def LeafContainsKey (n : Node K V) (key : K) : Bool :=
  VectorContainsKey2 (GetAllData n) key

/-- Modelled from the spec: `isInRange`.  A split delta on the chain forwards every
key at or above its split key to the right sibling; any other key is in the
range of the leaf. -/
def isInRange : Node K V → K → Bool
  | LeafNode _ _ _ _ _, _ => true
  | InnerNode _ _ _ _ _, _ => true
  | InsertNode _ _ _ _ _ b, k => isInRange b k
  | UpdateNode _ _ _ _ _ b, k => isInRange b k
  | DeleteNode _ _ _ _ _ b, k => isInRange b k
  | SplitNode sk _ _ _ _ b, k => if sk ≤ k then false else isInRange b k
  | SeparatorNode _ _ _ _ _ _ b, k => isInRange b k

/-- The pairs `(key, value)` of a slot list, slot by slot, value by value. -/
def expandSlots (data : List (K × List V)) : List (K × V) :=
  data.flatMap (fun s => s.2.map (fun v => (s.1, v)))

/-- The loop of `Search` over the materialized slots: the pairs of every slot whose
key equals the searched key. -/
def matchSlots (data : List (K × List V)) (key : K) : List (K × V) :=
  expandSlots (data.filter (fun s => decide (key = s.1)))

end Slots

section Routing

variable {K V : Type} [LinearOrder K]

/-- Whether `k` is below the bound `r`, where `none` stands for plus infinity. -/
def ltBound (k : K) : Option K → Bool
  | none => true
  | some r => decide (k < r)

/-- Modelled from the spec: the search of the separators of an inner base.  The
child before the first separator greater than the key is selected. -/
def innerLookup (child0 : PID) : List (K × PID) → K → PID
  | [], _ => child0
  | (k1, c1) :: rest, k => if k < k1 then child0 else innerLookup c1 rest k

/-- Modelled from the spec: the step of `GetAllPointer` for a separator delta: its
routing entry is put into the sorted separators, before the first separator
greater than its key (after an entry of the same key: the newer delta is read
first). -/
def insertPointer (l : K) (c : PID) : List (K × PID) → List (K × PID)
  | [] => [(l, c)]
  | (k1, c1) :: rest =>
      if l < k1 then (l, c) :: (k1, c1) :: rest
      else (k1, c1) :: insertPointer l c rest

/-- Modelled from the spec: `GetAllPointer`, the materialized routing table of an
inner chain.  Entry 0 of the vector carries the leftmost child and no key of its
own; it is the first component, the keyed entries are the second. -/
def GetAllPointer : Node K V → PID × List (K × PID)
  | LeafNode _ _ _ _ _ => (NULL_PID, [])
  | InnerNode _ _ _ c0 slots => (c0, slots)
  | InsertNode _ _ _ _ _ b => GetAllPointer b
  | UpdateNode _ _ _ _ _ b => GetAllPointer b
  | DeleteNode _ _ _ _ _ b => GetAllPointer b
  | SplitNode sk _ _ _ _ b =>
      ((GetAllPointer b).1, (GetAllPointer b).2.filter (fun e => decide (e.1 < sk)))
  | SeparatorNode l _ c _ _ _ b =>
      ((GetAllPointer b).1, insertPointer l c (GetAllPointer b).2)

/-- Modelled from the spec: the search of `FindUpperKey`: the first separator key
greater than `k` in sorted separators, `none` if none. -/
def upperKey (k : K) : List (K × PID) → Option K
  | [] => none
  | (k1, _) :: rest => if k < k1 then some k1 else upperKey k rest

/-- Modelled from the spec: the chain walk of `FindNextPID` on the node of a PID.
A split delta sends a key at or above its split key to the sibling, a separator
delta sends a key of its range to its child, other deltas are passed, the inner
base is searched. -/
def findNext (k : K) : Node K V → PID
  | LeafNode _ _ _ _ _ => NULL_PID
  | InnerNode _ _ _ c0 slots => innerLookup c0 slots k
  | InsertNode _ _ _ _ _ b => findNext k b
  | UpdateNode _ _ _ _ _ b => findNext k b
  | DeleteNode _ _ _ _ _ b => findNext k b
  | SplitNode sk sib _ _ _ b => if sk ≤ k then sib else findNext k b
  | SeparatorNode l r c _ _ _ b =>
      if l ≤ k ∧ ltBound k r = true then c else findNext k b

end Routing

section Operations

variable {K V : Type} [LinearOrder K] [DecidableEq V]

/-- Modelled from the spec: the index before any operation.  The root and both ends
of the leaf chain are `NULL_PID`, no slot of the mapping table is in use. -/
def BWTree.empty : BWTree K V where
  mapping_table := fun _ => none
  m_root := NULL_PID
  m_headleaf := NULL_PID
  m_tailleaf := NULL_PID
  next_pid := 0

/-- Modelled from the spec: `GetNode` and `mapping_table.Get`, the chain head of a
PID or nothing (`NULL`). -/
def GetNode (t : BWTree K V) (pid : PID) : Option (Node K V) := t.mapping_table pid

/-- Modelled from the spec: a successful `mapping_table.Update(pid, node, expected)`:
`node` becomes the head of `pid`, no other slot changes. -/
def BWTree.Update (t : BWTree K V) (pid : PID) (node : Node K V) : BWTree K V :=
  { t with mapping_table := fun q => if q = pid then some node else t.mapping_table q }

/-- Modelled from the spec: the loop `pid = AllocatePID(); Update(pid, node, NULL)`.
`AllocatePID` returns the next unused slot, so the first attempt succeeds. -/
def BWTree.Install (t : BWTree K V) (node : Node K V) : PID × BWTree K V :=
  ((t.next_pid : Int),
   { (t.Update (t.next_pid : Int) node) with next_pid := t.next_pid + 1 })

/-- Modelled from the spec: `AllocateLeaf`, an empty leaf base without parent and
siblings. -/
def AllocateLeaf : Node K V := LeafNode NULL_PID 0 NULL_PID NULL_PID []

/-- Modelled from the spec: `AllocateInner(level, child)`, an inner base of the
given level whose only child is `child`. -/
def AllocateInner (level : Nat) (child : PID) : Node K V :=
  InnerNode NULL_PID level NULL_PID child []

/-- The chain length a new delta on `n` gets: `GetLength() + 1` on a delta, 1 on a
base. -/
def nextLength (n : Node K V) : Nat := if n.IsDelta then n.GetLength + 1 else 1

/-- The block that opens each operator: when `m_root` is `NULL_PID` a new empty
leaf is published and becomes root, head and tail of the leaf chain. -/
def EnsureRoot (t : BWTree K V) : BWTree K V :=
  if t.m_root = NULL_PID then
    let r := t.Install AllocateLeaf
    { r.2 with m_root := r.1, m_headleaf := r.1, m_tailleaf := r.1 }
  else t

/-- The descent `while (!curr_node->IsLeaf()) curr_pid = FindNextPID(curr_pid, key)`.
Without fuel, and on a PID without node, there is no result. -/
def descend (t : BWTree K V) (key : K) : Nat → PID → Option PID
  | 0, _ => none
  | fuel + 1, pid =>
      match GetNode t pid with
      | none => none
      | some node => if node.IsLeaf then some pid else descend t key fuel (findNext key node)

/-- The sibling walk of `InsertData`: while the key is not in the range of the leaf
go to the next leaf; when there is none the previous leaf is taken again and the
loop goes on. -/
def walkInsert (t : BWTree K V) (key : K) : Nat → PID → Option PID
  | 0, _ => none
  | fuel + 1, pid =>
      match GetNode t pid with
      | none => none
      | some node =>
          if isInRange node key then some pid
          else
            match GetNode t node.GetBaseNode.GetNext with
            | none => walkInsert t key fuel pid
            | some _ => walkInsert t key fuel node.GetBaseNode.GetNext

/-- The sibling walk of `UpdateData`, `DeleteKey` and `DeleteData`: as `walkInsert`
but the node of the next leaf is used unchecked. -/
def walkLeaf (t : BWTree K V) (key : K) : Nat → PID → Option PID
  | 0, _ => none
  | fuel + 1, pid =>
      match GetNode t pid with
      | none => none
      | some node =>
          if isInRange node key then some pid
          else walkLeaf t key fuel node.GetBaseNode.GetNext

/-- Modelled from the spec: the sibling walk of the readers; when the walk falls off
the chain the last leaf is retained. -/
def walkRead (t : BWTree K V) (key : K) : Nat → PID → Option PID
  | 0, _ => none
  | fuel + 1, pid =>
      match GetNode t pid with
      | none => none
      | some node =>
          if isInRange node key then some pid
          else
            match GetNode t node.GetBaseNode.GetNext with
            | none => some pid
            | some _ => walkRead t key fuel node.GetBaseNode.GetNext

/-- Fuel of the navigation loops: a walk that ends visits no PID twice, and only
the `next_pid` allocated PIDs have a node. -/
def BWTree.fuel (t : BWTree K V) : Nat := t.next_pid + 1

/-- Modelled from the spec: `GetLeafNodePID`, the PID of the leaf located for the
key, negative on an index without root. -/
def GetLeafNodePID (t : BWTree K V) (key : K) : Option PID :=
  if t.m_root = NULL_PID then some NULL_PID
  else (descend t key t.fuel t.m_root).bind (walkRead t key t.fuel)

/-- Modelled from the spec: `FindUpperKey(pid, key)`, the separator of the node
immediately greater than the key, `none` for plus infinity. -/
def FindUpperKey (t : BWTree K V) (pid : PID) (key : K) : Option K :=
  match GetNode t pid with
  | none => none
  | some n => upperKey key (GetAllPointer n).2

/-- The block "create a inner node for root" shared by `SplitLeaf` (level 1) and
`SplitInner` (level of the base plus 1): a new inner base with the old root as
only child becomes the root and the parent of the old root. -/
def GrowRoot (t : BWTree K V) (pid : PID) (level : Node K V → Nat) : Option (BWTree K V) :=
  if t.m_root = pid then
    match GetNode t pid with
    | none => none
    | some n =>
        let r := t.Install (AllocateInner (level n.GetBaseNode) pid)
        some { (r.2.Update pid (n.SetParent r.1)) with m_root := r.1 }
  else some t

/-- The loop "separator delta node" shared by `SplitLeaf` and `SplitInner`: the
separator delta for the new sibling is published on the parent.  The delta is
returned with the tree. -/
def InstallSeparator (t : BWTree K V) (parent_pid : PID) (split_key : K) (sibling : PID) :
    Option (BWTree K V × Node K V) :=
  match GetNode t parent_pid with
  | none => none
  | some parent =>
      let separator_delta := SeparatorNode split_key (FindUpperKey t parent_pid split_key)
        sibling parent.GetLevel (1 + parent.GetSize) (nextLength parent) parent
      some (t.Update parent_pid separator_delta, separator_delta)

/-- The loop of `SplitInner` that resets the parent of every child of the new
sibling. -/
def SetParents (t : BWTree K V) (parent : PID) : List PID → Option (BWTree K V)
  | [] => some t
  | c :: rest =>
      match GetNode t c with
      | none => none
      | some n => SetParents (t.Update c (n.SetParent parent)) parent rest

/-- The loop of `SplitInner` that publishes the split delta (from the reading of
`base_node` to the reset of the parents): the upper half of the routing table
goes to a new inner base, the split delta goes on `pid`, the sideways pointers
and the parents of the moved children are set.  Returns the tree, the PID of the
new sibling and the split key.  The counters of the source are `unsigned short`:
a routing table of 65536 entries or more has no result.  Entry `pos` of the
vector is the keyed entry `pos - 1`; with a single entry `pos` is 0 and the split
key would be the key entry 0 does not have. -/
def SplitInnerAt (t : BWTree K V) (pid : PID) (n : Node K V) :
    Option (BWTree K V × PID × K) :=
  let parent_pid := n.GetBaseNode.GetParent
  let former_next_inner_pid := n.GetBaseNode.GetNext
  let buffer := GetAllPointer n
  let num_key := buffer.2.length + 1
  let pos := num_key / 2
  if 65536 ≤ num_key then none
  else
    match buffer.2[pos - 1]? with
    | none => none
    | some e =>
      let split_key := e.1
      let next_inner : Node K V :=
        InnerNode parent_pid n.GetLevel former_next_inner_pid e.2 (buffer.2.drop pos)
      let r := t.Install next_inner
      let split_delta :=
        SplitNode split_key r.1 n.GetLevel (num_key / 2 - 1) (nextLength n) n
      let t1 := r.2.Update pid (split_delta.SetNext r.1)
      match SetParents t1 r.1 (e.2 :: (buffer.2.drop pos).map Prod.snd) with
      | none => none
      | some t2 => some (t2, r.1, split_key)

/-- `BWTree::SplitInner`.  The recursion on the parent takes fuel. -/
def SplitInner (cfg : Config) : Nat → BWTree K V → PID → Option (BWTree K V)
  | 0, _, _ => none
  | fuel + 1, t0, pid =>
      match GrowRoot t0 pid (fun b => b.GetLevel + 1) with
      | none => none
      | some t =>
        match GetNode t pid with
        | none => none
        | some n =>
          if cfg.IsInnerFull n.GetSize n.GetLength = false then some t
          else
            match SplitInnerAt t pid n with
            | none => none
            | some (t2, next_inner_pid, split_key) =>
              match InstallSeparator t2 n.GetBaseNode.GetParent split_key next_inner_pid with
              | none => none
              | some (t3, separator_delta) =>
                if cfg.IsInnerFull separator_delta.GetSize separator_delta.GetLength then
                  SplitInner cfg fuel t3 n.GetBaseNode.GetParent
                else some t3

/-- The loop of `SplitLeaf` that publishes the split delta (from the reading of
`base_node` to the fix of the sideways pointers): the upper half of the slots
goes to a new leaf base, the split delta goes on `pid`, the leaf chain is
relinked.  Returns the tree, the PID of the new sibling and the split key.  The
counters of the source are `unsigned short`: a buffer of 65536 slots or more has
no result, nor has an empty buffer (`buffer[pos]`). -/
def SplitLeafAt (t : BWTree K V) (pid : PID) (n : Node K V) :
    Option (BWTree K V × PID × K) :=
  let parent_pid := n.GetBaseNode.GetParent
  let former_next_leaf_pid := n.GetBaseNode.GetNext
  match (if former_next_leaf_pid ≠ NULL_PID then GetNode t former_next_leaf_pid
         else some n) with
  | none => none
  | some _ =>
    let buffer := GetAllData n
    let pos := buffer.length / 2
    if 65536 ≤ buffer.length then none
    else
      match buffer[pos]? with
      | none => none
      | some s =>
        let split_key := s.1
        let next_leaf : Node K V :=
          LeafNode parent_pid 0 former_next_leaf_pid pid (buffer.drop pos)
        let r := t.Install next_leaf
        let split_delta :=
          SplitNode split_key r.1 n.GetLevel (buffer.length / 2) (nextLength n) n
        let t1 := r.2.Update pid (split_delta.SetNext r.1)
        let t2 :=
          if former_next_leaf_pid ≠ NULL_PID then
            match GetNode t1 former_next_leaf_pid with
            | none => t1
            | some f => t1.Update former_next_leaf_pid (f.SetPrev r.1)
          else t1
        some (t2, r.1, split_key)

/-- The split loop of `BWTree::SplitLeaf` up to its publishing CAS: the state right
after `mapping_table.Update(pid, split_delta, n)` has succeeded and before the
pointer writes `base_node->SetNext`, `next_leaf->SetNext`, `next_leaf->SetPrev` and
`former_next_leaf->SetPrev` that follow it.  The sibling has its parent and its
slots, and the `NULL_PID` pointers `AllocateLeaf` gave it. -/
def SplitLeafPublish (t : BWTree K V) (pid : PID) (n : Node K V) :
    Option (BWTree K V × PID × K) :=
  let parent_pid := n.GetBaseNode.GetParent
  let former_next_leaf_pid := n.GetBaseNode.GetNext
  match (if former_next_leaf_pid ≠ NULL_PID then GetNode t former_next_leaf_pid
         else some n) with
  | none => none
  | some _ =>
    let buffer := GetAllData n
    let pos := buffer.length / 2
    if 65536 ≤ buffer.length then none
    else
      match buffer[pos]? with
      | none => none
      | some s =>
        let split_key := s.1
        let next_leaf : Node K V :=
          LeafNode parent_pid 0 NULL_PID NULL_PID (buffer.drop pos)
        let r := t.Install next_leaf
        let split_delta :=
          SplitNode split_key r.1 n.GetLevel (buffer.length / 2) (nextLength n) n
        some (r.2.Update pid split_delta, r.1, split_key)

/-- `BWTree::SplitLeaf`. -/
def SplitLeaf (cfg : Config) (t0 : BWTree K V) (pid : PID) : Option (BWTree K V) :=
  match GrowRoot t0 pid (fun _ => 1) with
  | none => none
  | some t =>
    match GetNode t pid with
    | none => none
    | some n =>
      if cfg.IsLeafFull n.GetSize n.GetLength = false then some t
      else
        match SplitLeafAt t pid n with
        | none => none
        | some (t2, next_leaf_pid, split_key) =>
          match InstallSeparator t2 n.GetBaseNode.GetParent split_key next_leaf_pid with
          | none => none
          | some (t3, separator_delta) =>
            if cfg.IsInnerFull separator_delta.GetSize separator_delta.GetLength then
              SplitInner cfg (t3.next_pid + 1) t3 n.GetBaseNode.GetParent
            else some t3

/-- `BWTree::InsertData`.  The function has no statement that reads `unique_keys`
and no branch that rejects a pair. -/
def InsertData (cfg : Config) (t0 : BWTree K V) (x : K × V) : Option (BWTree K V) :=
  let t := EnsureRoot t0
  match (descend t x.1 t.fuel t.m_root).bind (walkInsert t x.1 t.fuel) with
  | none => none
  | some curr_pid =>
    match GetNode t curr_pid with
    | none => none
    | some curr_node =>
      let insert_delta := InsertNode x.1 x.2 curr_node.GetLevel
        ((if LeafContainsKey curr_node x.1 then 0 else 1) + curr_node.GetSize)
        (nextLength curr_node) curr_node
      let t1 := t.Update curr_pid insert_delta
      if cfg.IsLeafFull insert_delta.GetSize insert_delta.GetLength then
        SplitLeaf cfg t1 curr_pid
      else some t1

/-- `BWTree::UpdateData`. -/
def UpdateData (t0 : BWTree K V) (x : K × V) : Option (BWTree K V) :=
  let t := EnsureRoot t0
  match (descend t x.1 t.fuel t.m_root).bind (walkLeaf t x.1 t.fuel) with
  | none => none
  | some curr_pid =>
    match GetNode t curr_pid with
    | none => none
    | some curr_node =>
      if LeafContainsKey curr_node x.1 = false then some t
      else
        some (t.Update curr_pid
          (UpdateNode x.1 x.2 curr_node.GetLevel curr_node.GetSize
            (nextLength curr_node) curr_node))

/-- `BWTree::DeleteKey`. -/
def DeleteKey (t0 : BWTree K V) (x : K) : Option (BWTree K V) :=
  let t := EnsureRoot t0
  match (descend t x t.fuel t.m_root).bind (walkLeaf t x t.fuel) with
  | none => none
  | some curr_pid =>
    match GetNode t curr_pid with
    | none => none
    | some curr_node =>
      some (t.Update curr_pid
        (DeleteNode x none curr_node.GetLevel curr_node.GetSize
          (nextLength curr_node) curr_node))

/-- `BWTree::DeleteData`. -/
def DeleteData (t0 : BWTree K V) (x : K × V) : Option (BWTree K V) :=
  let t := EnsureRoot t0
  match (descend t x.1 t.fuel t.m_root).bind (walkLeaf t x.1 t.fuel) with
  | none => none
  | some curr_pid =>
    match GetNode t curr_pid with
    | none => none
    | some curr_node =>
      some (t.Update curr_pid
        (DeleteNode x.1 (some x.2) curr_node.GetLevel curr_node.GetSize
          (nextLength curr_node) curr_node))

/-- `BWTree::Exists`. -/
def Exists (t : BWTree K V) (key : K) : Option Bool :=
  match GetLeafNodePID t key with
  | none => none
  | some leaf_pid =>
    if leaf_pid < 0 then some false
    else
      match GetNode t leaf_pid with
      | none => none
      | some leaf => some (VectorContainsKey2 (GetAllData leaf) key)

/-- `BWTree::Search`. -/
def Search (t : BWTree K V) (key : K) : Option (List (K × V)) :=
  match GetLeafNodePID t key with
  | none => none
  | some leaf_pid =>
    if leaf_pid < 0 then some []
    else
      match GetNode t leaf_pid with
      | none => none
      | some leaf => some (matchSlots (GetAllData leaf) key)

/-- The loop of `SearchAll` from a leaf PID and the node read for it. -/
def scanLeaves (t : BWTree K V) : Nat → PID → Option (Node K V) → Option (List (K × V))
  | 0, _, _ => none
  | fuel + 1, leaf_pid, leaf =>
      if leaf_pid = NULL_PID then some []
      else
        match leaf with
        | none => none
        | some node =>
            let next := node.GetBaseNode.GetNext
            match scanLeaves t fuel next (if next ≠ NULL_PID then GetNode t next else some node) with
            | none => none
            | some rest => some (expandSlots (GetAllData node) ++ rest)

/-- `BWTree::SearchAll`. -/
def SearchAll (t : BWTree K V) : Option (List (K × V)) :=
  scanLeaves t t.fuel t.m_headleaf (GetNode t t.m_headleaf)

/-- `BWTree::ConsolidateLeafNode`.  The fields `next_leaf` and `prev_leaf` are read
through a cast of the node one step below the head to `LeafNode`; when that node
is not a leaf base the read has no defined result. -/
def ConsolidateLeafNode (t : BWTree K V) (pid : PID) : Option (BWTree K V) :=
  match GetNode t pid with
  | none => none
  | some old =>
    let node := if old.IsDelta then old.GetBase else old
    match node with
    | LeafNode _ _ next_leaf prev_leaf _ =>
        some (t.Update pid (LeafNode old.GetParent old.GetLevel next_leaf prev_leaf (GetAllData node)))
    | _ => none

/-- `BWTree::ConsolidateLeafNode` with the read through the cast left open.  When the
node one step below the head is a leaf base, `next_leaf` and `prev_leaf` are its
own fields, as in `ConsolidateLeafNode`.  When it is not (the head of the chain has
two or more deltas, or the PID is an inner node), the source reads the two fields
through `static_cast<LeafNode *>(node)` all the same and goes on; what that read
gives depends on the memory layout of the node, and is the pair `readCast node` of
a function that is a parameter. -/
def ConsolidateLeafNodeCast (readCast : Node K V → PID × PID) (t : BWTree K V) (pid : PID) :
    Option (BWTree K V) :=
  match GetNode t pid with
  | none => none
  | some old =>
    let node := if old.IsDelta then old.GetBase else old
    let sideways : PID × PID :=
      match node with
      | LeafNode _ _ next_leaf prev_leaf _ => (next_leaf, prev_leaf)
      | _ => readCast node
    some (t.Update pid
      (LeafNode old.GetParent old.GetLevel sideways.1 sideways.2 (GetAllData node)))

end Operations

section Histories

variable {K V : Type} [LinearOrder K] [DecidableEq V]

/-- A sequence of `InsertData` calls, each on the index the previous call left. -/
def InsertAll (cfg : Config) (t : BWTree K V) (xs : List (K × V)) : Option (BWTree K V) :=
  xs.foldlM (InsertData cfg) t

/-- The four modification operators as calls of a sequential history. -/
inductive Op (K V : Type) where
  | insert (x : K × V)
  | update (x : K × V)
  | deleteKey (k : K)
  | deleteData (x : K × V)

/-- One call of a history. -/
def applyOp (cfg : Config) (t : BWTree K V) : Op K V → Option (BWTree K V)
  | Op.insert x => InsertData cfg t x
  | Op.update x => UpdateData t x
  | Op.deleteKey k => DeleteKey t k
  | Op.deleteData x => DeleteData t x

/-- A sequential history of calls. -/
def runOps (cfg : Config) (t : BWTree K V) (ops : List (Op K V)) : Option (BWTree K V) :=
  ops.foldlM (applyOp cfg) t

/-- The leaf the writers `UpdateData`, `DeleteKey` and `DeleteData` locate for a key
on an index with a root. -/
def locateLeaf (t : BWTree K V) (key : K) : Option PID :=
  (descend t key t.fuel t.m_root).bind (walkLeaf t key t.fuel)

/-- The leaf `InsertData` locates for a key on an index with a root. -/
def locateInsert (t : BWTree K V) (key : K) : Option PID :=
  (descend t key t.fuel t.m_root).bind (walkInsert t key t.fuel)

/-- A call of a history that may consolidate leaves: one of the four modification
operators, or `ConsolidateLeafNode` on a PID. -/
inductive Call (K V : Type) where
  | write (o : Op K V)
  | consolidate (p : PID)

/-- One call of a history with consolidations. -/
def applyCall (cfg : Config) (t : BWTree K V) : Call K V → Option (BWTree K V)
  | Call.write o => applyOp cfg t o
  | Call.consolidate p => ConsolidateLeafNode t p

/-- A sequential history of calls with consolidations. -/
def runCalls (cfg : Config) (t : BWTree K V) (cs : List (Call K V)) : Option (BWTree K V) :=
  cs.foldlM (applyCall cfg) t

/-- The PIDs reachable from the root: the root, and every child in the routing
table of a reachable inner node. -/
inductive Reachable (t : BWTree K V) : PID → Prop where
  | root : Reachable t t.m_root
  | child (q c : PID) (n : Node K V) : Reachable t q → GetNode t q = some n →
      n.IsLeaf = false → c ∈ (GetAllPointer n).1 :: (GetAllPointer n).2.map Prod.snd →
      Reachable t c

/-- The chain of the leaves from a PID on: each leaf has a node and is followed by
the `next` of its base leaf, the last one has `NULL_PID` as `next`. -/
def LeafChain (t : BWTree K V) : PID → List PID → Prop
  | p, [] => p = NULL_PID
  | p, a :: rest =>
      match GetNode t a with
      | none => False
      | some n => p = a ∧ a ≠ NULL_PID ∧ LeafChain t n.GetBaseNode.GetNext rest

/-- The pairs of the leaf at a PID: its materialized slots expanded by their value
lists. -/
def leafPairs (t : BWTree K V) (q : PID) : List (K × V) :=
  match GetNode t q with
  | some n => expandSlots (GetAllData n)
  | none => []

/-- The calls `InsertData(x)` of a history. -/
def countInserts (x : K × V) (ops : List (Op K V)) : Nat :=
  (ops.filter (fun o => match o with
    | Op.insert y => decide (y = x)
    | _ => false)).length

/-- The calls `DeleteData(x)` of a history. -/
def countDeletes (x : K × V) (ops : List (Op K V)) : Nat :=
  (ops.filter (fun o => match o with
    | Op.deleteData y => decide (y = x)
    | _ => false)).length

/-- One call seen by the counter of `insertsSinceDelete`: `InsertData(x)` adds one,
`DeleteData(x)` resets to 0, any other call leaves the counter. -/
def sinceDeleteStep (x : K × V) (c : Nat) : Op K V → Nat
  | Op.insert y => if y = x then c + 1 else c
  | Op.deleteData y => if y = x then 0 else c
  | _ => c

/-- The calls `InsertData(x)` of a history that come after its last call
`DeleteData(x)`: all of them when the history has no such call. -/
def insertsSinceDelete (x : K × V) (ops : List (Op K V)) : Nat :=
  ops.foldl (sinceDeleteStep x) 0

/-- The occurrences of the pair `x` in a search result. -/
def occurrences (x : K × V) (r : List (K × V)) : Nat :=
  (r.filter (fun p => decide (p = x))).length

/-- The payload of a split delta at the head of a chain: split key, sibling PID and
recorded size; `none` for any other node. -/
def Node.asSplit : Node K V → Option (K × PID × Nat)
  | SplitNode k q _ s _ _ => some (k, q, s)
  | _ => none

/-- The payload of a separator delta at the head of a chain: left key, right key
and child PID; `none` for any other node. -/
def Node.asSeparator : Node K V → Option (K × Option K × PID)
  | SeparatorNode l r c _ _ _ _ => some (l, r, c)
  | _ => none

/-- The child PIDs of the materialized routing table of an inner chain: the
leftmost child and the child of every separator. -/
def childPIDs (n : Node K V) : List PID :=
  (GetAllPointer n).1 :: (GetAllPointer n).2.map Prod.snd

/-- The sideways pointers of the leaves are mutually inverse: the `next` of a leaf,
when not `NULL_PID`, is a leaf whose `prev` is that leaf, and the `prev` of a leaf,
when not `NULL_PID`, is a leaf whose `next` is that leaf. -/
def LeafLinks (t : BWTree K V) : Prop :=
  ∀ (a : PID) (na : Node K V), GetNode t a = some na → na.IsLeaf = true →
    (na.GetBaseNode.GetNext ≠ NULL_PID →
      ∃ nb, GetNode t na.GetBaseNode.GetNext = some nb ∧ nb.IsLeaf = true ∧
        nb.GetBaseNode.GetPrev = a) ∧
    (na.GetBaseNode.GetPrev ≠ NULL_PID →
      ∃ nb, GetNode t na.GetBaseNode.GetPrev = some nb ∧ nb.IsLeaf = true ∧
        nb.GetBaseNode.GetNext = a)

/-- A call of `InsertData` or `DeleteData`. -/
def Op.isInsertOrDeleteData : Op K V → Bool
  | Op.insert _ => true
  | Op.deleteData _ => true
  | _ => false

end Histories

section Scenarios

/-- Keys `1 .. n`, each with value 0. -/
def keysUpTo (n : Nat) : List (Int × Nat) := (List.range n).map (fun i => ((i : Int) + 1, 0))

/-- The index after one insert of `(100, 7)`: a root leaf with one insert delta. -/
def oneInsert : Option (BWTree Int Nat) := InsertData defaultConfig BWTree.empty (100, 7)

/-- The index after inserts of the keys 1 .. 9 and of a second value for key 9
under the default thresholds: the ninth insert splits the root leaf (PID 0), the
sibling (PID 2) holds the keys 5 .. 9 under the new root (PID 1), and the last
insert leaves one insert delta on the sibling. -/
def splitThenInsert : Option (BWTree Int Nat) :=
  InsertAll defaultConfig BWTree.empty (keysUpTo 9 ++ [(9, 1)])

/-- A root leaf (PID 0) holding key 100 with value 7 under one insert delta. -/
def rootLeafTree : BWTree Int Nat :=
  (EnsureRoot BWTree.empty).Update 0
    (InsertNode 100 7 0 1 1 (LeafNode NULL_PID 0 NULL_PID NULL_PID []))

/-- The index after `InsertData (100, 7)` and `DeleteKey 100` on the empty index. -/
def insertThenDeleteKey : Option (BWTree Int Nat) :=
  runOps defaultConfig BWTree.empty [Op.insert (100, 7), Op.deleteKey 100]

/-- A history with splits and consolidations: key 1, a consolidation of the root
leaf under its insert delta, the keys 1 .. 9 (the last insert splits the root leaf
into the PIDs 0 and 2), a consolidation of the new sibling (a base leaf), an insert
into the sibling, a consolidation of the sibling under its insert delta, and an
insert into the left leaf, which splits it again. -/
def consolidateCalls : List (Call Int Nat) :=
  [Call.write (Op.insert (1, 0)), Call.consolidate 0] ++
    (keysUpTo 9).map (fun x => Call.write (Op.insert x)) ++
    [Call.consolidate 2, Call.write (Op.insert (9, 1)), Call.consolidate 2,
     Call.write (Op.insert (1, 1))]

/-- The history of `DeleteTest` on one key: values 1, 2, 1, 1, 0 are inserted for
key 100, then the pair `(100, 1)` is deleted once. -/
def deleteTestOps : List (Op Int Nat) :=
  [Op.insert (100, 1), Op.insert (100, 2), Op.insert (100, 1), Op.insert (100, 1),
   Op.insert (100, 0), Op.deleteData (100, 1)]

/-- Thresholds with `δ_chain = 1`: a node is split when its chain holds more than
one delta. -/
def cascadeConfig : Config := specConfig 1 128 128

/-- The index after the inserts of the keys 10 and 20 under `cascadeConfig`: the
second insert splits the root leaf (PID 0) into PID 0 with key 10 and the sibling
PID 2 with key 20 under the new root PID 1, which carries one separator delta.
The chain of PID 0 holds three deltas, so PID 0 is full. -/
def splitReady : Option (BWTree Int Nat) :=
  runOps cascadeConfig BWTree.empty [Op.insert (10, 0), Op.insert (20, 0)]

/-- A root leaf (PID 0) holding the keys 10 and 20 under two insert deltas: the
index after the inserts of `(10, 0)` and `(20, 0)` under the default thresholds. -/
def twoKeyLeaf : BWTree Int Nat :=
  (runOps defaultConfig BWTree.empty [Op.insert (10, 0), Op.insert (20, 0)]).getD BWTree.empty

/-- A root leaf (PID 0) holding the keys 100 and 200 under two insert deltas: the
index `InsertData (200, 1)` leaves on `rootLeafTree`. -/
def twoDeltaLeaf : BWTree Int Nat :=
  rootLeafTree.Update 0
    (InsertNode 200 1 0 2 2
      (InsertNode 100 7 0 1 1 (LeafNode NULL_PID 0 NULL_PID NULL_PID [])))

/-- The index `twoKeyLeaf` in the middle of `SplitLeaf(0)`: the new root PID 1 is in
place and the split delta with the split key 20 and the sibling PID 2 has just been
published on PID 0.  The `next` of the base of PID 0 is still `NULL_PID`, the
sibling has no `prev` yet and PID 1 has no separator for it yet. -/
def midSplit : BWTree Int Nat :=
  (((GrowRoot twoKeyLeaf 0 (fun _ => 1)).bind
      (fun t1 => (GetNode t1 0).bind (SplitLeafPublish t1 0))).map Prod.fst).getD BWTree.empty

/-- Thresholds with `δ_leaf = 0`: a leaf is split as soon as its size is positive. -/
def tightConfig : Config := specConfig 8 0 128

/-- The index after the inserts of the keys 10 and 20 under `tightConfig`: each
insert splits a leaf, so the root (PID 1) is an inner node under two separator
deltas, with the leaves PID 0 (empty), PID 2 (key 10) and PID 3 (key 20). -/
def threeLeaves : BWTree Int Nat :=
  (runOps tightConfig BWTree.empty [Op.insert (10, 0), Op.insert (20, 0)]).getD BWTree.empty

/-- The index after three inserts for the key 10 under `tightConfig`: each insert
splits a leaf at the key 10, so the root (PID 1) is an inner node with the leftmost
child PID 0 under three separator deltas with the same key 10, for the children
PID 2, PID 3 and PID 4. -/
def sameKeySeparators : BWTree Int Nat :=
  (runOps tightConfig BWTree.empty
    [Op.insert (10, 0), Op.insert (10, 1), Op.insert (10, 2)]).getD BWTree.empty

/-- Thresholds with `δ_leaf = 1` and the default `δ_chain = 8`: a leaf is split when
its size is above 1. -/
def smallLeafConfig : Config := specConfig 8 1 128

/-- A history with calls of the four modification operators. -/
def mixedOps : List (Op Int Nat) :=
  [Op.insert (3, 1), Op.insert (1, 1), Op.insert (2, 1), Op.update (1, 5),
   Op.deleteKey 3, Op.insert (1, 2), Op.deleteData (2, 1)]

end Scenarios

/-! ## Invariant of the sequential index

Every PID gets a key range `[lo, hi)` (`none` is minus infinity for `lo` and plus
infinity for `hi`).  The ranges, the parent, the level, the routing table and the
next leaf of every PID, and the list of the leaves in chain order, are kept in a
`Ghost` record beside the index; `NodeOK` ties the chain of a PID to its ghost
entry, `GhostOK` relates the entries of different PIDs.  PIDs are written `Int` here. -/

section Invariant

variable {K V : Type} [LinearOrder K] [DecidableEq V]

/-- The key `k` is at or above the lower bound `lo`. -/
def geLo (lo : Option K) (k : K) : Prop := ∀ l, lo = some l → l ≤ k

/-- The key `k` is below the upper bound `hi`. -/
def ltHi (k : K) (hi : Option K) : Prop := ∀ h, hi = some h → k < h

/-- The lower bound does not exceed the upper bound. -/
def loLeHi (lo hi : Option K) : Prop := ∀ l h, lo = some l → hi = some h → l ≤ h

/-- The children of a routing table with the key range each one is routed for:
child `i` gets the keys from separator `i` up to separator `i + 1`. -/
def childBounds (c : Int) (lo : Option K) :
    List (K × Int) → Option K → List (Int × Option K × Option K)
  | [], hi => [(c, lo, hi)]
  | (k1, c1) :: rest, hi => (c, lo, some k1) :: childBounds c1 (some k1) rest hi

/-- Ghost description of the tree. -/
structure Ghost (K : Type) where
  lo : Int → Option K
  hi : Int → Option K
  par : Int → Int
  lvl : Int → Nat
  tbl : Int → Int × List (K × Int)
  nxt : Int → Int
  leaves : List Int

/-- The delta nodes of a chain: the nodes between the head and the base node. -/
def Node.deltaCount : Node K V → Nat
  | InsertNode _ _ _ _ _ b => b.deltaCount + 1
  | UpdateNode _ _ _ _ _ b => b.deltaCount + 1
  | DeleteNode _ _ _ _ _ b => b.deltaCount + 1
  | SplitNode _ _ _ _ _ b => b.deltaCount + 1
  | SeparatorNode _ _ _ _ _ _ b => b.deltaCount + 1
  | _ => 0

/-- Every delta of the chain has the level of the node it was prepended to, and the
length of that node plus one (a base node has length 0); the right key of a
separator delta is the first separator above its key in the table of the node it
was prepended to; the base is a leaf base of level 0 or an inner base of a
positive level. -/
def Node.ChainOK : Node K V → Prop
  | InsertNode _ _ l _ n b => l = b.GetLevel ∧ n = b.GetLength + 1 ∧ b.ChainOK
  | UpdateNode _ _ l _ n b => l = b.GetLevel ∧ n = b.GetLength + 1 ∧ b.ChainOK
  | DeleteNode _ _ l _ n b => l = b.GetLevel ∧ n = b.GetLength + 1 ∧ b.ChainOK
  | SplitNode _ _ l _ n b => l = b.GetLevel ∧ n = b.GetLength + 1 ∧ b.ChainOK
  | SeparatorNode sk r _ l _ n b =>
      l = b.GetLevel ∧ n = b.GetLength + 1 ∧ b.ChainOK ∧ r = upperKey sk (GetAllPointer b).2
  | LeafNode _ l _ _ _ => l = 0
  | InnerNode _ l _ _ _ => l ≠ 0

/-- The chain `n` at PID `q` is as the ghost entry of `q` says. -/
structure NodeOK (g : Ghost K) (q : Int) (n : Node K V) : Prop where
  level : n.GetLevel = g.lvl q
  base_level : n.GetBaseNode.GetLevel = g.lvl q
  parent : n.GetBaseNode.GetParent = g.par q
  next : g.lvl q = 0 → n.GetBaseNode.GetNext = g.nxt q
  sorted : g.lvl q = 0 → (GetAllData n).Pairwise (fun a b => a.1 < b.1)
  keys : g.lvl q = 0 → ∀ s ∈ GetAllData n, geLo (g.lo q) s.1 ∧ ltHi s.1 (g.hi q)
  inRange : g.lvl q = 0 → ∀ k, ltHi k (g.hi q) → isInRange n k = true
  data_size : g.lvl q = 0 → (GetAllData n).length ≤ n.GetSize
  table : g.lvl q ≠ 0 → GetAllPointer n = g.tbl q
  route : g.lvl q ≠ 0 → ∀ k, geLo (g.lo q) k → ltHi k (g.hi q) →
    findNext k n = innerLookup (g.tbl q).1 (g.tbl q).2 k
  table_size : g.lvl q ≠ 0 → (g.tbl q).2.length ≤ n.GetSize
  nonempty : g.lvl q = 0 → ∀ s ∈ GetAllData n, s.2 ≠ []
  chain : n.ChainOK

/-- The routing table of the inner PID `q`: sorted separators inside the range of
`q`, distinct children, each child with the range, parent and level the table
gives it.  While the split of `x` into `x` and `y` waits for its separator
(`pend = some (x, y)`), the entry of `x` still spans the range of both. -/
structure TableOK (N : Nat) (pend : Option (Int × Int)) (g : Ghost K) (q : Int) : Prop where
  sorted : (g.tbl q).2.Pairwise (fun a b => a.1 ≤ b.1)
  keys : ∀ e ∈ (g.tbl q).2, geLo (g.lo q) e.1 ∧ ltHi e.1 (g.hi q)
  nodup : ((g.tbl q).1 :: (g.tbl q).2.map Prod.snd).Nodup
  children : ∀ c l h, (c, l, h) ∈ childBounds (g.tbl q).1 (g.lo q) (g.tbl q).2 (g.hi q) →
    0 ≤ c ∧ c < N ∧ g.lo c = l ∧ g.par c = q ∧ g.lvl c + 1 = g.lvl q ∧
    (g.hi c = h ∨ ∃ y, pend = some (c, y) ∧ g.hi y = h)

/-- The leaves in chain order: each one is followed by its `next`, the upper bound
of a leaf is the lower bound of the next one, the last one has no next. -/
def LeafPath (g : Ghost K) : Int → List Int → Prop
  | p, [] => p = NULL_PID
  | p, a :: rest => p = a ∧ LeafPath g (g.nxt a) rest ∧
      ∀ b, rest.head? = some b → ∃ x, g.hi a = some x ∧ g.lo b = some x

/-- A split of `x` into `x` and the new sibling `y` whose separator is not yet on
the parent. -/
structure PendingOK (N : Nat) (root : Int) (g : Ghost K) (x y : Int) : Prop where
  x_alloc : 0 ≤ x ∧ x < N
  y_alloc : 0 ≤ y ∧ y < N
  x_ne_root : x ≠ root
  y_ne_root : y ≠ root
  par_eq : g.par y = g.par x
  lvl_eq : g.lvl y = g.lvl x
  par_alloc : 0 ≤ g.par x ∧ g.par x < N
  par_lvl : g.lvl (g.par x) = g.lvl x + 1
  key : ∃ sk, g.hi x = some sk ∧ g.lo y = some sk ∧ ltHi sk (g.hi y)
  entry : (x, g.lo x, g.hi y) ∈
    childBounds (g.tbl (g.par x)).1 (g.lo (g.par x)) (g.tbl (g.par x)).2 (g.hi (g.par x))
  fresh : ∀ q : Int, 0 ≤ q → q < N → g.lvl q ≠ 0 → y ∉ (g.tbl q).1 :: (g.tbl q).2.map Prod.snd

/-- The relations between the ghost entries of the `N` allocated PIDs. -/
structure GhostOK (N : Nat) (root head : Int) (pend : Option (Int × Int)) (g : Ghost K) :
    Prop where
  root_alloc : 0 ≤ root ∧ root < N
  root_lo : g.lo root = none
  root_hi : g.hi root = none
  lvl_le : ∀ q : Int, 0 ≤ q → q < N → (g.lvl q : Int) ≤ q
  lvl_root : ∀ q : Int, 0 ≤ q → q < N → g.lvl q ≤ g.lvl root
  range : ∀ q : Int, 0 ≤ q → q < N → loLeHi (g.lo q) (g.hi q)
  table : ∀ q : Int, 0 ≤ q → q < N → g.lvl q ≠ 0 → TableOK N pend g q
  parent : ∀ q : Int, 0 ≤ q → q < N → q ≠ root → (∃ k, geLo (g.lo q) k ∧ ltHi k (g.hi q)) →
    (∀ x y, pend = some (x, y) → q ≠ x ∧ q ≠ y) →
    0 ≤ g.par q ∧ g.par q < N ∧ g.lvl (g.par q) = g.lvl q + 1 ∧
    (q, g.lo q, g.hi q) ∈
      childBounds (g.tbl (g.par q)).1 (g.lo (g.par q)) (g.tbl (g.par q)).2 (g.hi (g.par q))
  pending : ∀ x y, pend = some (x, y) → PendingOK N root g x y
  leaves_nodup : g.leaves.Nodup
  leaves_len : g.leaves.length ≤ N
  leaves_mem : ∀ a ∈ g.leaves, 0 ≤ a ∧ a < N ∧ g.lvl a = 0
  leaf_mem : ∀ q : Int, 0 ≤ q → q < N → g.lvl q = 0 → q ∈ g.leaves
  path : LeafPath g head g.leaves

/-- The invariant of an index with a root: exactly the allocated PIDs have a node,
every node is as its ghost entry says, and the ghost entries fit together. -/
structure Inv (t : BWTree K V) (g : Ghost K) (pend : Option (Int × Int)) : Prop where
  alloc : ∀ (q : Int) (n : Node K V), t.mapping_table q = some n → 0 ≤ q ∧ q < t.next_pid
  nodes : ∀ q : Int, 0 ≤ q → q < t.next_pid → ∃ n, t.mapping_table q = some n ∧ NodeOK g q n
  ghost : GhostOK t.next_pid t.m_root t.m_headleaf pend g

/-- The sizes stored in the chain heads stay in the range of `unsigned short`: at
most 65533, and at most 65534 at the PID `x` (if any) whose delta has just been
published and whose split test is still to come. -/
def Bounded (t : BWTree K V) (x : Option Int) : Prop :=
  ∀ (q : Int) (n : Node K V), t.mapping_table q = some n →
    n.GetSize ≤ 65534 ∧ (x ≠ some q → n.GetSize ≤ 65533)

/-- The content of the index as a function of the key: every leaf holds for the
keys of its range the pairs `m` names. -/
def Sem (t : BWTree K V) (g : Ghost K) (m : K → List (K × V)) : Prop :=
  ∀ (q : Int) (n : Node K V) (k : K), t.mapping_table q = some n → g.lvl q = 0 →
    geLo (g.lo q) k → ltHi k (g.hi q) →
    matchSlots (GetAllData n) k = m k

/-- The thresholds under which the splits of a sequential history end and stay in
the range of the `unsigned short` counters: a new root with its first separator
is not full, and a node whose size reaches 65534 is full. -/
structure Config.Admissible (cfg : Config) : Prop where
  new_root : cfg.IsInnerFull 1 1 = false
  leaf_bound : ∀ s l, 65534 ≤ s → cfg.IsLeafFull s l = true
  inner_bound : ∀ s l, 65534 ≤ s → cfg.IsInnerFull s l = true

/-- The index `t` holds the content `m`: it is the index without root and `m` is
empty, or it has the invariant and its leaves hold `m`. -/
def Models (t : BWTree K V) (m : K → List (K × V)) : Prop :=
  (t.m_root = NULL_PID ∧ t.m_headleaf = NULL_PID ∧ (∀ q : Int, t.mapping_table q = none) ∧
    t.next_pid = 0 ∧ ∀ k, m k = []) ∨
  (∃ g, Inv t g none ∧ Bounded t none ∧ Sem t g m)

/-- A well-formed index: an index that holds some content. -/
def WellFormed (t : BWTree K V) : Prop := ∃ m, Models t m

/-- The ghost description of an index that consists of one empty root leaf. -/
def rootGhost (K : Type) : Ghost K where
  lo := fun _ => none
  hi := fun _ => none
  par := fun _ => NULL_PID
  lvl := fun _ => 0
  tbl := fun _ => (NULL_PID, [])
  nxt := fun _ => NULL_PID
  leaves := [0]

/-- The ghost description after the root `pid` got the new root `R` above it. -/
def growGhost (g : Ghost K) (pid R : Int) : Ghost K where
  lo := Function.update g.lo R none
  hi := Function.update g.hi R none
  par := Function.update (Function.update g.par R NULL_PID) pid R
  lvl := Function.update g.lvl R (g.lvl pid + 1)
  tbl := Function.update g.tbl R (pid, [])
  nxt := g.nxt
  leaves := g.leaves

/-- The list with `s` put right after `p`. -/
def insertAfter (p s : Int) : List Int → List Int
  | [] => []
  | a :: rest => if a = p then a :: s :: rest else a :: insertAfter p s rest

/-- The ghost description after the leaf `p` was split at `sk` into `p` and the new
leaf `s` (the separator is still to come). -/
def leafSplitGhost (g : Ghost K) (p s : Int) (sk : K) : Ghost K where
  lo := Function.update g.lo s (some sk)
  hi := Function.update (Function.update g.hi s (g.hi p)) p (some sk)
  par := Function.update g.par s (g.par p)
  lvl := Function.update g.lvl s 0
  tbl := g.tbl
  nxt := Function.update (Function.update g.nxt s (g.nxt p)) p s
  leaves := insertAfter p s g.leaves

/-- The ghost description after the separator `(sk, y)` went on the parent `P`. -/
def separatorGhost (g : Ghost K) (P : Int) (sk : K) (y : Int) : Ghost K where
  lo := g.lo
  hi := g.hi
  par := g.par
  lvl := g.lvl
  tbl := Function.update g.tbl P ((g.tbl P).1, insertPointer sk y (g.tbl P).2)
  nxt := g.nxt
  leaves := g.leaves

/-- The ghost description after the inner node `P` was split at the separator `e`
into `P` and the new inner node `N` that holds the child of `e` and the
separators `right` after `e` (the separator for `N` is still to come). -/
def innerSplitGhost (g : Ghost K) (P N : Int) (e : K × Int) (right : List (K × Int)) :
    Ghost K where
  lo := Function.update g.lo N (some e.1)
  hi := Function.update (Function.update g.hi N (g.hi P)) P (some e.1)
  par := fun q =>
    if q = N then g.par P else if q ∈ e.2 :: right.map Prod.snd then N else g.par q
  lvl := Function.update g.lvl N (g.lvl P)
  tbl := Function.update (Function.update g.tbl N (e.2, right)) P
    ((g.tbl P).1, (g.tbl P).2.filter (fun a => decide (a.1 < e.1)))
  nxt := g.nxt
  leaves := g.leaves

/-- The part of the shape of an index that every call keeps, a consolidation of a
leaf included: the leaves `L` are the chain from `m_headleaf`, each one once; a
PID keeps the level `lv` of its first node; every PID of level 0 is in the chain;
a parent pointer is `NULL_PID` or the PID of an inner node. -/
structure ChainInv (t : BWTree K V) (L : List Int) (lv : Int → Nat) : Prop where
  alloc : ∀ (q : Int) (n : Node K V), t.mapping_table q = some n → 0 ≤ q ∧ q < t.next_pid
  nodup : L.Nodup
  len : L.length ≤ t.next_pid
  chain : LeafChain t t.m_headleaf L
  level : ∀ (q : Int) (n : Node K V), t.mapping_table q = some n → n.GetLevel = lv q
  leaves : ∀ (q : Int) (n : Node K V), t.mapping_table q = some n → lv q = 0 → q ∈ L
  mem_level : ∀ a ∈ L, lv a = 0
  parents : ∀ (q : Int) (n : Node K V), t.mapping_table q = some n →
    n.GetBaseNode.GetParent = NULL_PID ∨
    (0 ≤ n.GetBaseNode.GetParent ∧ n.GetBaseNode.GetParent < t.next_pid ∧
      lv n.GetBaseNode.GetParent ≠ 0)
  root : t.m_root = NULL_PID → ∀ q : Int, t.mapping_table q = none

/-- Every key materialized from the chain `n` (the keys of its slots for a leaf, its
separators for an inner node) is at or above the bound `lo` and below the bound
`hi`. -/
def Node.KeysWithin (n : Node K V) (lo hi : Option K) : Prop :=
  (n.IsLeaf = true → ∀ s ∈ GetAllData n, geLo lo s.1 ∧ ltHi s.1 hi) ∧
  (n.IsLeaf = false → ∀ e ∈ (GetAllPointer n).2, geLo lo e.1 ∧ ltHi e.1 hi)

/-- The chain `n'` is the chain `n`, or `n` with another parent in its base node. -/
def SameButParent (n n' : Node K V) : Prop := n' = n ∨ ∃ x : PID, n' = n.SetParent x

/-- Below the level `lev` the index `t'` has the PIDs of `t`: a chain of a level
under `lev - 1` is the same in both, a chain of level `lev - 1` is the same up to
the parent of its base, and `t'` has no other chain of a level under `lev`. -/
def FrameBelow (lev : Nat) (t t' : BWTree K V) : Prop :=
  (∀ (q : Int) (n : Node K V), t.mapping_table q = some n → n.GetLevel < lev →
    ∃ n', t'.mapping_table q = some n' ∧ SameButParent n n' ∧
      (n.GetLevel + 1 < lev → n' = n)) ∧
  (∀ (q : Int) (n' : Node K V), t'.mapping_table q = some n' → n'.GetLevel < lev →
    ∃ n, t.mapping_table q = some n ∧ n.GetLevel < lev)

/-- The two key ranges have no key in common. -/
def DisjointRange (g : Ghost K) (a b : Int) : Prop :=
  ∀ k, geLo (g.lo a) k → ltHi k (g.hi a) → geLo (g.lo b) k → ltHi k (g.hi b) → False

end Invariant

/-! ## The table registry of `storage::Database` (`src/backend/storage/database.cpp`)

The three maps `table_name_to_oid`, `table_oid_to_name` and `table_oid_to_address`
are concurrent unordered maps (`at`, `insert`, `unsafe_erase`).  A map is held as
the list of its entries in iteration order. -/

section Registry

/-- Modelled from the spec: a `storage::DataTable` as the registry reads it: the
address the pointer holds, `GetName()` and `GetId()`. -/
structure DataTable where
  address : Nat
  name : String
  oid : Nat
deriving DecidableEq

/-- Modelled from the spec: `at(key)` of a map: the value of the entry with the key,
`none` for `std::out_of_range`. -/
def mapAt {α β : Type} [DecidableEq α] (m : List (α × β)) (k : α) : Option β :=
  (m.find? (fun e => decide (e.1 = k))).map Prod.snd

/-- Modelled from the spec: `insert(pair)` of a map: no effect when the key has an
entry.  The place of a new entry in the iteration order is not specified; it is
put last. -/
def mapInsert {α β : Type} [DecidableEq α] (m : List (α × β)) (k : α) (v : β) :
    List (α × β) :=
  match mapAt m k with
  | some _ => m
  | none => m ++ [(k, v)]

/-- Modelled from the spec: the maps of a `storage::Database` (the header
`backend/storage/database.h` is not among the sources). -/
structure Database where
  table_name_to_oid : List (String × Nat)
  table_oid_to_name : List (Nat × String)
  table_oid_to_address : List (Nat × DataTable)

/-- The database without tables. -/
def Database.empty : Database where
  table_name_to_oid := []
  table_oid_to_name := []
  table_oid_to_address := []

/-- `Database::AddTable`.  The two `assert`s have no result when they fail. -/
def Database.AddTable (db : Database) (table : DataTable) : Option (Bool × Database) :=
  if table.name.isEmpty then none
  else if table.oid = 0 then none
  else
    match mapAt db.table_name_to_oid table.name with
    | some _ => some (false, db)
    | none =>
        some (true,
          { table_name_to_oid := mapInsert db.table_name_to_oid table.name table.oid
            table_oid_to_name := mapInsert db.table_oid_to_name table.oid table.name
            table_oid_to_address := mapInsert db.table_oid_to_address table.oid table })

/-- `Database::GetTableByName`: `some none` is `nullptr`; the second `at` is outside
the `try` block, its `std::out_of_range` has no result. -/
def Database.GetTableByName (db : Database) (table_name : String) :
    Option (Option DataTable) :=
  match mapAt db.table_name_to_oid table_name with
  | none => some none
  | some table_oid =>
      match mapAt db.table_oid_to_address table_oid with
      | none => none
      | some table => some (some table)

/-- `Database::GetTableById`: `none` is `nullptr`. -/
def Database.GetTableById (db : Database) (table_oid : Nat) : Option DataTable :=
  mapAt db.table_oid_to_address table_oid

/-- The body of the `for_each` of `GetTableByPosition` on the pair of `table` and
`curr_position`: at the searched position the table of the entry is stored and the
counter is left as it is, elsewhere the counter advances. -/
def positionStep (table_position : Nat) (st : Option DataTable × Nat)
    (curr_table : Nat × DataTable) : Option DataTable × Nat :=
  if st.2 = table_position then (some curr_table.2, st.2) else (st.1, st.2 + 1)

/-- `Database::GetTableByPosition`: `none` is `nullptr`.  The counters are `oid_t`;
the counter never passes the searched position, so it does not wrap. -/
def Database.GetTableByPosition (db : Database) (table_position : Nat) : Option DataTable :=
  if db.table_oid_to_address.length ≤ table_position then none
  else (db.table_oid_to_address.foldl (positionStep table_position) (none, 0)).1

/-- A sequence of `AddTable` calls, each on the database the previous call left. -/
def Database.AddTables (db : Database) (tables : List DataTable) : Option Database :=
  tables.foldlM (fun d table => (d.AddTable table).map Prod.snd) db

/-- The registry is consistent: `table_name_to_oid` and `table_oid_to_name` are
mutually inverse, and the oids with a name are the keys of `table_oid_to_address`. -/
def Database.Consistent (db : Database) : Prop :=
  (∀ (n : String) (o : Nat),
    mapAt db.table_name_to_oid n = some o ↔ mapAt db.table_oid_to_name o = some n) ∧
  (∀ o : Nat,
    (mapAt db.table_oid_to_name o).isSome = (mapAt db.table_oid_to_address o).isSome)

/-- Two tables at different addresses with the names `a` and `b` and the same oid. -/
def tableA : DataTable := { address := 1, name := "a", oid := 7 }

/-- The second table with the oid of `tableA`. -/
def tableB : DataTable := { address := 2, name := "b", oid := 7 }

/-- A table with the oid 8. -/
def tableC : DataTable := { address := 3, name := "c", oid := 8 }

/-- The registry with the tables `tableA` and `tableC`, in this iteration order. -/
def twoTables : Database where
  table_name_to_oid := [("a", 7), ("c", 8)]
  table_oid_to_name := [(7, "a"), (8, "c")]
  table_oid_to_address := [(7, tableA), (8, tableC)]

end Registry

/-! ## Chain heads under the pointer setters -/

section NodeLemmas

set_option linter.unusedSectionVars false

variable {K V : Type}

@[simp] theorem Node.GetLevel_SetParent (x : PID) (n : Node K V) :
    (n.SetParent x).GetLevel = n.GetLevel := by
  cases n <;> rfl

@[simp] theorem Node.GetLevel_SetNext (x : PID) (n : Node K V) :
    (n.SetNext x).GetLevel = n.GetLevel := by
  cases n <;> rfl

@[simp] theorem Node.GetLevel_SetPrev (x : PID) (n : Node K V) :
    (n.SetPrev x).GetLevel = n.GetLevel := by
  cases n <;> rfl

@[simp] theorem Node.GetSize_SetParent (x : PID) (n : Node K V) :
    (n.SetParent x).GetSize = n.GetSize := by
  cases n <;> rfl

@[simp] theorem Node.GetSize_SetNext (x : PID) (n : Node K V) :
    (n.SetNext x).GetSize = n.GetSize := by
  cases n <;> rfl

@[simp] theorem Node.GetSize_SetPrev (x : PID) (n : Node K V) :
    (n.SetPrev x).GetSize = n.GetSize := by
  cases n <;> rfl

@[simp] theorem Node.GetLength_SetParent (x : PID) (n : Node K V) :
    (n.SetParent x).GetLength = n.GetLength := by
  cases n <;> rfl

@[simp] theorem Node.GetLength_SetNext (x : PID) (n : Node K V) :
    (n.SetNext x).GetLength = n.GetLength := by
  cases n <;> rfl

@[simp] theorem Node.GetLength_SetPrev (x : PID) (n : Node K V) :
    (n.SetPrev x).GetLength = n.GetLength := by
  cases n <;> rfl

@[simp] theorem Node.IsDelta_SetParent (x : PID) (n : Node K V) :
    (n.SetParent x).IsDelta = n.IsDelta := by
  cases n <;> rfl

@[simp] theorem Node.IsDelta_SetNext (x : PID) (n : Node K V) :
    (n.SetNext x).IsDelta = n.IsDelta := by
  cases n <;> rfl

@[simp] theorem Node.IsDelta_SetPrev (x : PID) (n : Node K V) :
    (n.SetPrev x).IsDelta = n.IsDelta := by
  cases n <;> rfl

@[simp] theorem Node.baseLevel_SetParent (x : PID) (n : Node K V) :
    (n.SetParent x).GetBaseNode.GetLevel = n.GetBaseNode.GetLevel := by
  induction n <;> first | rfl | assumption

@[simp] theorem Node.baseLevel_SetNext (x : PID) (n : Node K V) :
    (n.SetNext x).GetBaseNode.GetLevel = n.GetBaseNode.GetLevel := by
  induction n <;> first | rfl | assumption

@[simp] theorem Node.baseLevel_SetPrev (x : PID) (n : Node K V) :
    (n.SetPrev x).GetBaseNode.GetLevel = n.GetBaseNode.GetLevel := by
  induction n <;> first | rfl | assumption

@[simp] theorem Node.baseParent_SetParent (x : PID) (n : Node K V) :
    (n.SetParent x).GetBaseNode.GetParent = x := by
  induction n <;> first | rfl | assumption

@[simp] theorem Node.baseParent_SetNext (x : PID) (n : Node K V) :
    (n.SetNext x).GetBaseNode.GetParent = n.GetBaseNode.GetParent := by
  induction n <;> first | rfl | assumption

@[simp] theorem Node.baseParent_SetPrev (x : PID) (n : Node K V) :
    (n.SetPrev x).GetBaseNode.GetParent = n.GetBaseNode.GetParent := by
  induction n <;> first | rfl | assumption

@[simp] theorem Node.baseNext_SetParent (x : PID) (n : Node K V) :
    (n.SetParent x).GetBaseNode.GetNext = n.GetBaseNode.GetNext := by
  induction n <;> first | rfl | assumption

@[simp] theorem Node.baseNext_SetNext (x : PID) (n : Node K V) :
    (n.SetNext x).GetBaseNode.GetNext = x := by
  induction n <;> first | rfl | assumption

@[simp] theorem Node.baseNext_SetPrev (x : PID) (n : Node K V) :
    (n.SetPrev x).GetBaseNode.GetNext = n.GetBaseNode.GetNext := by
  induction n <;> first | rfl | assumption

theorem Node.IsLeaf_iff (n : Node K V) : n.IsLeaf = true ↔ n.GetLevel = 0 := by
  simp [Node.IsLeaf]

theorem Node.IsLeaf_false_iff (n : Node K V) : n.IsLeaf = false ↔ n.GetLevel ≠ 0 := by
  simp [Node.IsLeaf]

variable [LinearOrder K] [DecidableEq V]

@[simp] theorem GetAllData_SetParent (x : PID) (n : Node K V) :
    GetAllData (n.SetParent x) = GetAllData n := by
  induction n with
  | DeleteNode k v l s len b ih => cases v <;> simp only [Node.SetParent, GetAllData, ih]
  | _ => simp only [Node.SetParent, GetAllData, *]

@[simp] theorem GetAllData_SetNext (x : PID) (n : Node K V) :
    GetAllData (n.SetNext x) = GetAllData n := by
  induction n with
  | DeleteNode k v l s len b ih => cases v <;> simp only [Node.SetNext, GetAllData, ih]
  | _ => simp only [Node.SetNext, GetAllData, *]

@[simp] theorem GetAllData_SetPrev (x : PID) (n : Node K V) :
    GetAllData (n.SetPrev x) = GetAllData n := by
  induction n with
  | DeleteNode k v l s len b ih => cases v <;> simp only [Node.SetPrev, GetAllData, ih]
  | _ => simp only [Node.SetPrev, GetAllData, *]

@[simp] theorem isInRange_SetParent (x : PID) (n : Node K V) (k : K) :
    isInRange (n.SetParent x) k = isInRange n k := by
  induction n <;> simp only [Node.SetParent, isInRange, *]

@[simp] theorem isInRange_SetNext (x : PID) (n : Node K V) (k : K) :
    isInRange (n.SetNext x) k = isInRange n k := by
  induction n <;> simp only [Node.SetNext, isInRange, *]

@[simp] theorem isInRange_SetPrev (x : PID) (n : Node K V) (k : K) :
    isInRange (n.SetPrev x) k = isInRange n k := by
  induction n <;> simp only [Node.SetPrev, isInRange, *]

@[simp] theorem GetAllPointer_SetParent (x : PID) (n : Node K V) :
    GetAllPointer (n.SetParent x) = GetAllPointer n := by
  induction n <;> simp only [Node.SetParent, GetAllPointer, *]

@[simp] theorem GetAllPointer_SetNext (x : PID) (n : Node K V) :
    GetAllPointer (n.SetNext x) = GetAllPointer n := by
  induction n <;> simp only [Node.SetNext, GetAllPointer, *]

@[simp] theorem GetAllPointer_SetPrev (x : PID) (n : Node K V) :
    GetAllPointer (n.SetPrev x) = GetAllPointer n := by
  induction n <;> simp only [Node.SetPrev, GetAllPointer, *]

@[simp] theorem findNext_SetParent (x : PID) (n : Node K V) (k : K) :
    findNext k (n.SetParent x) = findNext k n := by
  induction n <;> simp only [Node.SetParent, findNext, *]

@[simp] theorem findNext_SetNext (x : PID) (n : Node K V) (k : K) :
    findNext k (n.SetNext x) = findNext k n := by
  induction n <;> simp only [Node.SetNext, findNext, *]

@[simp] theorem findNext_SetPrev (x : PID) (n : Node K V) (k : K) :
    findNext k (n.SetPrev x) = findNext k n := by
  induction n <;> simp only [Node.SetPrev, findNext, *]

theorem nextLength_eq (n : Node K V) : nextLength n = n.GetLength + 1 := by
  cases n <;> rfl

@[simp] theorem Node.ChainOK_SetParent (x : PID) (n : Node K V) :
    (n.SetParent x).ChainOK ↔ n.ChainOK := by
  induction n with
  | LeafNode _ _ _ _ _ => exact Iff.rfl
  | InnerNode _ _ _ _ _ => exact Iff.rfl
  | _ => simp only [Node.SetParent, Node.ChainOK, Node.GetLevel_SetParent,
      Node.GetLength_SetParent, GetAllPointer_SetParent, *]

@[simp] theorem Node.ChainOK_SetNext (x : PID) (n : Node K V) :
    (n.SetNext x).ChainOK ↔ n.ChainOK := by
  induction n with
  | LeafNode _ _ _ _ _ => exact Iff.rfl
  | InnerNode _ _ _ _ _ => exact Iff.rfl
  | _ => simp only [Node.SetNext, Node.ChainOK, Node.GetLevel_SetNext,
      Node.GetLength_SetNext, GetAllPointer_SetNext, *]

@[simp] theorem Node.ChainOK_SetPrev (x : PID) (n : Node K V) :
    (n.SetPrev x).ChainOK ↔ n.ChainOK := by
  induction n with
  | LeafNode _ _ _ _ _ => exact Iff.rfl
  | InnerNode _ _ _ _ _ => exact Iff.rfl
  | _ => simp only [Node.SetPrev, Node.ChainOK, Node.GetLevel_SetPrev,
      Node.GetLength_SetPrev, GetAllPointer_SetPrev, *]

/-- The length stored in the head of a chain whose deltas carry the length of the
node below plus one is the number of deltas of the chain. -/
theorem Node.ChainOK.length_eq {n : Node K V} (h : n.ChainOK) : n.GetLength = n.deltaCount := by
  induction n with
  | LeafNode _ _ _ _ _ => rfl
  | InnerNode _ _ _ _ _ => rfl
  | InsertNode _ _ _ _ _ b ih =>
    obtain ⟨_, h2, h3⟩ := h
    show _ = b.deltaCount + 1
    rw [← ih h3]; exact h2
  | UpdateNode _ _ _ _ _ b ih =>
    obtain ⟨_, h2, h3⟩ := h
    show _ = b.deltaCount + 1
    rw [← ih h3]; exact h2
  | DeleteNode _ _ _ _ _ b ih =>
    obtain ⟨_, h2, h3⟩ := h
    show _ = b.deltaCount + 1
    rw [← ih h3]; exact h2
  | SplitNode _ _ _ _ _ b ih =>
    obtain ⟨_, h2, h3⟩ := h
    show _ = b.deltaCount + 1
    rw [← ih h3]; exact h2
  | SeparatorNode _ _ _ _ _ _ b ih =>
    obtain ⟨_, h2, h3, _⟩ := h
    show _ = b.deltaCount + 1
    rw [← ih h3]; exact h2

end NodeLemmas

/-! ## Slot lists of a leaf -/

section SlotLemmas

set_option linter.unusedSectionVars false

variable {K V : Type} [LinearOrder K] [DecidableEq V]

theorem expandSlots_cons (s : K × List V) (D : List (K × List V)) :
    expandSlots (s :: D) = s.2.map (fun v => (s.1, v)) ++ expandSlots D := by
  simp [expandSlots]

theorem expandSlots_append (A B : List (K × List V)) :
    expandSlots (A ++ B) = expandSlots A ++ expandSlots B := by
  simp [expandSlots]

theorem mem_expandSlots {D : List (K × List V)} {x : K × V} (h : x ∈ expandSlots D) :
    ∃ s ∈ D, s.1 = x.1 := by
  simp only [expandSlots, List.mem_flatMap, List.mem_map] at h
  obtain ⟨s, hs, v, _, rfl⟩ := h
  exact ⟨s, hs, rfl⟩

theorem matchSlots_nil (k : K) : matchSlots ([] : List (K × List V)) k = [] := rfl

theorem matchSlots_cons (s : K × List V) (D : List (K × List V)) (k : K) :
    matchSlots (s :: D) k =
      (if k = s.1 then s.2.map (fun v => (s.1, v)) else []) ++ matchSlots D k := by
  by_cases h : k = s.1
  · simp [matchSlots, List.filter_cons, h, expandSlots_cons]
  · simp [matchSlots, List.filter_cons, h]

theorem matchSlots_append (A B : List (K × List V)) (k : K) :
    matchSlots (A ++ B) k = matchSlots A k ++ matchSlots B k := by
  simp [matchSlots, List.filter_append, expandSlots_append]

theorem matchSlots_eq_nil {D : List (K × List V)} {k : K} (h : ∀ s ∈ D, s.1 ≠ k) :
    matchSlots D k = [] := by
  induction D with
  | nil => rfl
  | cons s D ih =>
    have h1 : k ≠ s.1 := fun e => h s (List.mem_cons_self _ _) e.symm
    rw [matchSlots_cons, if_neg h1, ih (fun x hx => h x (List.mem_cons_of_mem _ hx))]
    rfl

theorem mem_matchSlots {D : List (K × List V)} {k : K} {x : K × V} (h : x ∈ matchSlots D k) :
    x.1 = k := by
  unfold matchSlots at h
  obtain ⟨s, hs, e⟩ := mem_expandSlots h
  have := (List.mem_filter.mp hs).2
  simp only [decide_eq_true_eq] at this
  rw [← e, this]

theorem VectorContainsKey2_iff (D : List (K × List V)) (k : K) :
    VectorContainsKey2 D k = true ↔ ∃ s ∈ D, s.1 = k := by
  simp only [VectorContainsKey2, List.any_eq_true, decide_eq_true_eq]
  constructor
  · rintro ⟨s, hs, e⟩
    exact ⟨s, hs, e.symm⟩
  · rintro ⟨s, hs, e⟩
    exact ⟨s, hs, e.symm⟩

theorem VectorContainsKey2_false_iff (D : List (K × List V)) (k : K) :
    VectorContainsKey2 D k = false ↔ ∀ s ∈ D, s.1 ≠ k := by
  rw [← Bool.not_eq_true, VectorContainsKey2_iff]
  push_neg
  rfl

/-! ### insertSlot -/

theorem insertSlot_cons_eq (k : K) (v : V) (vs : List V) (D : List (K × List V)) :
    insertSlot k v ((k, vs) :: D) = (k, vs ++ [v]) :: D := by
  simp [insertSlot]

theorem insertSlot_cons_lt {k k1 : K} (h : k < k1) (v : V) (vs : List V)
    (D : List (K × List V)) :
    insertSlot k v ((k1, vs) :: D) = (k, [v]) :: (k1, vs) :: D := by
  simp [insertSlot, ne_of_lt h, h]

theorem insertSlot_cons_gt {k k1 : K} (h : k1 < k) (v : V) (vs : List V)
    (D : List (K × List V)) :
    insertSlot k v ((k1, vs) :: D) = (k1, vs) :: insertSlot k v D := by
  simp [insertSlot, ne_of_gt h, not_lt_of_gt h]

theorem mem_insertSlot {k : K} {v : V} {D : List (K × List V)} {s : K × List V}
    (h : s ∈ insertSlot k v D) : s.1 = k ∨ s ∈ D := by
  induction D with
  | nil =>
    simp only [insertSlot, List.mem_singleton] at h
    left; rw [h]
  | cons a D ih =>
    obtain ⟨k1, vs⟩ := a
    rcases lt_trichotomy k k1 with h1 | h1 | h1
    · rw [insertSlot_cons_lt h1] at h
      rcases List.mem_cons.mp h with e | e
      · left; rw [e]
      · right; exact e
    · subst h1
      rw [insertSlot_cons_eq] at h
      rcases List.mem_cons.mp h with e | e
      · left; rw [e]
      · right; exact List.mem_cons_of_mem _ e
    · rw [insertSlot_cons_gt h1] at h
      rcases List.mem_cons.mp h with e | e
      · right; rw [e]; exact List.mem_cons_self _ _
      · rcases ih e with e' | e'
        · left; exact e'
        · right; exact List.mem_cons_of_mem _ e'

theorem insertSlot_has_key (k : K) (v : V) (D : List (K × List V)) :
    ∃ s ∈ insertSlot k v D, s.1 = k := by
  induction D with
  | nil => exact ⟨(k, [v]), by simp [insertSlot], rfl⟩
  | cons a D ih =>
    obtain ⟨k1, vs⟩ := a
    rcases lt_trichotomy k k1 with h1 | h1 | h1
    · rw [insertSlot_cons_lt h1]
      exact ⟨(k, [v]), List.mem_cons_self _ _, rfl⟩
    · subst h1
      rw [insertSlot_cons_eq]
      exact ⟨(k, vs ++ [v]), List.mem_cons_self _ _, rfl⟩
    · rw [insertSlot_cons_gt h1]
      obtain ⟨s, hs, e⟩ := ih
      exact ⟨s, List.mem_cons_of_mem _ hs, e⟩

theorem insertSlot_sorted {k : K} {v : V} {D : List (K × List V)}
    (h : D.Pairwise (fun a b => a.1 < b.1)) :
    (insertSlot k v D).Pairwise (fun a b => a.1 < b.1) := by
  induction D with
  | nil => simp [insertSlot]
  | cons a D ih =>
    obtain ⟨k1, vs⟩ := a
    have h' := List.pairwise_cons.mp h
    rcases lt_trichotomy k k1 with h1 | h1 | h1
    · rw [insertSlot_cons_lt h1, List.pairwise_cons]
      refine ⟨fun b hb => ?_, h⟩
      rcases List.mem_cons.mp hb with e | e
      · rw [e]; exact h1
      · exact lt_trans h1 (h'.1 b e)
    · subst h1
      rw [insertSlot_cons_eq, List.pairwise_cons]
      exact ⟨fun b hb => h'.1 b hb, h'.2⟩
    · rw [insertSlot_cons_gt h1, List.pairwise_cons]
      refine ⟨fun b hb => ?_, ih h'.2⟩
      rcases mem_insertSlot hb with e | e
      · rw [e]; exact h1
      · exact h'.1 b e

theorem matchSlots_insertSlot {k : K} {v : V} {D : List (K × List V)}
    (h : D.Pairwise (fun a b => a.1 < b.1)) (k' : K) :
    matchSlots (insertSlot k v D) k' = matchSlots D k' ++ (if k' = k then [(k, v)] else []) := by
  induction D with
  | nil =>
    by_cases e : k' = k
    · simp [insertSlot, matchSlots_cons, matchSlots_nil, e]
    · simp [insertSlot, matchSlots_cons, matchSlots_nil, e]
  | cons a D ih =>
    obtain ⟨k1, vs⟩ := a
    have h' := List.pairwise_cons.mp h
    rcases lt_trichotomy k k1 with h1 | h1 | h1
    · rw [insertSlot_cons_lt h1, matchSlots_cons]
      by_cases e : k' = k
      · subst e
        have hnil : matchSlots ((k1, vs) :: D) k' = [] := by
          apply matchSlots_eq_nil
          intro s hs
          rcases List.mem_cons.mp hs with e | e
          · rw [e]; exact ne_of_gt h1
          · exact ne_of_gt (lt_trans h1 (h'.1 s e))
        simp [hnil]
      · simp [e]
    · subst h1
      rw [insertSlot_cons_eq, matchSlots_cons, matchSlots_cons]
      by_cases e : k' = k
      · subst e
        have hnil : matchSlots D k' = [] :=
          matchSlots_eq_nil (fun s hs => ne_of_gt (h'.1 s hs))
        simp [hnil]
      · simp [e]
    · rw [insertSlot_cons_gt h1, matchSlots_cons, ih h'.2, matchSlots_cons, List.append_assoc]

theorem length_insertSlot {k : K} {v : V} {D : List (K × List V)}
    (h : D.Pairwise (fun a b => a.1 < b.1)) :
    (insertSlot k v D).length = D.length + (if VectorContainsKey2 D k = true then 0 else 1) := by
  induction D with
  | nil => simp [insertSlot, VectorContainsKey2]
  | cons a D ih =>
    obtain ⟨k1, vs⟩ := a
    have h' := List.pairwise_cons.mp h
    rcases lt_trichotomy k k1 with h1 | h1 | h1
    · have hc : VectorContainsKey2 ((k1, vs) :: D) k = false := by
        rw [VectorContainsKey2_false_iff]
        intro s hs
        rcases List.mem_cons.mp hs with e | e
        · rw [e]; exact ne_of_gt h1
        · exact ne_of_gt (lt_trans h1 (h'.1 s e))
      rw [insertSlot_cons_lt h1, hc]
      simp
    · subst h1
      have hc : VectorContainsKey2 ((k, vs) :: D) k = true := by
        rw [VectorContainsKey2_iff]
        exact ⟨(k, vs), List.mem_cons_self _ _, rfl⟩
      rw [insertSlot_cons_eq, hc]
      simp
    · have hc : VectorContainsKey2 ((k1, vs) :: D) k = VectorContainsKey2 D k := by
        simp [VectorContainsKey2, ne_of_gt h1]
      rw [insertSlot_cons_gt h1, hc, List.length_cons, ih h'.2, List.length_cons]
      omega

theorem expandSlots_insertSlot_perm (k : K) (v : V) (D : List (K × List V)) :
    (expandSlots (insertSlot k v D)).Perm ((k, v) :: expandSlots D) := by
  induction D with
  | nil => simp [insertSlot, expandSlots]
  | cons a D ih =>
    obtain ⟨k1, vs⟩ := a
    rcases lt_trichotomy k k1 with h1 | h1 | h1
    · rw [insertSlot_cons_lt h1, expandSlots_cons]
      simp
    · subst h1
      rw [insertSlot_cons_eq, expandSlots_cons, expandSlots_cons]
      simp only [List.map_append, List.map_cons, List.map_nil, List.append_assoc,
        List.singleton_append]
      exact List.perm_middle
    · rw [insertSlot_cons_gt h1, expandSlots_cons, expandSlots_cons]
      refine (List.Perm.append_left _ ih).trans ?_
      exact List.perm_middle

/-! ### updateSlot -/

theorem map_fst_updateSlot (k : K) (v : V) (D : List (K × List V)) :
    (updateSlot k v D).map Prod.fst = D.map Prod.fst := by
  induction D with
  | nil => rfl
  | cons a D ih =>
    obtain ⟨k1, vs⟩ := a
    by_cases h : k = k1
    · simp [updateSlot, h]
    · simp [updateSlot, h, ih]

theorem mem_updateSlot {k : K} {v : V} {D : List (K × List V)} {s : K × List V}
    (h : s ∈ updateSlot k v D) : ∃ s' ∈ D, s'.1 = s.1 := by
  have h1 : s.1 ∈ (updateSlot k v D).map Prod.fst := List.mem_map_of_mem _ h
  rw [map_fst_updateSlot] at h1
  obtain ⟨s', hs', e⟩ := List.mem_map.mp h1
  exact ⟨s', hs', e⟩

theorem updateSlot_sorted {k : K} {v : V} {D : List (K × List V)}
    (h : D.Pairwise (fun a b => a.1 < b.1)) :
    (updateSlot k v D).Pairwise (fun a b => a.1 < b.1) := by
  have h1 : (D.map Prod.fst).Pairwise (· < ·) := List.pairwise_map.mpr h
  rw [← map_fst_updateSlot k v D] at h1
  exact List.pairwise_map.mp h1

theorem length_updateSlot (k : K) (v : V) (D : List (K × List V)) :
    (updateSlot k v D).length = D.length := by
  have := congrArg List.length (map_fst_updateSlot k v D)
  simpa using this

theorem matchSlots_updateSlot {k : K} {v : V} {D : List (K × List V)}
    (h : D.Pairwise (fun a b => a.1 < b.1)) (k' : K) :
    matchSlots (updateSlot k v D) k' =
      if k' = k then (if VectorContainsKey2 D k = true then [(k, v)] else [])
      else matchSlots D k' := by
  induction D with
  | nil => simp [updateSlot, matchSlots_nil, VectorContainsKey2]
  | cons a D ih =>
    obtain ⟨k1, vs⟩ := a
    have h' := List.pairwise_cons.mp h
    by_cases h1 : k = k1
    · subst h1
      have hc : VectorContainsKey2 ((k, vs) :: D) k = true := by
        rw [VectorContainsKey2_iff]
        exact ⟨(k, vs), List.mem_cons_self _ _, rfl⟩
      have hnil : matchSlots D k = [] :=
        matchSlots_eq_nil (fun s hs => ne_of_gt (h'.1 s hs))
      by_cases e : k' = k
      · subst e
        simp [updateSlot, matchSlots_cons, hc, hnil]
      · simp [updateSlot, matchSlots_cons, e]
    · have hc : VectorContainsKey2 ((k1, vs) :: D) k = VectorContainsKey2 D k := by
        simp [VectorContainsKey2, h1]
      have hu : updateSlot k v ((k1, vs) :: D) = (k1, vs) :: updateSlot k v D := by
        simp [updateSlot, h1]
      rw [hu, matchSlots_cons, ih h'.2, hc, matchSlots_cons]
      by_cases e : k' = k
      · subst e
        simp [h1]
      · simp [e]

/-! ### deleteKeySlot -/

theorem mem_deleteKeySlot {k : K} {D : List (K × List V)} {s : K × List V}
    (h : s ∈ deleteKeySlot k D) : s ∈ D ∧ s.1 ≠ k := by
  simpa [deleteKeySlot] using h

theorem deleteKeySlot_sorted {k : K} {D : List (K × List V)}
    (h : D.Pairwise (fun a b => a.1 < b.1)) :
    (deleteKeySlot k D).Pairwise (fun a b => a.1 < b.1) :=
  List.Pairwise.filter _ h

theorem length_deleteKeySlot (k : K) (D : List (K × List V)) :
    (deleteKeySlot k D).length ≤ D.length :=
  List.length_filter_le _ _

theorem matchSlots_deleteKeySlot (k : K) (D : List (K × List V)) (k' : K) :
    matchSlots (deleteKeySlot k D) k' = if k' = k then [] else matchSlots D k' := by
  by_cases e : k' = k
  · subst e
    rw [if_pos rfl]
    exact matchSlots_eq_nil (fun s hs => (mem_deleteKeySlot hs).2)
  · rw [if_neg e]
    unfold matchSlots deleteKeySlot
    rw [List.filter_filter]
    congr 1
    apply List.filter_congr
    intro x _
    by_cases hx : k' = x.1
    · have : x.1 ≠ k := fun e' => e (hx.trans e')
      simp [hx, this]
    · simp [hx]

/-! ### deletePairSlot -/

theorem deletePairSlot_cons_ne {k k1 : K} (h : k ≠ k1) (v : V) (vs : List V)
    (D : List (K × List V)) :
    deletePairSlot k v ((k1, vs) :: D) = (k1, vs) :: deletePairSlot k v D := by
  simp [deletePairSlot, h]

theorem deletePairSlot_cons_nil {k : K} {v : V} {vs : List V}
    (h : vs.filter (fun w => decide (w ≠ v)) = []) (D : List (K × List V)) :
    deletePairSlot k v ((k, vs) :: D) = deletePairSlot k v D := by
  simp only [deletePairSlot, if_true, h]

theorem deletePairSlot_cons_keep {k : K} {v : V} {vs : List V}
    (h : vs.filter (fun w => decide (w ≠ v)) ≠ []) (D : List (K × List V)) :
    deletePairSlot k v ((k, vs) :: D) =
      (k, vs.filter (fun w => decide (w ≠ v))) :: deletePairSlot k v D := by
  simp only [deletePairSlot, if_true, h, if_false]

theorem mem_deletePairSlot {k : K} {v : V} {D : List (K × List V)} {s : K × List V}
    (h : s ∈ deletePairSlot k v D) : ∃ s' ∈ D, s'.1 = s.1 := by
  induction D with
  | nil => simp [deletePairSlot] at h
  | cons a D ih =>
    obtain ⟨k1, vs⟩ := a
    by_cases h1 : k = k1
    · subst h1
      by_cases h2 : vs.filter (fun w => decide (w ≠ v)) = []
      · rw [deletePairSlot_cons_nil h2] at h
        obtain ⟨s', hs', e⟩ := ih h
        exact ⟨s', List.mem_cons_of_mem _ hs', e⟩
      · rw [deletePairSlot_cons_keep h2] at h
        rcases List.mem_cons.mp h with e | e
        · exact ⟨(k, vs), List.mem_cons_self _ _, by rw [e]⟩
        · obtain ⟨s', hs', e'⟩ := ih e
          exact ⟨s', List.mem_cons_of_mem _ hs', e'⟩
    · rw [deletePairSlot_cons_ne h1] at h
      rcases List.mem_cons.mp h with e | e
      · exact ⟨(k1, vs), List.mem_cons_self _ _, by rw [e]⟩
      · obtain ⟨s', hs', e'⟩ := ih e
        exact ⟨s', List.mem_cons_of_mem _ hs', e'⟩

theorem deletePairSlot_sorted {k : K} {v : V} {D : List (K × List V)}
    (h : D.Pairwise (fun a b => a.1 < b.1)) :
    (deletePairSlot k v D).Pairwise (fun a b => a.1 < b.1) := by
  induction D with
  | nil => simp [deletePairSlot]
  | cons a D ih =>
    obtain ⟨k1, vs⟩ := a
    have h' := List.pairwise_cons.mp h
    have hb : ∀ b ∈ deletePairSlot k v D, k1 < b.1 := by
      intro b hb
      obtain ⟨s', hs', e⟩ := mem_deletePairSlot hb
      rw [← e]
      exact h'.1 s' hs'
    by_cases h1 : k = k1
    · subst h1
      by_cases h2 : vs.filter (fun w => decide (w ≠ v)) = []
      · rw [deletePairSlot_cons_nil h2]
        exact ih h'.2
      · rw [deletePairSlot_cons_keep h2, List.pairwise_cons]
        exact ⟨hb, ih h'.2⟩
    · rw [deletePairSlot_cons_ne h1, List.pairwise_cons]
      exact ⟨hb, ih h'.2⟩

theorem length_deletePairSlot (k : K) (v : V) (D : List (K × List V)) :
    (deletePairSlot k v D).length ≤ D.length := by
  induction D with
  | nil => simp [deletePairSlot]
  | cons a D ih =>
    obtain ⟨k1, vs⟩ := a
    by_cases h1 : k = k1
    · subst h1
      by_cases h2 : vs.filter (fun w => decide (w ≠ v)) = []
      · rw [deletePairSlot_cons_nil h2, List.length_cons]
        omega
      · rw [deletePairSlot_cons_keep h2, List.length_cons, List.length_cons]
        omega
    · rw [deletePairSlot_cons_ne h1, List.length_cons, List.length_cons]
      omega

theorem filter_pairs_of_key {k k1 : K} {v : V} (vs : List V) :
    (vs.map (fun w => (k1, w))).filter (fun p => decide (¬ (p.1 = k ∧ p.2 = v))) =
      (vs.filter (fun w => decide (¬ (k1 = k ∧ w = v)))).map (fun w => (k1, w)) := by
  rw [List.filter_map]
  rfl

theorem matchSlots_deletePairSlot (k : K) (v : V) (D : List (K × List V)) (k' : K) :
    matchSlots (deletePairSlot k v D) k' =
      (matchSlots D k').filter (fun p => decide (¬ (p.1 = k ∧ p.2 = v))) := by
  induction D with
  | nil => simp [deletePairSlot, matchSlots_nil]
  | cons a D ih =>
    obtain ⟨k1, vs⟩ := a
    rw [matchSlots_cons, List.filter_append]
    have hvs : vs.filter (fun w => decide (¬ (k = k ∧ w = v))) =
        vs.filter (fun w => decide (w ≠ v)) := by
      apply List.filter_congr
      intro x _
      simp
    by_cases h1 : k = k1
    · subst h1
      by_cases h2 : vs.filter (fun w => decide (w ≠ v)) = []
      · rw [deletePairSlot_cons_nil h2, ih]
        by_cases e : k' = k
        · rw [if_pos e, filter_pairs_of_key, hvs, h2]
          rfl
        · rw [if_neg e]
          simp
      · rw [deletePairSlot_cons_keep h2, matchSlots_cons, ih]
        by_cases e : k' = k
        · rw [if_pos e, if_pos e, filter_pairs_of_key, hvs]
        · rw [if_neg e, if_neg e]
          simp
    · rw [deletePairSlot_cons_ne h1, matchSlots_cons, ih]
      by_cases e : k' = k1
      · rw [if_pos e]
        have : vs.filter (fun w => decide (¬ (k1 = k ∧ w = v))) = vs := by
          rw [List.filter_eq_self]
          intro x _
          simp [Ne.symm h1]
        rw [filter_pairs_of_key, this]
      · rw [if_neg e]
        simp

/-! ### Split of a sorted slot list at a position -/

theorem sorted_take_drop {D : List (K × List V)} (h : D.Pairwise (fun a b => a.1 < b.1))
    {pos : Nat} {s : K × List V} (hs : D[pos]? = some s) :
    (∀ a ∈ D.take pos, a.1 < s.1) ∧ (∀ b ∈ D.drop pos, s.1 ≤ b.1) := by
  induction D generalizing pos with
  | nil => simp at hs
  | cons a D ih =>
    have h' := List.pairwise_cons.mp h
    cases pos with
    | zero =>
      simp only [List.getElem?_cons_zero, Option.some.injEq] at hs
      subst hs
      refine ⟨by simp, ?_⟩
      intro b hb
      simp only [List.drop_zero] at hb
      rcases List.mem_cons.mp hb with e | e
      · rw [e]
      · exact le_of_lt (h'.1 b e)
    | succ pos =>
      simp only [List.getElem?_cons_succ] at hs
      obtain ⟨h1, h2⟩ := ih h'.2 hs
      refine ⟨?_, ?_⟩
      · intro x hx
        simp only [List.take_succ_cons] at hx
        rcases List.mem_cons.mp hx with e | e
        · rw [e]
          exact h'.1 s (List.getElem?_mem hs)
        · exact h1 x e
      · intro b hb
        simp only [List.drop_succ_cons] at hb
        exact h2 b hb

theorem filter_lt_eq_take {D : List (K × List V)} (h : D.Pairwise (fun a b => a.1 < b.1))
    {pos : Nat} {s : K × List V} (hs : D[pos]? = some s) :
    D.filter (fun x => decide (x.1 < s.1)) = D.take pos := by
  obtain ⟨h1, h2⟩ := sorted_take_drop h hs
  conv_lhs => rw [← List.take_append_drop pos D]
  rw [List.filter_append]
  have e1 : (D.take pos).filter (fun x => decide (x.1 < s.1)) = D.take pos := by
    rw [List.filter_eq_self]
    intro a ha
    simpa using h1 a ha
  have e2 : (D.drop pos).filter (fun x => decide (x.1 < s.1)) = [] := by
    rw [List.filter_eq_nil_iff]
    intro b hb
    simpa using h2 b hb
  rw [e1, e2, List.append_nil]

theorem matchSlots_take {D : List (K × List V)} (h : D.Pairwise (fun a b => a.1 < b.1))
    {pos : Nat} {s : K × List V} (hs : D[pos]? = some s) {k : K} (hk : k < s.1) :
    matchSlots (D.take pos) k = matchSlots D k := by
  obtain ⟨_, h2⟩ := sorted_take_drop h hs
  conv_rhs => rw [← List.take_append_drop pos D]
  rw [matchSlots_append,
    matchSlots_eq_nil (D := D.drop pos) (fun b hb => ne_of_gt (lt_of_lt_of_le hk (h2 b hb))),
    List.append_nil]

theorem matchSlots_drop {D : List (K × List V)} (h : D.Pairwise (fun a b => a.1 < b.1))
    {pos : Nat} {s : K × List V} (hs : D[pos]? = some s) {k : K} (hk : s.1 ≤ k) :
    matchSlots (D.drop pos) k = matchSlots D k := by
  obtain ⟨h1, _⟩ := sorted_take_drop h hs
  conv_rhs => rw [← List.take_append_drop pos D]
  rw [matchSlots_append,
    matchSlots_eq_nil (D := D.take pos) (fun a ha => ne_of_lt (lt_of_lt_of_le (h1 a ha) hk)),
    List.nil_append]

theorem expandSlots_take_drop (D : List (K × List V)) (pos : Nat) :
    expandSlots (D.take pos) ++ expandSlots (D.drop pos) = expandSlots D := by
  rw [← expandSlots_append, List.take_append_drop]

theorem nonempty_insertSlot {k : K} {v : V} {D : List (K × List V)}
    (h : ∀ s ∈ D, s.2 ≠ []) : ∀ s ∈ insertSlot k v D, s.2 ≠ [] := by
  induction D with
  | nil =>
    intro s hs
    simp only [insertSlot, List.mem_singleton] at hs
    rw [hs]; simp
  | cons a D ih =>
    obtain ⟨k1, vs⟩ := a
    have h' : ∀ s ∈ D, s.2 ≠ [] := fun s hs => h s (List.mem_cons_of_mem _ hs)
    intro s hs
    simp only [insertSlot] at hs
    split_ifs at hs
    · rcases List.mem_cons.mp hs with e | e
      · rw [e]; simp
      · exact h' s e
    · rcases List.mem_cons.mp hs with e | e
      · rw [e]; simp
      · exact h s e
    · rcases List.mem_cons.mp hs with e | e
      · rw [e]; exact h (k1, vs) (List.mem_cons_self _ _)
      · exact ih h' s e

theorem nonempty_updateSlot {k : K} {v : V} {D : List (K × List V)}
    (h : ∀ s ∈ D, s.2 ≠ []) : ∀ s ∈ updateSlot k v D, s.2 ≠ [] := by
  induction D with
  | nil => intro s hs; simp [updateSlot] at hs
  | cons a D ih =>
    obtain ⟨k1, vs⟩ := a
    have h' : ∀ s ∈ D, s.2 ≠ [] := fun s hs => h s (List.mem_cons_of_mem _ hs)
    intro s hs
    simp only [updateSlot] at hs
    split_ifs at hs
    · rcases List.mem_cons.mp hs with e | e
      · rw [e]; simp
      · exact h' s e
    · rcases List.mem_cons.mp hs with e | e
      · rw [e]; exact h (k1, vs) (List.mem_cons_self _ _)
      · exact ih h' s e

theorem nonempty_deletePairSlot {k : K} {v : V} {D : List (K × List V)}
    (h : ∀ s ∈ D, s.2 ≠ []) : ∀ s ∈ deletePairSlot k v D, s.2 ≠ [] := by
  induction D with
  | nil => intro s hs; simp [deletePairSlot] at hs
  | cons a D ih =>
    obtain ⟨k1, vs⟩ := a
    have h' : ∀ s ∈ D, s.2 ≠ [] := fun s hs => h s (List.mem_cons_of_mem _ hs)
    intro s hs
    simp only [deletePairSlot] at hs
    split_ifs at hs with h1 h2
    · exact ih h' s hs
    · rcases List.mem_cons.mp hs with e | e
      · rw [e]; exact h2
      · exact ih h' s e
    · rcases List.mem_cons.mp hs with e | e
      · rw [e]; exact h (k1, vs) (List.mem_cons_self _ _)
      · exact ih h' s e

end SlotLemmas

/-! ## Routing tables -/

section TableLemmas

set_option linter.unusedSectionVars false

variable {K : Type} [LinearOrder K]

theorem geLo_none (k : K) : geLo none k := by
  intro l h; cases h

theorem ltHi_none (k : K) : ltHi k none := by
  intro l h; cases h

theorem geLo_some {l k : K} : geLo (some l) k ↔ l ≤ k := by
  constructor
  · intro h; exact h l rfl
  · intro h l' e; cases e; exact h

theorem ltHi_some {h k : K} : ltHi k (some h) ↔ k < h := by
  constructor
  · intro hh; exact hh h rfl
  · intro hh h' e; cases e; exact hh

theorem ltBound_iff (k : K) (r : Option K) : ltBound k r = true ↔ ltHi k r := by
  cases r with
  | none => simp [ltBound, ltHi_none]
  | some r => simp [ltBound, ltHi_some]

theorem innerLookup_mem (c0 : Int) (lo : Option K) (slots : List (K × Int)) (hi : Option K)
    (k : K) (h1 : geLo lo k) (h2 : ltHi k hi) :
    ∃ l h, (innerLookup c0 slots k, l, h) ∈ childBounds c0 lo slots hi ∧ geLo l k ∧ ltHi k h := by
  induction slots generalizing c0 lo with
  | nil => exact ⟨lo, hi, by simp [innerLookup, childBounds], h1, h2⟩
  | cons a rest ih =>
    obtain ⟨k1, c1⟩ := a
    by_cases h : k < k1
    · refine ⟨lo, some k1, ?_, h1, ltHi_some.mpr h⟩
      simp [innerLookup, childBounds, h]
    · obtain ⟨l, h', hm, hl, hh⟩ := ih c1 (some k1) (geLo_some.mpr (not_lt.mp h))
      refine ⟨l, h', ?_, hl, hh⟩
      simp only [innerLookup, if_neg h, childBounds]
      exact List.mem_cons_of_mem _ hm

theorem innerLookup_insertPointer (c0 : Int) (l : K) (x : Int) (slots : List (K × Int))
    (k : K) :
    innerLookup c0 (insertPointer l x slots) k =
      if l ≤ k ∧ ltBound k (upperKey l slots) = true then x else innerLookup c0 slots k := by
  induction slots generalizing c0 with
  | nil =>
    by_cases h : l ≤ k
    · simp [insertPointer, innerLookup, upperKey, ltBound, h, not_lt.mpr h]
    · simp [insertPointer, innerLookup, upperKey, ltBound, h, not_le.mp h]
  | cons a rest ih =>
    obtain ⟨k1, c1⟩ := a
    by_cases h : l < k1
    · simp only [insertPointer, if_pos h, innerLookup, upperKey, ltBound, decide_eq_true_eq]
      by_cases h1 : k < l
      · have h2 : k < k1 := lt_trans h1 h
        simp [h1, h2, not_le.mpr h1]
      · by_cases h2 : k < k1
        · simp [h1, h2, not_lt.mp h1]
        · simp [h1, h2]
    · simp only [insertPointer, if_neg h, innerLookup, upperKey, ih]
      by_cases h1 : k < k1
      · have h2 : ¬ l ≤ k := not_le.mpr (lt_of_lt_of_le h1 (not_lt.mp h))
        simp [h1, h2]
      · simp [h1]

theorem mem_insertPointer {l : K} {x : Int} {slots : List (K × Int)} {e : K × Int} :
    e ∈ insertPointer l x slots ↔ e = (l, x) ∨ e ∈ slots := by
  induction slots with
  | nil => simp [insertPointer]
  | cons a rest ih =>
    obtain ⟨k1, c1⟩ := a
    by_cases h : l < k1
    · simp [insertPointer, h]
    · simp only [insertPointer, if_neg h, List.mem_cons, ih]
      tauto

theorem length_insertPointer (l : K) (x : Int) (slots : List (K × Int)) :
    (insertPointer l x slots).length = slots.length + 1 := by
  induction slots with
  | nil => simp [insertPointer]
  | cons a rest ih =>
    obtain ⟨k1, c1⟩ := a
    by_cases h : l < k1
    · simp [insertPointer, h]
    · simp [insertPointer, h, ih]

theorem insertPointer_perm (l : K) (x : Int) (slots : List (K × Int)) :
    (insertPointer l x slots).Perm ((l, x) :: slots) := by
  induction slots with
  | nil => simp [insertPointer]
  | cons a rest ih =>
    obtain ⟨k1, c1⟩ := a
    by_cases h : l < k1
    · simp [insertPointer, h]
    · simp only [insertPointer, if_neg h]
      exact (List.Perm.cons _ ih).trans (List.Perm.swap _ _ _)

theorem insertPointer_sorted {l : K} {x : Int} {slots : List (K × Int)}
    (hs : slots.Pairwise (fun a b => a.1 ≤ b.1)) :
    (insertPointer l x slots).Pairwise (fun a b => a.1 ≤ b.1) := by
  induction slots with
  | nil => simp [insertPointer]
  | cons a rest ih =>
    obtain ⟨k1, c1⟩ := a
    have hs' := List.pairwise_cons.mp hs
    by_cases h : l < k1
    · simp only [insertPointer, if_pos h]
      rw [List.pairwise_cons]
      refine ⟨?_, hs⟩
      intro b hb
      rcases List.mem_cons.mp hb with e | e
      · rw [e]; exact le_of_lt h
      · exact le_trans (le_of_lt h) (hs'.1 b e)
    · simp only [insertPointer, if_neg h]
      rw [List.pairwise_cons]
      refine ⟨?_, ih hs'.2⟩
      intro b hb
      rcases mem_insertPointer.mp hb with e | e
      · rw [e]; exact not_lt.mp h
      · exact hs'.1 b e

theorem lo_of_mem_childBounds {c0 : Int} {k0 : K} {slots : List (K × Int)} {hi : Option K}
    (hs : slots.Pairwise (fun a b => a.1 ≤ b.1)) (hb : ∀ e ∈ slots, k0 ≤ e.1)
    {c : Int} {l h : Option K} (hm : (c, l, h) ∈ childBounds c0 (some k0) slots hi) :
    ∃ l', l = some l' ∧ k0 ≤ l' := by
  induction slots generalizing c0 k0 with
  | nil =>
    simp only [childBounds, List.mem_singleton, Prod.mk.injEq] at hm
    exact ⟨k0, hm.2.1, le_refl _⟩
  | cons a rest ih =>
    obtain ⟨k1, c1⟩ := a
    have hs' := List.pairwise_cons.mp hs
    simp only [childBounds, List.mem_cons, Prod.mk.injEq] at hm
    rcases hm with hm | hm
    · exact ⟨k0, hm.2.1, le_refl _⟩
    · obtain ⟨l', e, hl⟩ := ih hs'.2 hs'.1 hm
      exact ⟨l', e, le_trans (hb (k1, c1) (List.mem_cons_self _ _)) hl⟩

theorem childBounds_insertPointer {c0 : Int} {lo : Option K} {slots : List (K × Int)}
    {hi : Option K} (hs : slots.Pairwise (fun a b => a.1 ≤ b.1))
    {x : Int} {lx hx : Option K} (hm : (x, lx, hx) ∈ childBounds c0 lo slots hi)
    {sk : K} (h1 : geLo lx sk) (h2 : ltHi sk hx) (y : Int) :
    ∃ pre post, childBounds c0 lo slots hi = pre ++ (x, lx, hx) :: post ∧
      childBounds c0 lo (insertPointer sk y slots) hi =
        pre ++ (x, lx, some sk) :: (y, some sk, hx) :: post := by
  induction slots generalizing c0 lo with
  | nil =>
    simp only [childBounds, List.mem_singleton, Prod.mk.injEq] at hm
    obtain ⟨rfl, rfl, rfl⟩ := hm
    exact ⟨[], [], rfl, rfl⟩
  | cons a rest ih =>
    obtain ⟨k1, c1⟩ := a
    have hs' := List.pairwise_cons.mp hs
    simp only [childBounds, List.mem_cons, Prod.mk.injEq] at hm
    by_cases hlt : sk < k1
    · rcases hm with hm | hm
      · obtain ⟨rfl, rfl, rfl⟩ := hm
        refine ⟨[], childBounds c1 (some k1) rest hi, rfl, ?_⟩
        simp [insertPointer, hlt, childBounds]
      · exfalso
        obtain ⟨l', e, hl⟩ := lo_of_mem_childBounds hs'.2 hs'.1 hm
        subst e
        exact absurd (lt_of_le_of_lt (le_trans hl (geLo_some.mp h1)) hlt) (lt_irrefl _)
    · rcases hm with hm | hm
      · exfalso
        obtain ⟨_, _, rfl⟩ := hm
        exact hlt (ltHi_some.mp h2)
      · obtain ⟨pre, post, e1, e2⟩ := ih hs'.2 hm
        refine ⟨(c0, lo, some k1) :: pre, post, ?_, ?_⟩
        · simp only [childBounds, e1, List.cons_append]
        · simp only [insertPointer, if_neg hlt, childBounds, e2, List.cons_append]

theorem pid_of_mem_childBounds {c0 : Int} {lo : Option K} {slots : List (K × Int)}
    {hi : Option K} {c : Int} {l h : Option K} (hm : (c, l, h) ∈ childBounds c0 lo slots hi) :
    c ∈ c0 :: slots.map Prod.snd := by
  induction slots generalizing c0 lo with
  | nil =>
    simp only [childBounds, List.mem_singleton, Prod.mk.injEq] at hm
    simp [hm.1]
  | cons a rest ih =>
    obtain ⟨k1, c1⟩ := a
    simp only [childBounds, List.mem_cons, Prod.mk.injEq] at hm
    rcases hm with hm | hm
    · simp [hm.1]
    · have := ih hm
      simp only [List.map_cons, List.mem_cons] at this ⊢
      tauto

theorem mem_childBounds_of_pid {c0 : Int} (lo : Option K) {slots : List (K × Int)}
    (hi : Option K) {c : Int} (hc : c ∈ c0 :: slots.map Prod.snd) :
    ∃ l h, (c, l, h) ∈ childBounds c0 lo slots hi := by
  induction slots generalizing c0 lo with
  | nil =>
    simp only [List.map_nil, List.mem_singleton] at hc
    exact ⟨lo, hi, by simp [childBounds, hc]⟩
  | cons a rest ih =>
    obtain ⟨k1, c1⟩ := a
    simp only [List.map_cons, List.mem_cons] at hc
    rcases hc with hc | hc
    · exact ⟨lo, some k1, by simp [childBounds, hc]⟩
    · obtain ⟨l, h, hm⟩ := @ih c1 (some k1) (by simpa using hc)
      exact ⟨l, h, by simp only [childBounds]; exact List.mem_cons_of_mem _ hm⟩

theorem range_of_mem_childBounds {c0 : Int} {lo : Option K} {slots : List (K × Int)}
    {hi : Option K} (hs : slots.Pairwise (fun a b => a.1 ≤ b.1))
    (hk : ∀ e ∈ slots, geLo lo e.1 ∧ ltHi e.1 hi)
    {c : Int} {l h : Option K} (hm : (c, l, h) ∈ childBounds c0 lo slots hi) :
    (∀ k, geLo l k → geLo lo k) ∧ (∀ k, ltHi k h → ltHi k hi) := by
  induction slots generalizing c0 lo with
  | nil =>
    simp only [childBounds, List.mem_singleton, Prod.mk.injEq] at hm
    obtain ⟨_, rfl, rfl⟩ := hm
    exact ⟨fun k hk => hk, fun k hk => hk⟩
  | cons a rest ih =>
    obtain ⟨k1, c1⟩ := a
    have hs' := List.pairwise_cons.mp hs
    have hk1 := hk (k1, c1) (List.mem_cons_self _ _)
    simp only [childBounds, List.mem_cons, Prod.mk.injEq] at hm
    rcases hm with hm | hm
    · obtain ⟨_, rfl, rfl⟩ := hm
      refine ⟨fun k hk => hk, fun k hkk => ?_⟩
      intro h' e
      exact lt_trans (ltHi_some.mp hkk) (hk1.2 h' e)
    · have hk' : ∀ e ∈ rest, geLo (some k1) e.1 ∧ ltHi e.1 hi := by
        intro e he
        exact ⟨geLo_some.mpr (hs'.1 e he), (hk e (List.mem_cons_of_mem _ he)).2⟩
      obtain ⟨h3, h4⟩ := ih hs'.2 hk' hm
      refine ⟨fun k hkk => ?_, h4⟩
      intro l' e
      exact le_trans (hk1.1 l' e) (geLo_some.mp (h3 k hkk))

end TableLemmas

/-! ## Navigation and the queries under the invariant -/

section Navigation

set_option linter.unusedSectionVars false

variable {K V : Type} [LinearOrder K] [DecidableEq V]

theorem NULL_PID_eq : NULL_PID = (-1 : Int) := rfl

theorem ne_NULL_of_nonneg {q : Int} (h : 0 ≤ q) : q ≠ NULL_PID := by
  rw [NULL_PID_eq]; omega

theorem Inv.node {t : BWTree K V} {g : Ghost K} {pend : Option (Int × Int)}
    (hI : Inv t g pend) {q : Int} {n : Node K V} (h : t.mapping_table q = some n) :
    NodeOK g q n := by
  obtain ⟨h0, h1⟩ := hI.alloc q n h
  obtain ⟨n', hn', hok⟩ := hI.nodes q h0 h1
  rw [h] at hn'
  cases hn'
  exact hok

theorem descend_inv {t : BWTree K V} {g : Ghost K} (hI : Inv t g none) (k : K) :
    ∀ (L fuel : Nat) (q : Int), 0 ≤ q → q < t.next_pid → g.lvl q = L → L < fuel →
      geLo (g.lo q) k → ltHi k (g.hi q) →
      ∃ p : Int, descend t k fuel q = some p ∧ 0 ≤ p ∧ p < t.next_pid ∧ g.lvl p = 0 ∧
        geLo (g.lo p) k ∧ ltHi k (g.hi p) := by
  intro L
  induction L with
  | zero =>
    intro fuel q h0 h1 hl hf hlo hhi
    obtain ⟨fuel', rfl⟩ : ∃ f, fuel = f + 1 := ⟨fuel - 1, by omega⟩
    obtain ⟨n, hn, hok⟩ := hI.nodes q h0 h1
    have hleaf : n.IsLeaf = true := by
      rw [Node.IsLeaf_iff, hok.level, hl]
    refine ⟨q, ?_, h0, h1, hl, hlo, hhi⟩
    simp [descend, GetNode, hn, hleaf]
  | succ L ih =>
    intro fuel q h0 h1 hl hf hlo hhi
    obtain ⟨fuel', rfl⟩ : ∃ f, fuel = f + 1 := ⟨fuel - 1, by omega⟩
    obtain ⟨n, hn, hok⟩ := hI.nodes q h0 h1
    have hne : g.lvl q ≠ 0 := by omega
    have hleaf : n.IsLeaf = false := by
      rw [Node.IsLeaf_false_iff, hok.level]; exact hne
    have hroute := hok.route hne k hlo hhi
    obtain ⟨l, h, hm, hl', hh'⟩ :=
      innerLookup_mem (g.tbl q).1 (g.lo q) (g.tbl q).2 (g.hi q) k hlo hhi
    obtain ⟨c0, c1, clo, _, clvl, chi⟩ := (hI.ghost.table q h0 h1 hne).children _ _ _ hm
    have chi' : g.hi (innerLookup (g.tbl q).1 (g.tbl q).2 k) = h := by
      rcases chi with e | ⟨y, e, _⟩
      · exact e
      · cases e
    obtain ⟨p, hp⟩ := ih fuel' _ c0 c1 (by omega) (by omega) (by rw [clo]; exact hl')
      (by rw [chi']; exact hh')
    refine ⟨p, ?_, hp.2⟩
    simp only [descend, GetNode, hn, hleaf, hroute]
    exact hp.1

/-- Under the invariant the descent from the root ends at a leaf whose range holds
the key. -/
theorem descend_root {t : BWTree K V} {g : Ghost K} (hI : Inv t g none) (k : K) :
    ∃ (p : Int) (n : Node K V), descend t k t.fuel t.m_root = some p ∧ t.mapping_table p = some n ∧
      NodeOK g p n ∧ 0 ≤ p ∧ g.lvl p = 0 ∧ geLo (g.lo p) k ∧ ltHi k (g.hi p) := by
  have hG := hI.ghost
  have hr := hG.root_alloc
  have hr2 := hr.2
  have hlv := hG.lvl_le t.m_root hr.1 hr.2
  obtain ⟨p, hp, h0, h1, hl, hlo, hhi⟩ :=
    descend_inv hI k (g.lvl t.m_root) t.fuel t.m_root hr.1 hr.2 rfl
      (by unfold BWTree.fuel; omega)
      (by rw [hG.root_lo]; exact geLo_none k) (by rw [hG.root_hi]; exact ltHi_none k)
  obtain ⟨n, hn, hok⟩ := hI.nodes p h0 h1
  exact ⟨p, n, hp, hn, hok, h0, hl, hlo, hhi⟩

theorem walkInsert_inRange {t : BWTree K V} {p : Int} {n : Node K V} {k : K}
    (hn : t.mapping_table p = some n) (hr : isInRange n k = true) :
    walkInsert t k t.fuel p = some p := by
  simp [BWTree.fuel, walkInsert, GetNode, hn, hr]

theorem walkLeaf_inRange {t : BWTree K V} {p : Int} {n : Node K V} {k : K}
    (hn : t.mapping_table p = some n) (hr : isInRange n k = true) :
    walkLeaf t k t.fuel p = some p := by
  simp [BWTree.fuel, walkLeaf, GetNode, hn, hr]

theorem walkRead_inRange {t : BWTree K V} {p : Int} {n : Node K V} {k : K}
    (hn : t.mapping_table p = some n) (hr : isInRange n k = true) :
    walkRead t k t.fuel p = some p := by
  simp [BWTree.fuel, walkRead, GetNode, hn, hr]

/-- Under the invariant the three leaf locators agree on a leaf whose range holds
the key. -/
theorem locate_inv {t : BWTree K V} {g : Ghost K} (hI : Inv t g none) (k : K) :
    ∃ (p : Int) (n : Node K V), t.mapping_table p = some n ∧ NodeOK g p n ∧ 0 ≤ p ∧ g.lvl p = 0 ∧
      geLo (g.lo p) k ∧ ltHi k (g.hi p) ∧
      (descend t k t.fuel t.m_root).bind (walkInsert t k t.fuel) = some p ∧
      (descend t k t.fuel t.m_root).bind (walkLeaf t k t.fuel) = some p ∧
      (descend t k t.fuel t.m_root).bind (walkRead t k t.fuel) = some p := by
  obtain ⟨p, n, hd, hn, hok, h0, hl, hlo, hhi⟩ := descend_root hI k
  have hr := hok.inRange hl k hhi
  refine ⟨p, n, hn, hok, h0, hl, hlo, hhi, ?_, ?_, ?_⟩
  · rw [hd]; exact walkInsert_inRange hn hr
  · rw [hd]; exact walkLeaf_inRange hn hr
  · rw [hd]; exact walkRead_inRange hn hr

theorem Search_inv {t : BWTree K V} {g : Ghost K} {m : K → List (K × V)}
    (hI : Inv t g none) (hS : Sem t g m) (k : K) : Search t k = some (m k) := by
  obtain ⟨p, n, hn, hok, h0, hl, hlo, hhi, _, _, hw⟩ := locate_inv hI k
  have hroot : t.m_root ≠ NULL_PID := ne_NULL_of_nonneg hI.ghost.root_alloc.1
  have hp : ¬ p < 0 := by omega
  simp only [Search, GetLeafNodePID, if_neg hroot, hw, if_neg hp, GetNode, hn]
  rw [hS p n k hn hl hlo hhi]

end Navigation

/-! ## Leaves: disjoint ranges, updates of one chain, the root leaf -/

section LeafOps

set_option linter.unusedSectionVars false

variable {K V : Type} [LinearOrder K] [DecidableEq V]

theorem LeafPath_cons {g : Ghost K} {h a : Int} {rest : List Int} :
    LeafPath g h (a :: rest) ↔ h = a ∧ LeafPath g (g.nxt a) rest ∧
      ∀ b, rest.head? = some b → ∃ x, g.hi a = some x ∧ g.lo b = some x := by
  simp [LeafPath]

theorem LeafPath_head_sep {g : Ghost K} :
    ∀ (L : List Int) (a h : Int), LeafPath g h (a :: L) →
      (∀ q ∈ a :: L, loLeHi (g.lo q) (g.hi q)) →
      ∀ b ∈ L, ∀ k, ltHi k (g.hi a) → geLo (g.lo b) k → False := by
  intro L
  induction L with
  | nil => intro a h _ _ b hb; simp at hb
  | cons b1 rest ih =>
    intro a h hp hr b hb k hk1 hk2
    obtain ⟨_, hp2, hp3⟩ := LeafPath_cons.mp hp
    obtain ⟨x, hx1, hx2⟩ := hp3 b1 rfl
    have hkx : k < x := hk1 x hx1
    rcases List.mem_cons.mp hb with e | e
    · subst e
      exact absurd (lt_of_le_of_lt (hk2 x hx2) hkx) (lt_irrefl _)
    · refine ih b1 (g.nxt a) hp2 (fun q hq => hr q (List.mem_cons_of_mem _ hq)) b e k ?_ hk2
      intro h1 e1
      have := hr b1 (List.mem_cons_of_mem _ (List.mem_cons_self _ _)) x h1 hx2 e1
      exact lt_of_lt_of_le hkx this

theorem LeafPath_pairwise {g : Ghost K} :
    ∀ (L : List Int) (h : Int), LeafPath g h L → (∀ q ∈ L, loLeHi (g.lo q) (g.hi q)) →
      L.Pairwise (DisjointRange g) := by
  intro L
  induction L with
  | nil => intro h _ _; exact List.Pairwise.nil
  | cons a rest ih =>
    intro h hp hr
    rw [List.pairwise_cons]
    refine ⟨?_, ih (g.nxt a) (LeafPath_cons.mp hp).2.1
      (fun q hq => hr q (List.mem_cons_of_mem _ hq))⟩
    intro b hb k _ h2 h3 _
    exact LeafPath_head_sep rest a h hp hr b hb k h2 h3

theorem DisjointRange_symm (g : Ghost K) : Symmetric (DisjointRange g) := by
  intro a b h k h1 h2 h3 h4
  exact h k h3 h4 h1 h2

/-- Two different leaves have no key of their ranges in common. -/
theorem leaf_disjoint {N : Nat} {root head : Int} {pend : Option (Int × Int)} {g : Ghost K}
    (hG : GhostOK N root head pend g) {a b : Int}
    (ha : 0 ≤ a ∧ a < N ∧ g.lvl a = 0) (hb : 0 ≤ b ∧ b < N ∧ g.lvl b = 0) (hne : a ≠ b) :
    DisjointRange g a b := by
  have hpw := LeafPath_pairwise g.leaves head hG.path
    (fun q hq => by
      obtain ⟨h0, h1, _⟩ := hG.leaves_mem q hq
      exact hG.range q h0 h1)
  exact hpw.forall (DisjointRange_symm g) (hG.leaf_mem a ha.1 ha.2.1 ha.2.2)
    (hG.leaf_mem b hb.1 hb.2.1 hb.2.2) hne

theorem Inv_Update {t : BWTree K V} {g : Ghost K} {pend : Option (Int × Int)}
    (hI : Inv t g pend) {p : Int} {n n' : Node K V} (hn : t.mapping_table p = some n)
    (hok : NodeOK g p n') : Inv (t.Update p n') g pend := by
  refine ⟨?_, ?_, hI.ghost⟩
  · intro q m hm
    by_cases e : q = p
    · subst e; exact hI.alloc q n hn
    · simp only [BWTree.Update, if_neg e] at hm
      exact hI.alloc q m hm
  · intro q h0 h1
    by_cases e : q = p
    · subst e
      exact ⟨n', by simp [BWTree.Update], hok⟩
    · obtain ⟨m, hm, hmok⟩ := hI.nodes q h0 h1
      exact ⟨m, by simp [BWTree.Update, e, hm], hmok⟩

theorem Bounded_Update {t : BWTree K V} (hB : Bounded t none) (p : Int) {n' : Node K V}
    (hs : n'.GetSize ≤ 65534) : Bounded (t.Update p n') (some p) := by
  intro q m hm
  by_cases e : q = p
  · subst e
    simp only [BWTree.Update, if_true, Option.some.injEq] at hm
    subst hm
    exact ⟨hs, fun h => absurd rfl h⟩
  · simp only [BWTree.Update, if_neg e] at hm
    have := hB q m hm
    exact ⟨this.1, fun _ => this.2 (by simp)⟩

theorem Bounded_Update_small {t : BWTree K V} (hB : Bounded t none) (p : Int)
    {n' : Node K V} (hs : n'.GetSize ≤ 65533) : Bounded (t.Update p n') none := by
  intro q m hm
  by_cases e : q = p
  · subst e
    simp only [BWTree.Update, if_true, Option.some.injEq] at hm
    subst hm
    exact ⟨by omega, fun _ => hs⟩
  · simp only [BWTree.Update, if_neg e] at hm
    exact hB q m hm

theorem Bounded_weaken {t : BWTree K V} {p : Int} (hB : Bounded t (some p))
    (hs : ∀ n, t.mapping_table p = some n → n.GetSize ≤ 65533) : Bounded t none := by
  intro q m hm
  refine ⟨(hB q m hm).1, fun _ => ?_⟩
  by_cases e : q = p
  · subst e; exact hs m hm
  · exact (hB q m hm).2 (by simpa using Ne.symm e)

/-- The content after a change of the chain of one leaf: the new chain decides the
keys of the range of the leaf, every other key keeps its pairs. -/
theorem Sem_Update {t : BWTree K V} {g : Ghost K} {m m' : K → List (K × V)}
    (hI : Inv t g none) (hS : Sem t g m) {p : Int} {n n' : Node K V}
    (hn : t.mapping_table p = some n) (hl : g.lvl p = 0)
    (h1 : ∀ k, geLo (g.lo p) k → ltHi k (g.hi p) → matchSlots (GetAllData n') k = m' k)
    (h2 : ∀ k, ¬ (geLo (g.lo p) k ∧ ltHi k (g.hi p)) → m' k = m k) :
    Sem (t.Update p n') g m' := by
  intro q mq k hq hlq hlo hhi
  by_cases e : q = p
  · subst e
    simp only [BWTree.Update, if_true, Option.some.injEq] at hq
    subst hq
    exact h1 k hlo hhi
  · simp only [BWTree.Update, if_neg e] at hq
    rw [hS q mq k hq hlq hlo hhi]
    symm
    apply h2
    rintro ⟨h3, h4⟩
    have hqa := hI.alloc q mq hq
    have hpa := hI.alloc p n hn
    exact leaf_disjoint hI.ghost ⟨hqa.1, hqa.2, hlq⟩ ⟨hpa.1, hpa.2, hl⟩ e k hlo hhi h3 h4

end LeafOps

/-! ## The root leaf and the writers that publish one delta -/

section Writers

set_option linter.unusedSectionVars false

variable {K V : Type} [LinearOrder K] [DecidableEq V]

theorem EnsureRoot_of_root {t : BWTree K V} (h : t.m_root ≠ NULL_PID) : EnsureRoot t = t := by
  simp [EnsureRoot, h]

theorem Inv.root_ne {t : BWTree K V} {g : Ghost K} {pend : Option (Int × Int)}
    (hI : Inv t g pend) : t.m_root ≠ NULL_PID :=
  ne_NULL_of_nonneg hI.ghost.root_alloc.1

/-- The block that opens each operator leaves an index with the invariant and the
same content. -/
theorem EnsureRoot_models {t : BWTree K V} {m : K → List (K × V)} (hM : Models t m) :
    ∃ g, Inv (EnsureRoot t) g none ∧ Bounded (EnsureRoot t) none ∧ Sem (EnsureRoot t) g m := by
  rcases hM with ⟨hr, hh, hmap, hnp, hm⟩ | ⟨g, hI, hB, hS⟩
  · have hmt : ∀ q : Int, (EnsureRoot t).mapping_table q =
        if q = 0 then some AllocateLeaf else none := by
      intro q
      simp [EnsureRoot, hr, BWTree.Install, BWTree.Update, hnp, hmap]
    have hnext : (EnsureRoot t).next_pid = 1 := by
      simp [EnsureRoot, hr, BWTree.Install, BWTree.Update, hnp]
    have hroot : (EnsureRoot t).m_root = 0 := by
      simp [EnsureRoot, hr, BWTree.Install, hnp]
    have hhead : (EnsureRoot t).m_headleaf = 0 := by
      simp [EnsureRoot, hr, BWTree.Install, hnp]
    have hq0 : ∀ q : Int, 0 ≤ q → q < ((1 : Nat) : Int) → q = 0 := by
      intro q h0 h1; omega
    refine ⟨rootGhost K, ⟨?_, ?_, ?_⟩, ?_, ?_⟩
    · intro q n hq
      rw [hmt] at hq
      by_cases e : q = 0
      · subst e; rw [hnext]; constructor <;> simp
      · simp [e] at hq
    · intro q h0 h1
      rw [hnext] at h1
      have e := hq0 q h0 h1
      subst e
      refine ⟨AllocateLeaf, by rw [hmt]; simp, ?_⟩
      constructor <;>
        simp [AllocateLeaf, rootGhost, Node.GetLevel, Node.GetBaseNode, Node.GetParent,
          Node.GetNext, GetAllData, isInRange, Node.GetSize, Node.ChainOK]
    · rw [hnext, hroot, hhead]
      refine
        { root_alloc := by constructor <;> simp
          root_lo := rfl
          root_hi := rfl
          lvl_le := fun q h0 _ => by simpa [rootGhost] using h0
          lvl_root := fun q _ _ => le_refl _
          range := fun q _ _ => by intro l h e; cases e
          table := fun q _ _ h => absurd rfl h
          parent := fun q h0 h1 hne _ _ => absurd (hq0 q h0 h1) hne
          pending := fun x y e => by cases e
          leaves_nodup := by simp [rootGhost]
          leaves_len := by simp [rootGhost]
          leaves_mem := fun a ha => by
            simp only [rootGhost, List.mem_singleton] at ha
            subst ha
            simp [rootGhost]
          leaf_mem := fun q h0 h1 _ => by
            have := hq0 q h0 h1
            simp [rootGhost, this]
          path := by
            simp [rootGhost, LeafPath] }
    · intro q n hq
      rw [hmt] at hq
      by_cases e : q = 0
      · simp only [e, if_true, Option.some.injEq] at hq
        subst hq
        simp [AllocateLeaf, Node.GetSize]
      · simp [e] at hq
    · intro q n k hq _ _ _
      rw [hmt] at hq
      by_cases e : q = 0
      · simp only [e, if_true, Option.some.injEq] at hq
        subst hq
        rw [hm k]
        rfl
      · simp [e] at hq
  · rw [EnsureRoot_of_root hI.root_ne]
    exact ⟨g, hI, hB, hS⟩

theorem NodeOK_insert {g : Ghost K} {p : Int} {n : Node K V} (hok : NodeOK g p n)
    (hl : g.lvl p = 0) {k : K} (hlo : geLo (g.lo p) k) (hhi : ltHi k (g.hi p)) (v : V) :
    NodeOK g p (InsertNode k v n.GetLevel
      ((if LeafContainsKey n k then 0 else 1) + n.GetSize) (nextLength n) n) where
  level := hok.level
  base_level := hok.base_level
  parent := hok.parent
  next := hok.next
  sorted := fun h => insertSlot_sorted (hok.sorted h)
  keys := fun h s hs => by
    rcases mem_insertSlot hs with e | e
    · rw [e]; exact ⟨hlo, hhi⟩
    · exact hok.keys h s e
  inRange := hok.inRange
  data_size := fun h => by
    have h1 := length_insertSlot (k := k) (v := v) (hok.sorted h)
    have h2 := hok.data_size h
    show (insertSlot k v (GetAllData n)).length ≤
      (if VectorContainsKey2 (GetAllData n) k = true then 0 else 1) + n.GetSize
    rw [h1]
    omega
  table := fun h => absurd hl h
  route := fun h => absurd hl h
  table_size := fun h => absurd hl h
  nonempty := fun h => nonempty_insertSlot (hok.nonempty h)
  chain := ⟨rfl, nextLength_eq n, hok.chain⟩

theorem NodeOK_update {g : Ghost K} {p : Int} {n : Node K V} (hok : NodeOK g p n)
    (hl : g.lvl p = 0) (k : K) (v : V) :
    NodeOK g p (UpdateNode k v n.GetLevel n.GetSize (nextLength n) n) where
  level := hok.level
  base_level := hok.base_level
  parent := hok.parent
  next := hok.next
  sorted := fun h => updateSlot_sorted (hok.sorted h)
  keys := fun h s hs => by
    obtain ⟨s', hs', e⟩ := mem_updateSlot hs
    rw [← e]
    exact hok.keys h s' hs'
  inRange := hok.inRange
  data_size := fun h => by
    have h2 := hok.data_size h
    show (updateSlot k v (GetAllData n)).length ≤ n.GetSize
    rw [length_updateSlot]
    exact h2
  table := fun h => absurd hl h
  route := fun h => absurd hl h
  table_size := fun h => absurd hl h
  nonempty := fun h => nonempty_updateSlot (hok.nonempty h)
  chain := ⟨rfl, nextLength_eq n, hok.chain⟩

theorem NodeOK_deleteKey {g : Ghost K} {p : Int} {n : Node K V} (hok : NodeOK g p n)
    (hl : g.lvl p = 0) (k : K) :
    NodeOK g p (DeleteNode k none n.GetLevel n.GetSize (nextLength n) n) where
  level := hok.level
  base_level := hok.base_level
  parent := hok.parent
  next := hok.next
  sorted := fun h => deleteKeySlot_sorted (hok.sorted h)
  keys := fun h s hs => hok.keys h s (mem_deleteKeySlot hs).1
  inRange := hok.inRange
  data_size := fun h => le_trans (length_deleteKeySlot k _) (hok.data_size h)
  table := fun h => absurd hl h
  route := fun h => absurd hl h
  table_size := fun h => absurd hl h
  nonempty := fun h s hs => hok.nonempty h s (mem_deleteKeySlot hs).1
  chain := ⟨rfl, nextLength_eq n, hok.chain⟩

theorem NodeOK_deleteData {g : Ghost K} {p : Int} {n : Node K V} (hok : NodeOK g p n)
    (hl : g.lvl p = 0) (k : K) (v : V) :
    NodeOK g p (DeleteNode k (some v) n.GetLevel n.GetSize (nextLength n) n) where
  level := hok.level
  base_level := hok.base_level
  parent := hok.parent
  next := hok.next
  sorted := fun h => deletePairSlot_sorted (hok.sorted h)
  keys := fun h s hs => by
    obtain ⟨s', hs', e⟩ := mem_deletePairSlot hs
    rw [← e]
    exact hok.keys h s' hs'
  inRange := hok.inRange
  data_size := fun h => le_trans (length_deletePairSlot k v _) (hok.data_size h)
  table := fun h => absurd hl h
  route := fun h => absurd hl h
  table_size := fun h => absurd hl h
  nonempty := fun h => nonempty_deletePairSlot (hok.nonempty h)
  chain := ⟨rfl, nextLength_eq n, hok.chain⟩

/-- The pairs a content function names for a key all have that key, when the index
holds the content. -/
theorem Sem_key {t : BWTree K V} {g : Ghost K} {m : K → List (K × V)}
    (hI : Inv t g none) (hS : Sem t g m) {k : K} {x : K × V} (hx : x ∈ m k) : x.1 = k := by
  obtain ⟨p, n, hn, _, _, hl, hlo, hhi, _⟩ := locate_inv hI k
  rw [← hS p n k hn hl hlo hhi] at hx
  exact mem_matchSlots hx

/-- `DeleteData` returns on a well-formed index, and the index it leaves holds the
old content without the pairs equal to the deleted pair. -/
theorem DeleteData_models {t : BWTree K V} {m : K → List (K × V)} (hM : Models t m)
    (x : K × V) :
    ∃ t', DeleteData t x = some t' ∧
      Models t' (fun k => (m k).filter (fun p => decide (¬ (p.1 = x.1 ∧ p.2 = x.2)))) := by
  obtain ⟨g, hI, hB, hS⟩ := EnsureRoot_models hM
  obtain ⟨p, n, hn, hok, h0, hl, hlo, hhi, _, hloc, _⟩ := locate_inv hI x.1
  refine ⟨_, ?_, Or.inr ⟨g, Inv_Update hI hn (NodeOK_deleteData hok hl x.1 x.2),
    Bounded_Update_small hB p ((hB p n hn).2 (by simp)), ?_⟩⟩
  · unfold DeleteData
    simp only [hloc, GetNode, hn]
  · apply Sem_Update hI hS hn hl
    · intro k h1 h2
      show matchSlots (deletePairSlot x.1 x.2 (GetAllData n)) k = _
      rw [matchSlots_deletePairSlot, hS p n k hn hl h1 h2]
    · intro k hk
      rw [List.filter_eq_self]
      intro y hy
      have hy1 := Sem_key hI hS hy
      have hne : k ≠ x.1 := fun e => hk (by rw [e]; exact ⟨hlo, hhi⟩)
      simp only [decide_eq_true_eq, not_and]
      intro e
      exact absurd (hy1.symm.trans e) hne

/-- `DeleteKey` returns on a well-formed index, and the index it leaves holds the
old content without the pairs of the key. -/
theorem DeleteKey_models {t : BWTree K V} {m : K → List (K × V)} (hM : Models t m)
    (x : K) :
    ∃ t', DeleteKey t x = some t' ∧ Models t' (fun k => if k = x then [] else m k) := by
  obtain ⟨g, hI, hB, hS⟩ := EnsureRoot_models hM
  obtain ⟨p, n, hn, hok, h0, hl, hlo, hhi, _, hloc, _⟩ := locate_inv hI x
  refine ⟨_, ?_, Or.inr ⟨g, Inv_Update hI hn (NodeOK_deleteKey hok hl x),
    Bounded_Update_small hB p ((hB p n hn).2 (by simp)), ?_⟩⟩
  · unfold DeleteKey
    simp only [hloc, GetNode, hn]
  · apply Sem_Update hI hS hn hl
    · intro k h1 h2
      show matchSlots (deleteKeySlot x (GetAllData n)) k = _
      rw [matchSlots_deleteKeySlot, hS p n k hn hl h1 h2]
    · intro k hk
      have hne : k ≠ x := fun e => hk (by rw [e]; exact ⟨hlo, hhi⟩)
      rw [if_neg hne]

/-- `UpdateData` returns on a well-formed index, and the index it leaves is
well-formed and holds the old pairs of every other key. -/
theorem UpdateData_models {t : BWTree K V} {m : K → List (K × V)} (hM : Models t m)
    (x : K × V) :
    ∃ t' m', UpdateData t x = some t' ∧ Models t' m' ∧ ∀ k, k ≠ x.1 → m' k = m k := by
  obtain ⟨g, hI, hB, hS⟩ := EnsureRoot_models hM
  obtain ⟨p, n, hn, hok, h0, hl, hlo, hhi, _, hloc, _⟩ := locate_inv hI x.1
  by_cases hc : LeafContainsKey n x.1 = false
  · refine ⟨EnsureRoot t, m, ?_, Or.inr ⟨g, hI, hB, hS⟩, fun _ _ => rfl⟩
    unfold UpdateData
    simp only [hloc, GetNode, hn, hc, if_true]
  · refine ⟨_, fun k => if k = x.1 then
        (if VectorContainsKey2 (GetAllData n) x.1 = true then [(x.1, x.2)] else []) else m k,
      ?_, Or.inr ⟨g, Inv_Update hI hn (NodeOK_update hok hl x.1 x.2),
        Bounded_Update_small hB p ((hB p n hn).2 (by simp)), ?_⟩, ?_⟩
    · have hc' : LeafContainsKey n x.1 = true := by simpa using hc
      unfold UpdateData
      simp [hloc, GetNode, hn, hc']
    · apply Sem_Update hI hS hn hl
      · intro k h1 h2
        show matchSlots (updateSlot x.1 x.2 (GetAllData n)) k = _
        rw [matchSlots_updateSlot (hok.sorted hl), hS p n k hn hl h1 h2]
      · intro k hk
        have hne : k ≠ x.1 := fun e => hk (by rw [e]; exact ⟨hlo, hhi⟩)
        rw [if_neg hne]
    · intro k hk
      exact if_neg hk

/-- The state of `InsertData` after its delta is published and before the split
test: the invariant holds, only the size at the leaf may have reached 65534, and
the content has the new pair. -/
theorem insert_delta_models {t : BWTree K V} {g : Ghost K} {m : K → List (K × V)}
    (hI : Inv t g none) (hB : Bounded t none) (hS : Sem t g m) (x : K × V)
    {p : Int} {n : Node K V} (hn : t.mapping_table p = some n) (hok : NodeOK g p n)
    (hl : g.lvl p = 0) (hlo : geLo (g.lo p) x.1) (hhi : ltHi x.1 (g.hi p)) :
    Inv (t.Update p (InsertNode x.1 x.2 n.GetLevel
        ((if LeafContainsKey n x.1 then 0 else 1) + n.GetSize) (nextLength n) n)) g none ∧
    Bounded (t.Update p (InsertNode x.1 x.2 n.GetLevel
        ((if LeafContainsKey n x.1 then 0 else 1) + n.GetSize) (nextLength n) n)) (some p) ∧
    Sem (t.Update p (InsertNode x.1 x.2 n.GetLevel
        ((if LeafContainsKey n x.1 then 0 else 1) + n.GetSize) (nextLength n) n)) g
      (fun k => m k ++ (if k = x.1 then [(x.1, x.2)] else [])) := by
  refine ⟨Inv_Update hI hn (NodeOK_insert hok hl hlo hhi x.2), Bounded_Update hB p ?_, ?_⟩
  · have := (hB p n hn).2 (by simp)
    show (if LeafContainsKey n x.1 = true then 0 else 1) + n.GetSize ≤ 65534
    split_ifs <;> omega
  · apply Sem_Update hI hS hn hl
    · intro k h1 h2
      show matchSlots (insertSlot x.1 x.2 (GetAllData n)) k = _
      rw [matchSlots_insertSlot (hok.sorted hl), hS p n k hn hl h1 h2]
    · intro k hk
      have hne : k ≠ x.1 := fun e => hk (by rw [e]; exact ⟨hlo, hhi⟩)
      rw [if_neg hne, List.append_nil]

end Writers

/-! ## Growth of the root -/

section GrowRootLemmas

set_option linter.unusedSectionVars false

variable {K V : Type} [LinearOrder K] [DecidableEq V]

theorem NodeOK_congr {g g' : Ghost K} {q : Int} {n : Node K V} (h : NodeOK g q n)
    (e1 : g'.lvl q = g.lvl q) (e2 : g'.par q = g.par q) (e3 : g'.nxt q = g.nxt q)
    (e4 : g'.lo q = g.lo q) (e5 : g'.hi q = g.hi q) (e6 : g'.tbl q = g.tbl q) :
    NodeOK g' q n := by
  constructor
  · rw [e1]; exact h.level
  · rw [e1]; exact h.base_level
  · rw [e2]; exact h.parent
  · rw [e1, e3]; exact h.next
  · rw [e1]; exact h.sorted
  · rw [e1, e4, e5]; exact h.keys
  · rw [e1, e5]; exact h.inRange
  · rw [e1]; exact h.data_size
  · rw [e1, e6]; exact h.table
  · rw [e1, e4, e5, e6]; exact h.route
  · rw [e1, e6]; exact h.table_size
  · rw [e1]; exact h.nonempty
  · exact h.chain

theorem NodeOK_SetParent {g g' : Ghost K} {q : Int} {n : Node K V} (h : NodeOK g q n)
    (x : Int)
    (e1 : g'.lvl q = g.lvl q) (e2 : g'.par q = x) (e3 : g'.nxt q = g.nxt q)
    (e4 : g'.lo q = g.lo q) (e5 : g'.hi q = g.hi q) (e6 : g'.tbl q = g.tbl q) :
    NodeOK g' q (n.SetParent x) := by
  constructor
  · rw [e1, Node.GetLevel_SetParent]; exact h.level
  · rw [e1, Node.baseLevel_SetParent]; exact h.base_level
  · rw [e2, Node.baseParent_SetParent]
  · rw [e1, e3, Node.baseNext_SetParent]; exact h.next
  · rw [e1, GetAllData_SetParent]; exact h.sorted
  · rw [e1, e4, e5, GetAllData_SetParent]; exact h.keys
  · rw [e1, e5]; intro hl k hk; rw [isInRange_SetParent]; exact h.inRange hl k hk
  · rw [e1, GetAllData_SetParent, Node.GetSize_SetParent]; exact h.data_size
  · rw [e1, e6, GetAllPointer_SetParent]; exact h.table
  · rw [e1, e4, e5, e6]; intro hl k h1 h2; rw [findNext_SetParent]; exact h.route hl k h1 h2
  · rw [e1, e6, Node.GetSize_SetParent]; exact h.table_size
  · rw [e1, GetAllData_SetParent]; exact h.nonempty
  · rw [Node.ChainOK_SetParent]; exact h.chain

theorem NodeOK_SetPrev {g : Ghost K} {q : Int} {n : Node K V} (h : NodeOK g q n) (x : Int) :
    NodeOK g q (n.SetPrev x) := by
  constructor
  · rw [Node.GetLevel_SetPrev]; exact h.level
  · rw [Node.baseLevel_SetPrev]; exact h.base_level
  · rw [Node.baseParent_SetPrev]; exact h.parent
  · rw [Node.baseNext_SetPrev]; exact h.next
  · rw [GetAllData_SetPrev]; exact h.sorted
  · rw [GetAllData_SetPrev]; exact h.keys
  · intro hl k hk; rw [isInRange_SetPrev]; exact h.inRange hl k hk
  · rw [GetAllData_SetPrev, Node.GetSize_SetPrev]; exact h.data_size
  · rw [GetAllPointer_SetPrev]; exact h.table
  · intro hl k h1 h2; rw [findNext_SetPrev]; exact h.route hl k h1 h2
  · rw [Node.GetSize_SetPrev]; exact h.table_size
  · rw [GetAllData_SetPrev]; exact h.nonempty
  · rw [Node.ChainOK_SetPrev]; exact h.chain

theorem LeafPath_congr {g g' : Ghost K} :
    ∀ (L : List Int) (h : Int),
      (∀ a ∈ L, g'.nxt a = g.nxt a ∧ g'.lo a = g.lo a ∧ g'.hi a = g.hi a) →
      LeafPath g h L → LeafPath g' h L := by
  intro L
  induction L with
  | nil => intro h _ hp; exact hp
  | cons a rest ih =>
    intro h he hp
    obtain ⟨h1, h2, h3⟩ := LeafPath_cons.mp hp
    obtain ⟨e1, e2, e3⟩ := he a (List.mem_cons_self _ _)
    refine LeafPath_cons.mpr ⟨h1, ?_, ?_⟩
    · rw [e1]
      exact ih _ (fun b hb => he b (List.mem_cons_of_mem _ hb)) h2
    · intro b hb
      obtain ⟨x, hx1, hx2⟩ := h3 b hb
      have hbm : b ∈ rest := by
        cases rest with
        | nil => simp at hb
        | cons c r =>
          simp only [List.head?_cons, Option.some.injEq] at hb
          rw [← hb]; exact List.mem_cons_self _ _
      refine ⟨x, by rw [e3]; exact hx1, ?_⟩
      rw [(he b (List.mem_cons_of_mem _ hbm)).2.1]
      exact hx2

/-- A routing table carries over to a ghost description that agrees on the table
entry of `q` and on the entries of its children. -/
theorem TableOK_congr {N N' : Nat} {g g' : Ghost K} {q : Int} {pend' : Option (Int × Int)}
    (h : TableOK N none g q) (hN : N ≤ N')
    (e1 : g'.tbl q = g.tbl q) (e2 : g'.lo q = g.lo q) (e3 : g'.hi q = g.hi q)
    (e4 : g'.lvl q = g.lvl q)
    (hc : ∀ c ∈ (g.tbl q).1 :: (g.tbl q).2.map Prod.snd, 0 ≤ c → c < N →
      g'.lo c = g.lo c ∧ g'.hi c = g.hi c ∧ g'.par c = g.par c ∧ g'.lvl c = g.lvl c) :
    TableOK N' pend' g' q := by
  constructor
  · rw [e1]; exact h.sorted
  · rw [e1, e2, e3]; exact h.keys
  · rw [e1]; exact h.nodup
  · rw [e1, e2, e3, e4]
    intro c l hh hm
    obtain ⟨c0, c1, c2, c3, c4, c5⟩ := h.children c l hh hm
    obtain ⟨d1, d2, d3, d4⟩ := hc c (pid_of_mem_childBounds hm) c0 c1
    refine ⟨c0, by omega, by rw [d1]; exact c2, by rw [d3]; exact c3, by rw [d4]; exact c4, ?_⟩
    left
    rw [d2]
    rcases c5 with e | ⟨y, e, _⟩
    · exact e
    · cases e

theorem GrowRoot_not_root {t : BWTree K V} {pid : Int} (lev : Node K V → Nat)
    (hr : t.m_root ≠ pid) : GrowRoot t pid lev = some t := by
  simp [GrowRoot, hr]

theorem GrowRoot_root {t : BWTree K V} {pid : Int} {n : Node K V} (lev : Node K V → Nat)
    (hr : t.m_root = pid) (hn : t.mapping_table pid = some n) :
    ∃ t', GrowRoot t pid lev = some t' ∧
      (∀ q : Int, t'.mapping_table q =
        if q = pid then some (n.SetParent t.next_pid)
        else if q = t.next_pid then some (AllocateInner (lev n.GetBaseNode) pid)
        else t.mapping_table q) ∧
      t'.m_root = t.next_pid ∧ t'.m_headleaf = t.m_headleaf ∧
      t'.next_pid = t.next_pid + 1 :=
  ⟨{ ((t.Install (AllocateInner (lev n.GetBaseNode) pid)).2.Update pid
        (n.SetParent (t.Install (AllocateInner (lev n.GetBaseNode) pid)).1)) with
      m_root := (t.Install (AllocateInner (lev n.GetBaseNode) pid)).1 },
    by simp [GrowRoot, hr, GetNode, hn],
    by intro q; simp [BWTree.Install, BWTree.Update], rfl, rfl, rfl⟩

/-- Growth of the root keeps the invariant and the content.  The old root keeps
its chain up to the parent of its base, its level and its range; the new root is
an inner base of size 0. -/
theorem GrowRoot_models {t : BWTree K V} {g : Ghost K} {m : K → List (K × V)}
    {bx : Option Int} (hI : Inv t g none) (hB : Bounded t bx) (hS : Sem t g m)
    {pid : Int} {n : Node K V} (hn : t.mapping_table pid = some n) (lev : Node K V → Nat)
    (hlev : lev n.GetBaseNode = g.lvl pid + 1) :
    ∃ t' g' n', GrowRoot t pid lev = some t' ∧ Inv t' g' none ∧ Bounded t' bx ∧
      Sem t' g' m ∧ t'.mapping_table pid = some n' ∧ t'.m_root ≠ pid ∧
      (n' = n ∨ ∃ x, n' = n.SetParent x) ∧
      g'.lvl pid = g.lvl pid ∧ g'.lo pid = g.lo pid ∧ g'.hi pid = g.hi pid ∧
      g'.nxt pid = g.nxt pid ∧ g'.tbl pid = g.tbl pid ∧
      (t.m_root = pid → ∃ nR, t'.mapping_table (g'.par pid) = some nR ∧ nR.GetSize = 0 ∧
        nR.IsDelta = false) := by
  by_cases hr : t.m_root = pid
  · obtain ⟨t', ht', hmt, hroot', hhead', hnext'⟩ := GrowRoot_root lev hr hn
    have hG := hI.ghost
    obtain ⟨hp0, hp1⟩ := hI.alloc pid n hn
    have hokp := hI.node hn
    have hpN : pid ≠ (t.next_pid : Int) := by omega
    have glo : ∀ q : Int, q ≠ t.next_pid → (growGhost g pid t.next_pid).lo q = g.lo q :=
      fun q h => by simp [growGhost, Function.update_noteq h]
    have ghi : ∀ q : Int, q ≠ t.next_pid → (growGhost g pid t.next_pid).hi q = g.hi q :=
      fun q h => by simp [growGhost, Function.update_noteq h]
    have glvl : ∀ q : Int, q ≠ t.next_pid → (growGhost g pid t.next_pid).lvl q = g.lvl q :=
      fun q h => by simp [growGhost, Function.update_noteq h]
    have gtbl : ∀ q : Int, q ≠ t.next_pid → (growGhost g pid t.next_pid).tbl q = g.tbl q :=
      fun q h => by simp [growGhost, Function.update_noteq h]
    have gpar : ∀ q : Int, q ≠ t.next_pid → q ≠ pid →
        (growGhost g pid t.next_pid).par q = g.par q :=
      fun q h h' => by simp [growGhost, Function.update_noteq h, Function.update_noteq h']
    have gparp : (growGhost g pid t.next_pid).par pid = t.next_pid := by
      simp [growGhost]
    have gparN : (growGhost g pid t.next_pid).par t.next_pid = NULL_PID := by
      simp [growGhost, Function.update_noteq (Ne.symm hpN)]
    have gloN : (growGhost g pid t.next_pid).lo t.next_pid = none := by simp [growGhost]
    have ghiN : (growGhost g pid t.next_pid).hi t.next_pid = none := by simp [growGhost]
    have glvlN : (growGhost g pid t.next_pid).lvl t.next_pid = g.lvl pid + 1 := by
      simp [growGhost]
    have gtblN : (growGhost g pid t.next_pid).tbl t.next_pid = (pid, []) := by
      simp [growGhost]
    have hlo_root : g.lo pid = none := hr ▸ hG.root_lo
    have hhi_root : g.hi pid = none := hr ▸ hG.root_hi
    have hInv : Inv t' (growGhost g pid t.next_pid) none := by
      refine ⟨?_, ?_, ?_⟩
      · intro q nq hq
        rw [hmt] at hq
        rw [hnext']
        by_cases e1 : q = pid
        · subst e1; exact ⟨hp0, by push_cast; omega⟩
        · by_cases e2 : q = t.next_pid
          · subst e2; exact ⟨by omega, by push_cast; omega⟩
          · simp only [if_neg e1, if_neg e2] at hq
            have := hI.alloc q nq hq
            exact ⟨this.1, by push_cast; omega⟩
      · intro q h0 h1
        rw [hmt]
        by_cases e1 : q = pid
        · subst e1
          refine ⟨_, if_pos rfl, ?_⟩
          exact NodeOK_SetParent hokp _ (glvl q hpN) gparp rfl (glo q hpN) (ghi q hpN)
            (gtbl q hpN)
        · by_cases e2 : q = t.next_pid
          · subst e2
            refine ⟨_, by rw [if_neg e1, if_pos rfl], ?_⟩
            have hne : g.lvl pid + 1 ≠ 0 := by omega
            constructor
            · rw [glvlN, ← hlev]; rfl
            · rw [glvlN, ← hlev]; rfl
            · rw [gparN]; rfl
            · rw [glvlN]; intro h; exact absurd h hne
            · rw [glvlN]; intro h; exact absurd h hne
            · rw [glvlN]; intro h; exact absurd h hne
            · rw [glvlN]; intro h; exact absurd h hne
            · rw [glvlN]; intro h; exact absurd h hne
            · intro _; rw [gtblN]; rfl
            · intro _ k _ _; rw [gtblN]; rfl
            · intro _; rw [gtblN]; simp [AllocateInner, Node.GetSize]
            · rw [glvlN]; intro h; exact absurd h hne
            · show lev n.GetBaseNode ≠ 0
              rw [hlev]; exact Nat.succ_ne_zero _
          · rw [hnext'] at h1
            have h1' : q < t.next_pid := by push_cast at h1; omega
            obtain ⟨nq, hq, hok⟩ := hI.nodes q h0 h1'
            refine ⟨nq, by rw [if_neg e1, if_neg e2]; exact hq, ?_⟩
            exact NodeOK_congr hok (glvl q e2) (gpar q e2 e1) rfl (glo q e2) (ghi q e2)
              (gtbl q e2)
      · rw [hnext', hroot', hhead']
        have hlt : ∀ q : Int, q < ((t.next_pid + 1 : Nat) : Int) → q ≠ t.next_pid →
            q < t.next_pid := by
          intro q h1 h2; push_cast at h1; omega
        refine
          { root_alloc := ⟨by omega, by push_cast; omega⟩
            root_lo := gloN
            root_hi := ghiN
            lvl_le := ?_
            lvl_root := ?_
            range := ?_
            table := ?_
            parent := ?_
            pending := fun x y e => by cases e
            leaves_nodup := hG.leaves_nodup
            leaves_len := le_trans hG.leaves_len (Nat.le_succ _)
            leaves_mem := ?_
            leaf_mem := ?_
            path := ?_ }
        · intro q h0 h1
          by_cases e2 : q = t.next_pid
          · subst e2
            rw [glvlN]
            have := hG.lvl_le pid hp0 hp1
            push_cast; omega
          · rw [glvl q e2]; exact hG.lvl_le q h0 (hlt q h1 e2)
        · intro q h0 h1
          rw [glvlN]
          by_cases e2 : q = t.next_pid
          · subst e2; rw [glvlN]
          · rw [glvl q e2]
            have := hG.lvl_root q h0 (hlt q h1 e2)
            rw [hr] at this
            omega
        · intro q h0 h1
          by_cases e2 : q = t.next_pid
          · subst e2; rw [gloN]; intro l h e; cases e
          · rw [glo q e2, ghi q e2]; exact hG.range q h0 (hlt q h1 e2)
        · intro q h0 h1 hl
          by_cases e2 : q = t.next_pid
          · subst e2
            constructor
            · rw [gtblN]; exact List.Pairwise.nil
            · rw [gtblN]; intro e he; simp at he
            · rw [gtblN]; simp
            · rw [gtblN, gloN, ghiN]
              intro c l h hm
              simp only [childBounds, List.mem_singleton, Prod.mk.injEq] at hm
              obtain ⟨rfl, rfl, rfl⟩ := hm
              refine ⟨hp0, by push_cast; omega, ?_, gparp, ?_, Or.inl ?_⟩
              · rw [glo c hpN]; exact hlo_root
              · rw [glvl c hpN, glvlN]
              · rw [ghi c hpN]; exact hhi_root
          · rw [glvl q e2] at hl
            have hq1 := hlt q h1 e2
            have hT := hG.table q h0 hq1 hl
            refine TableOK_congr hT (Nat.le_succ _) (gtbl q e2) (glo q e2) (ghi q e2)
              (glvl q e2) ?_
            intro c hc c0 c1
            have hcN : c ≠ t.next_pid := by omega
            have hcp : c ≠ pid := by
              intro e
              subst e
              obtain ⟨l, h, hm⟩ := mem_childBounds_of_pid (g.lo q) (g.hi q) hc
              have h4 := (hT.children _ _ _ hm).2.2.2.2.1
              have h5 := hG.lvl_root q h0 hq1
              rw [hr] at h5
              omega
            exact ⟨glo c hcN, ghi c hcN, gpar c hcN hcp, glvl c hcN⟩
        · intro q h0 h1 hne hlive _
          have e2 : q ≠ t.next_pid := hne
          have hq1 := hlt q h1 e2
          by_cases e1 : q = pid
          · subst e1
            rw [gparp, glvlN, glvl q e2, gtblN, gloN, ghiN, glo q e2, ghi q e2,
              hlo_root, hhi_root]
            refine ⟨by omega, by push_cast; omega, rfl, ?_⟩
            simp [childBounds]
          · rw [glo q e2, ghi q e2] at hlive
            obtain ⟨a0, a1, a2, a3⟩ := hG.parent q h0 hq1 (by rw [hr]; exact e1) hlive
              (fun x y e => by cases e)
            have hpq : g.par q ≠ t.next_pid := by omega
            rw [gpar q e2 e1, glvl q e2, glvl _ hpq, gtbl _ hpq, glo _ hpq, ghi _ hpq,
              glo q e2, ghi q e2]
            exact ⟨a0, by push_cast; omega, a2, a3⟩
        · intro a ha
          obtain ⟨a0, a1, a2⟩ := hG.leaves_mem a ha
          have : a ≠ t.next_pid := by omega
          exact ⟨a0, by push_cast; omega, by rw [glvl a this]; exact a2⟩
        · intro q h0 h1 hl
          by_cases e2 : q = t.next_pid
          · subst e2; rw [glvlN] at hl; omega
          · rw [glvl q e2] at hl
            exact hG.leaf_mem q h0 (hlt q h1 e2) hl
        · refine LeafPath_congr g.leaves _ ?_ hG.path
          intro a ha
          obtain ⟨a0, a1, a2⟩ := hG.leaves_mem a ha
          have : a ≠ t.next_pid := by omega
          exact ⟨rfl, glo a this, ghi a this⟩
    refine ⟨t', growGhost g pid t.next_pid, n.SetParent t.next_pid, ht', hInv, ?_, ?_,
      by rw [hmt]; exact if_pos rfl, by rw [hroot']; exact Ne.symm hpN,
      Or.inr ⟨_, rfl⟩, glvl pid hpN, glo pid hpN, ghi pid hpN, rfl, gtbl pid hpN, ?_⟩
    · intro q nq hq
      rw [hmt] at hq
      by_cases e1 : q = pid
      · subst e1
        simp only [if_true, Option.some.injEq] at hq
        subst hq
        rw [Node.GetSize_SetParent]
        exact hB q n hn
      · by_cases e2 : q = t.next_pid
        · rw [if_neg e1, if_pos e2] at hq
          cases hq
          simp [AllocateInner, Node.GetSize]
        · simp only [if_neg e1, if_neg e2] at hq
          exact hB q nq hq
    · intro q nq k hq hl hlo hhi
      rw [hmt] at hq
      by_cases e1 : q = pid
      · subst e1
        simp only [if_true, Option.some.injEq] at hq
        subst hq
        rw [GetAllData_SetParent]
        rw [glvl q hpN] at hl
        rw [glo q hpN] at hlo
        rw [ghi q hpN] at hhi
        exact hS q n k hn hl hlo hhi
      · by_cases e2 : q = t.next_pid
        · subst e2
          rw [glvlN] at hl
          omega
        · simp only [if_neg e1, if_neg e2] at hq
          rw [glvl q e2] at hl
          rw [glo q e2] at hlo
          rw [ghi q e2] at hhi
          exact hS q nq k hq hl hlo hhi
    · intro _
      refine ⟨AllocateInner (lev n.GetBaseNode) pid, ?_, rfl, rfl⟩
      rw [gparp, hmt, if_neg (Ne.symm hpN), if_pos rfl]
  · refine ⟨t, g, n, GrowRoot_not_root lev hr, hI, hB, hS, hn, hr, Or.inl rfl, rfl, rfl, rfl,
      rfl, rfl, fun e => absurd e hr⟩

end GrowRootLemmas

/-! ## Split of a leaf: the split delta and the new sibling -/

section LeafSplit

set_option linter.unusedSectionVars false

variable {K V : Type} [LinearOrder K] [DecidableEq V]

theorem mem_insertAfter {p s x : Int} {L : List Int} :
    x ∈ insertAfter p s L ↔ x ∈ L ∨ (x = s ∧ p ∈ L) := by
  induction L with
  | nil => simp [insertAfter]
  | cons a rest ih =>
    by_cases e : a = p
    · subst e
      simp only [insertAfter, if_true, List.mem_cons]
      tauto
    · have e' : ¬ p = a := fun h => e h.symm
      simp only [insertAfter, if_neg e, List.mem_cons, ih]
      tauto

theorem insertAfter_of_not_mem {p s : Int} {L : List Int} (h : p ∉ L) :
    insertAfter p s L = L := by
  induction L with
  | nil => rfl
  | cons a rest ih =>
    have h1 : a ≠ p := fun e => h (by rw [e]; exact List.mem_cons_self _ _)
    have h2 : p ∉ rest := fun e => h (List.mem_cons_of_mem _ e)
    simp [insertAfter, h1, ih h2]

theorem head?_insertAfter (p s : Int) (L : List Int) :
    (insertAfter p s L).head? = L.head? := by
  cases L with
  | nil => rfl
  | cons a rest =>
    by_cases e : a = p
    · simp [insertAfter, e]
    · simp [insertAfter, e]

theorem length_insertAfter_le (p s : Int) (L : List Int) :
    (insertAfter p s L).length ≤ L.length + 1 := by
  induction L with
  | nil => simp [insertAfter]
  | cons a rest ih =>
    by_cases e : a = p
    · simp [insertAfter, e]
    · simp only [insertAfter, if_neg e, List.length_cons]
      omega

theorem nodup_insertAfter {p s : Int} {L : List Int} (h : L.Nodup) (hs : s ∉ L) :
    (insertAfter p s L).Nodup := by
  induction L with
  | nil => simp [insertAfter]
  | cons a rest ih =>
    have h' := List.nodup_cons.mp h
    have hs1 : s ≠ a := fun e => hs (by rw [e]; exact List.mem_cons_self _ _)
    have hs2 : s ∉ rest := fun e => hs (List.mem_cons_of_mem _ e)
    by_cases e : a = p
    · simp only [insertAfter, if_pos e]
      rw [List.nodup_cons, List.nodup_cons]
      refine ⟨?_, hs2, h'.2⟩
      intro hm
      rcases List.mem_cons.mp hm with e1 | e1
      · exact hs1 e1.symm
      · exact h'.1 e1
    · simp only [insertAfter, if_neg e]
      rw [List.nodup_cons]
      refine ⟨?_, ih h'.2 hs2⟩
      intro hm
      rcases mem_insertAfter.mp hm with e1 | ⟨e1, _⟩
      · exact h'.1 e1
      · exact hs1 e1.symm

/-- The next leaf of a leaf of the chain is `NULL_PID` or another leaf of the chain. -/
theorem LeafPath_next_mem {g : Ghost K} :
    ∀ (L : List Int) (h : Int), LeafPath g h L → L.Nodup → ∀ a ∈ L,
      g.nxt a = NULL_PID ∨ (g.nxt a ∈ L ∧ g.nxt a ≠ a) := by
  intro L
  induction L with
  | nil => intro h _ _ a ha; simp at ha
  | cons a1 rest ih =>
    intro h hp hnd a ha
    obtain ⟨_, h2, _⟩ := LeafPath_cons.mp hp
    have hnd' := List.nodup_cons.mp hnd
    rcases List.mem_cons.mp ha with e | e
    · subst e
      cases rest with
      | nil => left; exact h2
      | cons b r =>
        right
        have hb : g.nxt a = b := (LeafPath_cons.mp h2).1
        rw [hb]
        refine ⟨List.mem_cons_of_mem _ (List.mem_cons_self _ _), ?_⟩
        intro e
        exact hnd'.1 (by rw [← e]; exact List.mem_cons_self _ _)
    · rcases ih _ h2 hnd'.2 a e with h3 | ⟨h3, h4⟩
      · exact Or.inl h3
      · exact Or.inr ⟨List.mem_cons_of_mem _ h3, h4⟩

theorem LeafPath_insertAfter {g : Ghost K} (p s : Int) (sk : K) :
    ∀ (L : List Int) (h : Int), LeafPath g h L → L.Nodup → s ∉ L →
      LeafPath (leafSplitGhost g p s sk) h (insertAfter p s L) := by
  intro L
  induction L with
  | nil => intro h hp _ _; exact hp
  | cons a rest ih =>
    intro h hp hnd hs
    obtain ⟨h1, h2, h3⟩ := LeafPath_cons.mp hp
    have hnd' := List.nodup_cons.mp hnd
    have hs1 : s ≠ a := fun e => hs (by rw [e]; exact List.mem_cons_self _ _)
    have hs2 : s ∉ rest := fun e => hs (List.mem_cons_of_mem _ e)
    by_cases e : a = p
    · subst e
      simp only [insertAfter, if_true]
      refine LeafPath_cons.mpr ⟨h1, ?_, ?_⟩
      · have hn1 : (leafSplitGhost g a s sk).nxt a = s := by simp [leafSplitGhost]
        rw [hn1]
        refine LeafPath_cons.mpr ⟨rfl, ?_, ?_⟩
        · have hn2 : (leafSplitGhost g a s sk).nxt s = g.nxt a := by
            simp [leafSplitGhost, Function.update_noteq hs1]
          rw [hn2]
          refine LeafPath_congr rest _ ?_ h2
          intro b hb
          have hba : b ≠ a := fun e => hnd'.1 (by rw [← e]; exact hb)
          have hbs : b ≠ s := fun e => hs2 (by rw [← e]; exact hb)
          simp [leafSplitGhost, Function.update_noteq hba, Function.update_noteq hbs]
        · intro b hb
          obtain ⟨x, hx1, hx2⟩ := h3 b hb
          have hbm : b ∈ rest := by
            cases rest with
            | nil => simp at hb
            | cons c r =>
              simp only [List.head?_cons, Option.some.injEq] at hb
              rw [← hb]; exact List.mem_cons_self _ _
          have hbs : b ≠ s := fun e => hs2 (by rw [← e]; exact hbm)
          refine ⟨x, ?_, ?_⟩
          · simp [leafSplitGhost, Function.update_noteq hs1, hx1]
          · simp [leafSplitGhost, Function.update_noteq hbs, hx2]
      · intro b hb
        simp only [List.head?_cons, Option.some.injEq] at hb
        subst hb
        exact ⟨sk, by simp [leafSplitGhost], by simp [leafSplitGhost]⟩
    · simp only [insertAfter, if_neg e]
      have has : a ≠ s := Ne.symm hs1
      refine LeafPath_cons.mpr ⟨h1, ?_, ?_⟩
      · have hn1 : (leafSplitGhost g p s sk).nxt a = g.nxt a := by
          simp [leafSplitGhost, Function.update_noteq e, Function.update_noteq has]
        rw [hn1]
        exact ih _ h2 hnd'.2 hs2
      · intro b hb
        rw [head?_insertAfter] at hb
        obtain ⟨x, hx1, hx2⟩ := h3 b hb
        have hbm : b ∈ rest := by
          cases rest with
          | nil => simp at hb
          | cons c r =>
            simp only [List.head?_cons, Option.some.injEq] at hb
            rw [← hb]; exact List.mem_cons_self _ _
        have hbs : b ≠ s := fun e => hs2 (by rw [← e]; exact hbm)
        refine ⟨x, ?_, ?_⟩
        · simp [leafSplitGhost, Function.update_noteq e, Function.update_noteq has, hx1]
        · simp [leafSplitGhost, Function.update_noteq hbs, hx2]

/-- The tree `SplitLeafAt` returns, slot by slot of the mapping table. -/
theorem SplitLeafAt_eq {t : BWTree K V} {p : Int} {n : Node K V} {s0 : K × List V}
    (hf : n.GetBaseNode.GetNext = NULL_PID ∨
      n.GetBaseNode.GetNext ≠ NULL_PID ∧
      (∃ f, t.mapping_table n.GetBaseNode.GetNext = some f) ∧ n.GetBaseNode.GetNext ≠ p ∧
        n.GetBaseNode.GetNext ≠ t.next_pid)
    (hlen : (GetAllData n).length < 65536)
    (hs : (GetAllData n)[(GetAllData n).length / 2]? = some s0) :
    ∃ t2, SplitLeafAt t p n = some (t2, (t.next_pid : Int), s0.1) ∧
      t2.next_pid = t.next_pid + 1 ∧ t2.m_root = t.m_root ∧
      t2.m_headleaf = t.m_headleaf ∧
      ∀ q : Int, t2.mapping_table q =
        if q = n.GetBaseNode.GetNext ∧ n.GetBaseNode.GetNext ≠ NULL_PID then
          (t.mapping_table q).map (Node.SetPrev t.next_pid)
        else if q = p then
          some (SplitNode s0.1 t.next_pid n.GetLevel ((GetAllData n).length / 2)
            (nextLength n) (n.SetNext t.next_pid))
        else if q = t.next_pid then
          some (LeafNode n.GetBaseNode.GetParent 0 n.GetBaseNode.GetNext p
            ((GetAllData n).drop ((GetAllData n).length / 2)))
        else t.mapping_table q := by
  have hlen' : ¬ 65536 ≤ (GetAllData n).length := by omega
  rcases hf with h | ⟨hne, ⟨f, h1⟩, h2, h3⟩
  · refine ⟨(t.Install (LeafNode n.GetBaseNode.GetParent 0 n.GetBaseNode.GetNext p
        ((GetAllData n).drop ((GetAllData n).length / 2)))).2.Update p
        ((SplitNode s0.1 t.next_pid n.GetLevel ((GetAllData n).length / 2)
          (nextLength n) n).SetNext t.next_pid), ?_, rfl, rfl, rfl, ?_⟩
    · simp only [SplitLeafAt, h, ne_eq, not_true_eq_false, if_false, if_neg hlen', hs]
      rfl
    · intro q
      simp only [h, ne_eq, not_true_eq_false, and_false, if_false]
      simp only [BWTree.Install, BWTree.Update, Node.SetNext]
  · refine ⟨((t.Install (LeafNode n.GetBaseNode.GetParent 0 n.GetBaseNode.GetNext p
        ((GetAllData n).drop ((GetAllData n).length / 2)))).2.Update p
        ((SplitNode s0.1 t.next_pid n.GetLevel ((GetAllData n).length / 2)
          (nextLength n) n).SetNext t.next_pid)).Update n.GetBaseNode.GetNext
          (f.SetPrev t.next_pid), ?_, rfl, rfl, rfl, ?_⟩
    · simp only [SplitLeafAt, ne_eq, hne, not_false_eq_true, if_true, GetNode, h1,
        if_neg hlen', hs, BWTree.Install, BWTree.Update, if_neg h2, if_neg h3]
    · intro q
      simp only [BWTree.Install, BWTree.Update, Node.SetNext]
      by_cases e0 : q = n.GetBaseNode.GetNext
      · subst e0
        simp [h1, hne]
      · simp [e0]

/-- The split of a leaf that is not the root keeps the invariant up to the pending
separator, and keeps the content: the lower half stays, the upper half is in the
new sibling, the leaf chain has the sibling after the leaf. -/
theorem SplitLeafAt_models {t : BWTree K V} {g : Ghost K} {m : K → List (K × V)}
    (hI : Inv t g none) {p : Int} (hB : Bounded t (some p)) (hS : Sem t g m)
    {n : Node K V} (hn : t.mapping_table p = some n) (hl : g.lvl p = 0)
    (hroot : t.m_root ≠ p) (hD : GetAllData n ≠ []) :
    ∃ t2 sk g2, SplitLeafAt t p n = some (t2, (t.next_pid : Int), sk) ∧
      Inv t2 g2 (some (p, (t.next_pid : Int))) ∧ Bounded t2 none ∧ Sem t2 g2 m ∧
      g2.hi p = some sk ∧ g2.par p = g.par p ∧
      t2.mapping_table (g.par p) = t.mapping_table (g.par p) ∧ t2.m_root = t.m_root ∧
      g2.lvl t2.m_root = g.lvl t.m_root ∧ g2.lvl (g.par p) = g.lvl (g.par p) := by
  have hG := hI.ghost
  obtain ⟨hp0, hp1⟩ := hI.alloc p n hn
  have hok := hI.node hn
  have hsz := (hB p n hn).1
  have hds := hok.data_size hl
  have hpos : (GetAllData n).length / 2 < (GetAllData n).length :=
    Nat.div_lt_self (List.length_pos.mpr hD) (by norm_num)
  have hs : (GetAllData n)[(GetAllData n).length / 2]? =
      some ((GetAllData n)[(GetAllData n).length / 2]) := List.getElem?_eq_getElem hpos
  generalize hs0 : (GetAllData n)[(GetAllData n).length / 2] = s0 at hs
  have hs0m : s0 ∈ GetAllData n := List.getElem?_mem hs
  obtain ⟨hsklo, hskhi⟩ := hok.keys hl s0 hs0m
  have hsorted := hok.sorted hl
  have hnext : n.GetBaseNode.GetNext = g.nxt p := hok.next hl
  have hpl : p ∈ g.leaves := hG.leaf_mem p hp0 hp1 hl
  have hpN : p ≠ (t.next_pid : Int) := by omega
  have hpnull : p ≠ NULL_PID := ne_NULL_of_nonneg hp0
  have hNnull : (t.next_pid : Int) ≠ NULL_PID := ne_NULL_of_nonneg (by omega)
  have hf : n.GetBaseNode.GetNext = NULL_PID ∨
      n.GetBaseNode.GetNext ≠ NULL_PID ∧
      (∃ f, t.mapping_table n.GetBaseNode.GetNext = some f) ∧ n.GetBaseNode.GetNext ≠ p ∧
        n.GetBaseNode.GetNext ≠ t.next_pid := by
    rw [hnext]
    rcases LeafPath_next_mem g.leaves _ hG.path hG.leaves_nodup p hpl with h | ⟨h1, h2⟩
    · exact Or.inl h
    · right
      obtain ⟨a0, a1, _⟩ := hG.leaves_mem _ h1
      obtain ⟨f, hf, _⟩ := hI.nodes _ a0 a1
      exact ⟨ne_NULL_of_nonneg a0, ⟨f, hf⟩, h2, ne_of_lt a1⟩
  obtain ⟨t2, ht2, hnp2, hroot2, hhead2, hmt⟩ :=
    SplitLeafAt_eq (p := p) hf (by omega) hs
  have hfp : ¬ (p = n.GetBaseNode.GetNext ∧ n.GetBaseNode.GetNext ≠ NULL_PID) := by
    rintro ⟨e, h⟩
    rcases hf with h' | ⟨_, _, h', _⟩
    · exact h h'
    · exact h' e.symm
  have hfN : ¬ ((t.next_pid : Int) = n.GetBaseNode.GetNext ∧
      n.GetBaseNode.GetNext ≠ NULL_PID) := by
    rintro ⟨e, h⟩
    rcases hf with h' | ⟨_, _, _, h'⟩
    · exact h h'
    · exact h' e.symm
  have hmp := hmt p
  rw [if_neg hfp, if_pos rfl] at hmp
  have hmN := hmt t.next_pid
  rw [if_neg hfN, if_neg (Ne.symm hpN), if_pos rfl] at hmN
  -- the ghost description
  have glo : ∀ q : Int, q ≠ t.next_pid → (leafSplitGhost g p t.next_pid s0.1).lo q = g.lo q :=
    fun q h => by simp [leafSplitGhost, Function.update_noteq h]
  have gloN : (leafSplitGhost g p t.next_pid s0.1).lo t.next_pid = some s0.1 := by
    simp [leafSplitGhost]
  have ghi : ∀ q : Int, q ≠ t.next_pid → q ≠ p →
      (leafSplitGhost g p t.next_pid s0.1).hi q = g.hi q :=
    fun q h h' => by simp [leafSplitGhost, Function.update_noteq h, Function.update_noteq h']
  have ghip : (leafSplitGhost g p t.next_pid s0.1).hi p = some s0.1 := by
    simp [leafSplitGhost]
  have ghiN : (leafSplitGhost g p t.next_pid s0.1).hi t.next_pid = g.hi p := by
    simp [leafSplitGhost, Function.update_noteq (Ne.symm hpN)]
  have gpar : ∀ q : Int, q ≠ t.next_pid →
      (leafSplitGhost g p t.next_pid s0.1).par q = g.par q :=
    fun q h => by simp [leafSplitGhost, Function.update_noteq h]
  have gparN : (leafSplitGhost g p t.next_pid s0.1).par t.next_pid = g.par p := by
    simp [leafSplitGhost]
  have glvl : ∀ q : Int, q ≠ t.next_pid →
      (leafSplitGhost g p t.next_pid s0.1).lvl q = g.lvl q :=
    fun q h => by simp [leafSplitGhost, Function.update_noteq h]
  have glvlN : (leafSplitGhost g p t.next_pid s0.1).lvl t.next_pid = 0 := by
    simp [leafSplitGhost]
  have gtbl : ∀ q : Int, (leafSplitGhost g p t.next_pid s0.1).tbl q = g.tbl q :=
    fun q => rfl
  have gnxt : ∀ q : Int, q ≠ t.next_pid → q ≠ p →
      (leafSplitGhost g p t.next_pid s0.1).nxt q = g.nxt q :=
    fun q h h' => by simp [leafSplitGhost, Function.update_noteq h, Function.update_noteq h']
  have gnxtp : (leafSplitGhost g p t.next_pid s0.1).nxt p = t.next_pid := by
    simp [leafSplitGhost]
  have gnxtN : (leafSplitGhost g p t.next_pid s0.1).nxt t.next_pid = g.nxt p := by
    simp [leafSplitGhost, Function.update_noteq (Ne.symm hpN)]
  have gleaves : (leafSplitGhost g p t.next_pid s0.1).leaves =
      insertAfter p t.next_pid g.leaves := rfl
  have hNl : (t.next_pid : Int) ∉ g.leaves := by
    intro h
    have := (hG.leaves_mem _ h).2.1
    omega
  have hsplit := sorted_take_drop hsorted hs
  have hfilter := filter_lt_eq_take hsorted hs
  -- the parent of the leaf
  obtain ⟨pa0, pa1, pa2, pa3⟩ := hG.parent p hp0 hp1 (Ne.symm hroot) ⟨s0.1, hsklo, hskhi⟩
    (fun x y e => by cases e)
  have hparN : g.par p ≠ t.next_pid := by omega
  have hparp : g.par p ≠ p := by
    intro e; rw [e] at pa2; omega
  have hlt : ∀ q : Int, q < ((t.next_pid + 1 : Nat) : Int) → q ≠ t.next_pid →
      q < t.next_pid := by
    intro q h1 h2; push_cast at h1; omega
  -- nodes
  have hokp : NodeOK (leafSplitGhost g p t.next_pid s0.1) p
      (SplitNode s0.1 t.next_pid n.GetLevel ((GetAllData n).length / 2)
        (nextLength n) (n.SetNext t.next_pid)) := by
    constructor
    · rw [glvl p hpN]; exact hok.level
    · rw [glvl p hpN]
      show (n.SetNext t.next_pid).GetBaseNode.GetLevel = _
      rw [Node.baseLevel_SetNext]; exact hok.base_level
    · rw [gpar p hpN]
      show (n.SetNext t.next_pid).GetBaseNode.GetParent = _
      rw [Node.baseParent_SetNext]; exact hok.parent
    · intro _
      rw [gnxtp]
      show (n.SetNext t.next_pid).GetBaseNode.GetNext = _
      rw [Node.baseNext_SetNext]
    · intro _
      show ((GetAllData (n.SetNext t.next_pid)).filter _).Pairwise _
      rw [GetAllData_SetNext]
      exact List.Pairwise.filter _ hsorted
    · intro _ s hs'
      have hs'' : s ∈ (GetAllData (n.SetNext t.next_pid)).filter
          (fun x => decide (x.1 < s0.1)) := hs'
      rw [GetAllData_SetNext, List.mem_filter] at hs''
      rw [glo p hpN, ghip]
      exact ⟨(hok.keys hl s hs''.1).1, ltHi_some.mpr (by simpa using hs''.2)⟩
    · intro _ k hk
      rw [ghip] at hk
      have hk' : k < s0.1 := ltHi_some.mp hk
      show (if s0.1 ≤ k then false else isInRange (n.SetNext t.next_pid) k) = true
      rw [if_neg (not_le.mpr hk'), isInRange_SetNext]
      apply hok.inRange hl
      intro h e
      exact lt_trans hk' (hskhi h e)
    · intro _
      show ((GetAllData (n.SetNext t.next_pid)).filter _).length ≤ (GetAllData n).length / 2
      rw [GetAllData_SetNext, hfilter]
      exact List.length_take_le _ _
    · intro h; rw [glvl p hpN] at h; exact absurd hl h
    · intro h; rw [glvl p hpN] at h; exact absurd hl h
    · intro h; rw [glvl p hpN] at h; exact absurd hl h
    · intro _ s hs'
      have hs'' : s ∈ (GetAllData (n.SetNext t.next_pid)).filter
          (fun x => decide (x.1 < s0.1)) := hs'
      rw [GetAllData_SetNext, List.mem_filter] at hs''
      exact hok.nonempty hl s hs''.1
    · exact ⟨(Node.GetLevel_SetNext _ n).symm,
        by rw [Node.GetLength_SetNext]; exact nextLength_eq n,
        (Node.ChainOK_SetNext _ n).mpr hok.chain⟩
  have hokN : NodeOK (leafSplitGhost g p t.next_pid s0.1) t.next_pid
      (LeafNode n.GetBaseNode.GetParent 0 n.GetBaseNode.GetNext p
        ((GetAllData n).drop ((GetAllData n).length / 2)) : Node K V) := by
    constructor
    · rw [glvlN]; rfl
    · rw [glvlN]; rfl
    · rw [gparN]; exact hok.parent
    · intro _; rw [gnxtN]; exact hnext
    · intro _
      exact List.Pairwise.sublist (List.drop_sublist _ _) hsorted
    · intro _ s hs'
      have hs'' : s ∈ (GetAllData n).drop ((GetAllData n).length / 2) := hs'
      rw [gloN, ghiN]
      exact ⟨geLo_some.mpr (hsplit.2 s hs''), (hok.keys hl s (List.mem_of_mem_drop hs'')).2⟩
    · intro _ k _; rfl
    · intro _; exact le_refl _
    · intro h; rw [glvlN] at h; exact absurd rfl h
    · intro h; rw [glvlN] at h; exact absurd rfl h
    · intro h; rw [glvlN] at h; exact absurd rfl h
    · intro _ s hs'
      have hs'' : s ∈ (GetAllData n).drop ((GetAllData n).length / 2) := hs'
      exact hok.nonempty hl s (List.mem_of_mem_drop hs'')
    · exact rfl
  have hnodes : ∀ q : Int, 0 ≤ q → q < t.next_pid → q ≠ p → ∃ nq nq',
      t.mapping_table q = some nq ∧ t2.mapping_table q = some nq' ∧
      (nq' = nq ∨ nq' = nq.SetPrev t.next_pid) := by
    intro q h0 h1 hqp
    obtain ⟨nq, hq, _⟩ := hI.nodes q h0 h1
    have hqN : q ≠ t.next_pid := by omega
    by_cases e : q = n.GetBaseNode.GetNext ∧ n.GetBaseNode.GetNext ≠ NULL_PID
    · exact ⟨nq, nq.SetPrev t.next_pid, hq, by rw [hmt, if_pos e, hq]; rfl, Or.inr rfl⟩
    · exact ⟨nq, nq, hq, by rw [hmt, if_neg e, if_neg hqp, if_neg hqN]; exact hq, Or.inl rfl⟩
  have hInv : Inv t2 (leafSplitGhost g p t.next_pid s0.1) (some (p, (t.next_pid : Int))) := by
    refine ⟨?_, ?_, ?_⟩
    · intro q nq hq
      rw [hnp2]
      by_cases e1 : q = p
      · rw [e1]; exact ⟨hp0, by push_cast; omega⟩
      · by_cases e2 : q = t.next_pid
        · rw [e2]; exact ⟨by omega, by push_cast; omega⟩
        · rw [hmt] at hq
          by_cases e : q = n.GetBaseNode.GetNext ∧ n.GetBaseNode.GetNext ≠ NULL_PID
          · rw [if_pos e] at hq
            cases hq' : t.mapping_table q with
            | none => rw [hq'] at hq; cases hq
            | some f =>
              have := hI.alloc q f hq'
              exact ⟨this.1, by push_cast; omega⟩
          · rw [if_neg e, if_neg e1, if_neg e2] at hq
            have := hI.alloc q nq hq
            exact ⟨this.1, by push_cast; omega⟩
    · intro q h0 h1
      rw [hnp2] at h1
      by_cases e1 : q = p
      · rw [e1]; exact ⟨_, hmp, hokp⟩
      · by_cases e2 : q = t.next_pid
        · rw [e2]; exact ⟨_, hmN, hokN⟩
        · have h1' := hlt q h1 e2
          obtain ⟨nq, nq', hq, hq', hrel⟩ := hnodes q h0 h1' e1
          have hokq := hI.node hq
          have hc := NodeOK_congr hokq (glvl q e2) (gpar q e2) (gnxt q e2 e1) (glo q e2)
            (ghi q e2 e1) (gtbl q)
          refine ⟨nq', hq', ?_⟩
          rcases hrel with e | e
          · rw [e]; exact hc
          · rw [e]; exact NodeOK_SetPrev hc _
    · rw [hnp2, hroot2, hhead2]
      have hrootN : t.m_root ≠ t.next_pid := ne_of_lt hG.root_alloc.2
      refine
        { root_alloc := ⟨hG.root_alloc.1, by have := hG.root_alloc.2; push_cast; omega⟩
          root_lo := by rw [glo _ hrootN]; exact hG.root_lo
          root_hi := by rw [ghi _ hrootN hroot]; exact hG.root_hi
          lvl_le := ?_
          lvl_root := ?_
          range := ?_
          table := ?_
          parent := ?_
          pending := ?_
          leaves_nodup := nodup_insertAfter hG.leaves_nodup hNl
          leaves_len := le_trans (length_insertAfter_le _ _ _)
            (Nat.succ_le_succ hG.leaves_len)
          leaves_mem := ?_
          leaf_mem := ?_
          path := LeafPath_insertAfter p t.next_pid s0.1 g.leaves _ hG.path
            hG.leaves_nodup hNl }
      · intro q h0 h1
        by_cases e2 : q = t.next_pid
        · rw [e2, glvlN]; push_cast; omega
        · rw [glvl q e2]; exact hG.lvl_le q h0 (hlt q h1 e2)
      · intro q h0 h1
        rw [glvl _ hrootN]
        by_cases e2 : q = t.next_pid
        · rw [e2, glvlN]; omega
        · rw [glvl q e2]; exact hG.lvl_root q h0 (hlt q h1 e2)
      · intro q h0 h1
        by_cases e2 : q = t.next_pid
        · rw [e2, gloN, ghiN]
          intro l h e1 e3
          cases e1
          exact le_of_lt (hskhi h e3)
        · by_cases e1 : q = p
          · rw [e1, glo p hpN, ghip]
            intro l h e3 e4
            cases e4
            exact hsklo l e3
          · rw [glo q e2, ghi q e2 e1]; exact hG.range q h0 (hlt q h1 e2)
      · intro q h0 h1 hlq
        have e2 : q ≠ t.next_pid := by
          intro e; rw [e, glvlN] at hlq; exact hlq rfl
        rw [glvl q e2] at hlq
        have e1 : q ≠ p := by
          intro e; rw [e] at hlq; exact hlq hl
        have hT := hG.table q h0 (hlt q h1 e2) hlq
        constructor
        · exact hT.sorted
        · rw [gtbl, glo q e2, ghi q e2 e1]; exact hT.keys
        · exact hT.nodup
        · rw [gtbl, glo q e2, ghi q e2 e1, glvl q e2]
          intro c l h hm
          obtain ⟨c0, c1, c2, c3, c4, c5⟩ := hT.children c l h hm
          have hcN : c ≠ t.next_pid := by omega
          have c5' : g.hi c = h := by
            rcases c5 with e | ⟨y, e, _⟩
            · exact e
            · cases e
          refine ⟨c0, by push_cast; omega, by rw [glo c hcN]; exact c2,
            by rw [gpar c hcN]; exact c3, by rw [glvl c hcN]; exact c4, ?_⟩
          by_cases ec : c = p
          · right
            refine ⟨t.next_pid, by rw [ec], ?_⟩
            rw [ghiN, ← ec]; exact c5'
          · left
            rw [ghi c hcN ec]; exact c5'
      · intro q h0 h1 hqr hlive hpend
        obtain ⟨e1, e2⟩ := hpend p t.next_pid rfl
        rw [glo q e2, ghi q e2 e1] at hlive
        obtain ⟨a0, a1, a2, a3⟩ := hG.parent q h0 (hlt q h1 e2) hqr hlive
          (fun x y e => by cases e)
        have hpqN : g.par q ≠ t.next_pid := by omega
        have hpqp : g.par q ≠ p := by
          intro e; rw [e] at a2; omega
        rw [gpar q e2, glvl q e2, glvl _ hpqN, gtbl, glo _ hpqN, ghi _ hpqN hpqp, glo q e2,
          ghi q e2 e1]
        exact ⟨a0, by push_cast; omega, a2, a3⟩
      · intro x y e
        cases e
        refine
          { x_alloc := ⟨hp0, by push_cast; omega⟩
            y_alloc := ⟨by omega, by push_cast; omega⟩
            x_ne_root := Ne.symm hroot
            y_ne_root := Ne.symm hrootN
            par_eq := by rw [gparN, gpar p hpN]
            lvl_eq := by rw [glvlN, glvl p hpN, hl]
            par_alloc := by rw [gpar p hpN]; exact ⟨pa0, by push_cast; omega⟩
            par_lvl := by rw [gpar p hpN, glvl p hpN, glvl _ hparN]; exact pa2
            key := ⟨s0.1, ghip, gloN, by rw [ghiN]; exact hskhi⟩
            entry := by
              rw [gpar p hpN, gtbl, glo _ hparN, ghi _ hparN hparp, glo p hpN, ghiN]
              exact pa3
            fresh := ?_ }
        intro q h0 h1 hlq
        have e2 : q ≠ t.next_pid := by
          intro e; rw [e, glvlN] at hlq; exact hlq rfl
        rw [glvl q e2] at hlq
        have hT := hG.table q h0 (hlt q h1 e2) hlq
        rw [gtbl]
        intro hmem
        obtain ⟨l, h, hm⟩ := mem_childBounds_of_pid (g.lo q) (g.hi q) hmem
        have := (hT.children _ _ _ hm).2.1
        omega
      · intro a ha
        rw [gleaves] at ha
        rcases mem_insertAfter.mp ha with h | ⟨h, _⟩
        · obtain ⟨a0, a1, a2⟩ := hG.leaves_mem a h
          have : a ≠ t.next_pid := by omega
          exact ⟨a0, by push_cast; omega, by rw [glvl a this]; exact a2⟩
        · rw [h]
          exact ⟨by omega, by push_cast; omega, glvlN⟩
      · intro q h0 h1 hlq
        rw [gleaves]
        by_cases e2 : q = t.next_pid
        · exact mem_insertAfter.mpr (Or.inr ⟨e2, hpl⟩)
        · rw [glvl q e2] at hlq
          exact mem_insertAfter.mpr (Or.inl (hG.leaf_mem q h0 (hlt q h1 e2) hlq))
  refine ⟨t2, s0.1, leafSplitGhost g p t.next_pid s0.1, ht2, hInv, ?_, ?_, ghip,
    gpar p hpN, ?_, hroot2, ?_, glvl _ hparN⟩
  · -- sizes
    intro q nq hq
    have hsmall : nq.GetSize ≤ 65533 := by
      by_cases e1 : q = p
      · rw [e1, hmp] at hq
        cases hq
        show (GetAllData n).length / 2 ≤ 65533
        omega
      · by_cases e2 : q = t.next_pid
        · rw [e2, hmN] at hq
          cases hq
          show ((GetAllData n).drop ((GetAllData n).length / 2)).length ≤ 65533
          rw [List.length_drop]
          omega
        · obtain ⟨h0, h1⟩ := (hInv.alloc q nq hq)
          rw [hnp2] at h1
          obtain ⟨oq, oq', ho, ho', hrel⟩ := hnodes q h0 (hlt q h1 e2) e1
          rw [hq] at ho'
          cases ho'
          have hb := (hB q oq ho).2 (fun e => e1 (Option.some.inj e).symm)
          rcases hrel with e | e
          · rw [e]; exact hb
          · rw [e, Node.GetSize_SetPrev]; exact hb
    exact ⟨by omega, fun _ => hsmall⟩
  · -- content
    intro q nq k hq hlq hlo hhi
    by_cases e1 : q = p
    · rw [e1] at hq hlo hhi
      rw [hmp] at hq
      cases hq
      rw [glo p hpN] at hlo
      rw [ghip] at hhi
      have hk : k < s0.1 := ltHi_some.mp hhi
      show matchSlots ((GetAllData (n.SetNext t.next_pid)).filter _) k = m k
      rw [GetAllData_SetNext, hfilter, matchSlots_take hsorted hs hk]
      exact hS p n k hn hl hlo (fun h e => lt_trans hk (hskhi h e))
    · by_cases e2 : q = t.next_pid
      · rw [e2] at hq hlo hhi
        rw [hmN] at hq
        cases hq
        rw [gloN] at hlo
        rw [ghiN] at hhi
        have hk : s0.1 ≤ k := geLo_some.mp hlo
        show matchSlots ((GetAllData n).drop ((GetAllData n).length / 2)) k = m k
        rw [matchSlots_drop hsorted hs hk]
        exact hS p n k hn hl (fun l e => le_trans (hsklo l e) hk) hhi
      · obtain ⟨h0, h1⟩ := (hInv.alloc q nq hq)
        rw [hnp2] at h1
        obtain ⟨oq, oq', ho, ho', hrel⟩ := hnodes q h0 (hlt q h1 e2) e1
        rw [hq] at ho'
        cases ho'
        rw [glvl q e2] at hlq
        rw [glo q e2] at hlo
        rw [ghi q e2 e1] at hhi
        have := hS q oq k ho hlq hlo hhi
        rcases hrel with e | e
        · rw [e]; exact this
        · rw [e, GetAllData_SetPrev]; exact this
  · -- the parent is untouched
    rw [hmt]
    have e0 : ¬ (g.par p = n.GetBaseNode.GetNext ∧ n.GetBaseNode.GetNext ≠ NULL_PID) := by
      rintro ⟨e, h⟩
      rcases LeafPath_next_mem g.leaves _ hG.path hG.leaves_nodup p hpl with h' | ⟨h1, _⟩
      · rw [hnext] at h; exact h h'
      · have := (hG.leaves_mem _ h1).2.2
        rw [← hnext, ← e] at this
        omega
    rw [if_neg e0, if_neg hparp, if_neg hparN]
  · rw [hroot2, glvl _ (ne_of_lt hG.root_alloc.2)]

end LeafSplit
/-! ## The separator delta on the parent of a split node -/

section Separator

set_option linter.unusedSectionVars false

variable {K V : Type} [LinearOrder K] [DecidableEq V]

/-- The PIDs of the children of a routing table, in order. -/
theorem childBounds_pids (c0 : Int) (lo : Option K) (slots : List (K × Int)) (hi : Option K) :
    (childBounds c0 lo slots hi).map (fun e => e.1) = c0 :: slots.map Prod.snd := by
  induction slots generalizing c0 lo with
  | nil => rfl
  | cons a rest ih =>
    obtain ⟨k1, c1⟩ := a
    simp only [childBounds, List.map_cons, ih]

/-- An entry of a table with distinct children is the only one of its PID. -/
theorem childBounds_unique {c0 : Int} {lo : Option K} {slots : List (K × Int)} {hi : Option K}
    (hnd : (c0 :: slots.map Prod.snd).Nodup)
    {pre post : List (Int × Option K × Option K)} {x : Int} {lx hx : Option K}
    (he : childBounds c0 lo slots hi = pre ++ (x, lx, hx) :: post)
    {l h : Option K} (hm : (x, l, h) ∈ pre ++ post) : False := by
  rw [← childBounds_pids c0 lo slots hi, he, List.map_append, List.map_cons] at hnd
  have h1 := List.nodup_append.mp hnd
  have h2 := List.nodup_cons.mp h1.2.1
  rcases List.mem_append.mp hm with h' | h'
  · exact h1.2.2 (List.mem_map_of_mem (fun e => e.1) h') (List.mem_cons_self _ _)
  · exact h2.1 (List.mem_map_of_mem (fun e => e.1) h')

/-- The separator delta for the pending sibling: the parent gets the separator, the
routing table of the parent has the sibling after the split node, and no split is
pending any more.  The size of the delta is the size below it plus one. -/
theorem InstallSeparator_models {t : BWTree K V} {g : Ghost K} {m : K → List (K × V)}
    {x y : Int} (hI : Inv t g (some (x, y))) (hB : Bounded t none) (hS : Sem t g m)
    {sk : K} (hsk : g.hi x = some sk) :
    ∃ nP d, t.mapping_table (g.par x) = some nP ∧
      InstallSeparator t (g.par x) sk y = some (t.Update (g.par x) d, d) ∧
      d.GetSize = 1 + nP.GetSize ∧ d.GetLength = nextLength nP ∧
      Inv (t.Update (g.par x) d) (separatorGhost g (g.par x) sk y) none ∧
      Bounded (t.Update (g.par x) d) (some (g.par x)) ∧
      Sem (t.Update (g.par x) d) (separatorGhost g (g.par x) sk y) m := by
  have hG := hI.ghost
  have hP := hG.pending x y rfl
  obtain ⟨hP0, hP1⟩ := hP.par_alloc
  obtain ⟨nP, hnP, hokP⟩ := hI.nodes _ hP0 hP1
  have hlP : g.lvl (g.par x) ≠ 0 := by rw [hP.par_lvl]; exact Nat.succ_ne_zero _
  have hT := hG.table _ hP0 hP1 hlP
  obtain ⟨sk', e1, hloy, hhiy⟩ := hP.key
  rw [hsk] at e1
  cases e1
  have hlox : geLo (g.lo x) sk := by
    intro l e
    exact hG.range x hP.x_alloc.1 hP.x_alloc.2 l sk e hsk
  obtain ⟨pre, post, hold, hnew⟩ :=
    childBounds_insertPointer hT.sorted hP.entry hlox hhiy y
  have htblP : (separatorGhost g (g.par x) sk y).tbl (g.par x) =
      ((g.tbl (g.par x)).1, insertPointer sk y (g.tbl (g.par x)).2) := by
    simp [separatorGhost]
  have htbl : ∀ q : Int, q ≠ g.par x → (separatorGhost g (g.par x) sk y).tbl q = g.tbl q :=
    fun q h => by simp [separatorGhost, Function.update_noteq h]
  have hrange := range_of_mem_childBounds hT.sorted hT.keys hP.entry
  refine ⟨nP, SeparatorNode sk (upperKey sk (GetAllPointer nP).2) y nP.GetLevel
    (1 + nP.GetSize) (nextLength nP) nP, hnP, ?_, rfl, rfl, ?_, ?_, ?_⟩
  · simp [InstallSeparator, FindUpperKey, GetNode, hnP]
  · refine ⟨?_, ?_, ?_⟩
    · intro q nq hq
      by_cases e : q = g.par x
      · rw [e]; exact ⟨hP0, hP1⟩
      · simp only [BWTree.Update, if_neg e] at hq
        exact hI.alloc q nq hq
    · intro q h0 h1
      by_cases e : q = g.par x
      · refine ⟨SeparatorNode sk (upperKey sk (GetAllPointer nP).2) y nP.GetLevel
          (1 + nP.GetSize) (nextLength nP) nP, by simp [BWTree.Update, e], ?_⟩
        rw [e]
        constructor
        · exact hokP.level
        · exact hokP.base_level
        · exact hokP.parent
        · intro h; exact absurd h hlP
        · intro h; exact absurd h hlP
        · intro h; exact absurd h hlP
        · intro h; exact absurd h hlP
        · intro h; exact absurd h hlP
        · intro _
          rw [htblP, ← hokP.table hlP]
          rfl
        · intro _ k hlo hhi
          rw [htblP]
          show (if sk ≤ k ∧ ltBound k (upperKey sk (GetAllPointer nP).2) = true then y
            else findNext k nP) = _
          rw [innerLookup_insertPointer, hokP.table hlP, hokP.route hlP k hlo hhi]
        · intro _
          rw [htblP]
          show (insertPointer sk y (g.tbl (g.par x)).2).length ≤ 1 + nP.GetSize
          rw [length_insertPointer]
          have := hokP.table_size hlP
          omega
        · intro h; exact absurd h hlP
        · exact ⟨rfl, nextLength_eq nP, hokP.chain, rfl⟩
      · obtain ⟨nq, hq, hokq⟩ := hI.nodes q h0 h1
        exact ⟨nq, by simp [BWTree.Update, e, hq],
          NodeOK_congr hokq rfl rfl rfl rfl rfl (htbl q e)⟩
    · refine
        { root_alloc := hG.root_alloc
          root_lo := hG.root_lo
          root_hi := hG.root_hi
          lvl_le := hG.lvl_le
          lvl_root := hG.lvl_root
          range := hG.range
          table := ?_
          parent := ?_
          pending := fun a b e => by cases e
          leaves_nodup := hG.leaves_nodup
          leaves_len := hG.leaves_len
          leaves_mem := hG.leaves_mem
          leaf_mem := hG.leaf_mem
          path := @LeafPath_congr K _ g (separatorGhost g (g.par x) sk y) g.leaves
            t.m_headleaf (fun a _ => ⟨rfl, rfl, rfl⟩) hG.path }
      · intro q h0 h1 hlq
        have hTq := hG.table q h0 h1 hlq
        by_cases e : q = g.par x
        · rw [e]
          constructor
          · rw [htblP]; exact insertPointer_sorted hT.sorted
          · rw [htblP]
            intro en hen
            rcases mem_insertPointer.mp hen with h | h
            · rw [h]
              exact ⟨hrange.1 sk hlox, hrange.2 sk hhiy⟩
            · exact hT.keys en h
          · rw [htblP]
            have hp := (insertPointer_perm sk y (g.tbl (g.par x)).2).map Prod.snd
            have hp' : (((g.tbl (g.par x)).1 ::
                (insertPointer sk y (g.tbl (g.par x)).2).map Prod.snd)).Perm
                (y :: (g.tbl (g.par x)).1 :: (g.tbl (g.par x)).2.map Prod.snd) :=
              ((List.Perm.cons _ hp).trans (List.Perm.swap _ _ _))
            rw [hp'.nodup_iff]
            exact List.nodup_cons.mpr ⟨hP.fresh _ hP0 hP1 hlP, hT.nodup⟩
          · rw [htblP]
            intro c l h hm
            have hm' : (c, l, h) ∈ pre ++ (x, g.lo x, some sk) :: (y, some sk, g.hi y) :: post := by
              rw [← hnew]; exact hm
            rcases List.mem_append.mp hm' with h' | h'
            · have hin : (c, l, h) ∈ childBounds (g.tbl (g.par x)).1 (g.lo (g.par x))
                  (g.tbl (g.par x)).2 (g.hi (g.par x)) := by
                rw [hold]; exact List.mem_append_left _ h'
              obtain ⟨c0, c1, c2, c3, c4, c5⟩ := hT.children c l h hin
              refine ⟨c0, c1, c2, c3, c4, Or.inl ?_⟩
              rcases c5 with c5 | ⟨y', ey, _⟩
              · exact c5
              · cases ey
                exact (childBounds_unique hT.nodup hold (List.mem_append_left _ h')).elim
            · rcases List.mem_cons.mp h' with h' | h'
              · cases h'
                exact ⟨hP.x_alloc.1, hP.x_alloc.2, rfl, rfl, hP.par_lvl.symm, Or.inl hsk⟩
              · rcases List.mem_cons.mp h' with h' | h'
                · cases h'
                  exact ⟨hP.y_alloc.1, hP.y_alloc.2, hloy, hP.par_eq,
                    by show g.lvl y + 1 = g.lvl (g.par x); rw [hP.lvl_eq]; exact hP.par_lvl.symm,
                    Or.inl rfl⟩
                · have hin : (c, l, h) ∈ childBounds (g.tbl (g.par x)).1 (g.lo (g.par x))
                      (g.tbl (g.par x)).2 (g.hi (g.par x)) := by
                    rw [hold]; exact List.mem_append_right _ (List.mem_cons_of_mem _ h')
                  obtain ⟨c0, c1, c2, c3, c4, c5⟩ := hT.children c l h hin
                  refine ⟨c0, c1, c2, c3, c4, Or.inl ?_⟩
                  rcases c5 with c5 | ⟨y', ey, _⟩
                  · exact c5
                  · cases ey
                    exact (childBounds_unique hT.nodup hold
                      (List.mem_append_right _ h')).elim
        · constructor
          · rw [htbl q e]; exact hTq.sorted
          · rw [htbl q e]; exact hTq.keys
          · rw [htbl q e]; exact hTq.nodup
          · rw [htbl q e]
            intro c l h hm
            obtain ⟨c0, c1, c2, c3, c4, c5⟩ := hTq.children c l h hm
            refine ⟨c0, c1, c2, c3, c4, Or.inl ?_⟩
            rcases c5 with c5 | ⟨y', ey, _⟩
            · exact c5
            · cases ey
              exact absurd c3.symm e
      · intro q h0 h1 hqr hlive _
        by_cases ex : q = x
        · rw [ex]
          refine ⟨hP0, hP1, hP.par_lvl, ?_⟩
          show (x, g.lo x, g.hi x) ∈
            childBounds ((separatorGhost g (g.par x) sk y).tbl (g.par x)).1
              (g.lo (g.par x)) ((separatorGhost g (g.par x) sk y).tbl (g.par x)).2
              (g.hi (g.par x))
          rw [htblP, hnew, hsk]
          exact List.mem_append_right _ (List.mem_cons_self _ _)
        · by_cases ey : q = y
          · rw [ey]
            have e1 : g.par y = g.par x := hP.par_eq
            show 0 ≤ g.par y ∧ g.par y < _ ∧ g.lvl (g.par y) = g.lvl y + 1 ∧
              (y, g.lo y, g.hi y) ∈ childBounds ((separatorGhost g (g.par x) sk y).tbl (g.par y)).1
                (g.lo (g.par y)) ((separatorGhost g (g.par x) sk y).tbl (g.par y)).2
                (g.hi (g.par y))
            rw [e1, htblP, hnew, hloy, hP.lvl_eq]
            exact ⟨hP0, hP1, hP.par_lvl,
              List.mem_append_right _ (List.mem_cons_of_mem _ (List.mem_cons_self _ _))⟩
          · obtain ⟨a0, a1, a2, a3⟩ := hG.parent q h0 h1 hqr hlive
              (fun a b e => by cases e; exact ⟨ex, ey⟩)
            refine ⟨a0, a1, a2, ?_⟩
            by_cases e : g.par q = g.par x
            · show (q, g.lo q, g.hi q) ∈
                childBounds ((separatorGhost g (g.par x) sk y).tbl (g.par q)).1
                (g.lo (g.par q)) ((separatorGhost g (g.par x) sk y).tbl (g.par q)).2
                (g.hi (g.par q))
              rw [e] at a3 ⊢
              rw [htblP, hnew]
              rw [hold] at a3
              rcases List.mem_append.mp a3 with h' | h'
              · exact List.mem_append_left _ h'
              · rcases List.mem_cons.mp h' with h' | h'
                · exact absurd (congrArg Prod.fst h') ex
                · exact List.mem_append_right _
                    (List.mem_cons_of_mem _ (List.mem_cons_of_mem _ h'))
            · show (q, g.lo q, g.hi q) ∈
                childBounds ((separatorGhost g (g.par x) sk y).tbl (g.par q)).1
                (g.lo (g.par q)) ((separatorGhost g (g.par x) sk y).tbl (g.par q)).2
                (g.hi (g.par q))
              rw [htbl _ e]
              exact a3
  · exact Bounded_Update hB _ (by
      show 1 + nP.GetSize ≤ 65534
      have := (hB _ nP hnP).2 (by simp)
      omega)
  · intro q nq k hq hlq hlo hhi
    have e : q ≠ g.par x := by
      intro e; rw [e] at hlq; exact hlP hlq
    simp only [BWTree.Update, if_neg e] at hq
    exact hS q nq k hq hlq hlo hhi

end Separator
/-! ## Routing tables cut in two by the split of an inner node -/

section InnerTables

set_option linter.unusedSectionVars false

variable {K V : Type} [LinearOrder K] [DecidableEq V]

/-- The children of a table are the children before a separator followed by the
children from that separator on. -/
theorem childBounds_append (c0 : Int) (lo : Option K) (A : List (K × Int)) (k : K) (c : Int)
    (B : List (K × Int)) (hi : Option K) :
    childBounds c0 lo (A ++ (k, c) :: B) hi =
      childBounds c0 lo A (some k) ++ childBounds c (some k) B hi := by
  induction A generalizing c0 lo with
  | nil => rfl
  | cons a rest ih =>
    obtain ⟨k1, c1⟩ := a
    rw [List.cons_append]
    simp only [childBounds]
    rw [ih, List.cons_append]

/-- Below the split key the table cut at the split key routes as the whole table. -/
theorem innerLookup_filter_lt (c0 : Int) {slots : List (K × Int)}
    (hs : slots.Pairwise (fun a b => a.1 ≤ b.1)) {k sk : K} (hk : k < sk) :
    innerLookup c0 (slots.filter (fun a => decide (a.1 < sk))) k = innerLookup c0 slots k := by
  induction slots generalizing c0 with
  | nil => rfl
  | cons a rest ih =>
    obtain ⟨k1, c1⟩ := a
    have hs' := List.pairwise_cons.mp hs
    by_cases h : k1 < sk
    · rw [List.filter_cons_of_pos (by simpa using h)]
      simp only [innerLookup]
      rw [ih c1 hs'.2]
    · have hnil : rest.filter (fun a => decide (a.1 < sk)) = [] := by
        rw [List.filter_eq_nil_iff]
        intro b hb
        have := hs'.1 b hb
        simpa using le_trans (not_lt.mp h) this
      rw [List.filter_cons_of_neg (by simpa using h), hnil]
      simp only [innerLookup]
      rw [if_pos (lt_of_lt_of_le hk (not_lt.mp h))]

/-- The separators below the key of entry `i` of a sorted table are a prefix of
the table that ends before entry `i`; a separator equal to that key follows. -/
theorem filter_lt_prefix {slots : List (K × Int)}
    (hs : slots.Pairwise (fun a b => a.1 ≤ b.1)) {i : Nat} {e : K × Int}
    (he : slots[i]? = some e) :
    ∃ c R, slots = slots.filter (fun a => decide (a.1 < e.1)) ++ (e.1, c) :: R ∧
      (slots.filter (fun a => decide (a.1 < e.1))).length ≤ i := by
  induction slots generalizing i with
  | nil => simp at he
  | cons a rest ih =>
    have hs' := List.pairwise_cons.mp hs
    by_cases h : a.1 < e.1
    · cases i with
      | zero =>
        simp only [List.getElem?_cons_zero, Option.some.injEq] at he
        rw [he] at h
        exact absurd h (lt_irrefl _)
      | succ j =>
        simp only [List.getElem?_cons_succ] at he
        obtain ⟨c, R, h1, h2⟩ := ih hs'.2 he
        refine ⟨c, R, ?_, ?_⟩
        · rw [List.filter_cons_of_pos (by simpa using h), List.cons_append, ← h1]
        · rw [List.filter_cons_of_pos (by simpa using h), List.length_cons]
          omega
    · have hae : a.1 = e.1 := by
        apply le_antisymm _ (not_lt.mp h)
        cases i with
        | zero =>
          simp only [List.getElem?_cons_zero, Option.some.injEq] at he
          rw [he]
        | succ j =>
          simp only [List.getElem?_cons_succ] at he
          exact hs'.1 e (List.getElem?_mem he)
      have hnil : rest.filter (fun a => decide (a.1 < e.1)) = [] := by
        rw [List.filter_eq_nil_iff]
        intro b hb
        have := hs'.1 b hb
        simpa using le_trans (not_lt.mp h) this
      refine ⟨a.2, rest, ?_, ?_⟩
      · rw [List.filter_cons_of_neg (by simpa using h), hnil, ← hae]
        rfl
      · rw [List.filter_cons_of_neg (by simpa using h), hnil]
        exact Nat.zero_le _

/-- Entry `i` cuts a table into the entries before it and the entries after it. -/
theorem slots_cut {slots : List (K × Int)} {i : Nat} {e : K × Int}
    (he : slots[i]? = some e) : slots = slots.take i ++ e :: slots.drop (i + 1) := by
  induction slots generalizing i with
  | nil => simp at he
  | cons a rest ih =>
    cases i with
    | zero =>
      simp only [List.getElem?_cons_zero, Option.some.injEq] at he
      simp [he]
    | succ j =>
      simp only [List.getElem?_cons_succ] at he
      simp only [List.take_succ_cons, List.drop_succ_cons, List.cons_append]
      rw [← ih he]

/-- The children of the lower table of a split are children of the whole table,
with the same ranges. -/
theorem childBounds_left {c0 : Int} {lo : Option K} {slots : List (K × Int)} {hi : Option K}
    (hs : slots.Pairwise (fun a b => a.1 ≤ b.1)) {i : Nat} {e : K × Int}
    (he : slots[i]? = some e) {x : Int × Option K × Option K}
    (hx : x ∈ childBounds c0 lo (slots.filter (fun a => decide (a.1 < e.1))) (some e.1)) :
    x ∈ childBounds c0 lo slots hi := by
  obtain ⟨c, R, h1, _⟩ := filter_lt_prefix hs he
  rw [h1, childBounds_append]
  exact List.mem_append_left _ hx

/-- The children of the upper table of a split are children of the whole table,
with the same ranges. -/
theorem childBounds_right {c0 : Int} {lo : Option K} {slots : List (K × Int)} {hi : Option K}
    {i : Nat} {e : K × Int} (he : slots[i]? = some e) {x : Int × Option K × Option K}
    (hx : x ∈ childBounds e.2 (some e.1) (slots.drop (i + 1)) hi) :
    x ∈ childBounds c0 lo slots hi := by
  obtain ⟨k, c⟩ := e
  have h := childBounds_append c0 lo (slots.take i) k c (slots.drop (i + 1)) hi
  rw [← slots_cut he] at h
  rw [h]
  exact List.mem_append_right _ hx

/-- A table between equal bounds whose separators all are the bound has children of
empty ranges only. -/
theorem childBounds_dead {c : Int} {sk : K} {A : List (K × Int)} (hA : ∀ a ∈ A, a.1 = sk)
    {x : Int × Option K × Option K} (hx : x ∈ childBounds c (some sk) A (some sk)) :
    x.2 = (some sk, some sk) := by
  induction A generalizing c with
  | nil =>
    simp only [childBounds, List.mem_singleton] at hx
    rw [hx]
  | cons a rest ih =>
    obtain ⟨k1, c1⟩ := a
    have hk : k1 = sk := hA (k1, c1) (List.mem_cons_self _ _)
    simp only [childBounds, List.mem_cons] at hx
    rcases hx with hx | hx
    · rw [hx, hk]
    · rw [hk] at hx
      exact ih (fun a ha => hA a (List.mem_cons_of_mem _ ha)) hx

/-- A child of a sorted table under a bound that no separator exceeds is a child of
the table cut at the bound, or has the empty range at the bound. -/
theorem childBounds_below {c0 : Int} {lo : Option K} {A : List (K × Int)} {k : K}
    (hs : A.Pairwise (fun a b => a.1 ≤ b.1)) (hA : ∀ a ∈ A, a.1 ≤ k)
    {x : Int × Option K × Option K} (hx : x ∈ childBounds c0 lo A (some k)) :
    x ∈ childBounds c0 lo (A.filter (fun a => decide (a.1 < k))) (some k) ∨
    x.2 = (some k, some k) := by
  induction A generalizing c0 lo with
  | nil => exact Or.inl hx
  | cons a rest ih =>
    obtain ⟨k1, c1⟩ := a
    have hs' := List.pairwise_cons.mp hs
    simp only [childBounds, List.mem_cons] at hx
    by_cases h : k1 < k
    · rw [List.filter_cons_of_pos (by simpa using h)]
      simp only [childBounds, List.mem_cons]
      rcases hx with hx | hx
      · exact Or.inl (Or.inl hx)
      · rcases ih hs'.2 (fun a ha => hA a (List.mem_cons_of_mem _ ha)) hx with h' | h'
        · exact Or.inl (Or.inr h')
        · exact Or.inr h'
    · have hk : k1 = k := le_antisymm (hA (k1, c1) (List.mem_cons_self _ _)) (not_lt.mp h)
      have hnil : rest.filter (fun a => decide (a.1 < k)) = [] := by
        rw [List.filter_eq_nil_iff]
        intro b hb
        have := hs'.1 b hb
        simpa using le_trans (not_lt.mp h) this
      rw [List.filter_cons_of_neg (by simpa using h), hnil]
      rcases hx with hx | hx
      · left
        rw [hx, hk]
        simp [childBounds]
      · right
        rw [hk] at hx
        refine childBounds_dead (fun a ha => ?_) hx
        have h1 := hs'.1 a ha
        have h2 := hA a (List.mem_cons_of_mem _ ha)
        rw [hk] at h1
        exact le_antisymm h2 h1

/-- Every child of a sorted table is a child of the lower table of a split, or a
child of the upper table, or has the empty range at the split key. -/
theorem childBounds_cases {c0 : Int} {lo : Option K} {slots : List (K × Int)} {hi : Option K}
    (hs : slots.Pairwise (fun a b => a.1 ≤ b.1)) {i : Nat} {e : K × Int}
    (he : slots[i]? = some e) {x : Int × Option K × Option K}
    (hx : x ∈ childBounds c0 lo slots hi) :
    x ∈ childBounds c0 lo (slots.filter (fun a => decide (a.1 < e.1))) (some e.1) ∨
    x ∈ childBounds e.2 (some e.1) (slots.drop (i + 1)) hi ∨
    x.2 = (some e.1, some e.1) := by
  obtain ⟨k, c⟩ := e
  have hcut := slots_cut he
  have h := childBounds_append c0 lo (slots.take i) k c (slots.drop (i + 1)) hi
  rw [← hcut] at h
  rw [h] at hx
  have hsorted : (slots.take i ++ (k, c) :: slots.drop (i + 1)).Pairwise
      (fun a b => a.1 ≤ b.1) := by rw [← hcut]; exact hs
  have hp := List.pairwise_append.mp hsorted
  have hp2 := List.pairwise_cons.mp hp.2.1
  have hfilter : slots.filter (fun a => decide (a.1 < k)) =
      (slots.take i).filter (fun a => decide (a.1 < k)) := by
    conv_lhs => rw [hcut]
    rw [List.filter_append, List.filter_cons_of_neg (by simp)]
    have : (slots.drop (i + 1)).filter (fun a => decide (a.1 < k)) = [] := by
      rw [List.filter_eq_nil_iff]
      intro b hb
      simpa using hp2.1 b hb
    rw [this, List.append_nil]
  rcases List.mem_append.mp hx with hx | hx
  · rw [hfilter]
    rcases childBounds_below hp.1
        (fun a ha => hp.2.2 a ha (k, c) (List.mem_cons_self _ _)) hx with h' | h'
    · exact Or.inl h'
    · exact Or.inr (Or.inr h')
  · exact Or.inr (Or.inl hx)

end InnerTables
/-! ## Split of an inner node: the split delta and the new sibling -/

section InnerSplit

set_option linter.unusedSectionVars false

variable {K V : Type} [LinearOrder K] [DecidableEq V]

/-- The loop over the children of the new sibling resets the parent of each of them
and touches nothing else. -/
theorem SetParents_eq (par : Int) (cs : List Int) (hnd : cs.Nodup) (t : BWTree K V)
    (hc : ∀ c ∈ cs, ∃ n, t.mapping_table c = some n) :
    ∃ t', SetParents t par cs = some t' ∧ t'.next_pid = t.next_pid ∧
      t'.m_root = t.m_root ∧ t'.m_headleaf = t.m_headleaf ∧
      ∀ q : Int, t'.mapping_table q =
        if q ∈ cs then (t.mapping_table q).map (Node.SetParent par) else t.mapping_table q := by
  induction cs generalizing t with
  | nil => exact ⟨t, rfl, rfl, rfl, rfl, fun q => by simp⟩
  | cons c rest ih =>
    obtain ⟨n, hn⟩ := hc c (List.mem_cons_self _ _)
    have hnd' := List.nodup_cons.mp hnd
    have hc' : ∀ c' ∈ rest, ∃ n', (t.Update c (n.SetParent par)).mapping_table c' = some n' := by
      intro c' hc'
      obtain ⟨n', hn'⟩ := hc c' (List.mem_cons_of_mem _ hc')
      by_cases e : c' = c
      · exact absurd (e ▸ hc') hnd'.1
      · exact ⟨n', by simp [BWTree.Update, e, hn']⟩
    obtain ⟨t', h1, h2, h3, h4, h5⟩ := ih hnd'.2 (t.Update c (n.SetParent par)) hc'
    refine ⟨t', ?_, h2, h3, h4, ?_⟩
    · simp only [SetParents, GetNode, hn]
      exact h1
    · intro q
      rw [h5 q]
      by_cases e : q = c
      · rw [e, if_neg hnd'.1, if_pos (List.mem_cons_self _ _)]
        simp [BWTree.Update, hn]
      · by_cases e' : q ∈ rest
        · rw [if_pos e', if_pos (List.mem_cons_of_mem _ e')]
          simp [BWTree.Update, e]
        · rw [if_neg e', if_neg (by simp [e, e'])]
          simp [BWTree.Update, e]

/-- The index after the split step of an inner node. -/
theorem SplitInnerAt_eq {t : BWTree K V} {p : Int} {n : Node K V} {e : K × Int}
    (hlen : (GetAllPointer n).2.length + 1 < 65536)
    (he : (GetAllPointer n).2[((GetAllPointer n).2.length + 1) / 2 - 1]? = some e)
    (hnd : (e.2 :: ((GetAllPointer n).2.drop (((GetAllPointer n).2.length + 1) / 2)).map
      Prod.snd).Nodup)
    (hc : ∀ c ∈ e.2 :: ((GetAllPointer n).2.drop (((GetAllPointer n).2.length + 1) / 2)).map
      Prod.snd, (∃ nc, t.mapping_table c = some nc) ∧ c ≠ p ∧ c ≠ t.next_pid) :
    ∃ t2, SplitInnerAt t p n = some (t2, (t.next_pid : Int), e.1) ∧
      t2.next_pid = t.next_pid + 1 ∧ t2.m_root = t.m_root ∧
      t2.m_headleaf = t.m_headleaf ∧
      ∀ q : Int, t2.mapping_table q =
        if q ∈ e.2 :: ((GetAllPointer n).2.drop (((GetAllPointer n).2.length + 1) / 2)).map
            Prod.snd then
          (t.mapping_table q).map (Node.SetParent t.next_pid)
        else if q = p then
          some (SplitNode e.1 t.next_pid n.GetLevel (((GetAllPointer n).2.length + 1) / 2 - 1)
            (nextLength n) (n.SetNext t.next_pid))
        else if q = t.next_pid then
          some (InnerNode n.GetBaseNode.GetParent n.GetLevel n.GetBaseNode.GetNext e.2
            ((GetAllPointer n).2.drop (((GetAllPointer n).2.length + 1) / 2)))
        else t.mapping_table q := by
  have hc1 : ∀ c ∈ e.2 :: ((GetAllPointer n).2.drop (((GetAllPointer n).2.length + 1) / 2)).map
      Prod.snd, ∃ nc, (((t.Install (InnerNode n.GetBaseNode.GetParent n.GetLevel
        n.GetBaseNode.GetNext e.2
        ((GetAllPointer n).2.drop (((GetAllPointer n).2.length + 1) / 2)))).2).Update p
        ((SplitNode e.1 t.next_pid n.GetLevel (((GetAllPointer n).2.length + 1) / 2 - 1)
          (nextLength n) n).SetNext t.next_pid)).mapping_table c = some nc := by
    intro c hcm
    obtain ⟨⟨nc, hnc⟩, h1, h2⟩ := hc c hcm
    exact ⟨nc, by simp [BWTree.Update, BWTree.Install, h1, h2, hnc]⟩
  obtain ⟨t2, h1, h2, h3, h4, h5⟩ := SetParents_eq (t.next_pid : Int) _ hnd _ hc1
  refine ⟨t2, ?_, ?_, ?_, ?_, ?_⟩
  · simp only [SplitInnerAt, if_neg (not_le.mpr hlen), he]
    simp only [BWTree.Install] at h1 ⊢
    rw [h1]
  · rw [h2]; rfl
  · rw [h3]; rfl
  · rw [h4]; rfl
  · intro q
    rw [h5 q]
    by_cases e1 : q ∈ e.2 :: ((GetAllPointer n).2.drop
        (((GetAllPointer n).2.length + 1) / 2)).map Prod.snd
    · obtain ⟨_, a1, a2⟩ := hc q e1
      rw [if_pos e1, if_pos e1]
      simp [BWTree.Update, BWTree.Install, a1, a2]
    · rw [if_neg e1, if_neg e1]
      by_cases e2 : q = p
      · rw [if_pos e2]
        simp [BWTree.Update, BWTree.Install, e2, Node.SetNext]
      · rw [if_neg e2]
        by_cases e3 : q = t.next_pid
        · rw [if_pos e3]
          have e4 : (t.next_pid : Int) ≠ p := e3 ▸ e2
          simp [BWTree.Update, BWTree.Install, e3, e4]
        · rw [if_neg e3]
          simp [BWTree.Update, BWTree.Install, e2, e3]

/-- The split of an inner node that is not the root keeps the invariant up to the
pending separator: the separators below the split key stay, the split entry and
the separators after it are the table of the new sibling. -/
theorem SplitInnerAt_models {t : BWTree K V} {g : Ghost K} {m : K → List (K × V)}
    (hI : Inv t g none) {p : Int} (hB : Bounded t (some p)) (hS : Sem t g m)
    {n : Node K V} (hn : t.mapping_table p = some n) (hl : g.lvl p ≠ 0)
    (hroot : t.m_root ≠ p) (hne : (g.tbl p).2 ≠ []) :
    ∃ t2 sk g2, SplitInnerAt t p n = some (t2, (t.next_pid : Int), sk) ∧
      Inv t2 g2 (some (p, (t.next_pid : Int))) ∧ Bounded t2 none ∧ Sem t2 g2 m ∧
      g2.hi p = some sk ∧ g2.par p = g.par p ∧
      t2.mapping_table (g.par p) = t.mapping_table (g.par p) ∧ t2.m_root = t.m_root ∧
      g2.lvl t2.m_root = g.lvl t.m_root ∧ g2.lvl (g.par p) = g.lvl (g.par p) := by
  have hG := hI.ghost
  obtain ⟨hp0, hp1⟩ := hI.alloc p n hn
  have hok := hI.node hn
  have htab := hok.table hl
  have hT := hG.table p hp0 hp1 hl
  have hsz := (hB p n hn).1
  have hts := hok.table_size hl
  have hLpos : 0 < (g.tbl p).2.length := List.length_pos.mpr hne
  obtain ⟨i, hi⟩ : ∃ i, ((g.tbl p).2.length + 1) / 2 = i + 1 :=
    ⟨((g.tbl p).2.length + 1) / 2 - 1, by omega⟩
  have hiL : i < (g.tbl p).2.length := by omega
  have he0 : (g.tbl p).2[i]? = some ((g.tbl p).2[i]) := List.getElem?_eq_getElem hiL
  generalize he' : (g.tbl p).2[i] = e at he0
  have hem : e ∈ (g.tbl p).2 := List.getElem?_mem he0
  obtain ⟨hsklo, hskhi⟩ := hT.keys e hem
  have hcut := slots_cut he0
  have hsorted : ((g.tbl p).2.take i ++ e :: (g.tbl p).2.drop (i + 1)).Pairwise
      (fun a b => a.1 ≤ b.1) := by rw [← hcut]; exact hT.sorted
  have hsp := List.pairwise_append.mp hsorted
  have hsp2 := List.pairwise_cons.mp hsp.2.1
  have hpids : (g.tbl p).1 :: (g.tbl p).2.map Prod.snd =
      ((g.tbl p).1 :: ((g.tbl p).2.take i).map Prod.snd) ++ (e.2 :: ((g.tbl p).2.drop (i + 1)).map Prod.snd) := by
    conv_lhs => rw [hcut]
    simp
  have hndall := hT.nodup
  rw [hpids] at hndall
  have hnd2 := List.nodup_append.mp hndall
  obtain ⟨c', R, hF, hFlen⟩ := filter_lt_prefix hT.sorted he0
  have hFpre : ((g.tbl p).2.filter (fun a => decide (a.1 < e.1))) <+: (g.tbl p).2.take i :=
    List.prefix_of_prefix_length_le ⟨(e.1, c') :: R, hF.symm⟩ (List.take_prefix i _)
      (by rw [List.length_take]; omega)
  have hcs : ∀ c ∈ (e.2 :: ((g.tbl p).2.drop (i + 1)).map Prod.snd), 0 ≤ c ∧ c < t.next_pid ∧ g.par c = p ∧ g.lvl c + 1 = g.lvl p := by
    intro c hc
    have hc2 : c ∈ (g.tbl p).1 :: (g.tbl p).2.map Prod.snd := by
      rw [hpids]; exact List.mem_append_right _ hc
    obtain ⟨l, h, hm⟩ := mem_childBounds_of_pid (g.lo p) (g.hi p) hc2
    obtain ⟨a0, a1, _, a3, a4, _⟩ := hT.children c l h hm
    exact ⟨a0, a1, a3, a4⟩
  have hleft : ∀ c ∈ (g.tbl p).1 :: ((g.tbl p).2.filter (fun a => decide (a.1 < e.1))).map Prod.snd, c ∉ (e.2 :: ((g.tbl p).2.drop (i + 1)).map Prod.snd) := by
    intro c hc hc2
    refine hnd2.2.2 ?_ hc2
    rcases List.mem_cons.mp hc with h | h
    · rw [h]; exact List.mem_cons_self _ _
    · exact List.mem_cons_of_mem _ ((List.IsPrefix.map Prod.snd hFpre).subset h)
  have hpcs : p ∉ (e.2 :: ((g.tbl p).2.drop (i + 1)).map Prod.snd) := by
    intro h
    have := (hcs p h).2.2.2
    omega
  have hNcs : (t.next_pid : Int) ∉ (e.2 :: ((g.tbl p).2.drop (i + 1)).map Prod.snd) := by
    intro h
    have := (hcs _ h).2.1
    omega
  have hpN : p ≠ (t.next_pid : Int) := ne_of_lt hp1
  have hEq := @SplitInnerAt_eq K V _ _ t p n e
  simp only [htab, hi, Nat.add_sub_cancel] at hEq
  obtain ⟨t2, ht2, hnp2, hroot2, hhead2, hmt⟩ := hEq (by omega) he0 hnd2.2.1
    (fun c hc => by
      obtain ⟨a0, a1, _, a3⟩ := hcs c hc
      obtain ⟨nc, hnc, _⟩ := hI.nodes c a0 a1
      exact ⟨⟨nc, hnc⟩, fun h => hpcs (h ▸ hc), ne_of_lt a1⟩)
  have hmp := hmt p
  rw [if_neg hpcs, if_pos rfl] at hmp
  have hmN := hmt t.next_pid
  rw [if_neg hNcs, if_neg (Ne.symm hpN), if_pos rfl] at hmN
  -- the ghost description
  have glo : ∀ q : Int, q ≠ t.next_pid → (innerSplitGhost g p t.next_pid e ((g.tbl p).2.drop (i + 1))).lo q = g.lo q :=
    fun q h => by simp [innerSplitGhost, Function.update_noteq h]
  have gloN : (innerSplitGhost g p t.next_pid e ((g.tbl p).2.drop (i + 1))).lo t.next_pid = some e.1 := by
    simp [innerSplitGhost]
  have ghi : ∀ q : Int, q ≠ t.next_pid → q ≠ p → (innerSplitGhost g p t.next_pid e ((g.tbl p).2.drop (i + 1))).hi q = g.hi q :=
    fun q h h' => by simp [innerSplitGhost, Function.update_noteq h, Function.update_noteq h']
  have ghip : (innerSplitGhost g p t.next_pid e ((g.tbl p).2.drop (i + 1))).hi p = some e.1 := by
    simp [innerSplitGhost]
  have ghiN : (innerSplitGhost g p t.next_pid e ((g.tbl p).2.drop (i + 1))).hi t.next_pid = g.hi p := by
    simp [innerSplitGhost, Function.update_noteq (Ne.symm hpN)]
  have gpar : ∀ q : Int, q ≠ t.next_pid → q ∉ (e.2 :: ((g.tbl p).2.drop (i + 1)).map Prod.snd) → (innerSplitGhost g p t.next_pid e ((g.tbl p).2.drop (i + 1))).par q = g.par q :=
    fun q h h' => by
      show (if q = (t.next_pid : Int) then g.par p else if q ∈ (e.2 :: ((g.tbl p).2.drop (i + 1)).map Prod.snd) then (t.next_pid : Int)
        else g.par q) = g.par q
      rw [if_neg h, if_neg h']
  have gparN : (innerSplitGhost g p t.next_pid e ((g.tbl p).2.drop (i + 1))).par t.next_pid = g.par p := by
    show (if (t.next_pid : Int) = (t.next_pid : Int) then g.par p else _) = g.par p
    rw [if_pos rfl]
  have gparc : ∀ q : Int, q ∈ (e.2 :: ((g.tbl p).2.drop (i + 1)).map Prod.snd) → (innerSplitGhost g p t.next_pid e ((g.tbl p).2.drop (i + 1))).par q = t.next_pid :=
    fun q h => by
      have hqN : q ≠ (t.next_pid : Int) := fun h' => hNcs (h' ▸ h)
      show (if q = (t.next_pid : Int) then g.par p else if q ∈ (e.2 :: ((g.tbl p).2.drop (i + 1)).map Prod.snd) then (t.next_pid : Int)
        else g.par q) = t.next_pid
      rw [if_neg hqN, if_pos h]
  have glvl : ∀ q : Int, q ≠ t.next_pid → (innerSplitGhost g p t.next_pid e ((g.tbl p).2.drop (i + 1))).lvl q = g.lvl q :=
    fun q h => by simp [innerSplitGhost, Function.update_noteq h]
  have glvlN : (innerSplitGhost g p t.next_pid e ((g.tbl p).2.drop (i + 1))).lvl t.next_pid = g.lvl p := by
    simp [innerSplitGhost]
  have gtbl : ∀ q : Int, q ≠ t.next_pid → q ≠ p → (innerSplitGhost g p t.next_pid e ((g.tbl p).2.drop (i + 1))).tbl q = g.tbl q :=
    fun q h h' => by simp [innerSplitGhost, Function.update_noteq h, Function.update_noteq h']
  have gtblp : (innerSplitGhost g p t.next_pid e ((g.tbl p).2.drop (i + 1))).tbl p = ((g.tbl p).1, ((g.tbl p).2.filter (fun a => decide (a.1 < e.1)))) := by
    simp [innerSplitGhost]
  have gtblN : (innerSplitGhost g p t.next_pid e ((g.tbl p).2.drop (i + 1))).tbl t.next_pid = (e.2, (g.tbl p).2.drop (i + 1)) := by
    simp [innerSplitGhost, Function.update_noteq (Ne.symm hpN)]
  have hlt : ∀ q : Int, q < ((t.next_pid + 1 : Nat) : Int) → q ≠ t.next_pid →
      q < t.next_pid := by
    intro q h1 h2; push_cast at h1; omega
  -- the parent of the node
  obtain ⟨pa0, pa1, pa2, pa3⟩ := hG.parent p hp0 hp1 (Ne.symm hroot) ⟨e.1, hsklo, hskhi⟩
    (fun x y e => by cases e)
  have hparN : g.par p ≠ t.next_pid := ne_of_lt pa1
  have hparp : g.par p ≠ p := by
    intro e; rw [e] at pa2; omega
  have hparcs : g.par p ∉ (e.2 :: ((g.tbl p).2.drop (i + 1)).map Prod.snd) := by
    intro h
    have := (hcs _ h).2.2.2
    omega
  have hrootN : t.m_root ≠ t.next_pid := ne_of_lt hG.root_alloc.2
  -- nodes
  have hokp : NodeOK (innerSplitGhost g p t.next_pid e ((g.tbl p).2.drop (i + 1))) p
      (SplitNode e.1 t.next_pid n.GetLevel i (nextLength n) (n.SetNext t.next_pid)) := by
    constructor
    · rw [glvl p hpN]; exact hok.level
    · rw [glvl p hpN]
      show (n.SetNext t.next_pid).GetBaseNode.GetLevel = _
      rw [Node.baseLevel_SetNext]; exact hok.base_level
    · rw [gpar p hpN hpcs]
      show (n.SetNext t.next_pid).GetBaseNode.GetParent = _
      rw [Node.baseParent_SetNext]; exact hok.parent
    · intro h; rw [glvl p hpN] at h; exact absurd h hl
    · intro h; rw [glvl p hpN] at h; exact absurd h hl
    · intro h; rw [glvl p hpN] at h; exact absurd h hl
    · intro h; rw [glvl p hpN] at h; exact absurd h hl
    · intro h; rw [glvl p hpN] at h; exact absurd h hl
    · intro _
      rw [gtblp]
      show ((GetAllPointer (n.SetNext t.next_pid)).1,
        (GetAllPointer (n.SetNext t.next_pid)).2.filter (fun a => decide (a.1 < e.1))) = _
      rw [GetAllPointer_SetNext, htab]
    · intro _ k hlo hhi
      rw [glo p hpN] at hlo
      rw [ghip] at hhi
      have hk : k < e.1 := ltHi_some.mp hhi
      rw [gtblp]
      show (if e.1 ≤ k then (t.next_pid : Int) else findNext k (n.SetNext t.next_pid)) = _
      rw [if_neg (not_le.mpr hk), findNext_SetNext,
        hok.route hl k hlo (fun h e' => lt_trans hk (hskhi h e'))]
      exact (innerLookup_filter_lt _ hT.sorted hk).symm
    · intro _
      rw [gtblp]
      exact hFlen
    · intro h; rw [glvl p hpN] at h; exact absurd h hl
    · exact ⟨(Node.GetLevel_SetNext _ n).symm,
        by rw [Node.GetLength_SetNext]; exact nextLength_eq n,
        (Node.ChainOK_SetNext _ n).mpr hok.chain⟩
  have hokN : NodeOK (innerSplitGhost g p t.next_pid e ((g.tbl p).2.drop (i + 1))) t.next_pid
      (InnerNode n.GetBaseNode.GetParent n.GetLevel n.GetBaseNode.GetNext e.2
        ((g.tbl p).2.drop (i + 1)) : Node K V) := by
    constructor
    · rw [glvlN]; exact hok.level
    · rw [glvlN]; exact hok.level
    · rw [gparN]; exact hok.parent
    · intro h; rw [glvlN] at h; exact absurd h hl
    · intro h; rw [glvlN] at h; exact absurd h hl
    · intro h; rw [glvlN] at h; exact absurd h hl
    · intro h; rw [glvlN] at h; exact absurd h hl
    · intro h; rw [glvlN] at h; exact absurd h hl
    · intro _; rw [gtblN]; rfl
    · intro _ k _ _; rw [gtblN]; rfl
    · intro _; rw [gtblN]; exact le_refl _
    · intro h; rw [glvlN] at h; exact absurd h hl
    · show n.GetLevel ≠ 0
      rw [hok.level]; exact hl
  have hnodes : ∀ q : Int, 0 ≤ q → q < t.next_pid → q ≠ p → ∃ nq nq',
      t.mapping_table q = some nq ∧ t2.mapping_table q = some nq' ∧ NodeOK g q nq ∧
      ((q ∉ (e.2 :: ((g.tbl p).2.drop (i + 1)).map Prod.snd) ∧ nq' = nq) ∨ (q ∈ (e.2 :: ((g.tbl p).2.drop (i + 1)).map Prod.snd) ∧ nq' = nq.SetParent t.next_pid)) := by
    intro q h0 h1 hqp
    obtain ⟨nq, hq, hokq⟩ := hI.nodes q h0 h1
    have hqN : q ≠ t.next_pid := ne_of_lt h1
    by_cases e1 : q ∈ (e.2 :: ((g.tbl p).2.drop (i + 1)).map Prod.snd)
    · exact ⟨nq, nq.SetParent t.next_pid, hq, by rw [hmt, if_pos e1, hq]; rfl, hokq,
        Or.inr ⟨e1, rfl⟩⟩
    · exact ⟨nq, nq, hq, by rw [hmt, if_neg e1, if_neg hqp, if_neg hqN]; exact hq, hokq,
        Or.inl ⟨e1, rfl⟩⟩
  have halloc2 : ∀ (q : Int) (nq : Node K V), t2.mapping_table q = some nq →
      0 ≤ q ∧ q < ((t.next_pid + 1 : Nat) : Int) := by
    intro q nq hq
    by_cases e1 : q = p
    · rw [e1]; exact ⟨hp0, by push_cast; omega⟩
    · by_cases e2 : q = t.next_pid
      · rw [e2]; exact ⟨by omega, by push_cast; omega⟩
      · rw [hmt] at hq
        by_cases e3 : q ∈ (e.2 :: ((g.tbl p).2.drop (i + 1)).map Prod.snd)
        · obtain ⟨a0, a1, _⟩ := hcs q e3
          exact ⟨a0, by push_cast; omega⟩
        · rw [if_neg e3, if_neg e1, if_neg e2] at hq
          have := hI.alloc q nq hq
          exact ⟨this.1, by push_cast; omega⟩
  have hInv : Inv t2 (innerSplitGhost g p t.next_pid e ((g.tbl p).2.drop (i + 1))) (some (p, (t.next_pid : Int))) := by
    refine ⟨?_, ?_, ?_⟩
    · rw [hnp2]; exact halloc2
    · intro q h0 h1
      rw [hnp2] at h1
      by_cases e1 : q = p
      · rw [e1]; exact ⟨_, hmp, hokp⟩
      · by_cases e2 : q = t.next_pid
        · rw [e2]; exact ⟨_, hmN, hokN⟩
        · obtain ⟨nq, nq', hq, hq', hokq, hrel⟩ := hnodes q h0 (hlt q h1 e2) e1
          refine ⟨nq', hq', ?_⟩
          rcases hrel with ⟨e3, e4⟩ | ⟨e3, e4⟩
          · rw [e4]
            exact NodeOK_congr hokq (glvl q e2) (gpar q e2 e3) rfl (glo q e2) (ghi q e2 e1)
              (gtbl q e2 e1)
          · rw [e4]
            exact NodeOK_SetParent hokq _ (glvl q e2) (gparc q e3) rfl (glo q e2)
              (ghi q e2 e1) (gtbl q e2 e1)
    · rw [hnp2, hroot2, hhead2]
      refine
        { root_alloc := ⟨hG.root_alloc.1, by have := hG.root_alloc.2; push_cast; omega⟩
          root_lo := by rw [glo _ hrootN]; exact hG.root_lo
          root_hi := by rw [ghi _ hrootN hroot]; exact hG.root_hi
          lvl_le := ?_
          lvl_root := ?_
          range := ?_
          table := ?_
          parent := ?_
          pending := ?_
          leaves_nodup := hG.leaves_nodup
          leaves_len := le_trans hG.leaves_len (Nat.le_succ _)
          leaves_mem := ?_
          leaf_mem := ?_
          path := ?_ }
      · intro q h0 h1
        by_cases e2 : q = t.next_pid
        · rw [e2, glvlN]
          have := hG.lvl_le p hp0 hp1
          omega
        · rw [glvl q e2]; exact hG.lvl_le q h0 (hlt q h1 e2)
      · intro q h0 h1
        rw [glvl _ hrootN]
        by_cases e2 : q = t.next_pid
        · rw [e2, glvlN]; exact hG.lvl_root p hp0 hp1
        · rw [glvl q e2]; exact hG.lvl_root q h0 (hlt q h1 e2)
      · intro q h0 h1
        by_cases e2 : q = t.next_pid
        · rw [e2, gloN, ghiN]
          intro l h e1 e3
          cases e1
          exact le_of_lt (hskhi h e3)
        · by_cases e1 : q = p
          · rw [e1, glo p hpN, ghip]
            intro l h e3 e4
            cases e4
            exact hsklo l e3
          · rw [glo q e2, ghi q e2 e1]; exact hG.range q h0 (hlt q h1 e2)
      · -- tables
        intro q h0 h1 hlq
        by_cases e2 : q = t.next_pid
        · rw [e2]
          constructor
          · rw [gtblN]; exact hsp2.2
          · rw [gtblN, gloN, ghiN]
            intro a ha
            exact ⟨geLo_some.mpr (hsp2.1 a ha), (hT.keys a (List.mem_of_mem_drop ha)).2⟩
          · rw [gtblN]; exact hnd2.2.1
          · rw [gtblN, gloN, ghiN, glvlN]
            intro c l h hm
            have hc : c ∈ (e.2 :: ((g.tbl p).2.drop (i + 1)).map Prod.snd) := pid_of_mem_childBounds hm
            obtain ⟨c0, c1, c2, c3, c4, c5⟩ :=
              hT.children c l h (childBounds_right he0 hm)
            have hcN : c ≠ t.next_pid := ne_of_lt c1
            have hcp : c ≠ p := fun h' => hpcs (h' ▸ hc)
            have c5' : g.hi c = h := by
              rcases c5 with e | ⟨y, e, _⟩
              · exact e
              · cases e
            exact ⟨c0, by push_cast; omega, by rw [glo c hcN]; exact c2, gparc c hc,
              by rw [glvl c hcN]; exact c4, Or.inl (by rw [ghi c hcN hcp]; exact c5')⟩
        · rw [glvl q e2] at hlq
          by_cases e1 : q = p
          · rw [e1]
            constructor
            · rw [gtblp]; exact List.Pairwise.filter _ hT.sorted
            · rw [gtblp, glo p hpN, ghip]
              intro a ha
              have ha' := List.mem_filter.mp ha
              exact ⟨(hT.keys a ha'.1).1, ltHi_some.mpr (by simpa using ha'.2)⟩
            · rw [gtblp]
              exact List.Nodup.sublist
                (List.Sublist.cons₂ _ ((List.filter_sublist _).map Prod.snd)) hT.nodup
            · rw [gtblp, glo p hpN, ghip, glvl p hpN]
              intro c l h hm
              have hc : c ∉ (e.2 :: ((g.tbl p).2.drop (i + 1)).map Prod.snd) := hleft c (pid_of_mem_childBounds hm)
              obtain ⟨c0, c1, c2, c3, c4, c5⟩ :=
                hT.children c l h (childBounds_left hT.sorted he0 hm)
              have hcN : c ≠ t.next_pid := ne_of_lt c1
              have hcp : c ≠ p := by
                intro h'; rw [h'] at c4; omega
              have c5' : g.hi c = h := by
                rcases c5 with e | ⟨y, e, _⟩
                · exact e
                · cases e
              exact ⟨c0, by push_cast; omega, by rw [glo c hcN]; exact c2,
                by rw [gpar c hcN hc]; exact c3,
                by rw [glvl c hcN]; exact c4, Or.inl (by rw [ghi c hcN hcp]; exact c5')⟩
          · have hTq := hG.table q h0 (hlt q h1 e2) hlq
            constructor
            · rw [gtbl q e2 e1]; exact hTq.sorted
            · rw [gtbl q e2 e1, glo q e2, ghi q e2 e1]; exact hTq.keys
            · rw [gtbl q e2 e1]; exact hTq.nodup
            · rw [gtbl q e2 e1, glo q e2, ghi q e2 e1, glvl q e2]
              intro c l h hm
              obtain ⟨c0, c1, c2, c3, c4, c5⟩ := hTq.children c l h hm
              have hcN : c ≠ t.next_pid := ne_of_lt c1
              have hc : c ∉ (e.2 :: ((g.tbl p).2.drop (i + 1)).map Prod.snd) := by
                intro h'
                have := (hcs c h').2.2.1
                rw [c3] at this
                exact e1 this
              have c5' : g.hi c = h := by
                rcases c5 with e | ⟨y, e, _⟩
                · exact e
                · cases e
              refine ⟨c0, by push_cast; omega, by rw [glo c hcN]; exact c2,
                by rw [gpar c hcN hc]; exact c3, by rw [glvl c hcN]; exact c4, ?_⟩
              by_cases ec : c = p
              · right
                refine ⟨t.next_pid, by rw [ec], ?_⟩
                rw [ghiN, ← ec]; exact c5'
              · left
                rw [ghi c hcN ec]; exact c5'
      · -- parents
        intro q h0 h1 hqr hlive hpend
        obtain ⟨e1, e2⟩ := hpend p t.next_pid rfl
        rw [glo q e2, ghi q e2 e1] at hlive
        obtain ⟨a0, a1, a2, a3⟩ := hG.parent q h0 (hlt q h1 e2) hqr hlive
          (fun x y e => by cases e)
        rw [glo q e2, ghi q e2 e1, glvl q e2]
        by_cases ep : g.par q = p
        · rw [ep] at a3
          rcases childBounds_cases hT.sorted he0 a3 with h' | h' | h'
          · have hc : q ∉ (e.2 :: ((g.tbl p).2.drop (i + 1)).map Prod.snd) := hleft q (pid_of_mem_childBounds h')
            rw [gpar q e2 hc, ep, glvl p hpN, gtblp, glo p hpN, ghip]
            rw [ep] at a2
            exact ⟨hp0, by push_cast; omega, a2, h'⟩
          · have hc : q ∈ (e.2 :: ((g.tbl p).2.drop (i + 1)).map Prod.snd) := pid_of_mem_childBounds h'
            rw [gparc q hc, glvlN, gtblN, gloN, ghiN]
            rw [ep] at a2
            exact ⟨by omega, by push_cast; omega, a2, h'⟩
          · exfalso
            obtain ⟨k, hk1, hk2⟩ := hlive
            have h1' : g.lo q = some e.1 := congrArg Prod.fst h'
            have h2' : g.hi q = some e.1 := congrArg Prod.snd h'
            exact absurd (hk2 _ h2') (not_lt.mpr (hk1 _ h1'))
        · have hc : q ∉ (e.2 :: ((g.tbl p).2.drop (i + 1)).map Prod.snd) := fun h' => ep (hcs q h').2.2.1
          have hpqN : g.par q ≠ t.next_pid := ne_of_lt a1
          rw [gpar q e2 hc, glvl _ hpqN, gtbl _ hpqN ep, glo _ hpqN, ghi _ hpqN ep]
          exact ⟨a0, by push_cast; omega, a2, a3⟩
      · -- the pending split
        intro x y e'
        cases e'
        refine
          { x_alloc := ⟨hp0, by push_cast; omega⟩
            y_alloc := ⟨by omega, by push_cast; omega⟩
            x_ne_root := Ne.symm hroot
            y_ne_root := Ne.symm hrootN
            par_eq := by rw [gparN, gpar p hpN hpcs]
            lvl_eq := by rw [glvlN, glvl p hpN]
            par_alloc := by rw [gpar p hpN hpcs]; exact ⟨pa0, by push_cast; omega⟩
            par_lvl := by rw [gpar p hpN hpcs, glvl p hpN, glvl _ hparN]; exact pa2
            key := ⟨e.1, ghip, gloN, by rw [ghiN]; exact hskhi⟩
            entry := by
              rw [gpar p hpN hpcs, gtbl _ hparN hparp, glo _ hparN, ghi _ hparN hparp,
                glo p hpN, ghiN]
              exact pa3
            fresh := ?_ }
        intro q h0 h1 hlq
        by_cases e2 : q = t.next_pid
        · rw [e2, gtblN]; exact hNcs
        · rw [glvl q e2] at hlq
          have hTq := hG.table q h0 (hlt q h1 e2) hlq
          have hold : (t.next_pid : Int) ∉ (g.tbl q).1 :: (g.tbl q).2.map Prod.snd := by
            intro hmem
            obtain ⟨l, h, hm⟩ := mem_childBounds_of_pid (g.lo q) (g.hi q) hmem
            have := (hTq.children _ _ _ hm).2.1
            omega
          by_cases e1 : q = p
          · rw [e1, gtblp]
            rw [e1] at hold
            intro hmem
            apply hold
            rcases List.mem_cons.mp hmem with h | h
            · rw [h]; exact List.mem_cons_self _ _
            · exact List.mem_cons_of_mem _
                (((List.filter_sublist _).map Prod.snd).subset h)
          · rw [gtbl q e2 e1]; exact hold
      · intro a ha
        obtain ⟨a0, a1, a2⟩ := hG.leaves_mem a ha
        have : a ≠ t.next_pid := ne_of_lt a1
        exact ⟨a0, by push_cast; omega, by rw [glvl a this]; exact a2⟩
      · intro q h0 h1 hlq
        have e2 : q ≠ t.next_pid := by
          intro e'; rw [e', glvlN] at hlq; exact hl hlq
        rw [glvl q e2] at hlq
        exact hG.leaf_mem q h0 (hlt q h1 e2) hlq
      · refine @LeafPath_congr K _ g (innerSplitGhost g p t.next_pid e ((g.tbl p).2.drop (i + 1))) g.leaves t.m_headleaf (fun a ha => ?_) hG.path
        obtain ⟨a0, a1, a2⟩ := hG.leaves_mem a ha
        have e2 : a ≠ t.next_pid := ne_of_lt a1
        have e1 : a ≠ p := by
          intro e'; rw [e'] at a2; exact hl a2
        exact ⟨rfl, glo a e2, ghi a e2 e1⟩
  refine ⟨t2, e.1, (innerSplitGhost g p t.next_pid e ((g.tbl p).2.drop (i + 1))), ht2, hInv, ?_, ?_, ghip, gpar p hpN hpcs, ?_, hroot2, ?_,
    glvl _ hparN⟩
  · -- sizes
    intro q nq hq
    have hsmall : nq.GetSize ≤ 65533 := by
      by_cases e1 : q = p
      · rw [e1, hmp] at hq
        cases hq
        show i ≤ 65533
        omega
      · by_cases e2 : q = t.next_pid
        · rw [e2, hmN] at hq
          cases hq
          show ((g.tbl p).2.drop (i + 1)).length ≤ 65533
          rw [List.length_drop]
          omega
        · obtain ⟨h0, h1⟩ := halloc2 q nq hq
          obtain ⟨oq, oq', ho, ho', _, hrel⟩ := hnodes q h0 (hlt q h1 e2) e1
          rw [hq] at ho'
          cases ho'
          have hb := (hB q oq ho).2 (fun e => e1 (Option.some.inj e).symm)
          rcases hrel with ⟨_, e⟩ | ⟨_, e⟩
          · rw [e]; exact hb
          · rw [e, Node.GetSize_SetParent]; exact hb
    exact ⟨by omega, fun _ => hsmall⟩
  · -- content
    intro q nq k hq hlq hlo hhi
    have e2 : q ≠ t.next_pid := by
      intro e'; rw [e', glvlN] at hlq; exact hl hlq
    rw [glvl q e2] at hlq
    have e1 : q ≠ p := by
      intro e'; rw [e'] at hlq; exact hl hlq
    obtain ⟨h0, h1⟩ := halloc2 q nq hq
    obtain ⟨oq, oq', ho, ho', _, hrel⟩ := hnodes q h0 (hlt q h1 e2) e1
    rw [hq] at ho'
    cases ho'
    rw [glo q e2] at hlo
    rw [ghi q e2 e1] at hhi
    have := hS q oq k ho hlq hlo hhi
    rcases hrel with ⟨_, e⟩ | ⟨_, e⟩
    · rw [e]; exact this
    · rw [e, GetAllData_SetParent]; exact this
  · rw [hmt, if_neg hparcs, if_neg hparp, if_neg hparN]
  · rw [hroot2, glvl _ hrootN]

end InnerSplit
/-! ## The splits keep the index well-formed -/

section Splits

set_option linter.unusedSectionVars false

variable {K V : Type} [LinearOrder K] [DecidableEq V]

/-- `SplitInner` returns when it has fuel for the levels between the node and the
root: the index it leaves has the invariant and the same content, and every size
is back under the bound. -/
theorem SplitInner_models {cfg : Config} (hA : cfg.Admissible) (fuel : Nat) :
    ∀ {t : BWTree K V} {g : Ghost K} {m : K → List (K × V)} {P : Int} {n : Node K V},
      Inv t g none → Bounded t (some P) → Sem t g m → t.mapping_table P = some n →
      g.lvl P ≠ 0 → (g.tbl P).2 ≠ [] → g.lvl t.m_root < g.lvl P + fuel →
      ∃ t' g', SplitInner cfg fuel t P = some t' ∧ Inv t' g' none ∧ Bounded t' none ∧
        Sem t' g' m := by
  induction fuel with
  | zero =>
    intro t g m P n hI hB hS hn hl hne hf
    obtain ⟨hp0, hp1⟩ := hI.alloc P n hn
    have := hI.ghost.lvl_root P hp0 hp1
    omega
  | succ fuel ih =>
    intro t g m P n hI hB hS hn hl hne hf
    obtain ⟨t1, g1, n1, hgrow, hI1, hB1, hS1, hn1, hroot1, hl1, hne1, hmeas⟩ :
        ∃ (t1 : BWTree K V) (g1 : Ghost K) (n1 : Node K V),
          GrowRoot t P (fun b => b.GetLevel + 1) = some t1 ∧
          Inv t1 g1 none ∧ Bounded t1 (some P) ∧ Sem t1 g1 m ∧
          t1.mapping_table P = some n1 ∧ t1.m_root ≠ P ∧ g1.lvl P ≠ 0 ∧ (g1.tbl P).2 ≠ [] ∧
          (g1.lvl t1.m_root < g1.lvl P + 1 + fuel ∨
            ∃ nR, t1.mapping_table (g1.par P) = some nR ∧ nR.GetSize = 0 ∧
              nR.IsDelta = false) := by
      by_cases hr : t.m_root = P
      · obtain ⟨t1, g1, n1, h1, h2, h3, h4, h5, h6, _, h8, _, _, _, h12, h13⟩ :=
          GrowRoot_models hI hB hS hn (fun b => b.GetLevel + 1)
            (by show n.GetBaseNode.GetLevel + 1 = _; rw [(hI.node hn).base_level])
        exact ⟨t1, g1, n1, h1, h2, h3, h4, h5, h6, by rw [h8]; exact hl,
          by rw [h12]; exact hne, Or.inr (h13 hr)⟩
      · exact ⟨t, g, n, GrowRoot_not_root _ hr, hI, hB, hS, hn, hr, hl, hne,
          Or.inl (by omega)⟩
    have hG1 := hI1.ghost
    obtain ⟨hp0, hp1⟩ := hI1.alloc P n1 hn1
    have hok1 := hI1.node hn1
    rw [SplitInner]
    simp only [hgrow, GetNode, hn1]
    by_cases hfull : cfg.IsInnerFull n1.GetSize n1.GetLength = false
    · rw [if_pos hfull]
      refine ⟨t1, g1, rfl, hI1, Bounded_weaken hB1 (fun n' hn' => ?_), hS1⟩
      have e : n1 = n' := Option.some.inj (hn1.symm.trans hn')
      rw [← e]
      by_contra hc
      rw [hA.inner_bound n1.GetSize n1.GetLength (by omega)] at hfull
      cases hfull
    · rw [if_neg hfull]
      obtain ⟨t2, sk, g2, ht2, hI2, hB2, hS2, hsk, hpar2, hmp2, hroot2, hlr2, hlp2⟩ :=
        SplitInnerAt_models hI1 hB1 hS1 hn1 hl1 hroot1 hne1
      obtain ⟨nP, d, hnP, hsep, hdsz, hdlen, hI3, hB3, hS3⟩ :=
        InstallSeparator_models hI2 hB2 hS2 hsk
      rw [hpar2] at hnP hsep hI3 hB3 hS3
      rw [ht2]
      simp only [hok1.parent, hsep]
      have hsmall : cfg.IsInnerFull d.GetSize d.GetLength = false →
          Bounded (t2.Update (g1.par P) d) none := by
        intro hnf
        refine Bounded_weaken hB3 (fun n' hn' => ?_)
        simp only [BWTree.Update, if_true, Option.some.injEq] at hn'
        rw [← hn']
        by_contra hc
        rw [hA.inner_bound d.GetSize d.GetLength (by omega)] at hnf
        cases hnf
      by_cases hfd : cfg.IsInnerFull d.GetSize d.GetLength = true
      · rw [if_pos hfd]
        rcases hmeas with hmeas | ⟨nR, hnR, hR0, hRd⟩
        · -- the parent is an old inner node: one level up
          obtain ⟨e, he⟩ := List.exists_mem_of_ne_nil _ hne1
          obtain ⟨hklo, hkhi⟩ := (hG1.table P hp0 hp1 hl1).keys e he
          obtain ⟨pa0, pa1, pa2, _⟩ := hG1.parent P hp0 hp1 (Ne.symm hroot1)
            ⟨e.1, hklo, hkhi⟩ (fun x y e => by cases e)
          refine ih hI3 hB3 hS3 (n := d) (by simp [BWTree.Update]) ?_ ?_ ?_
          · show g2.lvl (g1.par P) ≠ 0
            rw [hlp2, pa2]; exact Nat.succ_ne_zero _
          · show ((separatorGhost g2 (g1.par P) sk t1.next_pid).tbl (g1.par P)).2 ≠ []
            simp only [separatorGhost, Function.update_same]
            intro h
            have := congrArg List.length h
            rw [length_insertPointer] at this
            simp at this
          · show g2.lvl (t2.Update (g1.par P) d).m_root < g2.lvl (g1.par P) + fuel
            have : (t2.Update (g1.par P) d).m_root = t2.m_root := rfl
            rw [this, hlr2, hlp2, pa2]
            omega
        · -- the parent is the new root: its first separator does not fill it
          exfalso
          rw [hmp2, hnR] at hnP
          cases hnP
          rw [hdsz, hdlen, hR0] at hfd
          have hlen : nextLength nP = 1 := by simp [nextLength, hRd]
          rw [hlen, hA.new_root] at hfd
          cases hfd
      · rw [if_neg hfd]
        exact ⟨_, _, rfl, hI3, hsmall (by simpa using hfd), hS3⟩

/-- `SplitLeaf` returns on a leaf that holds a key: the index it leaves has the
invariant and the same content, and every size is back under the bound. -/
theorem SplitLeaf_models {cfg : Config} (hA : cfg.Admissible)
    {t : BWTree K V} {g : Ghost K} {m : K → List (K × V)} {p : Int} {n : Node K V}
    (hI : Inv t g none) (hB : Bounded t (some p)) (hS : Sem t g m)
    (hn : t.mapping_table p = some n) (hl : g.lvl p = 0) (hD : GetAllData n ≠ []) :
    ∃ t' g', SplitLeaf cfg t p = some t' ∧ Inv t' g' none ∧ Bounded t' none ∧
      Sem t' g' m := by
  obtain ⟨t1, g1, n1, hgrow, hI1, hB1, hS1, hn1, hroot1, hrel, hl1, _, _, _, _, _⟩ :=
    GrowRoot_models hI hB hS hn (fun _ => 1) (by rw [hl])
  rw [hl] at hl1
  have hD1 : GetAllData n1 ≠ [] := by
    rcases hrel with e | ⟨x, e⟩
    · rw [e]; exact hD
    · rw [e, GetAllData_SetParent]; exact hD
  have hok1 := hI1.node hn1
  rw [SplitLeaf]
  simp only [hgrow, GetNode, hn1]
  by_cases hfull : cfg.IsLeafFull n1.GetSize n1.GetLength = false
  · rw [if_pos hfull]
    refine ⟨t1, g1, rfl, hI1, Bounded_weaken hB1 (fun n' hn' => ?_), hS1⟩
    have e : n1 = n' := Option.some.inj (hn1.symm.trans hn')
    rw [← e]
    by_contra hc
    rw [hA.leaf_bound n1.GetSize n1.GetLength (by omega)] at hfull
    cases hfull
  · rw [if_neg hfull]
    obtain ⟨t2, sk, g2, ht2, hI2, hB2, hS2, hsk, hpar2, hmp2, hroot2, hlr2, hlp2⟩ :=
      SplitLeafAt_models hI1 hB1 hS1 hn1 hl1 hroot1 hD1
    obtain ⟨nP, d, hnP, hsep, hdsz, hdlen, hI3, hB3, hS3⟩ :=
      InstallSeparator_models hI2 hB2 hS2 hsk
    have hP := hI2.ghost.pending p t1.next_pid rfl
    rw [hpar2] at hnP hsep hI3 hB3 hS3
    rw [ht2]
    simp only [hok1.parent, hsep]
    by_cases hfd : cfg.IsInnerFull d.GetSize d.GetLength = true
    · rw [if_pos hfd]
      have hr3 := hI3.ghost.root_alloc
      have hlr := hI3.ghost.lvl_le _ hr3.1 hr3.2
      refine SplitInner_models hA _ hI3 hB3 hS3 (n := d) (by simp [BWTree.Update]) ?_ ?_ ?_
      · show g2.lvl (g1.par p) ≠ 0
        rw [← hpar2, hP.par_lvl]; exact Nat.succ_ne_zero _
      · show ((separatorGhost g2 (g1.par p) sk t1.next_pid).tbl (g1.par p)).2 ≠ []
        simp only [separatorGhost, Function.update_same]
        intro h
        have := congrArg List.length h
        rw [length_insertPointer] at this
        simp at this
      · omega
    · rw [if_neg hfd]
      refine ⟨_, _, rfl, hI3, Bounded_weaken hB3 (fun n' hn' => ?_), hS3⟩
      simp only [BWTree.Update, if_true, Option.some.injEq] at hn'
      rw [← hn']
      by_contra hc
      rw [hA.inner_bound d.GetSize d.GetLength (by omega)] at hfd
      exact hfd rfl

/-- `InsertData` returns on a well-formed index, and the index it leaves holds the
old content with the new pair after the pairs of its key. -/
theorem InsertData_models {cfg : Config} (hA : cfg.Admissible) {t : BWTree K V}
    {m : K → List (K × V)} (hM : Models t m) (x : K × V) :
    ∃ t', InsertData cfg t x = some t' ∧
      Models t' (fun k => m k ++ (if k = x.1 then [(x.1, x.2)] else [])) := by
  obtain ⟨g, hI, hB, hS⟩ := EnsureRoot_models hM
  obtain ⟨p, n, hn, hok, h0, hl, hlo, hhi, hloc, _, _⟩ := locate_inv hI x.1
  obtain ⟨hI1, hB1, hS1⟩ := insert_delta_models hI hB hS x hn hok hl hlo hhi
  rw [InsertData]
  simp only [hloc, GetNode, hn]
  by_cases hfull : cfg.IsLeafFull
      (InsertNode x.1 x.2 n.GetLevel ((if LeafContainsKey n x.1 then 0 else 1) + n.GetSize)
        (nextLength n) n).GetSize
      (InsertNode x.1 x.2 n.GetLevel ((if LeafContainsKey n x.1 then 0 else 1) + n.GetSize)
        (nextLength n) n).GetLength = true
  · rw [if_pos hfull]
    obtain ⟨t', g', h1, h2, h3, h4⟩ := SplitLeaf_models hA hI1 hB1 hS1
      (n := InsertNode x.1 x.2 n.GetLevel ((if LeafContainsKey n x.1 then 0 else 1) + n.GetSize)
        (nextLength n) n) (by simp [BWTree.Update]) hl
      (by
        show insertSlot x.1 x.2 (GetAllData n) ≠ []
        intro h
        have := insertSlot_has_key x.1 x.2 (GetAllData n)
        rw [h] at this
        simp at this)
    exact ⟨t', h1, Or.inr ⟨g', h2, h3, h4⟩⟩
  · rw [if_neg hfull]
    refine ⟨_, rfl, Or.inr ⟨g, hI1, Bounded_weaken hB1 (fun n' hn' => ?_), hS1⟩⟩
    simp only [BWTree.Update, if_true, Option.some.injEq] at hn'
    rw [← hn']
    by_contra hc
    rw [hA.leaf_bound _ _ (by omega)] at hfull
    exact hfull rfl

end Splits
/-! ## The readers: `Search` and `SearchAll` on a well-formed index -/

section Reads

set_option linter.unusedSectionVars false

variable {K V : Type} [LinearOrder K] [DecidableEq V]

/-- The pairs of sorted slots have their keys in non-decreasing order. -/
theorem expandSlots_sorted {D : List (K × List V)} (h : D.Pairwise (fun a b => a.1 < b.1)) :
    (expandSlots D).Pairwise (fun a b => a.1 ≤ b.1) := by
  unfold expandSlots
  rw [List.pairwise_flatMap]
  constructor
  · intro s _
    rw [List.pairwise_map]
    exact List.pairwise_of_forall (fun _ _ => le_refl _)
  · refine h.imp ?_
    intro a b hab x hx y hy
    obtain ⟨_, _, rfl⟩ := List.mem_map.mp hx
    obtain ⟨_, _, rfl⟩ := List.mem_map.mp hy
    exact le_of_lt hab

/-- The pairs of a key among the pairs of the slots are the pairs `Search` selects. -/
theorem filter_expandSlots (D : List (K × List V)) (k : K) :
    (expandSlots D).filter (fun x => decide (x.1 = k)) = matchSlots D k := by
  induction D with
  | nil => rfl
  | cons s D ih =>
    rw [expandSlots_cons, List.filter_append, ih, matchSlots_cons]
    congr 1
    by_cases h : k = s.1
    · rw [if_pos h, List.filter_eq_self]
      intro x hx
      obtain ⟨_, _, rfl⟩ := List.mem_map.mp hx
      simp [h]
    · rw [if_neg h, List.filter_eq_nil_iff]
      intro x hx
      obtain ⟨_, _, rfl⟩ := List.mem_map.mp hx
      simpa using fun e => h e.symm

/-- Of two leaves of the chain the later one has no key below the upper bound of
the earlier one. -/
theorem LeafPath_ordered {g : Ghost K} :
    ∀ (L : List Int) (h : Int), LeafPath g h L → (∀ q ∈ L, loLeHi (g.lo q) (g.hi q)) →
      L.Pairwise (fun a b => ∀ k, ltHi k (g.hi a) → geLo (g.lo b) k → False) := by
  intro L
  induction L with
  | nil => intro h _ _; exact List.Pairwise.nil
  | cons a rest ih =>
    intro h hp hr
    rw [List.pairwise_cons]
    refine ⟨?_, ih (g.nxt a) (LeafPath_cons.mp hp).2.1
      (fun q hq => hr q (List.mem_cons_of_mem _ hq))⟩
    intro b hb k h2 h3
    exact LeafPath_head_sep rest a h hp hr b hb k h2 h3

/-- The loop of `SearchAll` along the leaf chain returns the pairs of the leaves in
chain order. -/
theorem scanLeaves_path {t : BWTree K V} {g : Ghost K} :
    ∀ (L : List Int) (fuel : Nat) (p : Int) (leaf : Option (Node K V)),
      LeafPath g p L →
      (∀ a ∈ L, a ≠ NULL_PID ∧ ∃ n, t.mapping_table a = some n ∧
        n.GetBaseNode.GetNext = g.nxt a) →
      (p ≠ NULL_PID → leaf = GetNode t p) → L.length < fuel →
      scanLeaves t fuel p leaf = some (L.flatMap (leafPairs t)) ∧ LeafChain t p L := by
  intro L
  induction L with
  | nil =>
    intro fuel p leaf hp _ _ hf
    have hp' : p = NULL_PID := hp
    cases fuel with
    | zero => simp at hf
    | succ f => exact ⟨by simp [scanLeaves, hp'], hp'⟩
  | cons a rest ih =>
    intro fuel p leaf hp hL hleaf hf
    obtain ⟨hpa, hrest, _⟩ := LeafPath_cons.mp hp
    obtain ⟨ha, n, hn, hnext⟩ := hL a (List.mem_cons_self _ _)
    cases fuel with
    | zero => simp at hf
    | succ f =>
      have hpn : p ≠ NULL_PID := by rw [hpa]; exact ha
      have hl := hleaf hpn
      rw [hpa] at hl
      obtain ⟨h1, h2⟩ := ih f (g.nxt a)
        (if g.nxt a ≠ NULL_PID then GetNode t (g.nxt a) else some n) hrest
        (fun b hb => hL b (List.mem_cons_of_mem _ hb))
        (fun h => by rw [if_pos h])
        (by simp only [List.length_cons] at hf; omega)
      constructor
      · simp only [GetNode] at h1
        simp only [scanLeaves, if_neg hpn, hl, GetNode, hn, hnext, h1, List.flatMap_cons,
          leafPairs]
      · show (match GetNode t a with
          | none => False
          | some n => p = a ∧ a ≠ NULL_PID ∧ LeafChain t n.GetBaseNode.GetNext rest)
        simp only [GetNode, hn]
        rw [hnext]
        exact ⟨hpa, ha, h2⟩

/-- `SearchAll` on an index with the invariant returns the pairs of the leaves of
the chain from `m_headleaf`, in chain order. -/
theorem SearchAll_inv {t : BWTree K V} {g : Ghost K} (hI : Inv t g none) :
    SearchAll t = some (g.leaves.flatMap (leafPairs t)) ∧
      LeafChain t t.m_headleaf g.leaves := by
  have hG := hI.ghost
  refine scanLeaves_path g.leaves t.fuel t.m_headleaf _ hG.path ?_ (fun _ => rfl) ?_
  · intro a ha
    obtain ⟨a0, a1, a2⟩ := hG.leaves_mem a ha
    obtain ⟨n, hn, hok⟩ := hI.nodes a a0 a1
    exact ⟨ne_NULL_of_nonneg a0, n, hn, hok.next a2⟩
  · have := hG.leaves_len
    show g.leaves.length < t.next_pid + 1
    omega

/-- The pairs `SearchAll` returns on an index with the invariant have their keys in
non-decreasing order. -/
theorem SearchAll_sorted {t : BWTree K V} {g : Ghost K} (hI : Inv t g none) :
    (g.leaves.flatMap (leafPairs t)).Pairwise (fun a b => a.1 ≤ b.1) := by
  have hG := hI.ghost
  have hkeys : ∀ a ∈ g.leaves, ∀ x ∈ leafPairs t a,
      geLo (g.lo a) x.1 ∧ ltHi x.1 (g.hi a) := by
    intro a ha x hx
    obtain ⟨a0, a1, a2⟩ := hG.leaves_mem a ha
    obtain ⟨n, hn, hok⟩ := hI.nodes a a0 a1
    simp only [leafPairs, GetNode, hn] at hx
    obtain ⟨s, hs, e⟩ := mem_expandSlots hx
    rw [← e]
    exact hok.keys a2 s hs
  rw [List.pairwise_flatMap]
  constructor
  · intro a ha
    obtain ⟨a0, a1, a2⟩ := hG.leaves_mem a ha
    obtain ⟨n, hn, hok⟩ := hI.nodes a a0 a1
    simp only [leafPairs, GetNode, hn]
    exact expandSlots_sorted (hok.sorted a2)
  · have hord := LeafPath_ordered g.leaves _ hG.path (fun q hq => by
      obtain ⟨q0, q1, _⟩ := hG.leaves_mem q hq
      exact hG.range q q0 q1)
    have hmem : g.leaves.Pairwise (fun a b => a ∈ g.leaves ∧ b ∈ g.leaves) :=
      List.pairwise_of_forall_mem_list (fun a ha b hb => ⟨ha, hb⟩)
    refine (hord.and hmem).imp ?_
    intro a b hab x hx y hy
    by_contra hlt
    have hlt' : y.1 < x.1 := not_le.mp hlt
    have hxr := hkeys a hab.2.1 x hx
    have hyr := hkeys b hab.2.2 y hy
    exact hab.1 y.1 (fun h e => lt_trans hlt' (hxr.2 h e)) hyr.1

/-- The pairs of a key among the pairs of all leaves are the content of the key. -/
theorem SearchAll_filter {t : BWTree K V} {g : Ghost K} {m : K → List (K × V)}
    (hI : Inv t g none) (hS : Sem t g m) (k : K) :
    (g.leaves.flatMap (leafPairs t)).filter (fun x => decide (x.1 = k)) = m k := by
  have hG := hI.ghost
  obtain ⟨p, n, hn, hok, h0, hl, hlo, hhi, _⟩ := locate_inv hI k
  obtain ⟨_, hp1⟩ := hI.alloc p n hn
  have hpl : p ∈ g.leaves := hG.leaf_mem p h0 hp1 hl
  rw [List.filter_flatMap]
  have hother : ∀ a ∈ g.leaves, a ≠ p →
      (leafPairs t a).filter (fun x => decide (x.1 = k)) = [] := by
    intro a ha hap
    obtain ⟨a0, a1, a2⟩ := hG.leaves_mem a ha
    obtain ⟨na, hna, hoka⟩ := hI.nodes a a0 a1
    rw [List.filter_eq_nil_iff]
    intro x hx hxk
    simp only [decide_eq_true_eq] at hxk
    simp only [leafPairs, GetNode, hna] at hx
    obtain ⟨s, hs, e⟩ := mem_expandSlots hx
    have hr := hoka.keys a2 s hs
    rw [e, hxk] at hr
    exact leaf_disjoint hG ⟨a0, a1, a2⟩ ⟨h0, hp1, hl⟩ hap k hr.1 hr.2 hlo hhi
  have hself : (leafPairs t p).filter (fun x => decide (x.1 = k)) = m k := by
    simp only [leafPairs, GetNode, hn]
    rw [filter_expandSlots]
    exact hS p n k hn hl hlo hhi
  have key : ∀ (L : List Int), L.Nodup → (∀ a ∈ L, a ≠ p →
      (leafPairs t a).filter (fun x => decide (x.1 = k)) = []) →
      L.flatMap (fun a => (leafPairs t a).filter (fun x => decide (x.1 = k))) =
        if p ∈ L then m k else [] := by
    intro L
    induction L with
    | nil => intro _ _; rfl
    | cons a rest ih =>
      intro hnd hoth
      have hnd' := List.nodup_cons.mp hnd
      rw [List.flatMap_cons, ih hnd'.2 (fun b hb => hoth b (List.mem_cons_of_mem _ hb))]
      by_cases e : a = p
      · rw [e, hself, if_neg (e ▸ hnd'.1), if_pos (List.mem_cons_self _ _),
          List.append_nil]
      · rw [hoth a (List.mem_cons_self _ _) e, List.nil_append]
        by_cases e' : p ∈ rest
        · rw [if_pos e', if_pos (List.mem_cons_of_mem _ e')]
        · rw [if_neg e', if_neg (by simp [e', Ne.symm e])]
  rw [key g.leaves hG.leaves_nodup hother, if_pos hpl]

end Reads
/-! ## Sequential histories of calls -/

section HistoryLemmas

set_option linter.unusedSectionVars false

variable {K V : Type} [LinearOrder K] [DecidableEq V]

/-- The empty index holds the empty content. -/
theorem Models_empty : Models (BWTree.empty : BWTree K V) (fun _ => []) :=
  Or.inl ⟨rfl, rfl, fun _ => rfl, rfl, fun _ => rfl⟩

/-- `Search` returns the content of the key. -/
theorem Search_models {t : BWTree K V} {m : K → List (K × V)} (hM : Models t m) (k : K) :
    Search t k = some (m k) := by
  rcases hM with ⟨hr, _, _, _, hm⟩ | ⟨g, hI, _, hS⟩
  · rw [hm k]
    simp [Search, GetLeafNodePID, hr, NULL_PID]
  · exact Search_inv hI hS k

/-- The pairs of the content of a key have that key. -/
theorem Models_key {t : BWTree K V} {m : K → List (K × V)} (hM : Models t m) {k : K}
    {x : K × V} (hx : x ∈ m k) : x.1 = k := by
  rcases hM with ⟨_, _, _, _, hm⟩ | ⟨g, hI, _, hS⟩
  · rw [hm k] at hx; cases hx
  · exact Sem_key hI hS hx

/-- `SearchAll` returns the pairs of the leaves of the chain from `m_headleaf` in
chain order; their keys are in non-decreasing order, and the pairs of each key are
the content of the key. -/
theorem SearchAll_models {t : BWTree K V} {m : K → List (K × V)} (hM : Models t m) :
    ∃ leaves, leaves.Nodup ∧ LeafChain t t.m_headleaf leaves ∧
      SearchAll t = some (leaves.flatMap (leafPairs t)) ∧
      (leaves.flatMap (leafPairs t)).Pairwise (fun a b => a.1 ≤ b.1) ∧
      ∀ k, (leaves.flatMap (leafPairs t)).filter (fun x => decide (x.1 = k)) = m k := by
  rcases hM with ⟨_, hh, _, _, hm⟩ | ⟨g, hI, _, hS⟩
  · refine ⟨[], List.nodup_nil, hh, ?_, List.Pairwise.nil, fun k => (hm k).symm⟩
    simp [SearchAll, BWTree.fuel, scanLeaves, hh]
  · exact ⟨g.leaves, hI.ghost.leaves_nodup, (SearchAll_inv hI).2, (SearchAll_inv hI).1,
      SearchAll_sorted hI, SearchAll_filter hI hS⟩

/-- Two lists with the same pairs for every key, in any order of the keys, are
permutations of each other. -/
theorem perm_of_filter_eq {r xs : List (K × V)}
    (h : ∀ k, r.filter (fun x => decide (x.1 = k)) = xs.filter (fun x => decide (x.1 = k))) :
    r.Perm xs := by
  rw [List.perm_iff_count]
  intro a
  have e1 := @List.count_filter (K × V) (@instBEqOfDecidableEq (K × V) inferInstance)
    (@instLawfulBEq (K × V) inferInstance)
    (fun x => decide (x.1 = a.1)) a r (by simp)
  have e2 := @List.count_filter (K × V) (@instBEqOfDecidableEq (K × V) inferInstance)
    (@instLawfulBEq (K × V) inferInstance)
    (fun x => decide (x.1 = a.1)) a xs (by simp)
  rw [h a.1] at e1
  exact e1.symm.trans e2

/-- A sequence of inserts returns, and the index it leaves holds the old content
with the inserted pairs of each key after it, in the order of the inserts. -/
theorem InsertAll_models {cfg : Config} (hA : cfg.Admissible) (xs : List (K × V)) :
    ∀ {t : BWTree K V} {m : K → List (K × V)}, Models t m →
      ∃ t', InsertAll cfg t xs = some t' ∧
        Models t' (fun k => m k ++ xs.filter (fun p => decide (p.1 = k))) := by
  induction xs with
  | nil =>
    intro t m hM
    refine ⟨t, rfl, ?_⟩
    simpa using hM
  | cons x xs ih =>
    intro t m hM
    obtain ⟨t1, h1, hM1⟩ := InsertData_models hA hM x
    obtain ⟨t2, h2, hM2⟩ := ih hM1
    refine ⟨t2, ?_, ?_⟩
    · simp only [InsertAll, List.foldlM_cons, h1]
      exact h2
    · have e : (fun k => (m k ++ if k = x.1 then [(x.1, x.2)] else []) ++
          xs.filter (fun p => decide (p.1 = k))) =
          (fun k => m k ++ (x :: xs).filter (fun p => decide (p.1 = k))) := by
        funext k
        by_cases h : k = x.1
        · rw [if_pos h, List.filter_cons_of_pos (by simp [h]), List.append_assoc]
          rfl
        · rw [if_neg h, List.filter_cons_of_neg (by simpa using fun e => h e.symm),
            List.append_nil]
      rw [← e]
      exact hM2

/-- Every call of a history returns on a well-formed index and leaves a well-formed
index. -/
theorem applyOp_models {cfg : Config} (hA : cfg.Admissible) {t : BWTree K V}
    {m : K → List (K × V)} (hM : Models t m) (o : Op K V) :
    ∃ t' m', applyOp cfg t o = some t' ∧ Models t' m' := by
  cases o with
  | insert x =>
    obtain ⟨t', h1, h2⟩ := InsertData_models hA hM x
    exact ⟨t', _, h1, h2⟩
  | update x =>
    obtain ⟨t', m', h1, h2, _⟩ := UpdateData_models hM x
    exact ⟨t', m', h1, h2⟩
  | deleteKey k =>
    obtain ⟨t', h1, h2⟩ := DeleteKey_models hM k
    exact ⟨t', _, h1, h2⟩
  | deleteData x =>
    obtain ⟨t', h1, h2⟩ := DeleteData_models hM x
    exact ⟨t', _, h1, h2⟩

/-- A history returns on a well-formed index and leaves a well-formed index. -/
theorem runOps_models {cfg : Config} (hA : cfg.Admissible) (ops : List (Op K V)) :
    ∀ {t : BWTree K V} {m : K → List (K × V)}, Models t m →
      ∃ t' m', runOps cfg t ops = some t' ∧ Models t' m' := by
  induction ops with
  | nil => intro t m hM; exact ⟨t, m, rfl, hM⟩
  | cons o ops ih =>
    intro t m hM
    obtain ⟨t1, m1, h1, hM1⟩ := applyOp_models hA hM o
    obtain ⟨t2, m2, h2, hM2⟩ := ih hM1
    refine ⟨t2, m2, ?_, hM2⟩
    simp only [runOps, List.foldlM_cons, h1]
    exact h2

/-- The thresholds of the spec make an admissible configuration whenever the size
thresholds are below 65534 and the chain threshold is not 0. -/
theorem specConfig_admissible {c l i : Nat} (hc : 0 < c) (hl : l < 65534) (hi : 0 < i)
    (hi' : i < 65534) : (specConfig c l i).Admissible := by
  constructor
  · simp only [specConfig, decide_eq_false_iff_not]
    omega
  · intro s n hs
    simp only [specConfig, decide_eq_true_eq]
    omega
  · intro s n hs
    simp only [specConfig, decide_eq_true_eq]
    omega

theorem defaultConfig_admissible : defaultConfig.Admissible :=
  specConfig_admissible (by decide) (by decide) (by decide) (by decide)

theorem uniqueConfig_admissible : uniqueConfig.Admissible :=
  ⟨defaultConfig_admissible.new_root, defaultConfig_admissible.leaf_bound,
    defaultConfig_admissible.inner_bound⟩

/-- The root leaf with one insert delta is the index one insert leaves, hence
well-formed. -/
theorem rootLeafTree_wellFormed : WellFormed rootLeafTree := by
  obtain ⟨t', h, hM⟩ := InsertData_models defaultConfig_admissible
    (Models_empty : Models (BWTree.empty : BWTree Int Nat) (fun _ => [])) (100, 7)
  have e : InsertData defaultConfig (BWTree.empty : BWTree Int Nat) (100, 7) =
      some rootLeafTree := rfl
  rw [e] at h
  cases h
  exact ⟨_, hM⟩

/-- The count of a pair in the content along a history of inserts and deletes of
pairs follows the counter of `insertsSinceDelete`. -/
theorem runOps_occurrences {cfg : Config} (hA : cfg.Admissible) (x : K × V)
    (ops : List (Op K V)) :
    ∀ {t : BWTree K V} {m : K → List (K × V)}, Models t m →
      (∀ o ∈ ops, o.isInsertOrDeleteData = true) →
      ∃ t' m', runOps cfg t ops = some t' ∧ Models t' m' ∧
        occurrences x (m' x.1) = ops.foldl (sinceDeleteStep x) (occurrences x (m x.1)) := by
  induction ops with
  | nil => intro t m hM _; exact ⟨t, m, rfl, hM, rfl⟩
  | cons o ops ih =>
    intro t m hM hops
    have ho := hops o (List.mem_cons_self _ _)
    have hops' : ∀ o' ∈ ops, o'.isInsertOrDeleteData = true :=
      fun o' h => hops o' (List.mem_cons_of_mem _ h)
    cases o with
    | insert y =>
      obtain ⟨t1, h1, hM1⟩ := InsertData_models hA hM y
      obtain ⟨t2, m2, h2, hM2, hc⟩ := ih hM1 hops'
      refine ⟨t2, m2, ?_, hM2, ?_⟩
      · simp only [runOps, List.foldlM_cons, applyOp, h1]
        exact h2
      · rw [hc, List.foldl_cons]
        congr 1
        simp only [occurrences, sinceDeleteStep, List.filter_append, List.length_append]
        by_cases e : y = x
        · subst e
          simp
        · rw [if_neg e]
          by_cases e' : x.1 = y.1
          · rw [if_pos e']
            have : List.filter (fun p => decide (p = x)) [(y.1, y.2)] = [] := by
              rw [List.filter_eq_nil_iff]
              intro p hp
              simp only [List.mem_singleton] at hp
              rw [hp]
              simpa using e
            rw [this]
            rfl
          · rw [if_neg e']
            rfl
    | deleteData y =>
      obtain ⟨t1, h1, hM1⟩ := DeleteData_models hM y
      obtain ⟨t2, m2, h2, hM2, hc⟩ := ih hM1 hops'
      refine ⟨t2, m2, ?_, hM2, ?_⟩
      · simp only [runOps, List.foldlM_cons, applyOp, h1]
        exact h2
      · rw [hc, List.foldl_cons]
        congr 1
        simp only [occurrences, sinceDeleteStep, List.filter_filter]
        by_cases e : y = x
        · subst e
          rw [if_pos rfl, List.length_eq_zero, List.filter_eq_nil_iff]
          intro p _
          simp only [Bool.and_eq_true, decide_eq_true_eq, not_and]
          intro hp
          rw [hp]
          simp
        · rw [if_neg e]
          congr 1
          apply List.filter_congr
          intro p _
          by_cases hp : p = x
          · have : ¬ (x.1 = y.1 ∧ x.2 = y.2) := fun h => e (Prod.ext h.1 h.2).symm
            simp [hp, this]
          · simp [hp]
    | update y => simp [Op.isInsertOrDeleteData] at ho
    | deleteKey k => simp [Op.isInsertOrDeleteData] at ho

end HistoryLemmas
/-! ## Levels, lengths and key bounds in a well-formed index -/

section Shape

set_option linter.unusedSectionVars false

variable {K V : Type} [LinearOrder K] [DecidableEq V]

/-- A node of an index that holds a content is as a ghost description says. -/
theorem Models_node {t : BWTree K V} {m : K → List (K × V)} (hM : Models t m) {q : PID}
    {n : Node K V} (hn : GetNode t q = some n) :
    ∃ g, Inv t g none ∧ Sem t g m ∧ NodeOK g q n := by
  rcases hM with ⟨_, _, hmap, _, _⟩ | ⟨g, hI, _, hS⟩
  · rw [GetNode, hmap] at hn; cases hn
  · exact ⟨g, hI, hS, hI.node hn⟩

/-- A child between the separators of a table is a child between the bounds the
table has with the bounds of its node, with a range that is not wider. -/
theorem childBounds_weaken (c0 : Int) (lo : Option K) (slots : List (K × Int)) (hi : Option K)
    {c : Int} {l h : Option K} (hm : (c, l, h) ∈ childBounds c0 none slots none) :
    ∃ l' h', (c, l', h') ∈ childBounds c0 lo slots hi ∧
      (∀ k, geLo l' k → geLo l k) ∧ (∀ k, ltHi k h' → ltHi k h) := by
  have gen : ∀ (slots : List (K × Int)) (c0 : Int) (a lo : Option K),
      (∀ k, geLo lo k → geLo a k) → (c, l, h) ∈ childBounds c0 a slots none →
      ∃ l' h', (c, l', h') ∈ childBounds c0 lo slots hi ∧
        (∀ k, geLo l' k → geLo l k) ∧ (∀ k, ltHi k h' → ltHi k h) := by
    intro slots
    induction slots with
    | nil =>
      intro c0 a lo ha hm
      simp only [childBounds, List.mem_singleton, Prod.mk.injEq] at hm
      obtain ⟨rfl, rfl, rfl⟩ := hm
      exact ⟨lo, hi, by simp [childBounds], ha, fun k _ => ltHi_none k⟩
    | cons e rest ih =>
      intro c0 a lo ha hm
      obtain ⟨k1, c1⟩ := e
      simp only [childBounds, List.mem_cons, Prod.mk.injEq] at hm
      rcases hm with ⟨rfl, rfl, rfl⟩ | hm
      · exact ⟨lo, some k1, by simp [childBounds], ha, fun k hk => hk⟩
      · obtain ⟨l', h', h1, h2, h3⟩ := ih c1 (some k1) (some k1) (fun k hk => hk) hm
        exact ⟨l', h', by simp only [childBounds]; exact List.mem_cons_of_mem _ h1, h2, h3⟩
  exact gen slots c0 none lo (fun k _ => geLo_none k) hm

/-- With no empty value list among the slots, `Search` finds a pair for a key
exactly when a slot has the key. -/
theorem matchSlots_ne_nil_iff {D : List (K × List V)} (h : ∀ s ∈ D, s.2 ≠ []) (k : K) :
    matchSlots D k ≠ [] ↔ ∃ s ∈ D, s.1 = k := by
  induction D with
  | nil => simp [matchSlots_nil]
  | cons a D ih =>
    have h' : ∀ s ∈ D, s.2 ≠ [] := fun s hs => h s (List.mem_cons_of_mem _ hs)
    have ha := h a (List.mem_cons_self _ _)
    rw [matchSlots_cons]
    by_cases e : k = a.1
    · rw [if_pos e]
      constructor
      · intro _; exact ⟨a, List.mem_cons_self _ _, e.symm⟩
      · intro _ hnil
        have := (List.append_eq_nil.mp hnil).1
        exact ha (List.map_eq_nil_iff.mp this)
    · rw [if_neg e, List.nil_append, ih h']
      constructor
      · rintro ⟨s, hs, hk⟩; exact ⟨s, List.mem_cons_of_mem _ hs, hk⟩
      · rintro ⟨s, hs, hk⟩
        rcases List.mem_cons.mp hs with e' | e'
        · rw [e'] at hk; exact absurd hk.symm e
        · exact ⟨s, e', hk⟩

/-- The readers `Exists` and `Search` return on a well-formed index, from the slots
of one leaf whose value lists are not empty. -/
theorem Exists_Search_models {t : BWTree K V} {m : K → List (K × V)} (hM : Models t m)
    (k : K) :
    ∃ b, Exists t k = some b ∧ Search t k = some (m k) ∧ (b = true ↔ m k ≠ []) := by
  rcases hM with ⟨hr, _, _, _, hm⟩ | ⟨g, hI, _, hS⟩
  · refine ⟨false, ?_, ?_, ?_⟩
    · simp [Exists, GetLeafNodePID, hr, NULL_PID]
    · rw [hm k]; simp [Search, GetLeafNodePID, hr, NULL_PID]
    · rw [hm k]; simp
  · obtain ⟨p, n, hn, hok, h0, hl, hlo, hhi, _, _, hw⟩ := locate_inv hI k
    have hroot : t.m_root ≠ NULL_PID := ne_NULL_of_nonneg hI.ghost.root_alloc.1
    have hp : ¬ p < 0 := by omega
    refine ⟨VectorContainsKey2 (GetAllData n) k, ?_, Search_inv hI hS k, ?_⟩
    · simp only [Exists, GetLeafNodePID, if_neg hroot, hw, if_neg hp, GetNode, hn]
    · rw [← hS p n k hn hl hlo hhi, matchSlots_ne_nil_iff (hok.nonempty hl),
        VectorContainsKey2_iff]

/-- The shape of the chains of a well-formed index: every delta has the level and
the length plus one of the node below it, the children of an inner node exist and
are one level below it, and the keys of a child are between the separators that
bound it in the table of its parent. -/
theorem Models_shape {t : BWTree K V} {m : K → List (K × V)} (hM : Models t m) {q : PID}
    {n : Node K V} (hn : GetNode t q = some n) :
    n.ChainOK ∧ n.GetBaseNode.GetLevel = n.GetLevel ∧
    (n.IsLeaf = false → ∀ c l h, (c, l, h) ∈
        childBounds (GetAllPointer n).1 none (GetAllPointer n).2 none →
      ∃ nc, GetNode t c = some nc ∧ nc.GetLevel + 1 = n.GetLevel ∧
        (nc.IsLeaf = true → ∀ s ∈ GetAllData nc, geLo l s.1 ∧ ltHi s.1 h) ∧
        (nc.IsLeaf = false → ∀ e ∈ (GetAllPointer nc).2, geLo l e.1 ∧ ltHi e.1 h)) := by
  obtain ⟨g, hI, _, hok⟩ := Models_node hM hn
  refine ⟨hok.chain, by rw [hok.base_level, hok.level], ?_⟩
  intro hleaf c l h hm
  have hG := hI.ghost
  obtain ⟨q0, q1⟩ := hI.alloc q n hn
  have hlq : g.lvl q ≠ 0 := by
    rw [← hok.level]
    exact (Node.IsLeaf_false_iff n).mp hleaf
  have hT := hG.table q q0 q1 hlq
  rw [hok.table hlq] at hm
  obtain ⟨l', h', hm', hl', hh'⟩ := childBounds_weaken (g.tbl q).1 (g.lo q) (g.tbl q).2
    (g.hi q) hm
  obtain ⟨c0, c1, c2, c3, c4, c5⟩ := hT.children c l' h' hm'
  have c5' : g.hi c = h' := by
    rcases c5 with e | ⟨y, e, _⟩
    · exact e
    · cases e
  obtain ⟨nc, hnc, hokc⟩ := hI.nodes c c0 c1
  refine ⟨nc, hnc, by rw [hokc.level, hok.level]; exact c4, ?_, ?_⟩
  · intro hcl s hs
    have hlc : g.lvl c = 0 := by
      rw [← hokc.level]; exact (Node.IsLeaf_iff nc).mp hcl
    obtain ⟨a1, a2⟩ := hokc.keys hlc s hs
    rw [c2] at a1
    rw [c5'] at a2
    exact ⟨hl' _ a1, hh' _ a2⟩
  · intro hcl e he
    have hlc : g.lvl c ≠ 0 := by
      rw [← hokc.level]; exact (Node.IsLeaf_false_iff nc).mp hcl
    have hTc := hG.table c c0 c1 hlc
    rw [hokc.table hlc] at he
    obtain ⟨a1, a2⟩ := hTc.keys e he
    rw [c2] at a1
    rw [c5'] at a2
    exact ⟨hl' _ a1, hh' _ a2⟩

end Shape
/-! ## The leaf chain under every call, consolidations included -/

section Chain

set_option linter.unusedSectionVars false

variable {K V : Type} [LinearOrder K] [DecidableEq V]

theorem LeafChain_cons {t : BWTree K V} {p a : Int} {rest : List Int} :
    LeafChain t p (a :: rest) ↔ ∃ n, t.mapping_table a = some n ∧ p = a ∧ a ≠ NULL_PID ∧
      LeafChain t n.GetBaseNode.GetNext rest := by
  cases h : t.mapping_table a with
  | none => simp [LeafChain, GetNode, h]
  | some n => simp [LeafChain, GetNode, h]

/-- Every leaf of the chain has a node. -/
theorem LeafChain_node {t : BWTree K V} :
    ∀ (L : List Int) (p : Int), LeafChain t p L → ∀ a ∈ L, ∃ n, t.mapping_table a = some n := by
  intro L
  induction L with
  | nil => intro p _ a ha; simp at ha
  | cons b rest ih =>
    intro p hp a ha
    obtain ⟨n, hn, _, _, hr⟩ := LeafChain_cons.mp hp
    rcases List.mem_cons.mp ha with e | e
    · rw [e]; exact ⟨n, hn⟩
    · exact ih _ hr a e

/-- The chain is the same in an index whose leaves of the chain keep their `next`. -/
theorem LeafChain_congr {t t' : BWTree K V} :
    ∀ (L : List Int) (p : Int),
      (∀ a ∈ L, ∀ n, t.mapping_table a = some n →
        ∃ n', t'.mapping_table a = some n' ∧ n'.GetBaseNode.GetNext = n.GetBaseNode.GetNext) →
      LeafChain t p L → LeafChain t' p L := by
  intro L
  induction L with
  | nil => intro p _ hp; exact hp
  | cons b rest ih =>
    intro p h hp
    obtain ⟨n, hn, h1, h2, hr⟩ := LeafChain_cons.mp hp
    obtain ⟨n', hn', e⟩ := h b (List.mem_cons_self _ _) n hn
    refine LeafChain_cons.mpr ⟨n', hn', h1, h2, ?_⟩
    rw [e]
    exact ih _ (fun a ha => h a (List.mem_cons_of_mem _ ha)) hr

/-- The `next` of a leaf of the chain is `NULL_PID` or another leaf of the chain. -/
theorem LeafChain_next_mem {t : BWTree K V} :
    ∀ (L : List Int) (p : Int), LeafChain t p L → L.Nodup → ∀ a ∈ L, ∀ n,
      t.mapping_table a = some n →
      n.GetBaseNode.GetNext = NULL_PID ∨
        (n.GetBaseNode.GetNext ∈ L ∧ n.GetBaseNode.GetNext ≠ a) := by
  intro L
  induction L with
  | nil => intro p _ _ a ha; simp at ha
  | cons a1 rest ih =>
    intro p hp hnd a ha n hn
    obtain ⟨n1, hn1, _, _, hr⟩ := LeafChain_cons.mp hp
    have hnd' := List.nodup_cons.mp hnd
    rcases List.mem_cons.mp ha with e | e
    · subst e
      rw [hn1] at hn
      cases hn
      cases rest with
      | nil => left; exact hr
      | cons b r =>
        right
        obtain ⟨_, _, hb, _, _⟩ := LeafChain_cons.mp hr
        rw [hb]
        refine ⟨List.mem_cons_of_mem _ (List.mem_cons_self _ _), ?_⟩
        intro e
        exact hnd'.1 (by rw [← e]; exact List.mem_cons_self _ _)
    · rcases ih _ hr hnd'.2 a e n hn with h3 | ⟨h3, h4⟩
      · exact Or.inl h3
      · exact Or.inr ⟨List.mem_cons_of_mem _ h3, h4⟩

/-- The chain after a leaf split: the new sibling `s` follows the split leaf `p`
and has its former `next`; the other leaves keep their `next`. -/
theorem LeafChain_insertAfter {t t' : BWTree K V} (p s : Int) (hs0 : s ≠ NULL_PID) :
    ∀ (L : List Int) (h : Int), LeafChain t h L → L.Nodup → s ∉ L →
      (∀ n, t.mapping_table p = some n →
        (∃ n', t'.mapping_table p = some n' ∧ n'.GetBaseNode.GetNext = s) ∧
        ∃ ns, t'.mapping_table s = some ns ∧ ns.GetBaseNode.GetNext = n.GetBaseNode.GetNext) →
      (∀ a ∈ L, a ≠ p → ∀ n, t.mapping_table a = some n →
        ∃ n', t'.mapping_table a = some n' ∧ n'.GetBaseNode.GetNext = n.GetBaseNode.GetNext) →
      LeafChain t' h (insertAfter p s L) := by
  intro L
  induction L with
  | nil => intro h hp _ _ _ _; exact hp
  | cons a rest ih =>
    intro h hp hnd hs hsplit hother
    obtain ⟨n, hn, h1, h2, hr⟩ := LeafChain_cons.mp hp
    have hnd' := List.nodup_cons.mp hnd
    have hs2 : s ∉ rest := fun e => hs (List.mem_cons_of_mem _ e)
    by_cases e : a = p
    · subst e
      simp only [insertAfter, if_true]
      obtain ⟨⟨n', hn', e1⟩, ns, hns, e2⟩ := hsplit n hn
      refine LeafChain_cons.mpr ⟨n', hn', h1, h2, ?_⟩
      rw [e1]
      refine LeafChain_cons.mpr ⟨ns, hns, rfl, hs0, ?_⟩
      rw [e2]
      refine LeafChain_congr rest _ (fun b hb nb hnb => ?_) hr
      have hba : b ≠ a := fun e => hnd'.1 (e ▸ hb)
      exact hother b (List.mem_cons_of_mem _ hb) hba nb hnb
    · simp only [insertAfter, if_neg e]
      obtain ⟨n', hn', e1⟩ := hother a (List.mem_cons_self _ _) e n hn
      refine LeafChain_cons.mpr ⟨n', hn', h1, h2, ?_⟩
      rw [e1]
      exact ih _ hr hnd'.2 hs2 hsplit (fun b hb => hother b (List.mem_cons_of_mem _ hb))

/-- The loop of `SearchAll` along a chain returns the pairs of its leaves. -/
theorem scanLeaves_chain {t : BWTree K V} :
    ∀ (L : List Int) (fuel : Nat) (p : Int) (leaf : Option (Node K V)),
      LeafChain t p L → (p ≠ NULL_PID → leaf = GetNode t p) → L.length < fuel →
      scanLeaves t fuel p leaf = some (L.flatMap (leafPairs t)) := by
  intro L
  induction L with
  | nil =>
    intro fuel p leaf hp _ hf
    have hp' : p = NULL_PID := hp
    cases fuel with
    | zero => simp at hf
    | succ f => simp [scanLeaves, hp']
  | cons a rest ih =>
    intro fuel p leaf hp hleaf hf
    obtain ⟨n, hn, hpa, ha, hrest⟩ := LeafChain_cons.mp hp
    cases fuel with
    | zero => simp at hf
    | succ f =>
      have hpn : p ≠ NULL_PID := by rw [hpa]; exact ha
      have hl := hleaf hpn
      rw [hpa] at hl
      have h1 := ih f n.GetBaseNode.GetNext
        (if n.GetBaseNode.GetNext ≠ NULL_PID then GetNode t n.GetBaseNode.GetNext else some n)
        hrest (fun h => by rw [if_pos h])
        (by simp only [List.length_cons] at hf; omega)
      simp only [GetNode] at h1
      simp only [scanLeaves, if_neg hpn, hl, GetNode, hn, h1, List.flatMap_cons, leafPairs]

/-- `SearchAll` returns on an index with the chain invariant. -/
theorem SearchAll_chain {t : BWTree K V} {L : List Int} {lv : Int → Nat}
    (h : ChainInv t L lv) : SearchAll t = some (L.flatMap (leafPairs t)) := by
  refine scanLeaves_chain L t.fuel t.m_headleaf _ h.chain (fun _ => rfl) ?_
  have := h.len
  show L.length < t.next_pid + 1
  omega

/-- The empty index has the chain invariant. -/
theorem ChainInv_empty : ChainInv (BWTree.empty : BWTree K V) [] (fun _ => 0) where
  alloc := fun q n h => by cases h
  nodup := List.nodup_nil
  len := Nat.zero_le _
  chain := rfl
  level := fun q n h => by cases h
  leaves := fun q n h => by cases h
  mem_level := fun a ha => by cases ha
  parents := fun q n h => by cases h
  root := fun _ _ => rfl

/-- The chain invariant goes over to an index with the same PIDs whose nodes keep
their level, the leaves their `next`, and whose parent pointers are the old ones,
`NULL_PID` or PIDs of inner nodes. -/
theorem ChainInv.transfer {t t' : BWTree K V} {L : List Int} {lv : Int → Nat}
    (h : ChainInv t L lv) (hnp : t'.next_pid = t.next_pid)
    (hhead : t'.m_headleaf = t.m_headleaf) (hroot : t'.m_root = NULL_PID → t.m_root = NULL_PID)
    (hmap : ∀ q : Int, t'.mapping_table q = t.mapping_table q ∨
      ∃ n n', t.mapping_table q = some n ∧ t'.mapping_table q = some n' ∧
        n'.GetLevel = n.GetLevel ∧
        (lv q = 0 → n'.GetBaseNode.GetNext = n.GetBaseNode.GetNext) ∧
        (n'.GetBaseNode.GetParent = n.GetBaseNode.GetParent ∨
          n'.GetBaseNode.GetParent = NULL_PID ∨
          (0 ≤ n'.GetBaseNode.GetParent ∧ n'.GetBaseNode.GetParent < t.next_pid ∧
            lv n'.GetBaseNode.GetParent ≠ 0))) :
    ChainInv t' L lv := by
  have hback : ∀ (q : Int) (n' : Node K V), t'.mapping_table q = some n' →
      ∃ n, t.mapping_table q = some n ∧ n'.GetLevel = n.GetLevel ∧
        (lv q = 0 → n'.GetBaseNode.GetNext = n.GetBaseNode.GetNext) ∧
        (n'.GetBaseNode.GetParent = n.GetBaseNode.GetParent ∨
          n'.GetBaseNode.GetParent = NULL_PID ∨
          (0 ≤ n'.GetBaseNode.GetParent ∧ n'.GetBaseNode.GetParent < t.next_pid ∧
            lv n'.GetBaseNode.GetParent ≠ 0)) := by
    intro q n' hq
    rcases hmap q with e | ⟨n, n2, h1, h2, h3, h4, h5⟩
    · rw [e] at hq
      exact ⟨n', hq, rfl, fun _ => rfl, Or.inl rfl⟩
    · rw [h2] at hq
      cases hq
      exact ⟨n, h1, h3, h4, h5⟩
  have hfwd : ∀ (q : Int) (n : Node K V), t.mapping_table q = some n →
      ∃ n', t'.mapping_table q = some n' ∧
        (lv q = 0 → n'.GetBaseNode.GetNext = n.GetBaseNode.GetNext) := by
    intro q n hq
    rcases hmap q with e | ⟨n1, n2, h1, h2, _, h4, _⟩
    · exact ⟨n, by rw [e]; exact hq, fun _ => rfl⟩
    · rw [h1] at hq
      cases hq
      exact ⟨n2, h2, h4⟩
  refine
    { alloc := ?_
      nodup := h.nodup
      len := by rw [hnp]; exact h.len
      chain := ?_
      level := ?_
      leaves := ?_
      mem_level := h.mem_level
      parents := ?_
      root := ?_ }
  · intro q n' hq
    obtain ⟨n, hn, _⟩ := hback q n' hq
    rw [hnp]
    exact h.alloc q n hn
  · rw [hhead]
    refine LeafChain_congr L _ (fun a ha n hn => ?_) h.chain
    obtain ⟨n', hn', e⟩ := hfwd a n hn
    exact ⟨n', hn', e (h.mem_level a ha)⟩
  · intro q n' hq
    obtain ⟨n, hn, e, _⟩ := hback q n' hq
    rw [e]
    exact h.level q n hn
  · intro q n' hq hl
    obtain ⟨n, hn, _⟩ := hback q n' hq
    exact h.leaves q n hn hl
  · intro q n' hq
    obtain ⟨n, hn, _, _, hp⟩ := hback q n' hq
    rw [hnp]
    rcases hp with e | e | e
    · rw [e]; exact h.parents q n hn
    · exact Or.inl e
    · exact Or.inr e
  · intro hr q
    have := h.root (hroot hr) q
    rcases hmap q with e | ⟨n, n2, h1, _⟩
    · rw [e]; exact this
    · rw [this] at h1; cases h1

end Chain
/-! ## The chain invariant under the steps of the calls -/

section ChainSteps

set_option linter.unusedSectionVars false

variable {K V : Type} [LinearOrder K] [DecidableEq V]

/-- A new head on a PID that keeps the level, the `next` of the base and the parent
of the base (or has no parent) keeps the chain invariant. -/
theorem ChainInv_Update {t : BWTree K V} {L : List Int} {lv : Int → Nat}
    (h : ChainInv t L lv) {p : Int} {n n' : Node K V} (hn : t.mapping_table p = some n)
    (hlev : n'.GetLevel = n.GetLevel)
    (hnext : lv p = 0 → n'.GetBaseNode.GetNext = n.GetBaseNode.GetNext)
    (hpar : n'.GetBaseNode.GetParent = n.GetBaseNode.GetParent ∨
      n'.GetBaseNode.GetParent = NULL_PID ∨
      (0 ≤ n'.GetBaseNode.GetParent ∧ n'.GetBaseNode.GetParent < t.next_pid ∧
        lv n'.GetBaseNode.GetParent ≠ 0)) :
    ChainInv (t.Update p n') L lv := by
  refine h.transfer rfl rfl (fun e => e) (fun q => ?_)
  by_cases e : q = p
  · right
    rw [e]
    exact ⟨n, n', hn, by simp [BWTree.Update], hlev, hnext, hpar⟩
  · left
    simp [BWTree.Update, e]

/-- A delta on the head of a PID keeps the chain invariant when it has the level of
the head. -/
theorem ChainInv_delta {t : BWTree K V} {L : List Int} {lv : Int → Nat}
    (h : ChainInv t L lv) {p : Int} {n n' : Node K V} (hn : t.mapping_table p = some n)
    (hlev : n'.GetLevel = n.GetLevel) (hbase : n'.GetBaseNode = n.GetBaseNode) :
    ChainInv (t.Update p n') L lv :=
  ChainInv_Update h hn hlev (fun _ => by rw [hbase]) (Or.inl (by rw [hbase]))

/-- A new inner node on a fresh PID keeps the chain invariant. -/
theorem ChainInv_Install {t : BWTree K V} {L : List Int} {lv : Int → Nat}
    (h : ChainInv t L lv) (hroot : t.m_root ≠ NULL_PID) (node : Node K V)
    (hlev : node.GetLevel ≠ 0)
    (hpar : node.GetBaseNode.GetParent = NULL_PID ∨
      (0 ≤ node.GetBaseNode.GetParent ∧ node.GetBaseNode.GetParent < t.next_pid ∧
        lv node.GetBaseNode.GetParent ≠ 0)) :
    ChainInv (t.Install node).2 L (Function.update lv t.next_pid node.GetLevel) := by
  have hmt : ∀ q : Int, (t.Install node).2.mapping_table q =
      if q = t.next_pid then some node else t.mapping_table q := fun q => rfl
  have hnp : (t.Install node).2.next_pid = t.next_pid + 1 := rfl
  have hold : ∀ (q : Int) (n : Node K V), t.mapping_table q = some n →
      q ≠ t.next_pid := fun q n hq => ne_of_lt (h.alloc q n hq).2
  have hlv : ∀ q : Int, q ≠ t.next_pid →
      Function.update lv (t.next_pid : Int) node.GetLevel q = lv q :=
    fun q hq => Function.update_noteq hq _ _
  refine
    { alloc := ?_
      nodup := h.nodup
      len := le_trans h.len (Nat.le_succ _)
      chain := ?_
      level := ?_
      leaves := ?_
      mem_level := ?_
      parents := ?_
      root := fun hr => absurd hr hroot }
  · intro q n hq
    rw [hmt] at hq
    rw [hnp]
    by_cases e : q = t.next_pid
    · rw [e]; exact ⟨by omega, by push_cast; omega⟩
    · rw [if_neg e] at hq
      have := h.alloc q n hq
      exact ⟨this.1, by push_cast; omega⟩
  · refine LeafChain_congr L _ (fun a _ n hn => ⟨n, ?_, rfl⟩) h.chain
    rw [hmt, if_neg (hold a n hn)]
    exact hn
  · intro q n hq
    rw [hmt] at hq
    by_cases e : q = t.next_pid
    · rw [if_pos e] at hq
      cases hq
      rw [e, Function.update_same]
    · rw [if_neg e] at hq
      rw [hlv q e]
      exact h.level q n hq
  · intro q n hq hl
    rw [hmt] at hq
    by_cases e : q = t.next_pid
    · rw [e, Function.update_same] at hl
      exact absurd hl hlev
    · rw [if_neg e] at hq
      rw [hlv q e] at hl
      exact h.leaves q n hq hl
  · intro a ha
    obtain ⟨n, hn⟩ := LeafChain_node L _ h.chain a ha
    rw [hlv a (hold a n hn)]
    exact h.mem_level a ha
  · intro q n hq
    rw [hmt] at hq
    rw [hnp]
    have key : ∀ m : Node K V, (m.GetBaseNode.GetParent = NULL_PID ∨
        (0 ≤ m.GetBaseNode.GetParent ∧ m.GetBaseNode.GetParent < t.next_pid ∧
          lv m.GetBaseNode.GetParent ≠ 0)) →
        m.GetBaseNode.GetParent = NULL_PID ∨
        (0 ≤ m.GetBaseNode.GetParent ∧
          m.GetBaseNode.GetParent < ((t.next_pid + 1 : Nat) : Int) ∧
          Function.update lv (t.next_pid : Int) node.GetLevel m.GetBaseNode.GetParent ≠ 0) := by
      intro m hm
      rcases hm with e | ⟨e1, e2, e3⟩
      · exact Or.inl e
      · right
        refine ⟨e1, lt_trans e2 (Int.ofNat_lt.mpr (Nat.lt_succ_self _)), ?_⟩
        rw [hlv _ (ne_of_lt e2)]
        exact e3
    by_cases e : q = t.next_pid
    · rw [if_pos e] at hq
      cases hq
      exact key _ hpar
    · rw [if_neg e] at hq
      exact key _ (h.parents q n hq)

/-- The loop that resets the parents of the children of a new inner node keeps the
chain invariant. -/
theorem SetParents_chain {L : List Int} {lv : Int → Nat} (par : Int) :
    ∀ (cs : List Int) (t t' : BWTree K V), ChainInv t L lv → 0 ≤ par → par < t.next_pid →
      lv par ≠ 0 → SetParents t par cs = some t' →
      ChainInv t' L lv ∧ t'.next_pid = t.next_pid ∧ t'.m_root = t.m_root := by
  intro cs
  induction cs with
  | nil =>
    intro t t' h _ _ _ hs
    simp only [SetParents, Option.some.injEq] at hs
    rw [← hs]
    exact ⟨h, rfl, rfl⟩
  | cons c rest ih =>
    intro t t' h h0 h1 hl hs
    cases hc : t.mapping_table c with
    | none => simp [SetParents, GetNode, hc] at hs
    | some n =>
      simp only [SetParents, GetNode, hc] at hs
      have h' : ChainInv (t.Update c (n.SetParent par)) L lv :=
        ChainInv_Update h hc (Node.GetLevel_SetParent _ _)
          (fun _ => Node.baseNext_SetParent _ _)
          (Or.inr (Or.inr (by rw [Node.baseParent_SetParent]; exact ⟨h0, h1, hl⟩)))
      obtain ⟨a1, a2, a3⟩ := ih (t.Update c (n.SetParent par)) t' h' h0 h1 hl hs
      exact ⟨a1, a2, a3⟩

/-- A base node is the base of its own chain; the base of a delta chain is the base
of the chain below the head. -/
theorem Node.GetBaseNode_of_delta (n : Node K V) (h : n.IsDelta = true) :
    n.GetBaseNode = n.GetBase.GetBaseNode := by
  cases n <;> rfl

theorem Node.GetParent_of_delta (n : Node K V) (h : n.IsDelta = true) :
    n.GetParent = NULL_PID := by
  cases n <;> first | rfl | cases h

theorem Node.GetBaseNode_of_base (n : Node K V) (h : n.IsDelta = false) :
    n.GetBaseNode = n := by
  cases n <;> first | rfl | cases h

/-- A consolidation that returns keeps the chain invariant: the new base leaf has
the level of the old head, the `next` of the base leaf, and the parent of the old
head. -/
theorem ConsolidateLeafNode_chain {t t' : BWTree K V} {L : List Int} {lv : Int → Nat}
    (h : ChainInv t L lv) {p : Int} (hc : ConsolidateLeafNode t p = some t') :
    ChainInv t' L lv ∧ t'.next_pid = t.next_pid := by
  unfold ConsolidateLeafNode at hc
  cases hold : t.mapping_table p with
  | none => simp [GetNode, hold] at hc
  | some old =>
    simp only [GetNode, hold] at hc
    by_cases hd : old.IsDelta = true
    · simp only [hd, if_true] at hc
      cases hb : old.GetBase with
      | LeafNode a b c d e =>
        simp only [hb, Option.some.injEq] at hc
        rw [← hc]
        refine ⟨ChainInv_Update h hold rfl (fun _ => ?_) (Or.inr (Or.inl ?_)), rfl⟩
        · rw [Node.GetBaseNode_of_delta old hd, hb]; rfl
        · exact Node.GetParent_of_delta old hd
      | _ => simp [hb] at hc
    · have hd' : old.IsDelta = false := by simpa using hd
      simp only [hd', Bool.false_eq_true, if_false] at hc
      cases old with
      | LeafNode a b c d e =>
        simp only [Option.some.injEq] at hc
        rw [← hc]
        exact ⟨ChainInv_Update h hold rfl (fun _ => rfl) (Or.inl rfl), rfl⟩
      | _ => simp at hc

/-- The block that opens each operator keeps the chain invariant and leaves an index
with a root. -/
theorem EnsureRoot_chain {t : BWTree K V} {L : List Int} {lv : Int → Nat}
    (h : ChainInv t L lv) :
    ∃ L' lv', ChainInv (EnsureRoot t) L' lv' ∧ (EnsureRoot t).m_root ≠ NULL_PID := by
  by_cases hr : t.m_root = NULL_PID
  · have hnone := h.root hr
    have hN : (t.next_pid : Int) ≠ NULL_PID := ne_NULL_of_nonneg (Int.ofNat_nonneg _)
    have hmt : ∀ q : Int, (EnsureRoot t).mapping_table q =
        if q = t.next_pid then some AllocateLeaf else none := by
      intro q
      simp [EnsureRoot, hr, BWTree.Install, BWTree.Update, hnone]
    have hnext : (EnsureRoot t).next_pid = t.next_pid + 1 := by
      simp [EnsureRoot, hr, BWTree.Install, BWTree.Update]
    have hroot : (EnsureRoot t).m_root = t.next_pid := by
      simp [EnsureRoot, hr, BWTree.Install]
    have hhead : (EnsureRoot t).m_headleaf = t.next_pid := by
      simp [EnsureRoot, hr, BWTree.Install]
    have hq : ∀ (q : Int) (n : Node K V), (EnsureRoot t).mapping_table q = some n →
        q = t.next_pid ∧ n = AllocateLeaf := by
      intro q n hn
      rw [hmt] at hn
      by_cases e : q = t.next_pid
      · rw [if_pos e] at hn
        exact ⟨e, (Option.some.inj hn).symm⟩
      · rw [if_neg e] at hn
        cases hn
    refine ⟨[(t.next_pid : Int)], fun _ => 0, ?_, by rw [hroot]; exact hN⟩
    refine
      { alloc := ?_
        nodup := List.nodup_singleton _
        len := by rw [hnext]; simp
        chain := ?_
        level := ?_
        leaves := ?_
        mem_level := fun _ _ => rfl
        parents := ?_
        root := fun e => absurd (hroot ▸ e) hN }
    · intro q n hn
      rw [(hq q n hn).1, hnext]
      exact ⟨Int.ofNat_nonneg _, Int.ofNat_lt.mpr (Nat.lt_succ_self _)⟩
    · rw [hhead, LeafChain_cons]
      exact ⟨AllocateLeaf, by rw [hmt, if_pos rfl], rfl, hN, rfl⟩
    · intro q n hn
      rw [(hq q n hn).2]
      rfl
    · intro q n hn _
      rw [(hq q n hn).1]
      exact List.mem_singleton_self _
    · intro q n hn
      rw [(hq q n hn).2]
      exact Or.inl rfl
  · rw [EnsureRoot_of_root hr]
    exact ⟨L, lv, h, hr⟩

/-- The growth of the root keeps the chain invariant: the new root is an inner node
on a fresh PID. -/
theorem GrowRoot_chain {t t' : BWTree K V} {L : List Int} {lv : Int → Nat}
    (h : ChainInv t L lv) {P : Int} (lev : Node K V → Nat) (hlev : ∀ b, lev b ≠ 0)
    (hg : GrowRoot t P lev = some t') :
    ∃ lv', ChainInv t' L lv' ∧ t.next_pid ≤ t'.next_pid ∧
      ∀ q : Int, q < t.next_pid → lv' q = lv q := by
  by_cases hr : t.m_root = P
  · cases hn : t.mapping_table P with
    | none => simp [GrowRoot, hr, GetNode, hn] at hg
    | some n =>
      simp only [GrowRoot, hr, if_true, GetNode, hn, Option.some.injEq] at hg
      have hP := h.alloc P n hn
      have hroot : t.m_root ≠ NULL_PID := by rw [hr]; exact ne_NULL_of_nonneg hP.1
      have h1 := ChainInv_Install h hroot (AllocateInner (lev n.GetBaseNode) P)
        (hlev _) (Or.inl rfl)
      have hn1 : (t.Install (AllocateInner (lev n.GetBaseNode) P)).2.mapping_table P =
          some n := by
        show (if P = (t.next_pid : Int) then _ else t.mapping_table P) = some n
        rw [if_neg (ne_of_lt hP.2), hn]
      have h2 := ChainInv_Update h1 hn1 (Node.GetLevel_SetParent (t.next_pid : Int) n)
        (fun _ => Node.baseNext_SetParent _ _)
        (Or.inr (Or.inr (by
          rw [Node.baseParent_SetParent]
          refine ⟨Int.ofNat_nonneg _, Int.ofNat_lt.mpr (Nat.lt_succ_self _), ?_⟩
          rw [Function.update_same]
          exact hlev _)))
      refine ⟨Function.update lv (t.next_pid : Int)
        (AllocateInner (lev n.GetBaseNode) P : Node K V).GetLevel, ?_, ?_,
        fun q hq => Function.update_noteq (ne_of_lt hq) _ _⟩
      · rw [← hg]
        exact h2.transfer rfl rfl
          (fun e => absurd e (ne_NULL_of_nonneg (Int.ofNat_nonneg _))) (fun q => Or.inl rfl)
      · rw [← hg]
        exact Nat.le_succ _
  · simp only [GrowRoot, hr, if_false, Option.some.injEq] at hg
    rw [← hg]
    exact ⟨lv, h, le_refl _, fun _ _ => rfl⟩

/-- The separator delta on the parent keeps the chain invariant. -/
theorem InstallSeparator_chain {t t' : BWTree K V} {L : List Int} {lv : Int → Nat}
    (h : ChainInv t L lv) {P N : Int} {sk : K} {d : Node K V}
    (hi : InstallSeparator t P sk N = some (t', d)) :
    ChainInv t' L lv ∧ t'.next_pid = t.next_pid ∧ ∃ parent, t.mapping_table P = some parent := by
  cases hn : t.mapping_table P with
  | none => simp [InstallSeparator, GetNode, hn] at hi
  | some parent =>
    simp only [InstallSeparator, GetNode, hn, Option.some.injEq, Prod.mk.injEq] at hi
    rw [← hi.1]
    exact ⟨ChainInv_delta h hn rfl rfl, rfl, parent, rfl⟩

/-- The split of an inner node keeps the chain invariant: the new sibling is an inner
node on a fresh PID, the parents of the moved children are the new sibling. -/
theorem SplitInnerAt_chain {t t2 : BWTree K V} {L : List Int} {lv : Int → Nat}
    (h : ChainInv t L lv) (hroot : t.m_root ≠ NULL_PID) {P N : Int} {sk : K} {n : Node K V}
    (hn : t.mapping_table P = some n) (hlv : lv P ≠ 0)
    (hs : SplitInnerAt t P n = some (t2, N, sk)) :
    ∃ lv', ChainInv t2 L lv' ∧ t.next_pid ≤ t2.next_pid ∧ t2.m_root ≠ NULL_PID ∧
      ∀ q : Int, q < t.next_pid → lv' q = lv q := by
  unfold SplitInnerAt at hs
  simp only at hs
  split at hs
  · cases hs
  · cases he : (GetAllPointer n).2[((GetAllPointer n).2.length + 1) / 2 - 1]? with
    | none => simp [he] at hs
    | some e =>
      simp only [he] at hs
      have hP := h.alloc P n hn
      have hL : n.GetLevel ≠ 0 := by rw [h.level P n hn]; exact hlv
      have h1 := ChainInv_Install h hroot
        (InnerNode n.GetBaseNode.GetParent n.GetLevel n.GetBaseNode.GetNext e.2
          ((GetAllPointer n).2.drop (((GetAllPointer n).2.length + 1) / 2)))
        hL (h.parents P n hn)
      have hn1 : (t.Install (InnerNode n.GetBaseNode.GetParent n.GetLevel
          n.GetBaseNode.GetNext e.2
          ((GetAllPointer n).2.drop (((GetAllPointer n).2.length + 1) / 2)))).2.mapping_table P =
          some n := by
        show (if P = (t.next_pid : Int) then _ else t.mapping_table P) = some n
        rw [if_neg (ne_of_lt hP.2), hn]
      have hlv1 : Function.update lv (t.next_pid : Int) n.GetLevel P ≠ 0 := by
        rw [Function.update_noteq (ne_of_lt hP.2)]
        exact hlv
      have h2 := ChainInv_Update h1 hn1
        (show ((SplitNode e.1 (t.next_pid : Int) n.GetLevel
          (((GetAllPointer n).2.length + 1) / 2 - 1) (nextLength n) n).SetNext
            (t.next_pid : Int)).GetLevel = n.GetLevel from Node.GetLevel_SetNext _ _)
        (fun e0 => absurd e0 hlv1)
        (Or.inl (by rw [Node.baseParent_SetNext]; rfl))
      cases hsp : SetParents
          ((t.Install (InnerNode n.GetBaseNode.GetParent n.GetLevel n.GetBaseNode.GetNext e.2
            ((GetAllPointer n).2.drop (((GetAllPointer n).2.length + 1) / 2)))).2.Update P
            ((SplitNode e.1 (t.next_pid : Int) n.GetLevel
              (((GetAllPointer n).2.length + 1) / 2 - 1) (nextLength n) n).SetNext
                (t.next_pid : Int)))
          (t.next_pid : Int)
          (e.2 :: ((GetAllPointer n).2.drop (((GetAllPointer n).2.length + 1) / 2)).map
            Prod.snd) with
      | none =>
        simp only [BWTree.Install] at hs hsp
        rw [hsp] at hs
        cases hs
      | some t3 =>
        obtain ⟨a1, a2, a3⟩ := SetParents_chain (t.next_pid : Int) _ _ _ h2
          (Int.ofNat_nonneg _) (Int.ofNat_lt.mpr (Nat.lt_succ_self _))
          (by rw [Function.update_same]; exact hL) hsp
        simp only [BWTree.Install] at hs hsp
        rw [hsp] at hs
        simp only [Option.some.injEq, Prod.mk.injEq] at hs
        rw [← hs.1]
        refine ⟨Function.update lv (t.next_pid : Int) n.GetLevel, a1, ?_, ?_,
          fun q hq => Function.update_noteq (ne_of_lt hq) _ _⟩
        · rw [a2]; exact Nat.le_succ _
        · rw [a3]; exact hroot

end ChainSteps
/-! ## The chain invariant under the calls of a history -/

section ChainCalls

set_option linter.unusedSectionVars false

variable {K V : Type} [LinearOrder K] [DecidableEq V]

/-- An index with a node has a root. -/
theorem ChainInv.has_root {t : BWTree K V} {L : List Int} {lv : Int → Nat}
    (h : ChainInv t L lv) {q : Int} {n : Node K V} (hn : t.mapping_table q = some n) :
    t.m_root ≠ NULL_PID := by
  intro e
  rw [h.root e q] at hn
  cases hn

/-- The parent of the base of a node, when it has a node, is an allocated PID of
an inner node. -/
theorem ChainInv.parent_inner {t : BWTree K V} {L : List Int} {lv : Int → Nat}
    (h : ChainInv t L lv) {q : Int} {n : Node K V} (hn : t.mapping_table q = some n)
    (h0 : 0 ≤ n.GetBaseNode.GetParent) :
    n.GetBaseNode.GetParent < t.next_pid ∧ lv n.GetBaseNode.GetParent ≠ 0 := by
  rcases h.parents q n hn with e | ⟨_, e2, e3⟩
  · exact absurd e (ne_NULL_of_nonneg h0)
  · exact ⟨e2, e3⟩

/-- A split of an inner node that returns, with the splits of the ancestors it
triggers, keeps the chain invariant and the chain of the leaves. -/
theorem SplitInner_chain (cfg : Config) {L : List Int} :
    ∀ (fuel : Nat) (t t' : BWTree K V) (lv : Int → Nat) (P : Int), ChainInv t L lv →
      P < t.next_pid → lv P ≠ 0 → SplitInner cfg fuel t P = some t' →
      ∃ lv', ChainInv t' L lv' ∧ t.next_pid ≤ t'.next_pid ∧
        ∀ q : Int, q < t.next_pid → lv' q = lv q := by
  intro fuel
  induction fuel with
  | zero => intro t t' lv P _ _ _ hs; simp [SplitInner] at hs
  | succ fuel ih =>
    intro t t' lv P h hP hlv hs
    simp only [SplitInner] at hs
    cases hg : GrowRoot t P (fun b => b.GetLevel + 1) with
    | none => simp [hg] at hs
    | some t1 =>
      simp only [hg] at hs
      obtain ⟨lv1, h1, hnp1, hag1⟩ := GrowRoot_chain h _ (fun b => Nat.succ_ne_zero _) hg
      cases hn : t1.mapping_table P with
      | none => simp [GetNode, hn] at hs
      | some n =>
        simp only [GetNode, hn] at hs
        have hlv1 : lv1 P ≠ 0 := by rw [hag1 P hP]; exact hlv
        by_cases hfull : cfg.IsInnerFull n.GetSize n.GetLength = false
        · simp only [hfull, if_true, Option.some.injEq] at hs
          rw [← hs]
          exact ⟨lv1, h1, hnp1, hag1⟩
        · have hfull1 : cfg.IsInnerFull n.GetSize n.GetLength = true := by simpa using hfull
          simp only [hfull1, Bool.true_eq_false, if_false] at hs
          cases hsp : SplitInnerAt t1 P n with
          | none => simp [hsp] at hs
          | some r =>
            obtain ⟨t2, N, sk⟩ := r
            simp only [hsp] at hs
            obtain ⟨lv2, h2, hnp2, _, hag2⟩ :=
              SplitInnerAt_chain h1 (h1.has_root hn) hn hlv1 hsp
            cases hi : InstallSeparator t2 n.GetBaseNode.GetParent sk N with
            | none => simp [hi] at hs
            | some r3 =>
              obtain ⟨t3, d⟩ := r3
              simp only [hi] at hs
              obtain ⟨h3, hnp3, par, hpar⟩ := InstallSeparator_chain h2 hi
              have hag : ∀ q : Int, q < t.next_pid → lv2 q = lv q := by
                intro q hq
                rw [hag2 q (lt_of_lt_of_le hq (Int.ofNat_le.mpr hnp1)), hag1 q hq]
              have hle : t.next_pid ≤ t3.next_pid := by rw [hnp3]; exact le_trans hnp1 hnp2
              by_cases hf2 : cfg.IsInnerFull d.GetSize d.GetLength = true
              · simp only [hf2, if_true] at hs
                have hp0 := (h2.alloc _ par hpar).1
                obtain ⟨hp1, hp2⟩ := h1.parent_inner hn hp0
                have hp3 : n.GetBaseNode.GetParent < (t3.next_pid : Int) := by
                  rw [hnp3]
                  exact lt_of_lt_of_le hp1 (Int.ofNat_le.mpr hnp2)
                have hp4 : lv2 n.GetBaseNode.GetParent ≠ 0 := by
                  rw [hag2 _ hp1]; exact hp2
                obtain ⟨lv4, h4, hnp4, hag4⟩ := ih t3 t' lv2 _ h3 hp3 hp4 hs
                refine ⟨lv4, h4, le_trans hle hnp4, fun q hq => ?_⟩
                rw [hag4 q (lt_of_lt_of_le hq (Int.ofNat_le.mpr hle)), hag q hq]
              · have hf3 : cfg.IsInnerFull d.GetSize d.GetLength = false := by simpa using hf2
                simp only [hf3, Bool.false_eq_true, if_false, Option.some.injEq] at hs
                rw [← hs]
                exact ⟨lv2, h3, hle, hag⟩

/-- The split of a leaf that returns keeps the chain invariant: the new leaf enters
the chain right after the leaf that was split. -/
theorem SplitLeafAt_chain {t t2 : BWTree K V} {L : List Int} {lv : Int → Nat}
    (h : ChainInv t L lv) {p N : Int} {sk : K} {n : Node K V}
    (hn : t.mapping_table p = some n) (hlv : lv p = 0)
    (hs : SplitLeafAt t p n = some (t2, N, sk)) :
    ∃ L' lv', ChainInv t2 L' lv' ∧ t.next_pid ≤ t2.next_pid ∧
      ∀ q : Int, q < t.next_pid → lv' q = lv q := by
  have hpL : p ∈ L := h.leaves p n hn hlv
  have hP := h.alloc p n hn
  have hold : ∀ (q : Int) (m : Node K V), t.mapping_table q = some m →
      q ≠ t.next_pid := fun q m hq => ne_of_lt (h.alloc q m hq).2
  have hN0 : (t.next_pid : Int) ≠ NULL_PID := ne_NULL_of_nonneg (Int.ofNat_nonneg _)
  have hNL : (t.next_pid : Int) ∉ L := by
    intro hm
    obtain ⟨m, hm'⟩ := LeafChain_node L _ h.chain _ hm
    exact hold _ m hm' rfl
  have hnext := LeafChain_next_mem L _ h.chain h.nodup p hpL n hn
  have hf : n.GetBaseNode.GetNext = NULL_PID ∨
      n.GetBaseNode.GetNext ≠ NULL_PID ∧
      (∃ f, t.mapping_table n.GetBaseNode.GetNext = some f) ∧ n.GetBaseNode.GetNext ≠ p ∧
        n.GetBaseNode.GetNext ≠ t.next_pid := by
    by_cases e : n.GetBaseNode.GetNext = NULL_PID
    · exact Or.inl e
    · rcases hnext with e' | ⟨e1, e2⟩
      · exact absurd e' e
      · obtain ⟨f, hf⟩ := LeafChain_node L _ h.chain _ e1
        exact Or.inr ⟨e, ⟨f, hf⟩, e2, hold _ f hf⟩
  have hs0 := hs
  unfold SplitLeafAt at hs
  simp only at hs
  split at hs
  · cases hs
  · split at hs
    · cases hs
    · split at hs
      · cases hs
      · rename_i hlen s0 hs1
        obtain ⟨t2', heq, hnp, hroot, hhead, hmt⟩ :=
          @SplitLeafAt_eq K V _ _ t p n s0 hf (by omega) hs1
        rw [heq] at hs0
        simp only [Option.some.injEq, Prod.mk.injEq] at hs0
        rw [← hs0.1]
        have hmN : t2'.mapping_table (t.next_pid : Int) =
            some (LeafNode n.GetBaseNode.GetParent 0 n.GetBaseNode.GetNext p
              ((GetAllData n).drop ((GetAllData n).length / 2))) := by
          rw [hmt]
          have c1 : ¬ ((t.next_pid : Int) = n.GetBaseNode.GetNext ∧
              n.GetBaseNode.GetNext ≠ NULL_PID) := by
            rintro ⟨a1, a2⟩
            rcases hf with e | ⟨_, _, _, e⟩
            · exact a2 e
            · exact e a1.symm
          rw [if_neg c1, if_neg (fun e => ne_of_lt hP.2 e.symm), if_pos rfl]
        have hfwd : ∀ (q : Int) (m : Node K V), t.mapping_table q = some m →
            ∃ m', t2'.mapping_table q = some m' ∧ m'.GetLevel = m.GetLevel ∧
              m'.GetBaseNode.GetParent = m.GetBaseNode.GetParent ∧
              (q ≠ p → m'.GetBaseNode.GetNext = m.GetBaseNode.GetNext) ∧
              (q = p → m'.GetBaseNode.GetNext = t.next_pid) := by
          intro q m hq
          rw [hmt]
          by_cases c1 : q = n.GetBaseNode.GetNext ∧ n.GetBaseNode.GetNext ≠ NULL_PID
          · rw [if_pos c1, hq]
            have hqp : q ≠ p := by
              rcases hf with e | ⟨_, _, e, _⟩
              · exact absurd e c1.2
              · rw [c1.1]; exact e
            exact ⟨m.SetPrev t.next_pid, rfl, Node.GetLevel_SetPrev _ _,
              Node.baseParent_SetPrev _ _, fun _ => Node.baseNext_SetPrev _ _,
              fun e => absurd e hqp⟩
          · rw [if_neg c1]
            by_cases c2 : q = p
            · rw [if_pos c2]
              have hm : m = n := by
                rw [c2, hn] at hq
                exact (Option.some.inj hq).symm
              rw [hm]
              refine ⟨_, rfl, rfl, ?_, fun e => absurd c2 e, fun _ => ?_⟩
              · show (n.SetNext (t.next_pid : Int)).GetBaseNode.GetParent = _
                exact Node.baseParent_SetNext _ _
              · show (n.SetNext (t.next_pid : Int)).GetBaseNode.GetNext = _
                exact Node.baseNext_SetNext _ _
            · rw [if_neg c2, if_neg (hold q m hq), hq]
              exact ⟨m, rfl, rfl, rfl, fun _ => rfl, fun e => absurd e c2⟩
        have hback : ∀ (q : Int) (m' : Node K V), t2'.mapping_table q = some m' →
            q = t.next_pid ∨ ∃ m, t.mapping_table q = some m := by
          intro q m' hq
          rw [hmt] at hq
          by_cases c1 : q = n.GetBaseNode.GetNext ∧ n.GetBaseNode.GetNext ≠ NULL_PID
          · rw [if_pos c1] at hq
            cases hq0 : t.mapping_table q with
            | none => rw [hq0] at hq; cases hq
            | some m => exact Or.inr ⟨m, rfl⟩
          · rw [if_neg c1] at hq
            by_cases c2 : q = p
            · exact Or.inr ⟨n, by rw [c2]; exact hn⟩
            · rw [if_neg c2] at hq
              by_cases c3 : q = t.next_pid
              · exact Or.inl c3
              · rw [if_neg c3] at hq
                exact Or.inr ⟨m', hq⟩
        have hlv' : ∀ q : Int, q ≠ t.next_pid →
            Function.update lv (t.next_pid : Int) 0 q = lv q :=
          fun q hq => Function.update_noteq hq _ _
        have hpar : ∀ x : Int, (x = NULL_PID ∨ (0 ≤ x ∧ x < t.next_pid ∧ lv x ≠ 0)) →
            x = NULL_PID ∨ (0 ≤ x ∧ x < (t2'.next_pid : Int) ∧
              Function.update lv (t.next_pid : Int) 0 x ≠ 0) := by
          intro x hx
          rcases hx with e | ⟨e1, e2, e3⟩
          · exact Or.inl e
          · right
            refine ⟨e1, ?_, ?_⟩
            · rw [hnp]
              exact lt_trans e2 (Int.ofNat_lt.mpr (Nat.lt_succ_self _))
            · rw [hlv' x (ne_of_lt e2)]
              exact e3
        refine ⟨insertAfter p t.next_pid L, Function.update lv (t.next_pid : Int) 0, ?_,
          by rw [hnp]; exact Nat.le_succ _, fun q hq => hlv' q (ne_of_lt hq)⟩
        refine
          { alloc := ?_
            nodup := nodup_insertAfter h.nodup hNL
            len := ?_
            chain := ?_
            level := ?_
            leaves := ?_
            mem_level := ?_
            parents := ?_
            root := fun e => absurd (hroot ▸ e) (h.has_root hn) }
        · intro q m' hq
          rw [hnp]
          rcases hback q m' hq with e | ⟨m, hm⟩
          · rw [e]
            exact ⟨Int.ofNat_nonneg _, Int.ofNat_lt.mpr (Nat.lt_succ_self _)⟩
          · have := h.alloc q m hm
            exact ⟨this.1, lt_trans this.2 (Int.ofNat_lt.mpr (Nat.lt_succ_self _))⟩
        · rw [hnp]
          exact le_trans (length_insertAfter_le _ _ _) (Nat.succ_le_succ h.len)
        · rw [hhead]
          refine LeafChain_insertAfter p _ hN0 L _ h.chain h.nodup hNL ?_ ?_
          · intro m hm
            have e : m = n := Option.some.inj (hm.symm.trans hn)
            obtain ⟨m', a1, _, _, _, a5⟩ := hfwd p n hn
            rw [e]
            exact ⟨⟨m', a1, a5 rfl⟩, _, hmN, rfl⟩
          · intro a _ hap m hm
            obtain ⟨m', a1, _, _, a4, _⟩ := hfwd a m hm
            exact ⟨m', a1, a4 hap⟩
        · intro q m' hq
          rcases hback q m' hq with e | ⟨m, hm⟩
          · rw [e] at hq ⊢
            rw [hmN] at hq
            rw [← Option.some.inj hq, Function.update_same]
            rfl
          · obtain ⟨m2, a1, a2, _⟩ := hfwd q m hm
            have e : m' = m2 := Option.some.inj (hq.symm.trans a1)
            rw [e, a2, hlv' q (hold q m hm)]
            exact h.level q m hm
        · intro q m' hq hl
          rw [mem_insertAfter]
          rcases hback q m' hq with e | ⟨m, hm⟩
          · exact Or.inr ⟨e, hpL⟩
          · rw [hlv' q (hold q m hm)] at hl
            exact Or.inl (h.leaves q m hm hl)
        · intro a ha
          rcases mem_insertAfter.mp ha with e | ⟨e, _⟩
          · obtain ⟨m, hm⟩ := LeafChain_node L _ h.chain a e
            rw [hlv' a (hold a m hm)]
            exact h.mem_level a e
          · rw [e, Function.update_same]
        · intro q m' hq
          rcases hback q m' hq with e | ⟨m, hm⟩
          · rw [e] at hq
            rw [hmN] at hq
            rw [← Option.some.inj hq]
            exact hpar _ (h.parents p n hn)
          · obtain ⟨m2, a1, _, a3, _⟩ := hfwd q m hm
            have e : m' = m2 := Option.some.inj (hq.symm.trans a1)
            rw [e, a3]
            exact hpar _ (h.parents q m hm)

/-- A `SplitLeaf` that returns keeps the chain invariant. -/
theorem SplitLeaf_chain (cfg : Config) {t t' : BWTree K V} {L : List Int} {lv : Int → Nat}
    (h : ChainInv t L lv) {p : Int} {n0 : Node K V} (hn0 : t.mapping_table p = some n0)
    (hlv : lv p = 0) (hs : SplitLeaf cfg t p = some t') :
    ∃ L' lv', ChainInv t' L' lv' := by
  have hP := h.alloc p n0 hn0
  simp only [SplitLeaf] at hs
  cases hg : GrowRoot t p (fun _ => 1) with
  | none => simp [hg] at hs
  | some t1 =>
    simp only [hg] at hs
    obtain ⟨lv1, h1, hnp1, hag1⟩ := GrowRoot_chain h _ (fun _ => Nat.succ_ne_zero 0) hg
    cases hn : t1.mapping_table p with
    | none => simp [GetNode, hn] at hs
    | some n =>
      simp only [GetNode, hn] at hs
      have hlv1 : lv1 p = 0 := by rw [hag1 p hP.2]; exact hlv
      by_cases hfull : cfg.IsLeafFull n.GetSize n.GetLength = false
      · simp only [hfull, if_true, Option.some.injEq] at hs
        rw [← hs]
        exact ⟨L, lv1, h1⟩
      · have hfull1 : cfg.IsLeafFull n.GetSize n.GetLength = true := by simpa using hfull
        simp only [hfull1, Bool.true_eq_false, if_false] at hs
        cases hsp : SplitLeafAt t1 p n with
        | none => simp [hsp] at hs
        | some r =>
          obtain ⟨t2, N, sk⟩ := r
          simp only [hsp] at hs
          obtain ⟨L2, lv2, h2, hnp2, hag2⟩ := SplitLeafAt_chain h1 hn hlv1 hsp
          cases hi : InstallSeparator t2 n.GetBaseNode.GetParent sk N with
          | none => simp [hi] at hs
          | some r3 =>
            obtain ⟨t3, d⟩ := r3
            simp only [hi] at hs
            obtain ⟨h3, hnp3, par, hpar⟩ := InstallSeparator_chain h2 hi
            by_cases hf2 : cfg.IsInnerFull d.GetSize d.GetLength = true
            · simp only [hf2, if_true] at hs
              have hp0 := (h2.alloc _ par hpar).1
              obtain ⟨hp1, hp2⟩ := h1.parent_inner hn hp0
              have hp3 : n.GetBaseNode.GetParent < (t3.next_pid : Int) := by
                rw [hnp3]
                exact lt_of_lt_of_le hp1 (Int.ofNat_le.mpr hnp2)
              have hp4 : lv2 n.GetBaseNode.GetParent ≠ 0 := by
                rw [hag2 _ hp1]; exact hp2
              obtain ⟨lv4, h4, _, _⟩ := SplitInner_chain cfg _ t3 t' lv2 _ h3 hp3 hp4 hs
              exact ⟨L2, lv4, h4⟩
            · have hf3 : cfg.IsInnerFull d.GetSize d.GetLength = false := by simpa using hf2
              simp only [hf3, Bool.false_eq_true, if_false, Option.some.injEq] at hs
              rw [← hs]
              exact ⟨L2, lv2, h3⟩

/-- The descent ends on a PID with a leaf as head. -/
theorem descend_leaf {t : BWTree K V} {k : K} :
    ∀ (fuel : Nat) (q p : Int), descend t k fuel q = some p →
      ∃ n, t.mapping_table p = some n ∧ n.IsLeaf = true := by
  intro fuel
  induction fuel with
  | zero => intro q p hd; simp [descend] at hd
  | succ fuel ih =>
    intro q p hd
    cases hn : t.mapping_table q with
    | none => simp [descend, GetNode, hn] at hd
    | some n =>
      simp only [descend, GetNode, hn] at hd
      by_cases hl : n.IsLeaf = true
      · simp only [hl, if_true, Option.some.injEq] at hd
        rw [← hd]
        exact ⟨n, hn, hl⟩
      · simp only [hl, if_false] at hd
        exact ih _ _ hd

/-- The sibling walk of `InsertData` stays on the chain of the leaves. -/
theorem walkInsert_chain {t : BWTree K V} {L : List Int} {lv : Int → Nat}
    (h : ChainInv t L lv) {k : K} :
    ∀ (fuel : Nat) (q p : Int), q ∈ L → walkInsert t k fuel q = some p → p ∈ L := by
  intro fuel
  induction fuel with
  | zero => intro q p _ hw; simp [walkInsert] at hw
  | succ fuel ih =>
    intro q p hq hw
    cases hn : t.mapping_table q with
    | none => simp [walkInsert, GetNode, hn] at hw
    | some n =>
      simp only [walkInsert, GetNode, hn] at hw
      by_cases hr : isInRange n k = true
      · simp only [hr, if_true, Option.some.injEq] at hw
        rw [← hw]
        exact hq
      · simp only [hr, if_false] at hw
        cases hx : t.mapping_table n.GetBaseNode.GetNext with
        | none =>
          simp only [hx] at hw
          exact ih _ _ hq hw
        | some f =>
          simp only [hx] at hw
          rcases LeafChain_next_mem L _ h.chain h.nodup q hq n hn with e | ⟨e, _⟩
          · have := (h.alloc _ f hx).1
            exact absurd e (ne_NULL_of_nonneg this)
          · exact ih _ _ e hw

/-- An `InsertData` that returns keeps the chain invariant. -/
theorem InsertData_chain (cfg : Config) {t0 t' : BWTree K V} {L : List Int} {lv : Int → Nat}
    (h : ChainInv t0 L lv) {x : K × V} (hi : InsertData cfg t0 x = some t') :
    ∃ L' lv', ChainInv t' L' lv' := by
  obtain ⟨L1, lv1, h1, _⟩ := EnsureRoot_chain h
  simp only [InsertData] at hi
  cases hloc : (descend (EnsureRoot t0) x.1 (EnsureRoot t0).fuel (EnsureRoot t0).m_root).bind
      (walkInsert (EnsureRoot t0) x.1 (EnsureRoot t0).fuel) with
  | none => simp [hloc] at hi
  | some p =>
    simp only [hloc] at hi
    obtain ⟨p0, hd, hw⟩ := Option.bind_eq_some.mp hloc
    obtain ⟨n0, hn0, hl0⟩ := descend_leaf _ _ _ hd
    have hp0 : p0 ∈ L1 := h1.leaves p0 n0 hn0
      (by rw [← h1.level p0 n0 hn0]; exact (Node.IsLeaf_iff n0).mp hl0)
    have hpL : p ∈ L1 := walkInsert_chain h1 _ _ _ hp0 hw
    cases hn : (EnsureRoot t0).mapping_table p with
    | none => simp [GetNode, hn] at hi
    | some n =>
      simp only [GetNode, hn] at hi
      have key : ∀ sz : Nat,
          (if cfg.IsLeafFull (InsertNode x.1 x.2 n.GetLevel sz (nextLength n) n).GetSize
              (InsertNode x.1 x.2 n.GetLevel sz (nextLength n) n).GetLength = true then
            SplitLeaf cfg ((EnsureRoot t0).Update p
              (InsertNode x.1 x.2 n.GetLevel sz (nextLength n) n)) p
          else some ((EnsureRoot t0).Update p
              (InsertNode x.1 x.2 n.GetLevel sz (nextLength n) n))) = some t' →
          ∃ L' lv', ChainInv t' L' lv' := by
        intro sz hi
        have h2 : ChainInv ((EnsureRoot t0).Update p
            (InsertNode x.1 x.2 n.GetLevel sz (nextLength n) n)) L1 lv1 :=
          ChainInv_delta h1 hn rfl rfl
        by_cases hf : cfg.IsLeafFull (InsertNode x.1 x.2 n.GetLevel sz (nextLength n) n).GetSize
            (InsertNode x.1 x.2 n.GetLevel sz (nextLength n) n).GetLength = true
        · rw [if_pos hf] at hi
          exact SplitLeaf_chain cfg h2
            (show ((EnsureRoot t0).Update p
              (InsertNode x.1 x.2 n.GetLevel sz (nextLength n) n)).mapping_table p =
                some (InsertNode x.1 x.2 n.GetLevel sz (nextLength n) n) by
              simp [BWTree.Update])
            (h1.mem_level p hpL) hi
        · rw [if_neg hf] at hi
          simp only [Option.some.injEq] at hi
          rw [← hi]
          exact ⟨L1, lv1, h2⟩
      exact key _ hi

/-- An `UpdateData` that returns keeps the chain invariant. -/
theorem UpdateData_chain {t0 t' : BWTree K V} {L : List Int} {lv : Int → Nat}
    (h : ChainInv t0 L lv) {x : K × V} (hi : UpdateData t0 x = some t') :
    ∃ L' lv', ChainInv t' L' lv' := by
  obtain ⟨L1, lv1, h1, _⟩ := EnsureRoot_chain h
  simp only [UpdateData] at hi
  split at hi
  · cases hi
  · rename_i p _
    cases hn : (EnsureRoot t0).mapping_table p with
    | none => simp [GetNode, hn] at hi
    | some n =>
      simp only [GetNode, hn] at hi
      split at hi
      · simp only [Option.some.injEq] at hi
        rw [← hi]
        exact ⟨L1, lv1, h1⟩
      · simp only [Option.some.injEq] at hi
        rw [← hi]
        exact ⟨L1, lv1, ChainInv_delta h1 hn rfl rfl⟩

/-- A `DeleteKey` that returns keeps the chain invariant. -/
theorem DeleteKey_chain {t0 t' : BWTree K V} {L : List Int} {lv : Int → Nat}
    (h : ChainInv t0 L lv) {x : K} (hi : DeleteKey t0 x = some t') :
    ∃ L' lv', ChainInv t' L' lv' := by
  obtain ⟨L1, lv1, h1, _⟩ := EnsureRoot_chain h
  simp only [DeleteKey] at hi
  split at hi
  · cases hi
  · rename_i p _
    cases hn : (EnsureRoot t0).mapping_table p with
    | none => simp [GetNode, hn] at hi
    | some n =>
      simp only [GetNode, hn, Option.some.injEq] at hi
      rw [← hi]
      exact ⟨L1, lv1, ChainInv_delta h1 hn rfl rfl⟩

/-- A `DeleteData` that returns keeps the chain invariant. -/
theorem DeleteData_chain {t0 t' : BWTree K V} {L : List Int} {lv : Int → Nat}
    (h : ChainInv t0 L lv) {x : K × V} (hi : DeleteData t0 x = some t') :
    ∃ L' lv', ChainInv t' L' lv' := by
  obtain ⟨L1, lv1, h1, _⟩ := EnsureRoot_chain h
  simp only [DeleteData] at hi
  split at hi
  · cases hi
  · rename_i p _
    cases hn : (EnsureRoot t0).mapping_table p with
    | none => simp [GetNode, hn] at hi
    | some n =>
      simp only [GetNode, hn, Option.some.injEq] at hi
      rw [← hi]
      exact ⟨L1, lv1, ChainInv_delta h1 hn rfl rfl⟩

/-- Every call of a history with consolidations that returns keeps the chain
invariant. -/
theorem applyCall_chain (cfg : Config) {t t' : BWTree K V} {L : List Int} {lv : Int → Nat}
    (h : ChainInv t L lv) (c : Call K V) (hc : applyCall cfg t c = some t') :
    ∃ L' lv', ChainInv t' L' lv' := by
  cases c with
  | write o =>
    cases o with
    | insert x => exact InsertData_chain cfg h hc
    | update x => exact UpdateData_chain h hc
    | deleteKey k => exact DeleteKey_chain h hc
    | deleteData x => exact DeleteData_chain h hc
  | consolidate p => exact ⟨L, lv, (ConsolidateLeafNode_chain h hc).1⟩

/-- Every state a history with consolidations reaches has the chain invariant. -/
theorem runCalls_chain (cfg : Config) :
    ∀ (cs : List (Call K V)) (t t' : BWTree K V) (L : List Int) (lv : Int → Nat),
      ChainInv t L lv → runCalls cfg t cs = some t' → ∃ L' lv', ChainInv t' L' lv' := by
  intro cs
  induction cs with
  | nil =>
    intro t t' L lv h hr
    simp only [runCalls, List.foldlM_nil] at hr
    cases hr
    exact ⟨L, lv, h⟩
  | cons c rest ih =>
    intro t t' L lv h hr
    simp only [runCalls, List.foldlM_cons] at hr
    obtain ⟨t1, h1, h2⟩ := Option.bind_eq_some.mp hr
    obtain ⟨L1, lv1, hc⟩ := applyCall_chain cfg h c h1
    exact ih t1 t' L1 lv1 hc h2

end ChainCalls
/-! ## Separator deltas and histories of writes -/

section Shape2

set_option linter.unusedSectionVars false

variable {K V : Type} [LinearOrder K] [DecidableEq V]

/-- The child of a separator delta is routed to from the key of the delta up to the
first separator above that key in the table below the delta. -/
theorem separator_child_bounds (l : K) (c : Int) (tbl : List (K × Int)) :
    ∀ (c0 : Int) (lo : Option K),
      (c, some l, upperKey l tbl) ∈ childBounds c0 lo (insertPointer l c tbl) none := by
  induction tbl with
  | nil =>
    intro c0 lo
    simp [insertPointer, childBounds, upperKey]
  | cons a rest ih =>
    intro c0 lo
    obtain ⟨k1, c1⟩ := a
    by_cases h : l < k1
    · simp [insertPointer, childBounds, upperKey, h]
    · simp only [insertPointer, upperKey, if_neg h, childBounds]
      exact List.mem_cons_of_mem _ (ih c1 (some k1))

/-- In an index that holds a content, the keys of the child of a separator delta at
the head of an inner chain are at or above the key of the delta and below its right
key. -/
theorem Models_separator {t : BWTree K V} {m : K → List (K × V)} (hM : Models t m) {q : PID}
    {sk : K} {r : Option K} {c : PID} {lev sz len : Nat} {b : Node K V}
    (hn : GetNode t q = some (SeparatorNode sk r c lev sz len b))
    (hl : (SeparatorNode sk r c lev sz len b).IsLeaf = false) :
    ∃ nc, GetNode t c = some nc ∧ nc.KeysWithin (some sk) r := by
  obtain ⟨hc, _, hsh⟩ := Models_shape hM hn
  have hr : r = upperKey sk (GetAllPointer b).2 := hc.2.2.2
  obtain ⟨nc, h1, _, h2, h3⟩ := hsh hl c (some sk) r
    (by rw [hr]; exact separator_child_bounds sk c (GetAllPointer b).2 _ _)
  exact ⟨nc, h1, h2, h3⟩

/-- A history of writes is a history of calls without consolidation. -/
theorem runCalls_write (cfg : Config) (ops : List (Op K V)) :
    ∀ t : BWTree K V, runCalls cfg t (ops.map Call.write) = runOps cfg t ops := by
  induction ops with
  | nil => intro t; rfl
  | cons o rest ih =>
    intro t
    simp only [runCalls, runOps, List.map_cons, List.foldlM_cons, applyCall]
    cases h : applyOp cfg t o with
    | none => rfl
    | some t1 => exact ih t1

/-- An index a history of inserts reaches from the empty index holds a content. -/
theorem InsertAll_wellFormed {cfg : Config} (hA : cfg.Admissible) (xs : List (K × V)) :
    ∃ t, InsertAll cfg BWTree.empty xs = some t ∧ WellFormed t := by
  obtain ⟨t, h1, h2⟩ := InsertAll_models hA xs (Models_empty : Models (BWTree.empty : BWTree K V) _)
  exact ⟨t, h1, _, h2⟩

/-- An index a history of writes reaches from the empty index holds a content. -/
theorem runOps_wellFormed {cfg : Config} (hA : cfg.Admissible) (ops : List (Op K V)) :
    ∃ t, runOps cfg BWTree.empty ops = some t ∧ WellFormed t := by
  obtain ⟨t, m, h1, h2⟩ := runOps_models hA ops
    (Models_empty : Models (BWTree.empty : BWTree K V) _)
  exact ⟨t, h1, m, h2⟩

/-- Every PID with a leaf as head is on the chain of the leaves. -/
theorem ChainInv.leaf_mem {t : BWTree K V} {L : List Int} {lv : Int → Nat}
    (h : ChainInv t L lv) {q : PID} {n : Node K V} (hn : GetNode t q = some n)
    (hl : n.IsLeaf = true) : q ∈ L :=
  h.leaves q n hn (by rw [← h.level q n hn]; exact (Node.IsLeaf_iff n).mp hl)

/-- Every child PID of a routing table has an entry in the bounds of the table. -/
theorem childBounds_of_pid (c0 : Int) (lo : Option K) (slots : List (K × Int)) (hi : Option K)
    {c : Int} (hc : c ∈ c0 :: slots.map Prod.snd) :
    ∃ l h, (c, l, h) ∈ childBounds c0 lo slots hi := by
  induction slots generalizing c0 lo with
  | nil =>
    simp only [List.map_nil, List.mem_singleton] at hc
    exact ⟨lo, hi, by rw [hc]; simp [childBounds]⟩
  | cons a rest ih =>
    obtain ⟨k1, c1⟩ := a
    rcases List.mem_cons.mp hc with e | e
    · exact ⟨lo, some k1, by rw [e]; simp [childBounds]⟩
    · obtain ⟨l, h, hm⟩ := ih c1 (some k1) (by simpa using e)
      exact ⟨l, h, by simp only [childBounds]; exact List.mem_cons_of_mem _ hm⟩

end Shape2
/-! ## The lazily created root and the last leaf of the chain -/

section Roots

set_option linter.unusedSectionVars false

variable {K V : Type} [LinearOrder K] [DecidableEq V]

/-- A well-formed index without root is the empty index. -/
theorem WellFormed.of_root_null {t : BWTree K V} (hwf : WellFormed t)
    (hroot : t.m_root = NULL_PID) :
    Models t (fun _ => []) ∧ (∀ q : Int, t.mapping_table q = none) ∧ t.next_pid = 0 := by
  obtain ⟨m, hM⟩ := hwf
  rcases hM with ⟨hr, hh, hmap, hnp, hm⟩ | ⟨g, hI, _, _⟩
  · exact ⟨Or.inl ⟨hr, hh, hmap, hnp, fun _ => rfl⟩, hmap, hnp⟩
  · exact absurd hroot hI.root_ne

/-- An index that holds a pair has a root. -/
theorem Models.root_of_content {t : BWTree K V} {m : K → List (K × V)} (hM : Models t m)
    {k : K} (hk : m k ≠ []) : t.m_root ≠ NULL_PID := by
  rcases hM with ⟨_, _, _, _, hm⟩ | ⟨g, hI, _, _⟩
  · exact absurd (hm k) hk
  · exact hI.root_ne

/-- The index the opening block of an operator leaves when there was no root: the
next unused PID holds a new empty leaf and is root, head and tail of the chain. -/
theorem EnsureRoot_fresh {t : BWTree K V} (hroot : t.m_root = NULL_PID) :
    (EnsureRoot t).m_root = t.next_pid ∧ (EnsureRoot t).m_headleaf = t.next_pid ∧
    (EnsureRoot t).m_tailleaf = t.next_pid ∧ (EnsureRoot t).next_pid = t.next_pid + 1 ∧
    (EnsureRoot t).mapping_table t.next_pid = some AllocateLeaf := by
  simp [EnsureRoot, hroot, BWTree.Install, BWTree.Update]

/-- On the index the opening block leaves when there was no root every key is
located on the new root leaf, by the walk of `InsertData` and by the walk of the
three other writers. -/
theorem locate_fresh_root {t : BWTree K V} (hroot : t.m_root = NULL_PID) (k : K) :
    locateInsert (EnsureRoot t) k = some (t.next_pid : Int) ∧
    locateLeaf (EnsureRoot t) k = some (t.next_pid : Int) := by
  obtain ⟨h1, _, _, h4, h5⟩ := EnsureRoot_fresh hroot
  have hd : descend (EnsureRoot t) k (EnsureRoot t).fuel (EnsureRoot t).m_root =
      some (t.next_pid : Int) := by
    rw [h1]
    simp [BWTree.fuel, h4, descend, GetNode, h5, AllocateLeaf, Node.IsLeaf, Node.GetLevel]
  constructor
  · rw [locateInsert, hd]
    exact walkInsert_inRange h5 rfl
  · rw [locateLeaf, hd]
    exact walkLeaf_inRange h5 rfl

/-- No key is below the upper bound of another leaf and at or above the lower bound
of the leaf without `next`: that leaf is the last one of the chain. -/
theorem LeafPath_last {g : Ghost K} (a : Int) (ha : g.nxt a = NULL_PID) :
    ∀ (L : List Int) (h : Int), LeafPath g h L → (∀ q ∈ L, q ≠ NULL_PID) →
      (∀ q ∈ L, loLeHi (g.lo q) (g.hi q)) → a ∈ L →
      ∀ p ∈ L, p ≠ a → ∀ k, ltHi k (g.hi p) → geLo (g.lo a) k → False := by
  intro L
  induction L with
  | nil => intro h _ _ _ ham; simp at ham
  | cons b rest ih =>
    intro h hp hnull hrange ham p hpm hpa k h1 h2
    obtain ⟨_, hrest, _⟩ := LeafPath_cons.mp hp
    rcases List.mem_cons.mp ham with e | e
    · -- the head is the last leaf: there is no other leaf
      rw [← e, ha] at hrest
      cases rest with
      | nil =>
        rcases List.mem_cons.mp hpm with e' | e'
        · exact hpa (e'.trans e.symm)
        · simp at e'
      | cons c rest' =>
        obtain ⟨hc, _, _⟩ := LeafPath_cons.mp hrest
        exact hnull c (List.mem_cons_of_mem _ (List.mem_cons_self _ _)) hc.symm
    · rcases List.mem_cons.mp hpm with e' | e'
      · rw [e'] at h1
        exact LeafPath_head_sep rest b h hp hrange a e k h1 h2
      · exact ih _ hrest (fun q hq => hnull q (List.mem_cons_of_mem _ hq))
          (fun q hq => hrange q (List.mem_cons_of_mem _ hq)) e p e' hpa k h1 h2

/-- In an index with the invariant every key is in the range of the leaf whose base
has no `next`. -/
theorem last_leaf_inRange_of_inv {t : BWTree K V} {g : Ghost K} (hI : Inv t g none) {q : Int}
    {n : Node K V} (hn : t.mapping_table q = some n) (hl : n.IsLeaf = true)
    (hnext : n.GetBaseNode.GetNext = NULL_PID) (k : K) : isInRange n k = true := by
  have hG := hI.ghost
  have hok := hI.node hn
  obtain ⟨q0, q1⟩ := hI.alloc q n hn
  have hlq : g.lvl q = 0 := by rw [← hok.level]; exact (Node.IsLeaf_iff n).mp hl
  have hnq : g.nxt q = NULL_PID := by rw [← hok.next hlq]; exact hnext
  have hqL : q ∈ g.leaves := hG.leaf_mem q q0 q1 hlq
  apply hok.inRange hlq
  intro x hx
  exfalso
  obtain ⟨p, np, hnp, _, p0, plvl, plo, phi, _⟩ := locate_inv hI x
  obtain ⟨p0', p1⟩ := hI.alloc p np hnp
  have hpL : p ∈ g.leaves := hG.leaf_mem p p0 p1 plvl
  have hpq : p ≠ q := by
    intro e
    rw [e] at phi
    exact lt_irrefl x (phi x hx)
  refine LeafPath_last q hnq g.leaves _ hG.path
    (fun a ham => ne_NULL_of_nonneg (hG.leaves_mem a ham).1)
    (fun a ham => hG.range a (hG.leaves_mem a ham).1 (hG.leaves_mem a ham).2.1)
    hqL p hpL hpq x phi ?_
  intro l hlo
  exact hG.range q q0 q1 l x hlo hx

/-- In a well-formed index every key is in the range of the leaf whose base has no
`next`. -/
theorem last_leaf_inRange {t : BWTree K V} (hwf : WellFormed t) {q : PID}
    {n : Node K V} (hn : GetNode t q = some n) (hl : n.IsLeaf = true)
    (hnext : n.GetBaseNode.GetNext = NULL_PID) (k : K) : isInRange n k = true := by
  obtain ⟨m, hM⟩ := hwf
  rcases hM with ⟨_, _, hmap, _, _⟩ | ⟨g, hI, _, _⟩
  · rw [GetNode, hmap] at hn; cases hn
  · exact last_leaf_inRange_of_inv hI hn hl hnext k

end Roots
/-! ## Chains that a split leaves as they are, up to the parent of their base -/

section Frame

set_option linter.unusedSectionVars false

variable {K V : Type} [LinearOrder K] [DecidableEq V]

@[simp] theorem Node.basePrev_SetParent (x : PID) (n : Node K V) :
    (n.SetParent x).GetBaseNode.GetPrev = n.GetBaseNode.GetPrev := by
  induction n with
  | LeafNode _ _ _ _ _ => rfl
  | InnerNode _ _ _ _ _ => rfl
  | InsertNode _ _ _ _ _ b ih => exact ih
  | UpdateNode _ _ _ _ _ b ih => exact ih
  | DeleteNode _ _ _ _ _ b ih => exact ih
  | SplitNode _ _ _ _ _ b ih => exact ih
  | SeparatorNode _ _ _ _ _ _ b ih => exact ih

@[simp] theorem Node.basePrev_SetNext (x : PID) (n : Node K V) :
    (n.SetNext x).GetBaseNode.GetPrev = n.GetBaseNode.GetPrev := by
  induction n with
  | LeafNode _ _ _ _ _ => rfl
  | InnerNode _ _ _ _ _ => rfl
  | InsertNode _ _ _ _ _ b ih => exact ih
  | UpdateNode _ _ _ _ _ b ih => exact ih
  | DeleteNode _ _ _ _ _ b ih => exact ih
  | SplitNode _ _ _ _ _ b ih => exact ih
  | SeparatorNode _ _ _ _ _ _ b ih => exact ih

/-- The base of a chain of level 0 with consistent levels is a leaf base. -/
theorem Node.ChainOK.leaf_base {n : Node K V} (h : n.ChainOK) (hl : n.GetLevel = 0) :
    ∃ a c d e, n.GetBaseNode = LeafNode a 0 c d e := by
  induction n with
  | LeafNode a l c d e =>
    have e0 : l = 0 := h
    exact ⟨a, c, d, e, by rw [e0]; rfl⟩
  | InnerNode a l c d e => exact absurd hl h
  | InsertNode _ _ l _ _ b ih => exact ih h.2.2 (h.1.symm.trans hl)
  | UpdateNode _ _ l _ _ b ih => exact ih h.2.2 (h.1.symm.trans hl)
  | DeleteNode _ _ l _ _ b ih => exact ih h.2.2 (h.1.symm.trans hl)
  | SplitNode _ _ l _ _ b ih => exact ih h.2.2 (h.1.symm.trans hl)
  | SeparatorNode _ _ _ l _ _ b ih => exact ih h.2.2.1 (h.1.symm.trans hl)

/-- On a chain over a leaf base `SetPrev` sets the `prev` of the base. -/
theorem Node.basePrev_SetPrev (x : PID) (n : Node K V)
    (hb : ∃ a c d e, n.GetBaseNode = LeafNode a 0 c d e) :
    (n.SetPrev x).GetBaseNode.GetPrev = x := by
  induction n with
  | LeafNode _ _ _ _ _ => rfl
  | InnerNode _ _ _ _ _ =>
    obtain ⟨a, c, d, e, hb⟩ := hb
    cases hb
  | InsertNode _ _ _ _ _ b ih => exact ih hb
  | UpdateNode _ _ _ _ _ b ih => exact ih hb
  | DeleteNode _ _ _ _ _ b ih => exact ih hb
  | SplitNode _ _ _ _ _ b ih => exact ih hb
  | SeparatorNode _ _ _ _ _ _ b ih => exact ih hb

theorem Node.SetParent_SetParent (x y : PID) (n : Node K V) :
    (n.SetParent x).SetParent y = n.SetParent y := by
  induction n <;> simp only [Node.SetParent, *]

@[simp] theorem Node.asSplit_SetParent (x : PID) (n : Node K V) :
    (n.SetParent x).asSplit = n.asSplit := by
  cases n <;> rfl

@[simp] theorem Node.asSeparator_SetParent (x : PID) (n : Node K V) :
    (n.SetParent x).asSeparator = n.asSeparator := by
  cases n <;> rfl

@[simp] theorem Node.IsLeaf_SetParent (x : PID) (n : Node K V) :
    (n.SetParent x).IsLeaf = n.IsLeaf := by
  simp [Node.IsLeaf]

@[simp] theorem Node.IsLeaf_SetNext (x : PID) (n : Node K V) :
    (n.SetNext x).IsLeaf = n.IsLeaf := by
  simp [Node.IsLeaf]

@[simp] theorem Node.IsLeaf_SetPrev (x : PID) (n : Node K V) :
    (n.SetPrev x).IsLeaf = n.IsLeaf := by
  simp [Node.IsLeaf]

@[simp] theorem childPIDs_SetParent (x : PID) (n : Node K V) :
    childPIDs (n.SetParent x) = childPIDs n := by
  simp [childPIDs]

@[simp] theorem childPIDs_SetNext (x : PID) (n : Node K V) :
    childPIDs (n.SetNext x) = childPIDs n := by
  simp [childPIDs]

theorem SameButParent.refl (n : Node K V) : SameButParent n n := Or.inl rfl

theorem SameButParent.trans {a b c : Node K V} (h1 : SameButParent a b)
    (h2 : SameButParent b c) : SameButParent a c := by
  rcases h1 with e1 | ⟨x, e1⟩ <;> rcases h2 with e2 | ⟨y, e2⟩
  · exact Or.inl (e2.trans e1)
  · exact Or.inr ⟨y, by rw [e2, e1]⟩
  · exact Or.inr ⟨x, by rw [e2, e1]⟩
  · exact Or.inr ⟨y, by rw [e2, e1, Node.SetParent_SetParent]⟩

theorem SameButParent.level {n n' : Node K V} (h : SameButParent n n') :
    n'.GetLevel = n.GetLevel := by
  rcases h with e | ⟨x, e⟩ <;> simp [e]

theorem SameButParent.isLeaf {n n' : Node K V} (h : SameButParent n n') :
    n'.IsLeaf = n.IsLeaf := by
  rcases h with e | ⟨x, e⟩ <;> simp [e]

theorem SameButParent.size {n n' : Node K V} (h : SameButParent n n') :
    n'.GetSize = n.GetSize := by
  rcases h with e | ⟨x, e⟩ <;> simp [e]

theorem SameButParent.length {n n' : Node K V} (h : SameButParent n n') :
    n'.GetLength = n.GetLength := by
  rcases h with e | ⟨x, e⟩ <;> simp [e]

theorem SameButParent.isDelta {n n' : Node K V} (h : SameButParent n n') :
    n'.IsDelta = n.IsDelta := by
  rcases h with e | ⟨x, e⟩ <;> simp [e]

theorem SameButParent.data {n n' : Node K V} (h : SameButParent n n') :
    GetAllData n' = GetAllData n := by
  rcases h with e | ⟨x, e⟩ <;> simp [e]

theorem SameButParent.pointers {n n' : Node K V} (h : SameButParent n n') :
    GetAllPointer n' = GetAllPointer n := by
  rcases h with e | ⟨x, e⟩ <;> simp [e]

theorem SameButParent.children {n n' : Node K V} (h : SameButParent n n') :
    childPIDs n' = childPIDs n := by
  rcases h with e | ⟨x, e⟩ <;> simp [e]

theorem SameButParent.next {n n' : Node K V} (h : SameButParent n n') :
    n'.GetBaseNode.GetNext = n.GetBaseNode.GetNext := by
  rcases h with e | ⟨x, e⟩ <;> simp [e]

theorem SameButParent.prev {n n' : Node K V} (h : SameButParent n n') :
    n'.GetBaseNode.GetPrev = n.GetBaseNode.GetPrev := by
  rcases h with e | ⟨x, e⟩ <;> simp [e]

theorem SameButParent.split {n n' : Node K V} (h : SameButParent n n') :
    n'.asSplit = n.asSplit := by
  rcases h with e | ⟨x, e⟩ <;> simp [e]

theorem SameButParent.inRange {n n' : Node K V} (h : SameButParent n n') (k : K) :
    isInRange n' k = isInRange n k := by
  rcases h with e | ⟨x, e⟩ <;> simp [e]

theorem FrameBelow.same (lev : Nat) (t : BWTree K V) : FrameBelow lev t t :=
  ⟨fun _ n hn _ => ⟨n, hn, SameButParent.refl n, fun _ => rfl⟩,
    fun _ n' hn' hl => ⟨n', hn', hl⟩⟩

theorem FrameBelow.comp {lev : Nat} {t t1 t2 : BWTree K V} (h1 : FrameBelow lev t t1)
    (h2 : FrameBelow lev t1 t2) : FrameBelow lev t t2 := by
  constructor
  · intro q n hn hl
    obtain ⟨n1, a1, a2, a3⟩ := h1.1 q n hn hl
    obtain ⟨n2, b1, b2, b3⟩ := h2.1 q n1 a1 (by rw [a2.level]; exact hl)
    refine ⟨n2, b1, a2.trans b2, fun h => ?_⟩
    rw [b3 (by rw [a2.level]; exact h), a3 h]
  · intro q n2 hn2 hl
    obtain ⟨n1, a1, a2⟩ := h2.2 q n2 hn2 hl
    exact h1.2 q n1 a1 a2

theorem FrameBelow.mono {lev lev' : Nat} {t t' : BWTree K V} (h : FrameBelow lev t t')
    (hle : lev' ≤ lev) : FrameBelow lev' t t' := by
  constructor
  · intro q n hn hl
    obtain ⟨n', a1, a2, a3⟩ := h.1 q n hn (lt_of_lt_of_le hl hle)
    exact ⟨n', a1, a2, fun h' => a3 (lt_of_lt_of_le h' hle)⟩
  · intro q n' hn' hl
    obtain ⟨n, a1, a2⟩ := h.2 q n' hn' (lt_of_lt_of_le hl hle)
    obtain ⟨n'', b1, b2, _⟩ := h.1 q n a1 a2
    have e : n'' = n' := Option.some.inj (b1.symm.trans hn')
    exact ⟨n, a1, by rw [← b2.level, e]; exact hl⟩

/-- Below the level of a frame that reaches one level higher every chain is the
same. -/
theorem FrameBelow.exact {lev : Nat} {t t' : BWTree K V} (h : FrameBelow (lev + 1) t t')
    {q : Int} {n : Node K V} (hn : t.mapping_table q = some n) (hl : n.GetLevel < lev) :
    t'.mapping_table q = some n := by
  obtain ⟨n', a1, _, a3⟩ := h.1 q n hn (Nat.lt_succ_of_lt hl)
  rw [a1, a3 (Nat.succ_lt_succ hl)]

/-- A new head on a PID whose chain is not below the level keeps the chains below
the level. -/
theorem FrameBelow_Update {lev : Nat} {t : BWTree K V} {X : Int} {old d : Node K V}
    (hold : t.mapping_table X = some old) (h1 : lev ≤ old.GetLevel) (h2 : lev ≤ d.GetLevel) :
    FrameBelow lev t (t.Update X d) := by
  constructor
  · intro q n hn hl
    have hq : q ≠ X := by
      intro e
      rw [e, hold] at hn
      rw [← Option.some.inj hn] at hl
      omega
    exact ⟨n, by simp [BWTree.Update, hq, hn], SameButParent.refl n, fun _ => rfl⟩
  · intro q n' hn' hl
    have hq : q ≠ X := by
      intro e
      rw [e] at hn'
      simp only [BWTree.Update, if_true, Option.some.injEq] at hn'
      rw [← hn'] at hl
      omega
    simp only [BWTree.Update, if_neg hq] at hn'
    exact ⟨n', hn', hl⟩

/-- The chains of two indexes with the same mapping table below a level. -/
theorem FrameBelow_of_eq {lev : Nat} {t t' : BWTree K V}
    (h : ∀ (q : Int), (∀ n, t.mapping_table q = some n → lev ≤ n.GetLevel) ∧
        (∀ n, t'.mapping_table q = some n → lev ≤ n.GetLevel) ∨
      t'.mapping_table q = t.mapping_table q) : FrameBelow lev t t' := by
  constructor
  · intro q n hn hl
    rcases h q with ⟨a, _⟩ | e
    · have := a n hn; omega
    · exact ⟨n, by rw [e, hn], SameButParent.refl n, fun _ => rfl⟩
  · intro q n' hn' hl
    rcases h q with ⟨_, a⟩ | e
    · have := a n' hn'; omega
    · exact ⟨n', by rw [← e, hn'], hl⟩

end Frame
/-! ## The mapping table after the blocks of a split -/

section Shapes

set_option linter.unusedSectionVars false

variable {K V : Type} [LinearOrder K] [DecidableEq V]

/-- The index after the block that grows the root: when `p` is not the root
nothing changes; when it is, the next unused PID holds the new root, an inner base
with `p` as only child, and the base of `p` has the new root as parent. -/
theorem GrowRoot_frame {t t1 : BWTree K V} {p : Int} {n : Node K V} (lev : Node K V → Nat)
    (hn : t.mapping_table p = some n) (hp : p < t.next_pid)
    (hfresh : t.mapping_table t.next_pid = none)
    (hlev : n.GetLevel < lev n.GetBaseNode)
    (hg : GrowRoot t p lev = some t1) :
    (t.m_root ≠ p → t1 = t) ∧
    (t.m_root = p → t1.m_root = t.next_pid ∧ t1.next_pid = t.next_pid + 1 ∧
      t1.mapping_table p = some (n.SetParent t.next_pid) ∧
      t1.mapping_table t.next_pid = some (AllocateInner (lev n.GetBaseNode) p) ∧
      ∀ q : Int, q ≠ p → q ≠ t.next_pid → t1.mapping_table q = t.mapping_table q) ∧
    (∃ n1, t1.mapping_table p = some n1 ∧ SameButParent n n1) ∧
    FrameBelow (n.GetLevel + 1) t t1 ∧
    (∀ (q : Int) (nq : Node K V), q ≠ p → t.mapping_table q = some nq →
      t1.mapping_table q = some nq) := by
  have hpN : p ≠ (t.next_pid : Int) := ne_of_lt hp
  by_cases hr : t.m_root = p
  · obtain ⟨t', ht', hmt, hroot', _, hnext'⟩ := GrowRoot_root lev hr hn
    have e : t1 = t' := Option.some.inj (hg.symm.trans ht')
    rw [e]
    have hmp : t'.mapping_table p = some (n.SetParent t.next_pid) := by
      rw [hmt, if_pos rfl]
    have hmN : t'.mapping_table t.next_pid = some (AllocateInner (lev n.GetBaseNode) p) := by
      rw [hmt, if_neg (Ne.symm hpN), if_pos rfl]
    have hmo : ∀ q : Int, q ≠ p → q ≠ t.next_pid → t'.mapping_table q = t.mapping_table q := by
      intro q h1 h2
      rw [hmt, if_neg h1, if_neg h2]
    refine ⟨fun h => absurd hr h, fun _ => ⟨hroot', hnext', hmp, hmN, hmo⟩,
      ⟨_, hmp, Or.inr ⟨_, rfl⟩⟩, ⟨?_, ?_⟩, ?_⟩
    · intro q nq hq hl
      by_cases e1 : q = p
      · rw [e1, hn] at hq
        rw [e1, ← Option.some.inj hq]
        exact ⟨_, hmp, Or.inr ⟨_, rfl⟩, fun h => by omega⟩
      · have e2 : q ≠ t.next_pid := by
          intro e2
          rw [e2, hfresh] at hq
          cases hq
        exact ⟨nq, by rw [hmo q e1 e2, hq], SameButParent.refl _, fun _ => rfl⟩
    · intro q nq' hq hl
      by_cases e1 : q = p
      · rw [e1, hmp] at hq
        rw [← Option.some.inj hq, Node.GetLevel_SetParent] at hl
        exact ⟨n, by rw [e1]; exact hn, hl⟩
      · by_cases e2 : q = t.next_pid
        · rw [e2, hmN] at hq
          rw [← Option.some.inj hq] at hl
          have : (AllocateInner (lev n.GetBaseNode) p : Node K V).GetLevel =
              lev n.GetBaseNode := rfl
          omega
        · rw [hmo q e1 e2] at hq
          exact ⟨nq', hq, hl⟩
    · intro q nq e1 hq
      have e2 : q ≠ t.next_pid := by
        intro e2
        rw [e2, hfresh] at hq
        cases hq
      rw [hmo q e1 e2, hq]
  · have e : t1 = t := by
      rw [GrowRoot_not_root lev hr] at hg
      exact (Option.some.inj hg).symm
    rw [e]
    exact ⟨fun _ => rfl, fun h => absurd h hr, ⟨n, hn, SameButParent.refl n⟩,
      FrameBelow.same _ _, fun _ _ _ h => h⟩

/-- The index after the block of `SplitLeaf` that publishes the split delta on the
leaf `p` of an index with the invariant: the split key is the key of the middle
slot, the next unused PID `N` holds the new sibling with the slots from the middle
on, `p` has the split delta on its old chain, the former next leaf has `N` as
`prev`, no other PID changes. -/
theorem SplitLeafAt_shape {t : BWTree K V} {g : Ghost K} (hI : Inv t g none) {p : Int}
    (hB : Bounded t (some p)) {n : Node K V} (hn : t.mapping_table p = some n)
    (hl : g.lvl p = 0) (hD : GetAllData n ≠ []) :
    ∃ (s0 : K × List V) (t2 : BWTree K V),
      (GetAllData n)[(GetAllData n).length / 2]? = some s0 ∧
      SplitLeafAt t p n = some (t2, (t.next_pid : Int), s0.1) ∧
      t2.next_pid = t.next_pid + 1 ∧ t2.m_root = t.m_root ∧
      t2.mapping_table p = some (SplitNode s0.1 t.next_pid n.GetLevel
        ((GetAllData n).length / 2) (nextLength n) (n.SetNext t.next_pid)) ∧
      t2.mapping_table t.next_pid = some (LeafNode n.GetBaseNode.GetParent 0
        n.GetBaseNode.GetNext p ((GetAllData n).drop ((GetAllData n).length / 2))) ∧
      (∀ q : Int, q ≠ p → q ≠ t.next_pid → q ≠ n.GetBaseNode.GetNext →
        t2.mapping_table q = t.mapping_table q) ∧
      t2.mapping_table NULL_PID = none ∧
      n.GetBaseNode.GetNext ≠ p ∧ n.GetBaseNode.GetNext ≠ t.next_pid ∧
      (n.GetBaseNode.GetNext ≠ NULL_PID →
        ∃ f, t.mapping_table n.GetBaseNode.GetNext = some f ∧ f.GetLevel = 0 ∧
          t2.mapping_table n.GetBaseNode.GetNext = some (f.SetPrev t.next_pid) ∧
          (f.SetPrev t.next_pid).GetBaseNode.GetPrev = t.next_pid) := by
  have hG := hI.ghost
  obtain ⟨hp0, hp1⟩ := hI.alloc p n hn
  have hok := hI.node hn
  have hsz := (hB p n hn).1
  have hds := hok.data_size hl
  have hpos : (GetAllData n).length / 2 < (GetAllData n).length :=
    Nat.div_lt_self (List.length_pos.mpr hD) (by norm_num)
  have hs : (GetAllData n)[(GetAllData n).length / 2]? =
      some ((GetAllData n)[(GetAllData n).length / 2]) := List.getElem?_eq_getElem hpos
  generalize (GetAllData n)[(GetAllData n).length / 2] = s0 at hs
  have hnext : n.GetBaseNode.GetNext = g.nxt p := hok.next hl
  have hpl : p ∈ g.leaves := hG.leaf_mem p hp0 hp1 hl
  have hpN : p ≠ (t.next_pid : Int) := ne_of_lt hp1
  have hnullnone : t.mapping_table NULL_PID = none := by
    cases h : t.mapping_table NULL_PID with
    | none => rfl
    | some x =>
      have := (hI.alloc _ x h).1
      rw [NULL_PID_eq] at this
      omega
  have hf : n.GetBaseNode.GetNext = NULL_PID ∨
      n.GetBaseNode.GetNext ≠ NULL_PID ∧
      (∃ f, t.mapping_table n.GetBaseNode.GetNext = some f) ∧ n.GetBaseNode.GetNext ≠ p ∧
        n.GetBaseNode.GetNext ≠ t.next_pid := by
    rw [hnext]
    rcases LeafPath_next_mem g.leaves _ hG.path hG.leaves_nodup p hpl with h | ⟨h1, h2⟩
    · exact Or.inl h
    · right
      obtain ⟨a0, a1, _⟩ := hG.leaves_mem _ h1
      obtain ⟨f, hf, _⟩ := hI.nodes _ a0 a1
      exact ⟨ne_NULL_of_nonneg a0, ⟨f, hf⟩, h2, ne_of_lt a1⟩
  have hpnull : p ≠ NULL_PID := ne_NULL_of_nonneg hp0
  have hNnull : (t.next_pid : Int) ≠ NULL_PID := ne_NULL_of_nonneg (Int.ofNat_nonneg _)
  have hqp : n.GetBaseNode.GetNext ≠ p := by
    rcases hf with h | ⟨_, _, h, _⟩
    · rw [h]; exact Ne.symm hpnull
    · exact h
  have hqN : n.GetBaseNode.GetNext ≠ t.next_pid := by
    rcases hf with h | ⟨_, _, _, h⟩
    · rw [h]; exact Ne.symm hNnull
    · exact h
  obtain ⟨t2, ht2, hnp2, hroot2, _, hmt⟩ :=
    SplitLeafAt_eq (p := p) hf (by omega) hs
  have hfp : ¬ (p = n.GetBaseNode.GetNext ∧ n.GetBaseNode.GetNext ≠ NULL_PID) :=
    fun h => hqp h.1.symm
  have hfN : ¬ ((t.next_pid : Int) = n.GetBaseNode.GetNext ∧
      n.GetBaseNode.GetNext ≠ NULL_PID) := fun h => hqN h.1.symm
  refine ⟨s0, t2, hs, ht2, hnp2, hroot2, ?_, ?_, ?_, ?_, hqp, hqN, ?_⟩
  · rw [hmt, if_neg hfp, if_pos rfl]
  · rw [hmt, if_neg hfN, if_neg (Ne.symm hpN), if_pos rfl]
  · intro q h1 h2 h3
    rw [hmt, if_neg (fun h => h3 h.1), if_neg h1, if_neg h2]
  · rw [hmt]
    by_cases c : NULL_PID = n.GetBaseNode.GetNext ∧ n.GetBaseNode.GetNext ≠ NULL_PID
    · exact absurd c.1.symm c.2
    · rw [if_neg c, if_neg (Ne.symm hpnull), if_neg (Ne.symm hNnull)]
      exact hnullnone
  · intro hne
    rcases hf with h | ⟨_, ⟨f, hf'⟩, _, _⟩
    · exact absurd h hne
    · obtain ⟨a0, a1⟩ := hI.alloc _ f hf'
      have hokf := hI.node hf'
      have hlf : g.lvl n.GetBaseNode.GetNext = 0 := by
        rw [hnext]
        rcases LeafPath_next_mem g.leaves _ hG.path hG.leaves_nodup p hpl with h | ⟨h1, _⟩
        · rw [hnext] at hne; exact absurd h hne
        · exact (hG.leaves_mem _ h1).2.2
      have hfl : f.GetLevel = 0 := by rw [hokf.level]; exact hlf
      refine ⟨f, hf', hfl, ?_, Node.basePrev_SetPrev _ f (hokf.chain.leaf_base hfl)⟩
      rw [hmt, if_pos ⟨rfl, hne⟩, hf']
      rfl

/-- The index after the block of `SplitInner` that publishes the split delta on the
inner node `p` of an index with the invariant: the next unused PID `N` holds the
new sibling with the upper part of the routing table, `p` has the split delta on
its old chain, every child of the sibling is one level below `p` and has `N` as
parent of its base, no other PID changes, and no child of the lower part of the
table is a child of the sibling. -/
theorem SplitInnerAt_shape {t : BWTree K V} {g : Ghost K} (hI : Inv t g none) {p : Int}
    (hB : Bounded t (some p)) {n : Node K V} (hn : t.mapping_table p = some n)
    (hl : g.lvl p ≠ 0) (hne : (g.tbl p).2 ≠ []) :
    ∃ (e : K × Int) (t2 : BWTree K V),
      SplitInnerAt t p n = some (t2, (t.next_pid : Int), e.1) ∧
      t2.next_pid = t.next_pid + 1 ∧ t2.m_root = t.m_root ∧
      t2.mapping_table p = some (SplitNode e.1 t.next_pid n.GetLevel
        (((GetAllPointer n).2.length + 1) / 2 - 1) (nextLength n) (n.SetNext t.next_pid)) ∧
      t2.mapping_table t.next_pid = some (InnerNode n.GetBaseNode.GetParent n.GetLevel
        n.GetBaseNode.GetNext e.2
        ((GetAllPointer n).2.drop (((GetAllPointer n).2.length + 1) / 2))) ∧
      (∀ c ∈ e.2 :: ((GetAllPointer n).2.drop (((GetAllPointer n).2.length + 1) / 2)).map
          Prod.snd,
        ∃ nc, t.mapping_table c = some nc ∧ nc.GetLevel + 1 = n.GetLevel ∧
          t2.mapping_table c = some (nc.SetParent t.next_pid) ∧ c ≠ p ∧ c ≠ t.next_pid) ∧
      (∀ q : Int, q ≠ p → q ≠ t.next_pid →
        q ∉ e.2 :: ((GetAllPointer n).2.drop (((GetAllPointer n).2.length + 1) / 2)).map
          Prod.snd →
        t2.mapping_table q = t.mapping_table q) ∧
      (∀ c ∈ (GetAllPointer n).1 ::
          ((GetAllPointer n).2.filter (fun a => decide (a.1 < e.1))).map Prod.snd,
        c ∉ e.2 :: ((GetAllPointer n).2.drop (((GetAllPointer n).2.length + 1) / 2)).map
          Prod.snd) ∧
      (GetAllPointer n).2[((GetAllPointer n).2.length + 1) / 2 - 1]? = some e ∧
      (GetAllPointer n).2.Pairwise (fun a b => a.1 ≤ b.1) ∧
      ((GetAllPointer n).1 :: (GetAllPointer n).2.map Prod.snd).Nodup := by
  have hG := hI.ghost
  obtain ⟨hp0, hp1⟩ := hI.alloc p n hn
  have hok := hI.node hn
  have htab := hok.table hl
  have hT := hG.table p hp0 hp1 hl
  have hsz := (hB p n hn).1
  have hts := hok.table_size hl
  have hLpos : 0 < (g.tbl p).2.length := List.length_pos.mpr hne
  obtain ⟨i, hi⟩ : ∃ i, ((g.tbl p).2.length + 1) / 2 = i + 1 :=
    ⟨((g.tbl p).2.length + 1) / 2 - 1, by omega⟩
  have hiL : i < (g.tbl p).2.length := by omega
  have he0 : (g.tbl p).2[i]? = some ((g.tbl p).2[i]) := List.getElem?_eq_getElem hiL
  generalize (g.tbl p).2[i] = e at he0
  have hcut := slots_cut he0
  have hpids : (g.tbl p).1 :: (g.tbl p).2.map Prod.snd =
      ((g.tbl p).1 :: ((g.tbl p).2.take i).map Prod.snd) ++
        (e.2 :: ((g.tbl p).2.drop (i + 1)).map Prod.snd) := by
    conv_lhs => rw [hcut]
    simp
  have hndall := hT.nodup
  rw [hpids] at hndall
  have hnd2 := List.nodup_append.mp hndall
  obtain ⟨c', R, hF, hFlen⟩ := filter_lt_prefix hT.sorted he0
  have hFpre : ((g.tbl p).2.filter (fun a => decide (a.1 < e.1))) <+: (g.tbl p).2.take i :=
    List.prefix_of_prefix_length_le ⟨(e.1, c') :: R, hF.symm⟩ (List.take_prefix i _)
      (by rw [List.length_take]; omega)
  have hcs : ∀ c ∈ (e.2 :: ((g.tbl p).2.drop (i + 1)).map Prod.snd),
      0 ≤ c ∧ c < t.next_pid ∧ g.par c = p ∧ g.lvl c + 1 = g.lvl p := by
    intro c hc
    have hc2 : c ∈ (g.tbl p).1 :: (g.tbl p).2.map Prod.snd := by
      rw [hpids]; exact List.mem_append_right _ hc
    obtain ⟨l, h, hm⟩ := mem_childBounds_of_pid (g.lo p) (g.hi p) hc2
    obtain ⟨a0, a1, _, a3, a4, _⟩ := hT.children c l h hm
    exact ⟨a0, a1, a3, a4⟩
  have hleft : ∀ c ∈ (g.tbl p).1 ::
      ((g.tbl p).2.filter (fun a => decide (a.1 < e.1))).map Prod.snd,
      c ∉ (e.2 :: ((g.tbl p).2.drop (i + 1)).map Prod.snd) := by
    intro c hc hc2
    refine hnd2.2.2 ?_ hc2
    rcases List.mem_cons.mp hc with h | h
    · rw [h]; exact List.mem_cons_self _ _
    · exact List.mem_cons_of_mem _ ((List.IsPrefix.map Prod.snd hFpre).subset h)
  have hpcs : p ∉ (e.2 :: ((g.tbl p).2.drop (i + 1)).map Prod.snd) := by
    intro h
    have := (hcs p h).2.2.2
    omega
  have hNcs : (t.next_pid : Int) ∉ (e.2 :: ((g.tbl p).2.drop (i + 1)).map Prod.snd) := by
    intro h
    have := (hcs _ h).2.1
    omega
  have hpN : p ≠ (t.next_pid : Int) := ne_of_lt hp1
  have hEq := @SplitInnerAt_eq K V _ _ t p n e
  simp only [htab, hi, Nat.add_sub_cancel] at hEq
  obtain ⟨t2, ht2, hnp2, hroot2, _, hmt⟩ := hEq (by omega) he0 hnd2.2.1
    (fun c hc => by
      obtain ⟨a0, a1, _, a3⟩ := hcs c hc
      obtain ⟨nc, hnc, _⟩ := hI.nodes c a0 a1
      exact ⟨⟨nc, hnc⟩, fun h => hpcs (h ▸ hc), ne_of_lt a1⟩)
  simp only [htab, hi, Nat.add_sub_cancel]
  refine ⟨e, t2, ht2, hnp2, hroot2, ?_, ?_, ?_, ?_, hleft, he0, hT.sorted, hT.nodup⟩
  · rw [hmt, if_neg hpcs, if_pos rfl]
  · rw [hmt, if_neg hNcs, if_neg (Ne.symm hpN), if_pos rfl]
  · intro c hc
    obtain ⟨a0, a1, _, a3⟩ := hcs c hc
    obtain ⟨nc, hnc, hokc⟩ := hI.nodes c a0 a1
    refine ⟨nc, hnc, by rw [hokc.level, hok.level]; exact a3, ?_, fun h => hpcs (h ▸ hc),
      ne_of_lt a1⟩
    rw [hmt, if_pos hc, hnc]
    rfl
  · intro q h1 h2 h3
    rw [hmt, if_neg h3, if_neg h1, if_neg h2]

end Shapes
/-! ## What a cascade of inner splits leaves as it is -/

section Cascade

set_option linter.unusedSectionVars false

variable {K V : Type} [LinearOrder K] [DecidableEq V]

/-- The separator delta `InstallSeparator` publishes and the index it leaves. -/
theorem InstallSeparator_eq {t t3 : BWTree K V} {P N : Int} {sk : K} {d parent : Node K V}
    (hP : t.mapping_table P = some parent)
    (hi : InstallSeparator t P sk N = some (t3, d)) :
    d = SeparatorNode sk (FindUpperKey t P sk) N parent.GetLevel (1 + parent.GetSize)
      (nextLength parent) parent ∧ t3 = t.Update P d := by
  simp only [InstallSeparator, GetNode, hP, Option.some.injEq, Prod.mk.injEq] at hi
  obtain ⟨h1, h2⟩ := hi
  rw [← h2]
  exact ⟨rfl, h1.symm⟩

/-- An index with allocated nodes only has no node on its next unused PID. -/
theorem Inv.fresh {t : BWTree K V} {g : Ghost K} {pend : Option (Int × Int)}
    (hI : Inv t g pend) : t.mapping_table t.next_pid = none := by
  cases h : t.mapping_table t.next_pid with
  | none => rfl
  | some x =>
    have := (hI.alloc _ x h).2
    omega

/-- The block of `SplitInner` that publishes the split delta changes no chain below
the level of the node but the parent of the base of the children of the new
sibling. -/
theorem SplitInnerAt_frame {t t2 : BWTree K V} {g : Ghost K} (hI : Inv t g none) {p N : Int}
    {sk : K} (hB : Bounded t (some p)) {n : Node K V} (hn : t.mapping_table p = some n)
    (hl : g.lvl p ≠ 0) (hne : (g.tbl p).2 ≠ []) (hs : SplitInnerAt t p n = some (t2, N, sk)) :
    FrameBelow n.GetLevel t t2 := by
  obtain ⟨e, t2', h1, _, _, hmp, hmN, hcs, hother, _⟩ := SplitInnerAt_shape hI hB hn hl hne
  have e2 : t2 = t2' := by
    rw [h1] at hs
    simp only [Option.some.injEq, Prod.mk.injEq] at hs
    exact hs.1.symm
  rw [e2]
  have hfresh := hI.fresh
  constructor
  · intro q nq hq hlq
    by_cases c : q ∈ e.2 :: ((GetAllPointer n).2.drop (((GetAllPointer n).2.length + 1) / 2)).map
        Prod.snd
    · obtain ⟨nc, a1, a2, a3, _, _⟩ := hcs q c
      have e3 : nq = nc := Option.some.inj (hq.symm.trans a1)
      rw [e3]
      exact ⟨_, a3, Or.inr ⟨_, rfl⟩, fun h => by omega⟩
    · have hqp : q ≠ p := by
        intro e3
        rw [e3, hn] at hq
        rw [← Option.some.inj hq] at hlq
        omega
      have hqN : q ≠ t.next_pid := by
        intro e3
        rw [e3, hfresh] at hq
        cases hq
      exact ⟨nq, by rw [hother q hqp hqN c, hq], SameButParent.refl _, fun _ => rfl⟩
  · intro q nq' hq hlq
    by_cases c : q ∈ e.2 :: ((GetAllPointer n).2.drop (((GetAllPointer n).2.length + 1) / 2)).map
        Prod.snd
    · obtain ⟨nc, a1, a2, a3, _, _⟩ := hcs q c
      have e3 : nq' = nc.SetParent t.next_pid := Option.some.inj (hq.symm.trans a3)
      rw [e3, Node.GetLevel_SetParent] at hlq
      exact ⟨nc, a1, hlq⟩
    · by_cases hqp : q = p
      · rw [hqp, hmp] at hq
        rw [← Option.some.inj hq] at hlq
        exact absurd hlq (lt_irrefl _)
      · by_cases hqN : q = t.next_pid
        · rw [hqN, hmN] at hq
          rw [← Option.some.inj hq] at hlq
          exact absurd hlq (lt_irrefl _)
        · rw [hother q hqp hqN c] at hq
          exact ⟨nq', hq, hlq⟩

/-- A cascade of inner splits changes no chain below the level of the node it
starts on but the parent of the base of the children that move to a new sibling. -/
theorem SplitInner_frame {cfg : Config} (hA : cfg.Admissible) (fuel : Nat) :
    ∀ {t t' : BWTree K V} {g : Ghost K} {m : K → List (K × V)} {P : Int} {n : Node K V},
      Inv t g none → Bounded t (some P) → Sem t g m → t.mapping_table P = some n →
      g.lvl P ≠ 0 → (g.tbl P).2 ≠ [] → g.lvl t.m_root < g.lvl P + fuel →
      SplitInner cfg fuel t P = some t' → FrameBelow n.GetLevel t t' := by
  induction fuel with
  | zero =>
    intro t t' g m P n hI hB hS hn hl hne hf
    obtain ⟨hp0, hp1⟩ := hI.alloc P n hn
    have := hI.ghost.lvl_root P hp0 hp1
    omega
  | succ fuel ih =>
    intro t t' g m P n hI hB hS hn hl hne hf hs
    obtain ⟨hq0, hq1⟩ := hI.alloc P n hn
    have hok := hI.node hn
    obtain ⟨t1, g1, n1, hgrow, hI1, hB1, hS1, hn1, hroot1, hl1, hne1, hmeas⟩ :
        ∃ (t1 : BWTree K V) (g1 : Ghost K) (n1 : Node K V),
          GrowRoot t P (fun b => b.GetLevel + 1) = some t1 ∧
          Inv t1 g1 none ∧ Bounded t1 (some P) ∧ Sem t1 g1 m ∧
          t1.mapping_table P = some n1 ∧ t1.m_root ≠ P ∧ g1.lvl P ≠ 0 ∧ (g1.tbl P).2 ≠ [] ∧
          (g1.lvl t1.m_root < g1.lvl P + 1 + fuel ∨
            ∃ nR, t1.mapping_table (g1.par P) = some nR ∧ nR.GetSize = 0 ∧
              nR.IsDelta = false) := by
      by_cases hr : t.m_root = P
      · obtain ⟨t1, g1, n1, h1, h2, h3, h4, h5, h6, _, h8, _, _, _, h12, h13⟩ :=
          GrowRoot_models hI hB hS hn (fun b => b.GetLevel + 1)
            (by show n.GetBaseNode.GetLevel + 1 = _; rw [(hI.node hn).base_level])
        exact ⟨t1, g1, n1, h1, h2, h3, h4, h5, h6, by rw [h8]; exact hl,
          by rw [h12]; exact hne, Or.inr (h13 hr)⟩
      · exact ⟨t, g, n, GrowRoot_not_root _ hr, hI, hB, hS, hn, hr, hl, hne,
          Or.inl (by omega)⟩
    obtain ⟨_, _, ⟨n1', hn1', hsame⟩, hF0, _⟩ :=
      GrowRoot_frame (fun b => b.GetLevel + 1) hn hq1 hI.fresh
        (by show n.GetLevel < n.GetBaseNode.GetLevel + 1
            rw [hok.base_level, hok.level]; exact Nat.lt_succ_self _) hgrow
    have en1 : n1' = n1 := Option.some.inj (hn1'.symm.trans hn1)
    rw [en1] at hsame
    have hlev1 : n1.GetLevel = n.GetLevel := hsame.level
    have hF0' : FrameBelow n.GetLevel t t1 := hF0.mono (Nat.le_succ _)
    have hG1 := hI1.ghost
    obtain ⟨hp0, hp1⟩ := hI1.alloc P n1 hn1
    have hok1 := hI1.node hn1
    rw [SplitInner] at hs
    simp only [hgrow, GetNode, hn1] at hs
    by_cases hfull : cfg.IsInnerFull n1.GetSize n1.GetLength = false
    · rw [if_pos hfull] at hs
      rw [← Option.some.inj hs]
      exact hF0'
    · rw [if_neg hfull] at hs
      obtain ⟨t2, sk, g2, ht2, hI2, hB2, hS2, hsk, hpar2, hmp2, hroot2, hlr2, hlp2⟩ :=
        SplitInnerAt_models hI1 hB1 hS1 hn1 hl1 hroot1 hne1
      have hF1 : FrameBelow n.GetLevel t1 t2 := by
        rw [← hlev1]
        exact SplitInnerAt_frame hI1 hB1 hn1 hl1 hne1 ht2
      obtain ⟨nP, d, hnP, hsep, hdsz, hdlen, hI3, hB3, hS3⟩ :=
        InstallSeparator_models hI2 hB2 hS2 hsk
      rw [hpar2] at hnP hsep hI3 hB3 hS3
      rw [ht2] at hs
      simp only [hok1.parent, hsep] at hs
      obtain ⟨hdeq, _⟩ := InstallSeparator_eq hnP hsep
      have hdlev : d.GetLevel = nP.GetLevel := by rw [hdeq]; rfl
      obtain ⟨e, he⟩ := List.exists_mem_of_ne_nil _ hne1
      obtain ⟨hklo, hkhi⟩ := (hG1.table P hp0 hp1 hl1).keys e he
      obtain ⟨pa0, pa1, pa2, _⟩ := hG1.parent P hp0 hp1 (Ne.symm hroot1)
        ⟨e.1, hklo, hkhi⟩ (fun x y e => by cases e)
      have hnPlev : nP.GetLevel = n.GetLevel + 1 := by
        rw [(hI2.node hnP).level, hlp2, pa2, ← hok1.level, hlev1]
      have hF2 : FrameBelow n.GetLevel t2 (t2.Update (g1.par P) d) :=
        FrameBelow_Update hnP (by omega) (by omega)
      by_cases hfd : cfg.IsInnerFull d.GetSize d.GetLength = true
      · rw [if_pos hfd] at hs
        rcases hmeas with hmeas | ⟨nR, hnR, hR0, hRd⟩
        · have hF3 := ih hI3 hB3 hS3 (n := d) (by simp [BWTree.Update])
            (by
              show g2.lvl (g1.par P) ≠ 0
              rw [hlp2, pa2]; exact Nat.succ_ne_zero _)
            (by
              show ((separatorGhost g2 (g1.par P) sk t1.next_pid).tbl (g1.par P)).2 ≠ []
              simp only [separatorGhost, Function.update_same]
              intro h
              have := congrArg List.length h
              rw [length_insertPointer] at this
              simp at this)
            (by
              show g2.lvl (t2.Update (g1.par P) d).m_root < g2.lvl (g1.par P) + fuel
              have : (t2.Update (g1.par P) d).m_root = t2.m_root := rfl
              rw [this, hlr2, hlp2, pa2]
              omega) hs
          exact hF0'.comp (hF1.comp (hF2.comp (hF3.mono (by omega))))
        · exfalso
          rw [hmp2, hnR] at hnP
          cases hnP
          rw [hdsz, hdlen, hR0] at hfd
          have hlen : nextLength nP = 1 := by simp [nextLength, hRd]
          rw [hlen, hA.new_root] at hfd
          cases hfd
      · rw [if_neg hfd] at hs
        rw [← Option.some.inj hs]
        exact hF0'.comp (hF1.comp hF2)

end Cascade
/-! ## The fuel of the cascade of inner splits -/

section Fuel

set_option linter.unusedSectionVars false

variable {K V : Type} [LinearOrder K] [DecidableEq V]

/-- A cascade of inner splits that returns with some fuel returns the same index
with one more unit of fuel. -/
theorem SplitInner_fuel_succ (cfg : Config) :
    ∀ (fuel : Nat) (t : BWTree K V) (P : PID) (a : BWTree K V),
      SplitInner cfg fuel t P = some a → SplitInner cfg (fuel + 1) t P = some a := by
  intro fuel
  induction fuel with
  | zero =>
    intro t P a h
    rw [SplitInner] at h
    cases h
  | succ f ih =>
    intro t P a h
    rw [SplitInner] at h ⊢
    cases hg : GrowRoot t P (fun b => b.GetLevel + 1) with
    | none => rw [hg] at h; cases h
    | some t1 =>
      rw [hg] at h
      simp only at h ⊢
      cases hn : GetNode t1 P with
      | none => rw [hn] at h; cases h
      | some n =>
        rw [hn] at h
        simp only at h ⊢
        by_cases hf : cfg.IsInnerFull n.GetSize n.GetLength = false
        · rw [if_pos hf] at h ⊢
          exact h
        · rw [if_neg hf] at h ⊢
          cases hs : SplitInnerAt t1 P n with
          | none => rw [hs] at h; cases h
          | some r =>
            obtain ⟨t2, N, sk⟩ := r
            rw [hs] at h
            simp only at h ⊢
            cases hi : InstallSeparator t2 n.GetBaseNode.GetParent sk N with
            | none => rw [hi] at h; cases h
            | some r2 =>
              obtain ⟨t3, d⟩ := r2
              rw [hi] at h
              simp only at h ⊢
              by_cases hd : cfg.IsInnerFull d.GetSize d.GetLength = true
              · rw [if_pos hd] at h ⊢
                exact ih _ _ _ h
              · rw [if_neg hd] at h ⊢
                exact h

/-- A cascade of inner splits that returns with some fuel returns the same index
with any larger fuel. -/
theorem SplitInner_fuel_le (cfg : Config) {fuel fuel' : Nat} (hle : fuel ≤ fuel')
    {t : BWTree K V} {P : PID} {a : BWTree K V} (h : SplitInner cfg fuel t P = some a) :
    SplitInner cfg fuel' t P = some a := by
  induction hle with
  | refl => exact h
  | step _ ih => exact SplitInner_fuel_succ cfg _ _ _ _ ih

/-- Two runs of a cascade of inner splits that return leave the same index. -/
theorem SplitInner_fuel_unique (cfg : Config) {f1 f2 : Nat} {t : BWTree K V} {P : PID}
    {a b : BWTree K V} (h1 : SplitInner cfg f1 t P = some a)
    (h2 : SplitInner cfg f2 t P = some b) : a = b := by
  have e1 := SplitInner_fuel_le cfg (Nat.le_max_left f1 f2) h1
  have e2 := SplitInner_fuel_le cfg (Nat.le_max_right f1 f2) h2
  rw [e1] at e2
  exact Option.some.inj e2

end Fuel
/-! ## The steps of a leaf split on an index with the invariant -/

section LeafSteps

set_option linter.unusedSectionVars false

variable {K V : Type} [LinearOrder K] [DecidableEq V]

/-- The steps of `SplitLeaf` on a full leaf `p` that holds a slot: the root grows
when `p` is the root (`t1`), the split delta and the sibling `t1.next_pid` are
published (`t2`), the separator delta `d` is published on the parent, and when `d`
reports the parent full the cascade of inner splits runs on the parent.  The call
returns; the cascade changes no leaf chain but the parent of its base. -/
theorem SplitLeaf_steps {cfg : Config} (hA : cfg.Admissible)
    {t : BWTree K V} {g : Ghost K} {m : K → List (K × V)} {p : Int} {n : Node K V}
    (hI : Inv t g none) (hB : Bounded t (some p)) (hS : Sem t g m)
    (hn : t.mapping_table p = some n) (hl : g.lvl p = 0) (hD : GetAllData n ≠ [])
    (hfull : cfg.IsLeafFull n.GetSize n.GetLength = true) :
    ∃ (t1 t2 t' : BWTree K V) (n1 nP d : Node K V) (s0 : K × List V),
      GrowRoot t p (fun _ => 1) = some t1 ∧
      (t.m_root ≠ p → t1 = t) ∧
      (t.m_root = p → t1.m_root = t.next_pid ∧ t1.next_pid = t.next_pid + 1 ∧
        n1 = n.SetParent t.next_pid ∧ nP = AllocateInner 1 p) ∧
      t1.mapping_table p = some n1 ∧ SameButParent n n1 ∧ FrameBelow 1 t t1 ∧
      (∀ (q : Int) (nq : Node K V), q ≠ p → t.mapping_table q = some nq →
        t1.mapping_table q = some nq) ∧
      t.mapping_table t1.next_pid = none ∧ t1.mapping_table t1.next_pid = none ∧
      (GetAllData n1)[(GetAllData n1).length / 2]? = some s0 ∧
      SplitLeafAt t1 p n1 = some (t2, (t1.next_pid : Int), s0.1) ∧
      t2.m_root = t1.m_root ∧
      t2.mapping_table p = some (SplitNode s0.1 t1.next_pid n1.GetLevel
        ((GetAllData n1).length / 2) (nextLength n1) (n1.SetNext t1.next_pid)) ∧
      t2.mapping_table t1.next_pid = some (LeafNode n1.GetBaseNode.GetParent 0
        n1.GetBaseNode.GetNext p ((GetAllData n1).drop ((GetAllData n1).length / 2))) ∧
      (∀ q : Int, q ≠ p → q ≠ t1.next_pid → q ≠ n1.GetBaseNode.GetNext →
        t2.mapping_table q = t1.mapping_table q) ∧
      n1.GetBaseNode.GetNext ≠ p ∧ n1.GetBaseNode.GetNext ≠ t1.next_pid ∧
      (n1.GetBaseNode.GetNext ≠ NULL_PID →
        ∃ f, t1.mapping_table n1.GetBaseNode.GetNext = some f ∧ f.GetLevel = 0 ∧
          t2.mapping_table n1.GetBaseNode.GetNext = some (f.SetPrev t1.next_pid) ∧
          (f.SetPrev t1.next_pid).GetBaseNode.GetPrev = t1.next_pid) ∧
      t1.mapping_table n1.GetBaseNode.GetParent = some nP ∧
      t2.mapping_table n1.GetBaseNode.GetParent = some nP ∧ 1 ≤ nP.GetLevel ∧
      d = SeparatorNode s0.1 (FindUpperKey t2 n1.GetBaseNode.GetParent s0.1) t1.next_pid
        nP.GetLevel (1 + nP.GetSize) (nextLength nP) nP ∧
      SplitLeaf cfg t p = some t' ∧
      FrameBelow 1 (t2.Update n1.GetBaseNode.GetParent d) t' ∧
      (cfg.IsInnerFull d.GetSize d.GetLength = false →
        t' = t2.Update n1.GetBaseNode.GetParent d) ∧
      (t.m_root = p → cfg.IsInnerFull d.GetSize d.GetLength = false) ∧
      t2.mapping_table NULL_PID = none ∧
      (cfg.IsInnerFull d.GetSize d.GetLength = true → ∀ fuel : Nat, g.lvl t.m_root ≤ fuel →
        SplitInner cfg fuel (t2.Update n1.GetBaseNode.GetParent d) n1.GetBaseNode.GetParent =
          some t') := by
  obtain ⟨hq0, hq1⟩ := hI.alloc p n hn
  have hok := hI.node hn
  have hnl : n.GetLevel = 0 := by rw [hok.level]; exact hl
  obtain ⟨t1, g1, n1, hgrow, hI1, hB1, hS1, hn1, hroot1, hrel, hl1, _, _, _, _, hnewroot⟩ :=
    GrowRoot_models hI hB hS hn (fun _ => 1) (by rw [hl])
  rw [hl] at hl1
  obtain ⟨hnr, hr, ⟨n1', hn1', hsame⟩, hF0, hother⟩ :=
    GrowRoot_frame (fun _ => 1) hn hq1 hI.fresh (by rw [hnl]; exact Nat.one_pos) hgrow
  have en1 : n1' = n1 := Option.some.inj (hn1'.symm.trans hn1)
  rw [en1] at hsame
  rw [hnl] at hF0
  have hD1 : GetAllData n1 ≠ [] := by rw [hsame.data]; exact hD
  have hok1 := hI1.node hn1
  have hfull1 : ¬ cfg.IsLeafFull n1.GetSize n1.GetLength = false := by
    rw [hsame.size, hsame.length, hfull]
    exact Bool.noConfusion
  obtain ⟨t2, sk, g2, ht2, hI2, hB2, hS2, hsk, hpar2, hmp2, hroot2, hlr2, hlp2⟩ :=
    SplitLeafAt_models hI1 hB1 hS1 hn1 hl1 hroot1 hD1
  obtain ⟨s0, t2', hs0, ht2', _, hroot2', hmp, hmN, hmo, hnull2, hqp, hqN, hq⟩ :=
    SplitLeafAt_shape hI1 hB1 hn1 hl1 hD1
  have e2 : t2' = t2 ∧ s0.1 = sk := by
    rw [ht2] at ht2'
    simp only [Option.some.injEq, Prod.mk.injEq] at ht2'
    exact ⟨ht2'.1.symm, ht2'.2.2.symm⟩
  rw [e2.1] at hroot2' hmp hmN hmo hq ht2' hnull2
  obtain ⟨nP, d, hnP, hsep, hdsz, hdlen, hI3, hB3, hS3⟩ :=
    InstallSeparator_models hI2 hB2 hS2 hsk
  have hP := hI2.ghost.pending p t1.next_pid rfl
  have hPlev : g2.lvl (g1.par p) ≠ 0 := by
    rw [← hpar2, hP.par_lvl]; exact Nat.succ_ne_zero _
  rw [hpar2] at hnP hsep hI3 hB3 hS3
  obtain ⟨hdeq, _⟩ := InstallSeparator_eq hnP hsep
  have hnPlev : 1 ≤ nP.GetLevel := by
    rw [(hI2.node hnP).level]
    exact Nat.one_le_iff_ne_zero.mpr hPlev
  have hdlev : d.GetLevel = nP.GetLevel := by rw [hdeq]; rfl
  have hnP1 : t1.mapping_table (g1.par p) = some nP := by rw [← hmp2]; exact hnP
  have hsplit : SplitLeaf cfg t p =
      (if cfg.IsInnerFull d.GetSize d.GetLength = true then
        SplitInner cfg ((t2.Update (g1.par p) d).next_pid + 1) (t2.Update (g1.par p) d)
          (g1.par p)
       else some (t2.Update (g1.par p) d)) := by
    rw [SplitLeaf]
    simp only [hgrow, GetNode, hn1]
    rw [if_neg hfull1, ht2]
    simp only [hok1.parent, hsep]
  have hF2 : FrameBelow 1 t2 (t2.Update (g1.par p) d) :=
    FrameBelow_Update hnP hnPlev (by rw [hdlev]; exact hnPlev)
  have hrootfull : t.m_root = p → cfg.IsInnerFull d.GetSize d.GetLength = false := by
    intro hrt
    obtain ⟨nR, hnR, hR0, hRd⟩ := hnewroot hrt
    rw [hnP1] at hnR
    cases hnR
    rw [hdsz, hdlen, hR0]
    have hlen : nextLength nP = 1 := by simp [nextLength, hRd]
    rw [hlen]
    exact hA.new_root
  have hrootP : t.m_root = p → nP = AllocateInner 1 p := by
    intro hrt
    obtain ⟨a1, a2, a3, a4, _⟩ := hr hrt
    have e3 : n1 = n.SetParent t.next_pid := Option.some.inj (hn1.symm.trans a3)
    have e4 : g1.par p = t.next_pid := by
      rw [← hok1.parent, e3, Node.baseParent_SetParent]
    rw [e4, a4] at hnP1
    exact (Option.some.inj hnP1).symm
  have hfinal : ∃ t', SplitLeaf cfg t p = some t' ∧
      FrameBelow 1 (t2.Update (g1.par p) d) t' ∧
      (cfg.IsInnerFull d.GetSize d.GetLength = false → t' = t2.Update (g1.par p) d) ∧
      (cfg.IsInnerFull d.GetSize d.GetLength = true → ∀ fuel : Nat, g.lvl t.m_root ≤ fuel →
        SplitInner cfg fuel (t2.Update (g1.par p) d) (g1.par p) = some t') := by
    by_cases hfd : cfg.IsInnerFull d.GetSize d.GetLength = true
    · have hr3 := hI3.ghost.root_alloc
      have hlr := hI3.ghost.lvl_le _ hr3.1 hr3.2
      have side1 : (t2.Update (g1.par p) d).mapping_table (g1.par p) = some d := by
        simp [BWTree.Update]
      have side3 : ((separatorGhost g2 (g1.par p) sk t1.next_pid).tbl (g1.par p)).2 ≠ [] := by
        simp only [separatorGhost, Function.update_same]
        intro h
        have := congrArg List.length h
        rw [length_insertPointer] at this
        simp at this
      obtain ⟨t', g', h1, _⟩ := SplitInner_models hA
        ((t2.Update (g1.par p) d).next_pid + 1) hI3 hB3 hS3 side1 hPlev side3 (by omega)
      have hF3 := SplitInner_frame hA ((t2.Update (g1.par p) d).next_pid + 1)
        hI3 hB3 hS3 side1 hPlev side3 (by omega) h1
      refine ⟨t', ?_, hF3.mono (by rw [hdlev]; exact hnPlev), fun h => ?_, fun _ fuel hle => ?_⟩
      · rw [hsplit, if_pos hfd]; exact h1
      · rw [hfd] at h; cases h
      · have hrt : t.m_root ≠ p := by
          intro e
          rw [hrootfull e] at hfd
          cases hfd
        have e1 : t1 = t := hnr hrt
        have hr0 := hI.ghost.root_alloc
        obtain ⟨nr, hnr0, hokr⟩ := hI.nodes _ hr0.1 hr0.2
        have hnr1 : t1.mapping_table t1.m_root = some nr := by rw [e1]; exact hnr0
        have hl0 : g1.lvl t1.m_root = g.lvl t.m_root := by
          rw [← (hI1.node hnr1).level, hokr.level]
        have hbound : (separatorGhost g2 (g1.par p) sk t1.next_pid).lvl
            (t2.Update (g1.par p) d).m_root <
            (separatorGhost g2 (g1.par p) sk t1.next_pid).lvl (g1.par p) + fuel := by
          show g2.lvl t2.m_root < g2.lvl (g1.par p) + fuel
          rw [hlr2, hl0]
          omega
        obtain ⟨t'', g'', h1', _⟩ := SplitInner_models hA fuel hI3 hB3 hS3 side1 hPlev side3 hbound
        rw [SplitInner_fuel_unique cfg h1 h1']
        exact h1'
    · refine ⟨_, ?_, FrameBelow.same _ _, fun _ => rfl, fun h => absurd h hfd⟩
      rw [hsplit, if_neg hfd]
  obtain ⟨t', hs', hF3, hnc, hcas⟩ := hfinal
  have hpar : n1.GetBaseNode.GetParent = g1.par p := hok1.parent
  refine ⟨t1, t2, t', n1, nP, d, s0, hgrow, hnr, ?_, hn1, hsame, hF0, hother, ?_, hI1.fresh,
    hs0, ht2', hroot2', hmp, hmN, hmo, hqp, hqN, hq, ?_, ?_, hnPlev, ?_, hs', ?_, ?_, hrootfull,
    hnull2, ?_⟩
  · intro hrt
    obtain ⟨a1, a2, a3, _⟩ := hr hrt
    exact ⟨a1, a2, Option.some.inj (hn1.symm.trans a3), hrootP hrt⟩
  · cases h : t.mapping_table t1.next_pid with
    | none => rfl
    | some x =>
      exfalso
      have hx := (hI.alloc _ x h).2
      by_cases hrt : t.m_root = p
      · rw [(hr hrt).2.1] at hx
        push_cast at hx
        omega
      · rw [hnr hrt] at hx
        omega
  · rw [hpar]; exact hnP1
  · rw [hpar]; exact hnP
  · rw [hpar, e2.2]; exact hdeq
  · rw [hpar]; exact hF3
  · rw [hpar]; exact hnc
  · rw [hpar]; exact hcas

end LeafSteps
/-! ## The steps of an inner split on an index with the invariant -/

section InnerSteps

set_option linter.unusedSectionVars false

variable {K V : Type} [LinearOrder K] [DecidableEq V]

/-- The steps of `SplitInner` on a full inner node `P` with a separator: the root
grows when `P` is the root (`t1`), the split delta and the sibling `t1.next_pid`
are published and the children of the sibling get it as parent (`t2`), the
separator delta `d` is published on the parent, and when `d` reports the parent
full the cascade goes on with the parent.  The call returns with fuel for the
levels from `P` to the root; the cascade changes no chain at or below the level
of `P` but the parent of the base of a chain at that level. -/
theorem SplitInner_steps {cfg : Config} (hA : cfg.Admissible) (fuel : Nat)
    {t : BWTree K V} {g : Ghost K} {m : K → List (K × V)} {P : Int} {n : Node K V}
    (hI : Inv t g none) (hB : Bounded t (some P)) (hS : Sem t g m)
    (hn : t.mapping_table P = some n) (hl : g.lvl P ≠ 0) (hne : (g.tbl P).2 ≠ [])
    (hf : g.lvl t.m_root < g.lvl P + (fuel + 1))
    (hfull : cfg.IsInnerFull n.GetSize n.GetLength = true) :
    ∃ (t1 t2 t' : BWTree K V) (n1 nP d : Node K V) (e : K × Int),
      GrowRoot t P (fun b => b.GetLevel + 1) = some t1 ∧
      (t.m_root ≠ P → t1 = t) ∧
      (t.m_root = P → t1.m_root = t.next_pid ∧ t1.next_pid = t.next_pid + 1 ∧
        n1 = n.SetParent t.next_pid ∧ nP = AllocateInner (n.GetBaseNode.GetLevel + 1) P) ∧
      t1.mapping_table P = some n1 ∧ SameButParent n n1 ∧
      FrameBelow (n.GetLevel + 1) t t1 ∧
      (∀ (q : Int) (nq : Node K V), q ≠ P → t.mapping_table q = some nq →
        t1.mapping_table q = some nq) ∧
      t.mapping_table t1.next_pid = none ∧ t1.mapping_table t1.next_pid = none ∧
      SplitInnerAt t1 P n1 = some (t2, (t1.next_pid : Int), e.1) ∧
      t2.m_root = t1.m_root ∧
      t2.mapping_table P = some (SplitNode e.1 t1.next_pid n1.GetLevel
        (((GetAllPointer n1).2.length + 1) / 2 - 1) (nextLength n1)
        (n1.SetNext t1.next_pid)) ∧
      t2.mapping_table t1.next_pid = some (InnerNode n1.GetBaseNode.GetParent n1.GetLevel
        n1.GetBaseNode.GetNext e.2
        ((GetAllPointer n1).2.drop (((GetAllPointer n1).2.length + 1) / 2))) ∧
      (∀ c ∈ e.2 :: ((GetAllPointer n1).2.drop (((GetAllPointer n1).2.length + 1) / 2)).map
          Prod.snd,
        ∃ nc, t1.mapping_table c = some nc ∧ nc.GetLevel + 1 = n1.GetLevel ∧
          t2.mapping_table c = some (nc.SetParent t1.next_pid) ∧ c ≠ P ∧ c ≠ t1.next_pid) ∧
      (∀ q : Int, q ≠ P → q ≠ t1.next_pid →
        q ∉ e.2 :: ((GetAllPointer n1).2.drop (((GetAllPointer n1).2.length + 1) / 2)).map
          Prod.snd →
        t2.mapping_table q = t1.mapping_table q) ∧
      (∀ c ∈ (GetAllPointer n1).1 ::
          ((GetAllPointer n1).2.filter (fun a => decide (a.1 < e.1))).map Prod.snd,
        c ∉ e.2 :: ((GetAllPointer n1).2.drop (((GetAllPointer n1).2.length + 1) / 2)).map
          Prod.snd) ∧
      t1.mapping_table n1.GetBaseNode.GetParent = some nP ∧
      t2.mapping_table n1.GetBaseNode.GetParent = some nP ∧
      nP.GetLevel = n.GetLevel + 1 ∧
      d = SeparatorNode e.1 (FindUpperKey t2 n1.GetBaseNode.GetParent e.1) t1.next_pid
        nP.GetLevel (1 + nP.GetSize) (nextLength nP) nP ∧
      SplitInner cfg (fuel + 1) t P = some t' ∧
      FrameBelow (n.GetLevel + 1) (t2.Update n1.GetBaseNode.GetParent d) t' ∧
      (cfg.IsInnerFull d.GetSize d.GetLength = false →
        t' = t2.Update n1.GetBaseNode.GetParent d) ∧
      (t.m_root = P → cfg.IsInnerFull d.GetSize d.GetLength = false) ∧
      (GetAllPointer n1).2[((GetAllPointer n1).2.length + 1) / 2 - 1]? = some e ∧
      (GetAllPointer n1).2.Pairwise (fun a b => a.1 ≤ b.1) ∧
      ((GetAllPointer n1).1 :: (GetAllPointer n1).2.map Prod.snd).Nodup := by
  obtain ⟨hq0, hq1⟩ := hI.alloc P n hn
  have hok := hI.node hn
  obtain ⟨t1, g1, n1, hgrow, hI1, hB1, hS1, hn1, hroot1, hl1, hne1, hmeas, hnewroot⟩ :
      ∃ (t1 : BWTree K V) (g1 : Ghost K) (n1 : Node K V),
        GrowRoot t P (fun b => b.GetLevel + 1) = some t1 ∧
        Inv t1 g1 none ∧ Bounded t1 (some P) ∧ Sem t1 g1 m ∧
        t1.mapping_table P = some n1 ∧ t1.m_root ≠ P ∧ g1.lvl P ≠ 0 ∧ (g1.tbl P).2 ≠ [] ∧
        (t.m_root ≠ P → g1.lvl t1.m_root < g1.lvl P + 1 + fuel) ∧
        (t.m_root = P → ∃ nR, t1.mapping_table (g1.par P) = some nR ∧ nR.GetSize = 0 ∧
            nR.IsDelta = false) := by
    by_cases hr : t.m_root = P
    · obtain ⟨t1, g1, n1, h1, h2, h3, h4, h5, h6, _, h8, _, _, _, h12, h13⟩ :=
        GrowRoot_models hI hB hS hn (fun b => b.GetLevel + 1)
          (by show n.GetBaseNode.GetLevel + 1 = _; rw [(hI.node hn).base_level])
      exact ⟨t1, g1, n1, h1, h2, h3, h4, h5, h6, by rw [h8]; exact hl,
        by rw [h12]; exact hne, fun h => absurd hr h, h13⟩
    · exact ⟨t, g, n, GrowRoot_not_root _ hr, hI, hB, hS, hn, hr, hl, hne,
        fun _ => by omega, fun h => absurd h hr⟩
  obtain ⟨hnr, hr, ⟨n1', hn1', hsame⟩, hF0, hother⟩ :=
    GrowRoot_frame (fun b => b.GetLevel + 1) hn hq1 hI.fresh
      (by show n.GetLevel < n.GetBaseNode.GetLevel + 1
          rw [hok.base_level, hok.level]; exact Nat.lt_succ_self _) hgrow
  have en1 : n1' = n1 := Option.some.inj (hn1'.symm.trans hn1)
  rw [en1] at hsame
  have hlev1 : n1.GetLevel = n.GetLevel := hsame.level
  have hG1 := hI1.ghost
  obtain ⟨hp0, hp1⟩ := hI1.alloc P n1 hn1
  have hok1 := hI1.node hn1
  have hfull1 : ¬ cfg.IsInnerFull n1.GetSize n1.GetLength = false := by
    rw [hsame.size, hsame.length, hfull]
    exact Bool.noConfusion
  obtain ⟨t2, sk, g2, ht2, hI2, hB2, hS2, hsk, hpar2, hmp2, hroot2, hlr2, hlp2⟩ :=
    SplitInnerAt_models hI1 hB1 hS1 hn1 hl1 hroot1 hne1
  obtain ⟨e, t2', ht2', _, hroot2', hmp, hmN, hcs, hmo, hleft, hslot, hsorted, hnodup⟩ :=
    SplitInnerAt_shape hI1 hB1 hn1 hl1 hne1
  have e2 : t2' = t2 ∧ e.1 = sk := by
    rw [ht2] at ht2'
    simp only [Option.some.injEq, Prod.mk.injEq] at ht2'
    exact ⟨ht2'.1.symm, ht2'.2.2.symm⟩
  rw [e2.1] at hroot2' hmp hmN hcs hmo ht2'
  obtain ⟨nP, d, hnP, hsep, hdsz, hdlen, hI3, hB3, hS3⟩ :=
    InstallSeparator_models hI2 hB2 hS2 hsk
  rw [hpar2] at hnP hsep hI3 hB3 hS3
  obtain ⟨hdeq, _⟩ := InstallSeparator_eq hnP hsep
  have hdlev : d.GetLevel = nP.GetLevel := by rw [hdeq]; rfl
  obtain ⟨e', he'⟩ := List.exists_mem_of_ne_nil _ hne1
  obtain ⟨hklo, hkhi⟩ := (hG1.table P hp0 hp1 hl1).keys e' he'
  obtain ⟨pa0, pa1, pa2, _⟩ := hG1.parent P hp0 hp1 (Ne.symm hroot1)
    ⟨e'.1, hklo, hkhi⟩ (fun x y e => by cases e)
  have hnPlev : nP.GetLevel = n.GetLevel + 1 := by
    rw [(hI2.node hnP).level, hlp2, pa2, ← hok1.level, hlev1]
  have hPlev : g2.lvl (g1.par P) ≠ 0 := by rw [hlp2, pa2]; exact Nat.succ_ne_zero _
  have hnP1 : t1.mapping_table (g1.par P) = some nP := by rw [← hmp2]; exact hnP
  have hsplit : SplitInner cfg (fuel + 1) t P =
      (if cfg.IsInnerFull d.GetSize d.GetLength = true then
        SplitInner cfg fuel (t2.Update (g1.par P) d) (g1.par P)
       else some (t2.Update (g1.par P) d)) := by
    rw [SplitInner]
    simp only [hgrow, GetNode, hn1]
    rw [if_neg hfull1, ht2]
    simp only [hok1.parent, hsep]
  have hrootfull : t.m_root = P → cfg.IsInnerFull d.GetSize d.GetLength = false := by
    intro hrt
    obtain ⟨nR, hnR, hR0, hRd⟩ := hnewroot hrt
    rw [hnP1] at hnR
    cases hnR
    rw [hdsz, hdlen, hR0]
    have hlen : nextLength nP = 1 := by simp [nextLength, hRd]
    rw [hlen]
    exact hA.new_root
  have hrootP : t.m_root = P → nP = AllocateInner (n.GetBaseNode.GetLevel + 1) P := by
    intro hrt
    obtain ⟨a1, a2, a3, a4, _⟩ := hr hrt
    have e3 : n1 = n.SetParent t.next_pid := Option.some.inj (hn1.symm.trans a3)
    have e4 : g1.par P = t.next_pid := by
      rw [← hok1.parent, e3, Node.baseParent_SetParent]
    rw [e4, a4] at hnP1
    exact (Option.some.inj hnP1).symm
  have hfinal : ∃ t', SplitInner cfg (fuel + 1) t P = some t' ∧
      FrameBelow (n.GetLevel + 1) (t2.Update (g1.par P) d) t' ∧
      (cfg.IsInnerFull d.GetSize d.GetLength = false → t' = t2.Update (g1.par P) d) := by
    by_cases hfd : cfg.IsInnerFull d.GetSize d.GetLength = true
    · have hnotroot : t.m_root ≠ P := by
        intro hrt
        rw [hrootfull hrt] at hfd
        cases hfd
      have hm := hmeas hnotroot
      have side1 : (t2.Update (g1.par P) d).mapping_table (g1.par P) = some d := by
        simp [BWTree.Update]
      have side3 : ((separatorGhost g2 (g1.par P) sk t1.next_pid).tbl (g1.par P)).2 ≠ [] := by
        simp only [separatorGhost, Function.update_same]
        intro h
        have := congrArg List.length h
        rw [length_insertPointer] at this
        simp at this
      have side4 : g2.lvl (t2.Update (g1.par P) d).m_root < g2.lvl (g1.par P) + fuel := by
        have : (t2.Update (g1.par P) d).m_root = t2.m_root := rfl
        rw [this, hlr2, hlp2, pa2]
        omega
      obtain ⟨t', g', h1, _⟩ := SplitInner_models hA fuel hI3 hB3 hS3 side1 hPlev side3 side4
      have hF3 := SplitInner_frame hA fuel hI3 hB3 hS3 side1 hPlev side3 side4 h1
      refine ⟨t', ?_, ?_, fun h => ?_⟩
      · rw [hsplit, if_pos hfd]; exact h1
      · rw [← hnPlev, ← hdlev]; exact hF3
      · rw [hfd] at h; cases h
    · refine ⟨_, ?_, FrameBelow.same _ _, fun _ => rfl⟩
      rw [hsplit, if_neg hfd]
  obtain ⟨t', hs', hF3, hnc⟩ := hfinal
  have hpar : n1.GetBaseNode.GetParent = g1.par P := hok1.parent
  refine ⟨t1, t2, t', n1, nP, d, e, hgrow, hnr, ?_, hn1, hsame, hF0, hother, ?_, hI1.fresh,
    ht2', hroot2', hmp, hmN, hcs, hmo, hleft, ?_, ?_, hnPlev, ?_, hs', ?_, ?_, hrootfull,
    hslot, hsorted, hnodup⟩
  · intro hrt
    obtain ⟨a1, a2, a3, _⟩ := hr hrt
    exact ⟨a1, a2, Option.some.inj (hn1.symm.trans a3), hrootP hrt⟩
  · cases h : t.mapping_table t1.next_pid with
    | none => rfl
    | some x =>
      exfalso
      have hx := (hI.alloc _ x h).2
      by_cases hrt : t.m_root = P
      · rw [(hr hrt).2.1] at hx
        push_cast at hx
        omega
      · rw [hnr hrt] at hx
        omega
  · rw [hpar]; exact hnP1
  · rw [hpar]; exact hnP
  · rw [hpar, e2.2]; exact hdeq
  · rw [hpar]; exact hF3
  · rw [hpar]; exact hnc

end InnerSteps
/-! ## The leaves after a leaf split -/

section Leaves

set_option linter.unusedSectionVars false

variable {K V : Type} [LinearOrder K] [DecidableEq V]

/-- A well-formed index with a node has the invariant. -/
theorem WellFormed.inv {t : BWTree K V} (hwf : WellFormed t) {p : PID} {n : Node K V}
    (hn : GetNode t p = some n) :
    ∃ (g : Ghost K) (m : K → List (K × V)), Inv t g none ∧ Bounded t (some p) ∧ Sem t g m ∧
      NodeOK g p n := by
  obtain ⟨m, hM⟩ := hwf
  rcases hM with ⟨_, _, hmap, _, _⟩ | ⟨g, hI, hB, hS⟩
  · rw [GetNode, hmap] at hn; cases hn
  · exact ⟨g, m, hI, fun q nq hq => ⟨((hB q nq hq).2 (by simp)).trans (by norm_num),
      fun _ => (hB q nq hq).2 (by simp)⟩, hS, hI.node hn⟩

/-- The slots of a strictly sorted list from a position on are the slots with a key
at or above the key at the position. -/
theorem filter_ge_eq_drop {D : List (K × List V)} (h : D.Pairwise (fun a b => a.1 < b.1))
    {pos : Nat} {s : K × List V} (hs : D[pos]? = some s) :
    D.filter (fun x => decide (s.1 ≤ x.1)) = D.drop pos := by
  obtain ⟨h1, h2⟩ := sorted_take_drop h hs
  conv_lhs => rw [← List.take_append_drop pos D]
  rw [List.filter_append]
  have e1 : (D.take pos).filter (fun x => decide (s.1 ≤ x.1)) = [] := by
    rw [List.filter_eq_nil_iff]
    intro a ha
    simpa using h1 a ha
  have e2 : (D.drop pos).filter (fun x => decide (s.1 ≤ x.1)) = D.drop pos := by
    rw [List.filter_eq_self]
    intro a ha
    simpa using h2 a ha
  rw [e1, e2, List.nil_append]

/-- The leaves after `SplitLeaf` on a full leaf `p` of an index with the invariant:
`p` has a split delta with the key of the middle slot, the sibling `s` is a new
base leaf with the slots from the middle on, between `p` and the former next leaf
of `p`, and every other leaf keeps its slots and its sideways pointers. -/
theorem SplitLeaf_leaves {cfg : Config} (hA : cfg.Admissible)
    {t : BWTree K V} {g : Ghost K} {m : K → List (K × V)} {p : Int} {n : Node K V}
    (hI : Inv t g none) (hB : Bounded t (some p)) (hS : Sem t g m)
    (hn : t.mapping_table p = some n) (hl : g.lvl p = 0) (hD : GetAllData n ≠ [])
    (hfull : cfg.IsLeafFull n.GetSize n.GetLength = true) :
    ∃ (t' : BWTree K V) (s : Int) (s0 : K × List V) (np ns : Node K V),
      SplitLeaf cfg t p = some t' ∧ t.mapping_table s = none ∧ s ≠ NULL_PID ∧ s ≠ p ∧
      n.GetBaseNode.GetNext ≠ p ∧
      (GetAllData n)[(GetAllData n).length / 2]? = some s0 ∧
      t'.mapping_table p = some np ∧ t'.mapping_table s = some ns ∧
      np.asSplit = some (s0.1, s, (GetAllData n).length / 2) ∧ np.GetLevel = 0 ∧
      np.GetLength = n.GetLength + 1 ∧
      np.GetBaseNode.GetNext = s ∧ np.GetBaseNode.GetPrev = n.GetBaseNode.GetPrev ∧
      GetAllData np = (GetAllData n).filter (fun a => decide (a.1 < s0.1)) ∧
      ns.IsDelta = false ∧ ns.GetLevel = 0 ∧
      GetAllData ns = (GetAllData n).drop ((GetAllData n).length / 2) ∧
      ns.GetBaseNode.GetNext = n.GetBaseNode.GetNext ∧ ns.GetBaseNode.GetPrev = p ∧
      (n.GetBaseNode.GetNext ≠ NULL_PID →
        ∃ nq, t'.mapping_table n.GetBaseNode.GetNext = some nq ∧ nq.GetLevel = 0 ∧
          nq.GetBaseNode.GetPrev = s) ∧
      (∀ (a : Int) (na : Node K V), a ≠ p → t.mapping_table a = some na → na.GetLevel = 0 →
        ∃ na', t'.mapping_table a = some na' ∧ na'.GetLevel = 0 ∧
          GetAllData na' = GetAllData na ∧
          na'.GetBaseNode.GetNext = na.GetBaseNode.GetNext ∧
          na'.GetBaseNode.GetPrev =
            (if a = n.GetBaseNode.GetNext then s else na.GetBaseNode.GetPrev)) ∧
      (∀ (a : Int) (na' : Node K V), t'.mapping_table a = some na' → na'.GetLevel = 0 →
        a = s ∨ ∃ na, t.mapping_table a = some na ∧ na.GetLevel = 0) ∧
      ((t.m_root = p ∨ ∃ parent, t.mapping_table n.GetBaseNode.GetParent = some parent ∧
          cfg.IsInnerFull (1 + parent.GetSize) (nextLength parent) = false) →
        ns.GetBaseNode.GetParent = np.GetBaseNode.GetParent) := by
  have hok := hI.node hn
  have hnl : n.GetLevel = 0 := by rw [hok.level]; exact hl
  obtain ⟨hp0, hp1⟩ := hI.alloc p n hn
  obtain ⟨t1, t2, t', n1, nP, d, s0, hgrow, hnr, hr, hn1, hsame, hF0, hother, hfresh, hfresh1,
    hs0, _, _, hmp, hmN, hmo, hqp, hqN, hq, hnP1, hnP, hnPlev, hdeq, hs', hF3, hnc, hrootfull,
    hnull2, _⟩ :=
    SplitLeaf_steps hA hI hB hS hn hl hD hfull
  have hdlev : d.GetLevel = nP.GetLevel := by rw [hdeq]; rfl
  have hn1l : n1.GetLevel = 0 := by rw [hsame.level]; exact hnl
  have hF2 : FrameBelow 1 t2 (t2.Update n1.GetBaseNode.GetParent d) :=
    FrameBelow_Update hnP hnPlev (by rw [hdlev]; exact hnPlev)
  have hF : FrameBelow 1 t2 t' := hF2.comp hF3
  rw [hsame.data] at hs0 hmp hmN
  rw [hsame.next] at hqp hqN hq hmN hmo
  -- the split leaf
  obtain ⟨np, hnp, hnpsame, _⟩ := hF.1 p _ hmp (by show n1.GetLevel < 1; omega)
  -- the sibling
  obtain ⟨ns, hns, hnssame, _⟩ := hF.1 _ _ hmN (by show 0 < 1; exact Nat.one_pos)
  have hsN : (t1.next_pid : Int) ≠ NULL_PID := ne_NULL_of_nonneg (Int.ofNat_nonneg _)
  have hsp : (t1.next_pid : Int) ≠ p := by
    intro e
    rw [e, hn] at hfresh
    cases hfresh
  refine ⟨t', t1.next_pid, s0, np, ns, hs', hfresh, hsN, hsp, hqp, hs0, hnp, hns, ?_, ?_, ?_,
    ?_, ?_, ?_, ?_, ?_, ?_, ?_, ?_, ?_, ?_, ?_, ?_⟩
  · rw [hnpsame.split]; rfl
  · rw [hnpsame.level]; exact hn1l
  · rw [hnpsame.length]
    show nextLength n1 = _
    rw [nextLength_eq, hsame.length]
  · rw [hnpsame.next]
    show (n1.SetNext t1.next_pid).GetBaseNode.GetNext = _
    exact Node.baseNext_SetNext _ _
  · rw [hnpsame.prev]
    show (n1.SetNext t1.next_pid).GetBaseNode.GetPrev = _
    rw [Node.basePrev_SetNext, hsame.prev]
  · rw [hnpsame.data]
    show (GetAllData (n1.SetNext t1.next_pid)).filter _ = _
    rw [GetAllData_SetNext, hsame.data]
  · rw [hnssame.isDelta]; rfl
  · rw [hnssame.level]; rfl
  · rw [hnssame.data]; rfl
  · rw [hnssame.next]; rfl
  · rw [hnssame.prev]; rfl
  · intro hne
    obtain ⟨f, _, hf2, hf3, hf4⟩ := hq hne
    obtain ⟨nq, h1, h2, _⟩ :=
      hF.1 _ _ hf3 (by rw [Node.GetLevel_SetPrev, hf2]; exact Nat.one_pos)
    exact ⟨nq, h1, by rw [h2.level, Node.GetLevel_SetPrev, hf2], by rw [h2.prev, hf4]⟩
  · intro a na hap ha hal
    have ha1 : t1.mapping_table a = some na := hother a na hap ha
    have haN : a ≠ t1.next_pid := by
      intro e
      rw [e, hfresh] at ha
      cases ha
    by_cases hq' : a = n.GetBaseNode.GetNext
    · have hne : n.GetBaseNode.GetNext ≠ NULL_PID := by
        rw [← hq']
        exact ne_NULL_of_nonneg (hI.alloc a na ha).1
      obtain ⟨f, hf1, hf2, hf3, hf4⟩ := hq hne
      have ef : f = na := by
        rw [← hq', ha1] at hf1
        exact (Option.some.inj hf1).symm
      rw [ef, ← hq'] at hf3
      rw [ef] at hf4
      obtain ⟨na', h1, h2, _⟩ := hF.1 a _ hf3 (by rw [Node.GetLevel_SetPrev, hal]; exact Nat.one_pos)
      refine ⟨na', h1, ?_, ?_, ?_, ?_⟩
      · rw [h2.level, Node.GetLevel_SetPrev, hal]
      · rw [h2.data, GetAllData_SetPrev]
      · rw [h2.next, Node.baseNext_SetPrev]
      · rw [h2.prev, hf4, if_pos hq']
    · have ha2 : t2.mapping_table a = some na := by rw [hmo a hap haN hq', ha1]
      obtain ⟨na', h1, h2, _⟩ := hF.1 a _ ha2 (by rw [hal]; exact Nat.one_pos)
      exact ⟨na', h1, by rw [h2.level, hal], h2.data, h2.next, by rw [h2.prev, if_neg hq']⟩
  · intro a na' ha hal
    obtain ⟨na2, h2, h2l⟩ := hF.2 a na' ha (by rw [hal]; exact Nat.one_pos)
    by_cases e1 : a = t1.next_pid
    · exact Or.inl e1
    · right
      by_cases e2 : a = p
      · exact ⟨n, by rw [e2]; exact hn, hnl⟩
      · by_cases e3 : a = n.GetBaseNode.GetNext
        · have hne : n.GetBaseNode.GetNext ≠ NULL_PID := by
            intro e
            rw [e3, e, hnull2] at h2
            cases h2
          obtain ⟨f, hf1, hf2, _, _⟩ := hq hne
          rw [← e3] at hf1
          obtain ⟨x, hx, hx1⟩ := hF0.2 a f hf1 (by rw [hf2]; exact Nat.one_pos)
          exact ⟨x, hx, by omega⟩
        · rw [hmo a e2 e1 e3] at h2
          obtain ⟨x, hx, hx1⟩ := hF0.2 a na2 h2 h2l
          exact ⟨x, hx, by omega⟩
  · intro hcase
    have hnf : cfg.IsInnerFull d.GetSize d.GetLength = false := by
      rcases hcase with hrt | ⟨parent, hpar, hpf⟩
      · exact hrootfull hrt
      · by_cases hrt : t.m_root = p
        · exact hrootfull hrt
        · have e1 : t1 = t := hnr hrt
          have e2 : n1 = n := by
            rw [e1, hn] at hn1
            exact (Option.some.inj hn1).symm
          rw [e1, e2, hpar] at hnP1
          rw [hdeq]
          show cfg.IsInnerFull (1 + nP.GetSize) (nextLength nP) = false
          rw [← Option.some.inj hnP1]
          exact hpf
    have e3 := hnc hnf
    have hPp : n1.GetBaseNode.GetParent ≠ p := by
      intro e
      rw [e, hmp] at hnP
      rw [← Option.some.inj hnP] at hnPlev
      have : (SplitNode s0.1 (t1.next_pid : Int) n1.GetLevel ((GetAllData n).length / 2)
        (nextLength n1) (n1.SetNext t1.next_pid)).GetLevel = n1.GetLevel := rfl
      omega
    have hPN : n1.GetBaseNode.GetParent ≠ t1.next_pid := by
      intro e
      rw [e, hfresh1] at hnP1
      cases hnP1
    rw [e3] at hnp hns
    simp only [BWTree.Update, if_neg (Ne.symm hPp), if_neg (Ne.symm hPN)] at hnp hns
    rw [hmp] at hnp
    rw [hmN] at hns
    rw [← Option.some.inj hnp, ← Option.some.inj hns]
    show n1.GetBaseNode.GetParent = (n1.SetNext t1.next_pid).GetBaseNode.GetParent
    rw [Node.baseParent_SetNext]

end Leaves
/-! ## The sideways pointers after a leaf split -/

section Links

set_option linter.unusedSectionVars false

variable {K V : Type} [LinearOrder K] [DecidableEq V]

/-- Mutually inverse sideways pointers survive the insertion of a new leaf `s`
between the leaf `p` and its former next leaf. -/
theorem LeafLinks_of_split {t t' : BWTree K V} {p s : Int} {n np ns : Node K V}
    (hn : t.mapping_table p = some n) (hnl : n.GetLevel = 0)
    (hqp : n.GetBaseNode.GetNext ≠ p)
    (hnp : t'.mapping_table p = some np) (hns : t'.mapping_table s = some ns)
    (hnpl : np.GetLevel = 0) (hnpn : np.GetBaseNode.GetNext = s)
    (hnpp : np.GetBaseNode.GetPrev = n.GetBaseNode.GetPrev)
    (hnsl : ns.GetLevel = 0) (hnsn : ns.GetBaseNode.GetNext = n.GetBaseNode.GetNext)
    (hnsp : ns.GetBaseNode.GetPrev = p)
    (hfw : ∀ (a : Int) (na : Node K V), a ≠ p → t.mapping_table a = some na →
      na.GetLevel = 0 →
      ∃ na', t'.mapping_table a = some na' ∧ na'.GetLevel = 0 ∧
        GetAllData na' = GetAllData na ∧
        na'.GetBaseNode.GetNext = na.GetBaseNode.GetNext ∧
        na'.GetBaseNode.GetPrev =
          (if a = n.GetBaseNode.GetNext then s else na.GetBaseNode.GetPrev))
    (hbw : ∀ (a : Int) (na' : Node K V), t'.mapping_table a = some na' → na'.GetLevel = 0 →
      a = s ∨ ∃ na, t.mapping_table a = some na ∧ na.GetLevel = 0)
    (hL : LeafLinks t) : LeafLinks t' := by
  have hLp := hL p n hn ((Node.IsLeaf_iff n).mpr hnl)
  intro a na' ha hal
  have ha' : t'.mapping_table a = some na' := ha
  have hal' : na'.GetLevel = 0 := (Node.IsLeaf_iff na').mp hal
  by_cases has : a = s
  · -- the new sibling
    have e : na' = ns := by
      rw [has, hns] at ha'
      exact (Option.some.inj ha').symm
    rw [e, has]
    refine ⟨fun hne => ?_, fun _ => ?_⟩
    · rw [hnsn] at hne ⊢
      obtain ⟨nb, hnb, hnbl, _⟩ := hLp.1 hne
      obtain ⟨nb', h1, h2, _, _, h5⟩ := hfw _ nb hqp hnb ((Node.IsLeaf_iff nb).mp hnbl)
      refine ⟨nb', h1, (Node.IsLeaf_iff nb').mpr h2, ?_⟩
      rw [h5, if_pos rfl]
    · rw [hnsp]
      exact ⟨np, hnp, (Node.IsLeaf_iff np).mpr hnpl, hnpn⟩
  · by_cases hap : a = p
    · -- the split leaf
      have e : na' = np := by
        rw [hap, hnp] at ha'
        exact (Option.some.inj ha').symm
      rw [e, hap]
      refine ⟨fun _ => ?_, fun hne => ?_⟩
      · rw [hnpn]
        exact ⟨ns, hns, (Node.IsLeaf_iff ns).mpr hnsl, hnsp⟩
      · rw [hnpp] at hne ⊢
        obtain ⟨nr, hnr, hnrl, hnrn⟩ := hLp.2 hne
        have hrp : n.GetBaseNode.GetPrev ≠ p := by
          intro e2
          rw [e2] at hnr
          have e3 : nr = n := by
            have hnr' : t.mapping_table p = some nr := hnr
            rw [hn] at hnr'
            exact (Option.some.inj hnr').symm
          rw [e3] at hnrn
          exact hqp hnrn
        obtain ⟨nr', h1, h2, _, h4, _⟩ := hfw _ nr hrp hnr ((Node.IsLeaf_iff nr).mp hnrl)
        exact ⟨nr', h1, (Node.IsLeaf_iff nr').mpr h2, by rw [h4, hnrn]⟩
    · -- any other leaf
      rcases hbw a na' ha' hal' with e | ⟨na, hna, hnal⟩
      · exact absurd e has
      · obtain ⟨na'', h1, _, _, h4, h5⟩ := hfw a na hap hna hnal
        have e : na'' = na' := by
          rw [ha'] at h1
          exact (Option.some.inj h1).symm
        rw [e] at h4 h5
        have hLa := hL a na hna ((Node.IsLeaf_iff na).mpr hnal)
        refine ⟨fun hne => ?_, fun hne => ?_⟩
        · rw [h4] at hne ⊢
          obtain ⟨nu, hnu, hnul, hnup⟩ := hLa.1 hne
          by_cases hup : na.GetBaseNode.GetNext = p
          · rw [hup] at hnu ⊢
            have e3 : nu = n := by
              have hnu' : t.mapping_table p = some nu := hnu
              rw [hn] at hnu'
              exact (Option.some.inj hnu').symm
            rw [e3] at hnup
            exact ⟨np, hnp, (Node.IsLeaf_iff np).mpr hnpl, by rw [hnpp, hnup]⟩
          · obtain ⟨nu', g1, g2, _, _, g5⟩ := hfw _ nu hup hnu ((Node.IsLeaf_iff nu).mp hnul)
            refine ⟨nu', g1, (Node.IsLeaf_iff nu').mpr g2, ?_⟩
            have huq : na.GetBaseNode.GetNext ≠ n.GetBaseNode.GetNext := by
              intro e4
              have hqne : n.GetBaseNode.GetNext ≠ NULL_PID := by rw [← e4]; exact hne
              obtain ⟨nq, hnq, _, hnqp⟩ := hLp.1 hqne
              rw [← e4] at hnq
              have e5 : nq = nu := by
                have hnq' : GetNode t na.GetBaseNode.GetNext = some nq := hnq
                rw [hnu] at hnq'
                exact (Option.some.inj hnq').symm
              rw [e5, hnup] at hnqp
              exact hap hnqp
            rw [g5, if_neg huq, hnup]
        · rw [h5] at hne ⊢
          by_cases haq : a = n.GetBaseNode.GetNext
          · rw [if_pos haq]
            exact ⟨ns, hns, (Node.IsLeaf_iff ns).mpr hnsl, by rw [hnsn, haq]⟩
          · rw [if_neg haq] at hne ⊢
            obtain ⟨nv, hnv, hnvl, hnvn⟩ := hLa.2 hne
            have hvp : na.GetBaseNode.GetPrev ≠ p := by
              intro e2
              rw [e2] at hnv
              have e3 : nv = n := by
                have hnv' : t.mapping_table p = some nv := hnv
                rw [hn] at hnv'
                exact (Option.some.inj hnv').symm
              rw [e3] at hnvn
              exact haq hnvn.symm
            obtain ⟨nv', g1, g2, _, g4, _⟩ := hfw _ nv hvp hnv ((Node.IsLeaf_iff nv).mp hnvl)
            exact ⟨nv', g1, (Node.IsLeaf_iff nv').mpr g2, by rw [g4, hnvn]⟩

end Links
/-! ## The scenarios are well formed -/

section Scenes

theorem cascadeConfig_admissible : cascadeConfig.Admissible :=
  specConfig_admissible (by decide) (by decide) (by decide) (by decide)

theorem tightConfig_admissible : tightConfig.Admissible :=
  specConfig_admissible (by decide) (by decide) (by decide) (by decide)

theorem twoKeyLeaf_wellFormed : WellFormed twoKeyLeaf := by
  obtain ⟨t, ht, hwf⟩ := runOps_wellFormed defaultConfig_admissible
    [Op.insert ((10 : Int), (0 : Nat)), Op.insert (20, 0)]
  have e : runOps defaultConfig BWTree.empty
      [Op.insert ((10 : Int), (0 : Nat)), Op.insert (20, 0)] = some twoKeyLeaf := rfl
  rw [e] at ht
  cases ht
  exact hwf

theorem threeLeaves_wellFormed : WellFormed threeLeaves := by
  obtain ⟨t, ht, hwf⟩ := runOps_wellFormed tightConfig_admissible
    [Op.insert ((10 : Int), (0 : Nat)), Op.insert (20, 0)]
  have e : runOps tightConfig BWTree.empty
      [Op.insert ((10 : Int), (0 : Nat)), Op.insert (20, 0)] = some threeLeaves := rfl
  rw [e] at ht
  cases ht
  exact hwf

/-- An index with the invariant, bounded sizes and a content is well formed. -/
theorem WellFormed.of_inv {K V : Type} [LinearOrder K] [DecidableEq V] {t : BWTree K V}
    {g : Ghost K} {m : K → List (K × V)} (hI : Inv t g none) (hB : Bounded t none)
    (hS : Sem t g m) : WellFormed t :=
  ⟨m, Or.inr ⟨g, hI, hB, hS⟩⟩

end Scenes
/-! ## The children after an inner split -/

section InnerKids

set_option linter.unusedSectionVars false

variable {K V : Type} [LinearOrder K] [DecidableEq V]

/-- The children after `SplitInner` on a full inner node `P` of an index with the
invariant: every child of the new sibling has the sibling as the parent of its
base, every child that stays in `P` keeps its chain. -/
theorem SplitInner_children {cfg : Config} (hA : cfg.Admissible) (fuel : Nat)
    {t : BWTree K V} {g : Ghost K} {m : K → List (K × V)} {P : Int} {n : Node K V}
    (hI : Inv t g none) (hB : Bounded t (some P)) (hS : Sem t g m)
    (hn : t.mapping_table P = some n) (hl : g.lvl P ≠ 0) (hne : (g.tbl P).2 ≠ [])
    (hf : g.lvl t.m_root < g.lvl P + (fuel + 1))
    (hfull : cfg.IsInnerFull n.GetSize n.GetLength = true)
    (hkids : ∀ c ∈ childPIDs n, ∃ nc, t.mapping_table c = some nc ∧
      nc.GetLevel + 1 = n.GetLevel) :
    ∃ (t' : BWTree K V) (s : Int) (np ns : Node K V),
      SplitInner cfg (fuel + 1) t P = some t' ∧ t.mapping_table s = none ∧
      t'.mapping_table P = some np ∧ np.asSplit.map (fun x => x.2.1) = some s ∧
      t'.mapping_table s = some ns ∧ ns.GetLevel = n.GetLevel ∧ ns.IsDelta = false ∧
      (∀ c ∈ childPIDs ns, ∃ nc, t'.mapping_table c = some nc ∧
        nc.GetBaseNode.GetParent = s) ∧
      (∀ c ∈ childPIDs np, c ∈ childPIDs n ∧ c ∉ childPIDs ns ∧
        ∃ nc, t.mapping_table c = some nc ∧ t'.mapping_table c = some nc) := by
  obtain ⟨t1, t2, t', n1, nP, d, e, hgrow, hnr, hr', hn1, hsame, hF0, hother, hfresh, hfresh1,
    hat, hroot2, hmp, hmN, hcs, hmo, hleft, hnP1, hnP, hnPlev, hdeq, hs', hF3, hnc,
    hrootfull, _⟩ := SplitInner_steps hA fuel hI hB hS hn hl hne hf hfull
  have hlev1 : n1.GetLevel = n.GetLevel := hsame.level
  have hup : ∀ (q : Int) (x : Node K V), t2.mapping_table q = some x →
      x.GetLevel < n.GetLevel + 1 →
      (t2.Update n1.GetBaseNode.GetParent d).mapping_table q = some x := by
    intro q x hx hlt
    have hq : q ≠ n1.GetBaseNode.GetParent := by
      intro e1
      rw [e1, hnP] at hx
      rw [← Option.some.inj hx, hnPlev] at hlt
      omega
    simp [BWTree.Update, hq, hx]
  -- the split node
  have h3P := hup P _ hmp (by show n1.GetLevel < _; omega)
  obtain ⟨np, hnp, hnpsame, _⟩ := hF3.1 P _ h3P (by show n1.GetLevel < _; omega)
  -- the sibling
  have h3N := hup _ _ hmN (by show n1.GetLevel < _; omega)
  obtain ⟨ns, hns, hnssame, _⟩ := hF3.1 _ _ h3N (by show n1.GetLevel < _; omega)
  have hkns : childPIDs ns = e.2 :: ((GetAllPointer n1).2.drop
      (((GetAllPointer n1).2.length + 1) / 2)).map Prod.snd := by
    rw [hnssame.children]; rfl
  have hknp : childPIDs np = (GetAllPointer n1).1 ::
      ((GetAllPointer n1).2.filter (fun a => decide (a.1 < e.1))).map Prod.snd := by
    rw [hnpsame.children]
    show (GetAllPointer (n1.SetNext t1.next_pid)).1 ::
      ((GetAllPointer (n1.SetNext t1.next_pid)).2.filter _).map Prod.snd = _
    rw [GetAllPointer_SetNext]
  refine ⟨t', t1.next_pid, np, ns, hs', hfresh, hnp, by rw [hnpsame.split]; rfl, hns,
    by rw [hnssame.level]; exact hlev1, by rw [hnssame.isDelta]; rfl, ?_, ?_⟩
  · intro c hc
    rw [hkns] at hc
    obtain ⟨nc, _, hnclev, hc2, _, _⟩ := hcs c hc
    have h3 := hup c _ hc2 (by rw [Node.GetLevel_SetParent]; omega)
    have h4 := hF3.exact h3 (by rw [Node.GetLevel_SetParent]; omega)
    exact ⟨_, h4, Node.baseParent_SetParent _ _⟩
  · intro c hc
    rw [hknp] at hc
    have hnot := hleft c hc
    have hcn : c ∈ childPIDs n := by
      rw [← hsame.children]
      show c ∈ (GetAllPointer n1).1 :: (GetAllPointer n1).2.map Prod.snd
      rcases List.mem_cons.mp hc with e1 | e1
      · exact List.mem_cons.mpr (Or.inl e1)
      · refine List.mem_cons.mpr (Or.inr ?_)
        obtain ⟨a, ha, ea⟩ := List.mem_map.mp e1
        exact List.mem_map.mpr ⟨a, (List.mem_filter.mp ha).1, ea⟩
    obtain ⟨nc, hnc0, hnclev⟩ := hkids c hcn
    have hcP : c ≠ P := by
      intro e1
      rw [e1, hn] at hnc0
      rw [← Option.some.inj hnc0] at hnclev
      omega
    have hcN : c ≠ t1.next_pid := by
      intro e1
      rw [e1, hfresh] at hnc0
      cases hnc0
    have h1 : t1.mapping_table c = some nc := hother c nc hcP hnc0
    have h2 : t2.mapping_table c = some nc := by rw [hmo c hcP hcN hnot, h1]
    have h3 := hup c _ h2 (by omega)
    have h4 := hF3.exact h3 (by omega)
    exact ⟨hcn, by rw [hkns]; exact hnot, nc, hnc0, h4⟩

end InnerKids
/-! ## The maps of the table registry -/

section RegistryLemmas

theorem mapAt_nil {α β : Type} [DecidableEq α] (k : α) : mapAt ([] : List (α × β)) k = none :=
  rfl

theorem mapAt_append {α β : Type} [DecidableEq α] (m m2 : List (α × β)) (k : α) :
    mapAt (m ++ m2) k = (mapAt m k).or (mapAt m2 k) := by
  unfold mapAt
  rw [List.find?_append]
  cases List.find? (fun e => decide (e.1 = k)) m <;> rfl

theorem mapAt_single {α β : Type} [DecidableEq α] (k0 : α) (v : β) (k : α) :
    mapAt [(k0, v)] k = if k0 = k then some v else none := by
  unfold mapAt
  by_cases h : k0 = k
  · simp [h]
  · simp [h]

/-- The lookup after `insert`: a key with an entry keeps its value, a new key gets
the inserted value, other keys are not touched. -/
theorem mapAt_mapInsert {α β : Type} [DecidableEq α] (m : List (α × β)) (k0 : α) (v : β)
    (k : α) :
    mapAt (mapInsert m k0 v) k =
      if k = k0 then some ((mapAt m k0).getD v) else mapAt m k := by
  unfold mapInsert
  cases h : mapAt m k0 with
  | some x =>
    by_cases hk : k = k0
    · rw [if_pos hk, hk, h]; rfl
    · rw [if_neg hk]
  | none =>
    show mapAt (m ++ [(k0, v)]) k = _
    rw [mapAt_append, mapAt_single]
    by_cases hk : k = k0
    · rw [if_pos hk, hk, h, if_pos rfl]; rfl
    · rw [if_neg hk, if_neg (Ne.symm hk)]
      cases mapAt m k <;> rfl

/-- The loop of `GetTableByPosition` from a counter at or below the position: the
table of the last entry once the position is reached, since the counter stays at
the position from then on. -/
theorem foldl_positionStep (pos : Nat) (l : List (Nat × DataTable)) :
    ∀ (tb : Option DataTable) (cur : Nat), cur ≤ pos →
      (l.foldl (positionStep pos) (tb, cur)).1 =
        if cur + l.length ≤ pos then tb else l.getLast?.map Prod.snd := by
  induction l with
  | nil =>
    intro tb cur h
    simp [h]
  | cons e rest ih =>
    intro tb cur h
    rw [List.foldl_cons]
    by_cases hc : cur = pos
    · have hs : positionStep pos (tb, cur) e = (some e.2, pos) := by
        simp [positionStep, hc]
      rw [hs, ih (some e.2) pos (Nat.le_refl _)]
      have h1 : ¬ cur + (e :: rest).length ≤ pos := by
        rw [hc, List.length_cons]; omega
      rw [if_neg h1]
      cases rest with
      | nil => simp
      | cons a r =>
        have h2 : ¬ pos + (a :: r).length ≤ pos := by
          rw [List.length_cons]; omega
        rw [if_neg h2, List.getLast?_cons_cons]
    · have hs : positionStep pos (tb, cur) e = (tb, cur + 1) := by
        simp [positionStep, hc]
      have hlt : cur + 1 ≤ pos := by omega
      rw [hs, ih tb (cur + 1) hlt, List.length_cons]
      by_cases h1 : cur + 1 + rest.length ≤ pos
      · rw [if_pos h1, if_pos (by omega)]
      · rw [if_neg h1, if_neg (by omega)]
        cases rest with
        | nil => simp at h1; omega
        | cons a r => rw [List.getLast?_cons_cons]

/-- For every position below the number of tables `GetTableByPosition` returns the
table of the last entry in iteration order. -/
theorem GetTableByPosition_eq_last (db : Database) (pos : Nat)
    (h : pos < db.table_oid_to_address.length) :
    db.GetTableByPosition pos = db.table_oid_to_address.getLast?.map Prod.snd := by
  unfold Database.GetTableByPosition
  rw [if_neg (by omega), foldl_positionStep pos _ none 0 (Nat.zero_le _), if_neg (by omega)]

/-- The database without tables is consistent. -/
theorem Database.empty_consistent : Database.empty.Consistent := by
  constructor
  · intro n o
    simp [Database.empty, mapAt_nil]
  · intro o
    rfl

/-- The result of `AddTable` on a table with a name and an oid. -/
theorem AddTable_eq (db : Database) (table : DataTable) (hname : table.name ≠ "")
    (hoid : table.oid ≠ 0) :
    db.AddTable table =
      match mapAt db.table_name_to_oid table.name with
      | some _ => some (false, db)
      | none =>
          some (true,
            { table_name_to_oid := mapInsert db.table_name_to_oid table.name table.oid
              table_oid_to_name := mapInsert db.table_oid_to_name table.oid table.name
              table_oid_to_address := mapInsert db.table_oid_to_address table.oid table }) := by
  have h1 : table.name.isEmpty = false := by
    cases h : table.name.isEmpty with
    | false => rfl
    | true =>
      exfalso
      apply hname
      rw [String.isEmpty_iff] at h
      exact h
  unfold Database.AddTable
  rw [h1, if_neg hoid]
  rfl

/-- `AddTable` of a table with a new name and an oid without entry keeps the
registry consistent. -/
theorem AddTable_consistent (db db' : Database) (table : DataTable) (r : Bool)
    (hname : table.name ≠ "") (hoid : table.oid ≠ 0) (hc : db.Consistent)
    (hfresh : mapAt db.table_name_to_oid table.name = none →
      mapAt db.table_oid_to_address table.oid = none)
    (h : db.AddTable table = some (r, db')) : db'.Consistent := by
  rw [AddTable_eq db table hname hoid] at h
  cases hn : mapAt db.table_name_to_oid table.name with
  | some x =>
    rw [hn] at h
    simp only [Option.some.injEq, Prod.mk.injEq] at h
    rw [← h.2]
    exact hc
  | none =>
    rw [hn] at h
    simp only [Option.some.injEq, Prod.mk.injEq] at h
    have ha := hfresh hn
    have ho : mapAt db.table_oid_to_name table.oid = none := by
      have := hc.2 table.oid
      rw [ha] at this
      cases h' : mapAt db.table_oid_to_name table.oid with
      | none => rfl
      | some y => rw [h'] at this; cases this
    rw [← h.2]
    constructor
    · intro n o
      show mapAt (mapInsert db.table_name_to_oid table.name table.oid) n = some o ↔
        mapAt (mapInsert db.table_oid_to_name table.oid table.name) o = some n
      rw [mapAt_mapInsert, mapAt_mapInsert, hn, ho]
      by_cases h1 : n = table.name
      · rw [if_pos h1]
        by_cases h2 : o = table.oid
        · rw [if_pos h2, h1, h2]
          simp
        · rw [if_neg h2]
          constructor
          · intro e
            simp only [Option.getD_none, Option.some.injEq] at e
            exact absurd e.symm h2
          · intro e
            have := (hc.1 n o).mpr e
            rw [h1, hn] at this
            cases this
      · rw [if_neg h1]
        by_cases h2 : o = table.oid
        · rw [if_pos h2]
          constructor
          · intro e
            have := (hc.1 n o).mp e
            rw [h2, ho] at this
            cases this
          · intro e
            simp only [Option.getD_none, Option.some.injEq] at e
            exact absurd e.symm h1
        · rw [if_neg h2]
          exact hc.1 n o
    · intro o
      show (mapAt (mapInsert db.table_oid_to_name table.oid table.name) o).isSome =
        (mapAt (mapInsert db.table_oid_to_address table.oid table) o).isSome
      rw [mapAt_mapInsert, mapAt_mapInsert]
      by_cases h2 : o = table.oid
      · rw [if_pos h2, if_pos h2]; rfl
      · rw [if_neg h2, if_neg h2]
        exact hc.2 o

/-- A sequence of `AddTable` calls on tables with names, oids without entry and
pairwise distinct oids returns and keeps the registry consistent. -/
theorem AddTables_consistent (tables : List DataTable) :
    ∀ db : Database, db.Consistent →
      (∀ t ∈ tables, t.name ≠ "" ∧ t.oid ≠ 0 ∧ mapAt db.table_oid_to_address t.oid = none) →
      (tables.map DataTable.oid).Nodup →
      ∃ db', db.AddTables tables = some db' ∧ db'.Consistent := by
  induction tables with
  | nil =>
    intro db hc _ _
    exact ⟨db, rfl, hc⟩
  | cons t rest ih =>
    intro db hc hv hnd
    obtain ⟨hname, hoid, hfr⟩ := hv t (List.mem_cons_self _ _)
    rw [List.map_cons, List.nodup_cons] at hnd
    have heq := AddTable_eq db t hname hoid
    have hstep : ∃ r db1, db.AddTable t = some (r, db1) ∧
        ∀ o, o ≠ t.oid → mapAt db1.table_oid_to_address o = mapAt db.table_oid_to_address o := by
      cases hn : mapAt db.table_name_to_oid t.name with
      | some x =>
        rw [hn] at heq
        exact ⟨false, db, heq, fun _ _ => rfl⟩
      | none =>
        rw [hn] at heq
        refine ⟨true, _, heq, fun o ho => ?_⟩
        show mapAt (mapInsert db.table_oid_to_address t.oid t) o = _
        rw [mapAt_mapInsert, if_neg ho]
    obtain ⟨r, db1, h1, hother⟩ := hstep
    have hc1 := AddTable_consistent db db1 t r hname hoid hc (fun _ => hfr) h1
    obtain ⟨db', h2, hc'⟩ := ih db1 hc1
      (fun t' ht' => by
        obtain ⟨a, b, c⟩ := hv t' (List.mem_cons_of_mem _ ht')
        refine ⟨a, b, ?_⟩
        rw [hother t'.oid (fun e => hnd.1 (e ▸ List.mem_map_of_mem _ ht'))]
        exact c)
      hnd.2
    refine ⟨db', ?_, hc'⟩
    show (t :: rest).foldlM (fun d table => (d.AddTable table).map Prod.snd) db = some db'
    rw [List.foldlM_cons, h1]
    exact h2

end RegistryLemmas
/-! ## The two routing tables after an inner split -/

section InnerHalves

set_option linter.unusedSectionVars false

variable {K V : Type} [LinearOrder K] [DecidableEq V]

/-- In separators with strictly increasing keys the separators below the key of a
position are the separators before the position. -/
theorem routing_filter_eq_take {slots : List (K × Int)}
    (h : slots.Pairwise (fun a b => a.1 < b.1)) {i : Nat} {e : K × Int}
    (he : slots[i]? = some e) :
    slots.filter (fun a => decide (a.1 < e.1)) = slots.take i := by
  induction slots generalizing i with
  | nil => simp at he
  | cons a rest ih =>
    have h' := List.pairwise_cons.mp h
    cases i with
    | zero =>
      simp only [List.getElem?_cons_zero, Option.some.injEq] at he
      subst he
      rw [List.take_zero, List.filter_eq_nil_iff]
      intro b hb
      rcases List.mem_cons.mp hb with e1 | e1
      · rw [e1]; simp
      · have := h'.1 b e1
        simp only [decide_eq_true_eq, not_lt]
        exact le_of_lt this
    | succ i =>
      simp only [List.getElem?_cons_succ] at he
      have hlt : a.1 < e.1 := h'.1 e (List.getElem?_mem he)
      rw [List.take_succ_cons, List.filter_cons_of_pos (by simpa using hlt), ih h'.2 he]

/-- The routing tables after `SplitInner` on a full inner node `P` of an index with
the invariant: the split key is the key of the separator `e` before the middle, the
split delta on `P` records the size ⌊m/2⌋ - 1 and keeps the separators with a key
below the split key, the new sibling is a base node with the child of `e` as
leftmost child and the separators after `e`. -/
theorem SplitInner_tables {cfg : Config} (hA : cfg.Admissible) (fuel : Nat)
    {t : BWTree K V} {g : Ghost K} {m : K → List (K × V)} {P : Int} {n : Node K V}
    (hI : Inv t g none) (hB : Bounded t (some P)) (hS : Sem t g m)
    (hn : t.mapping_table P = some n) (hl : g.lvl P ≠ 0) (hne : (g.tbl P).2 ≠ [])
    (hf : g.lvl t.m_root < g.lvl P + (fuel + 1))
    (hfull : cfg.IsInnerFull n.GetSize n.GetLength = true) :
    ∃ (t' : BWTree K V) (s : Int) (e : K × Int) (np ns : Node K V),
      SplitInner cfg (fuel + 1) t P = some t' ∧ t.mapping_table s = none ∧
      (GetAllPointer n).2[((GetAllPointer n).2.length + 1) / 2 - 1]? = some e ∧
      (GetAllPointer n).2.Pairwise (fun a b => a.1 ≤ b.1) ∧ (childPIDs n).Nodup ∧
      t'.mapping_table P = some np ∧
      np.asSplit = some (e.1, s, ((GetAllPointer n).2.length + 1) / 2 - 1) ∧
      GetAllPointer np = ((GetAllPointer n).1,
        (GetAllPointer n).2.filter (fun a => decide (a.1 < e.1))) ∧
      t'.mapping_table s = some ns ∧ ns.IsDelta = false ∧ ns.GetLevel = n.GetLevel ∧
      GetAllPointer ns = (e.2,
        (GetAllPointer n).2.drop (((GetAllPointer n).2.length + 1) / 2)) := by
  obtain ⟨t1, t2, t', n1, nP, d, e, _, _, _, hn1, hsame, _, _, hfresh, _,
    _, _, hmp, hmN, _, _, _, _, hnP, hnPlev, _, hs', hF3, _,
    _, hslot, hsorted, hnodup⟩ := SplitInner_steps hA fuel hI hB hS hn hl hne hf hfull
  have hlev1 : n1.GetLevel = n.GetLevel := hsame.level
  have hup : ∀ (q : Int) (x : Node K V), t2.mapping_table q = some x →
      x.GetLevel < n.GetLevel + 1 →
      (t2.Update n1.GetBaseNode.GetParent d).mapping_table q = some x := by
    intro q x hx hlt
    have hq : q ≠ n1.GetBaseNode.GetParent := by
      intro e1
      rw [e1, hnP] at hx
      rw [← Option.some.inj hx, hnPlev] at hlt
      omega
    simp [BWTree.Update, hq, hx]
  have h3P := hup P _ hmp (by show n1.GetLevel < _; omega)
  obtain ⟨np, hnp, hnpsame, _⟩ := hF3.1 P _ h3P (by show n1.GetLevel < _; omega)
  have h3N := hup _ _ hmN (by show n1.GetLevel < _; omega)
  obtain ⟨ns, hns, hnssame, _⟩ := hF3.1 _ _ h3N (by show n1.GetLevel < _; omega)
  rw [hsame.pointers] at hslot hsorted hnodup
  refine ⟨t', t1.next_pid, e, np, ns, hs', hfresh, hslot, hsorted, hnodup, hnp, ?_, ?_, hns,
    by rw [hnssame.isDelta]; rfl, by rw [hnssame.level]; exact hlev1, ?_⟩
  · rw [hnpsame.split, ← hsame.pointers]; rfl
  · rw [hnpsame.pointers]
    show ((GetAllPointer (n1.SetNext t1.next_pid)).1,
      (GetAllPointer (n1.SetNext t1.next_pid)).2.filter _) = _
    rw [GetAllPointer_SetNext, hsame.pointers]
  · rw [hnssame.pointers, ← hsame.pointers]; rfl

end InnerHalves
section CastLemmas

variable {K V : Type} [LinearOrder K] [DecidableEq V]

/-- Where `ConsolidateLeafNode` has a result, `ConsolidateLeafNodeCast` has the same
result for every reading of the cast. -/
theorem ConsolidateLeafNodeCast_of_defined (readCast : Node K V → PID × PID)
    {t t' : BWTree K V} {p : PID} (h : ConsolidateLeafNode t p = some t') :
    ConsolidateLeafNodeCast readCast t p = some t' := by
  unfold ConsolidateLeafNode at h
  unfold ConsolidateLeafNodeCast
  cases hold : GetNode t p with
  | none => simp [hold] at h
  | some old =>
    simp only [hold] at h ⊢
    cases hb : (if old.IsDelta = true then old.GetBase else old) with
    | LeafNode a b c d e => simpa only [hb] using h
    | InnerNode a b c d e => simp [hb] at h
    | InsertNode a b c d e f => simp [hb] at h
    | UpdateNode a b c d e f => simp [hb] at h
    | DeleteNode a b c d e f => simp [hb] at h
    | SplitNode a b c d e f => simp [hb] at h
    | SeparatorNode a b c d e f g => simp [hb] at h

/-- On a base leaf both embeddings of the consolidation return the tree as it is. -/
theorem ConsolidateLeafNode_base_leaf (readCast : Node K V → PID × PID) (t : BWTree K V)
    (p : PID) (a : PID) (b : Nat) (c d : PID) (e : List (K × List V))
    (h : GetNode t p = some (LeafNode a b c d e)) :
    ConsolidateLeafNode t p = some t ∧ ConsolidateLeafNodeCast readCast t p = some t := by
  have hu : t.Update p (LeafNode a b c d e) = t := by
    cases t with
    | mk mt r hl tl np =>
      simp only [BWTree.Update]
      congr 1
      funext q
      by_cases e1 : q = p
      · subst e1; simpa [GetNode] using h.symm
      · simp [e1]
  constructor
  · unfold ConsolidateLeafNode
    rw [h]
    exact congrArg some hu
  · unfold ConsolidateLeafNodeCast
    rw [h]
    exact congrArg some hu

/-- One run of the consolidation, for every reading of the cast: the tree it returns
and the base leaf it publishes. -/
theorem ConsolidateLeafNodeCast_result (readCast : Node K V → PID × PID) (t : BWTree K V)
    (p : PID) (old : Node K V) (hold : GetNode t p = some old) :
    ∃ next prev : PID,
      ConsolidateLeafNodeCast readCast t p = some (t.Update p
        (LeafNode old.GetParent old.GetLevel next prev
          (GetAllData (if old.IsDelta = true then old.GetBase else old)))) ∧
      (∀ (a : PID) (b : Nat) (c d : PID) (e : List (K × List V)),
        (if old.IsDelta = true then old.GetBase else old) = LeafNode a b c d e →
          next = c ∧ prev = d) := by
  unfold ConsolidateLeafNodeCast
  rw [hold]
  dsimp only
  cases hb : (if old.IsDelta = true then old.GetBase else old) with
  | LeafNode a b c d e =>
    exact ⟨c, d, rfl, fun a1 b1 c1 d1 e1 he => by cases he; exact ⟨rfl, rfl⟩⟩
  | InnerNode a b c d e => exact ⟨_, _, rfl, fun _ _ _ _ _ he => nomatch he⟩
  | InsertNode a b c d e f => exact ⟨_, _, rfl, fun _ _ _ _ _ he => nomatch he⟩
  | UpdateNode a b c d e f => exact ⟨_, _, rfl, fun _ _ _ _ _ he => nomatch he⟩
  | DeleteNode a b c d e f => exact ⟨_, _, rfl, fun _ _ _ _ _ he => nomatch he⟩
  | SplitNode a b c d e f => exact ⟨_, _, rfl, fun _ _ _ _ _ he => nomatch he⟩
  | SeparatorNode a b c d e f g => exact ⟨_, _, rfl, fun _ _ _ _ _ he => nomatch he⟩

end CastLemmas

section WalkLemmas

variable {K V : Type} [LinearOrder K]

end WalkLemmas
section CastScenes

/-- The PIDs of `twoDeltaLeaf` other than 0 have no node. -/
theorem twoDeltaLeaf_other (q : PID) (hq : q ≠ 0) : GetNode twoDeltaLeaf q = none := by
  simp [twoDeltaLeaf, rootLeafTree, EnsureRoot, BWTree.Install, BWTree.Update, BWTree.empty,
    GetNode, hq, NULL_PID]

/-- A leaf at the head of the chain whose `next` is a PID other than `NULL_PID`, in an
index with no other node: no list of leaves is the chain from the head, and the
loop of `SearchAll` has no result for any fuel. -/
theorem single_leaf_bad_next (t : BWTree Int Nat) (leaf : Node Int Nat)
    (h0 : GetNode t 0 = some leaf) (hother : ∀ q : PID, q ≠ 0 → GetNode t q = none)
    (hnext : leaf.GetBaseNode.GetNext ≠ NULL_PID) :
    (¬ ∃ L : List PID, L.Nodup ∧ LeafChain t 0 L) ∧
    ∀ fuel : Nat, scanLeaves t fuel 0 (GetNode t 0) = none := by
  constructor
  · rintro ⟨L, hnd, hc⟩
    cases L with
    | nil =>
      have h1 : (0 : PID) = NULL_PID := hc
      exact absurd h1 (by decide)
    | cons a rest =>
      by_cases ha : a = 0
      · subst ha
        simp only [LeafChain, h0] at hc
        obtain ⟨_, _, hc2⟩ := hc
        cases rest with
        | nil => exact hnext hc2
        | cons b r2 =>
          by_cases hb : b = 0
          · subst hb; simp at hnd
          · simp only [LeafChain, hother b hb] at hc2
      · simp only [LeafChain, hother a ha] at hc
  · intro fuel
    rw [h0]
    by_cases hz : leaf.GetBaseNode.GetNext = 0
    · induction fuel with
      | zero => rfl
      | succ f ih =>
        simp only [scanLeaves, hz, h0]
        simp only [hz] at ih
        simp [NULL_PID, ih]
    · cases fuel with
      | zero => rfl
      | succ f =>
        simp only [scanLeaves, hother _ hz]
        cases f with
        | zero => simp [NULL_PID, scanLeaves]
        | succ g =>
          have hn1 : ¬ leaf.GetBaseNode.GetNext = -1 := hnext
          simp [NULL_PID, scanLeaves, hn1]

end CastScenes

section SplitScenes

/-- The state `midSplit` is the one the split loop of `SplitLeaf(0)` publishes on
`twoKeyLeaf` under the new root; the pointer writes that follow the CAS turn it
into the state `SplitLeafAt` returns. -/
theorem midSplit_published :
    ∃ (t1 t2 : BWTree Int Nat) (n1 : Node Int Nat),
      GrowRoot twoKeyLeaf 0 (fun _ => 1) = some t1 ∧ GetNode t1 0 = some n1 ∧
      SplitLeafPublish t1 0 n1 = some (midSplit, 2, 20) ∧
      SplitLeafAt t1 0 n1 = some (t2, 2, 20) ∧
      GetNode t2 0 = (GetNode midSplit 0).map (Node.SetNext 2) ∧
      GetNode t2 1 = GetNode midSplit 1 ∧
      GetNode t2 2 = (GetNode midSplit 2).map (Node.SetPrev 0) :=
  ⟨_, _, _, rfl, rfl, rfl, rfl, rfl, rfl, rfl⟩

end SplitScenes

/-! ## Claims -/

section Claims

variable {K V : Type} [LinearOrder K] [DecidableEq V]

/-- C1: a sequence of `InsertData` calls on the empty index returns, and on the index
it leaves `Search` of every key returns exactly the inserted pairs of that key, in
the order of the inserts: none is missing, none is duplicated, and a key never
inserted has the empty result.  The thresholds are any that split a node before
its `unsigned short` size reaches 65534; the default ones do. -/
theorem Search_after_inserts {cfg : Config} (hA : cfg.Admissible) (xs : List (K × V)) :
    ∃ t, InsertAll cfg (BWTree.empty : BWTree K V) xs = some t ∧
      ∀ k, Search t k = some (xs.filter (fun p => decide (p.1 = k))) := by
  obtain ⟨t, h1, hM⟩ := InsertAll_models hA xs (Models_empty : Models (BWTree.empty : BWTree K V) _)
  refine ⟨t, h1, fun k => ?_⟩
  rw [Search_models hM k]
  rfl

/-- Witness of C1: the three values of key 100 of `DuplicateKeyTest`, and one other
key, under the default thresholds. -/
theorem Search_after_inserts_witness :
    defaultConfig.Admissible ∧
    ∃ t, InsertAll defaultConfig (BWTree.empty : BWTree Int Nat)
        [(100, 1), (100, 2), (7, 0), (100, 3)] = some t ∧
      ∀ k, Search t k = some
        (([(100, 1), (100, 2), (7, 0), (100, 3)] : List (Int × Nat)).filter
          (fun p => decide (p.1 = k))) :=
  ⟨defaultConfig_admissible,
   Search_after_inserts defaultConfig_admissible [(100, 1), (100, 2), (7, 0), (100, 3)]⟩

/-- C2: on an index reached by a sequence of inserts from the empty index,
`DeleteData (k, v)` returns; afterwards `Search k` is the former result without
the pairs of value `v` (every other pair stays, as often as before and in the same
order), and `Search` of every other key is unchanged. -/
theorem DeleteData_after_inserts {cfg : Config} (hA : cfg.Admissible) (xs : List (K × V))
    (x : K × V) :
    ∃ t t' r, InsertAll cfg (BWTree.empty : BWTree K V) xs = some t ∧
      DeleteData t x = some t' ∧ Search t x.1 = some r ∧
      Search t' x.1 = some (r.filter (fun p => decide (p.2 ≠ x.2))) ∧
      ∀ k, k ≠ x.1 → Search t' k = Search t k := by
  obtain ⟨t, h1, hM⟩ := InsertAll_models hA xs (Models_empty : Models (BWTree.empty : BWTree K V) _)
  obtain ⟨t', h2, hM'⟩ := DeleteData_models hM x
  refine ⟨t, t', _, h1, h2, Search_models hM x.1, ?_, ?_⟩
  · rw [Search_models hM' x.1]
    congr 1
    apply List.filter_congr
    intro p hp
    have := Models_key hM hp
    simp [this]
  · intro k hk
    rw [Search_models hM' k, Search_models hM k]
    congr 1
    rw [List.filter_eq_self]
    intro p hp
    have := Models_key hM hp
    simp only [decide_eq_true_eq, not_and]
    intro e
    exact absurd (this.symm.trans e) hk

/-- Witness of C2: the values 1, 2, 1, 1, 0 of `DeleteTest` for key 100 and the
delete of `(100, 1)`, under the default thresholds. -/
theorem DeleteData_after_inserts_witness :
    defaultConfig.Admissible ∧
    ∃ t t' r, InsertAll defaultConfig (BWTree.empty : BWTree Int Nat)
        [(100, 1), (100, 2), (100, 1), (100, 1), (100, 0)] = some t ∧
      DeleteData t (100, 1) = some t' ∧ Search t (100 : Int) = some r ∧
      Search t' (100 : Int) = some (r.filter (fun p => decide (p.2 ≠ 1))) ∧
      ∀ k, k ≠ (100 : Int) → Search t' k = Search t k :=
  ⟨defaultConfig_admissible,
   DeleteData_after_inserts defaultConfig_admissible
     [(100, 1), (100, 2), (100, 1), (100, 1), (100, 0)] (100, 1)⟩

/-- C3: on a well-formed index (every index a history of calls leaves is one), when
the pair `x` is not among the pairs `Search` returns for its key, `DeleteData x`
returns and leaves the result of `Search` of every key as it was. -/
theorem DeleteData_absent_pair {t : BWTree K V} (hW : WellFormed t) (x : K × V)
    (r : List (K × V)) (hr : Search t x.1 = some r) (hx : x ∉ r) :
    ∃ t', DeleteData t x = some t' ∧ ∀ k, Search t' k = Search t k := by
  obtain ⟨m, hM⟩ := hW
  obtain ⟨t', h2, hM'⟩ := DeleteData_models hM x
  refine ⟨t', h2, fun k => ?_⟩
  rw [Search_models hM' k, Search_models hM k]
  congr 1
  rw [List.filter_eq_self]
  intro p hp
  simp only [decide_eq_true_eq, not_and]
  intro e1 e2
  have hk := Models_key hM hp
  have hpx : p = x := Prod.ext e1 e2
  rw [Search_models hM x.1] at hr
  have hr' : m x.1 = r := Option.some.inj hr
  have hkx : k = x.1 := hk.symm.trans e1
  apply hx
  rw [← hr', ← hkx, ← hpx]
  exact hp

/-- Witness of C3: the root leaf holds `(100, 7)` only; the delete of `(100, 8)`
changes no search. -/
theorem DeleteData_absent_pair_witness :
    Search rootLeafTree (100 : Int) = some [(100, 7)] ∧
    ∃ t', DeleteData rootLeafTree (100, 8) = some t' ∧
      ∀ k, Search t' k = Search rootLeafTree k :=
  ⟨by decide,
   DeleteData_absent_pair rootLeafTree_wellFormed (100, 8) [(100, 7)] (by decide) (by decide)⟩

/-- C4 (counterexample): in the history of `DeleteTest` the pair `(100, 1)` is
inserted three times and deleted once; `Search 100` then holds no `(100, 1)`,
while the inserts minus the deletes of the pair are 2. -/
theorem occurrences_not_inserts_minus_deletes :
    (runOps defaultConfig BWTree.empty deleteTestOps).bind (fun t => Search t 100)
      = some [(100, 2), (100, 0)] ∧
    occurrences ((100 : Int), (1 : Nat)) [(100, 2), (100, 0)] = 0 ∧
    countInserts (100, 1) deleteTestOps - countDeletes (100, 1) deleteTestOps = 2 := by
  decide

/-- C4 (amended): after a history of `InsertData` and `DeleteData` calls on the empty
index, the occurrences of a pair in `Search` of its key are the `InsertData` calls
of that pair after the last `DeleteData` call of that pair (all of them when there
is none): a `DeleteData` removes every occurrence of its pair. -/
theorem occurrences_since_last_delete {cfg : Config} (hA : cfg.Admissible)
    (ops : List (Op K V)) (hops : ∀ o ∈ ops, o.isInsertOrDeleteData = true) (x : K × V) :
    ∃ t r, runOps cfg (BWTree.empty : BWTree K V) ops = some t ∧ Search t x.1 = some r ∧
      occurrences x r = insertsSinceDelete x ops := by
  obtain ⟨t, m, h1, hM, hc⟩ := runOps_occurrences hA x ops
    (Models_empty : Models (BWTree.empty : BWTree K V) _) hops
  exact ⟨t, m x.1, h1, Search_models hM x.1, hc⟩

/-- Witness of C4 (amended): the history of `DeleteTest` and the pair `(100, 1)`. -/
theorem occurrences_since_last_delete_witness :
    defaultConfig.Admissible ∧ (∀ o ∈ deleteTestOps, o.isInsertOrDeleteData = true) ∧
    ∃ t r, runOps defaultConfig (BWTree.empty : BWTree Int Nat) deleteTestOps = some t ∧
      Search t (100 : Int) = some r ∧
      occurrences (100, 1) r = insertsSinceDelete (100, 1) deleteTestOps :=
  ⟨defaultConfig_admissible, by decide,
   occurrences_since_last_delete defaultConfig_admissible deleteTestOps (by decide) (100, 1)⟩

/-- C5: on an index with a root, when the leaf located for the key of `x` does not
contain that key, `UpdateData` publishes nothing: the index it returns is the
index it was given (mapping table, root, chains and hence every search). -/
theorem UpdateData_absent_key_noop (t : BWTree K V) (x : K × V) (p : PID) (node : Node K V)
    (hroot : t.m_root ≠ NULL_PID) (hloc : locateLeaf t x.1 = some p)
    (hnode : GetNode t p = some node) (habs : LeafContainsKey node x.1 = false) :
    UpdateData t x = some t := by
  have hE : EnsureRoot t = t := by simp [EnsureRoot, hroot]
  unfold locateLeaf at hloc
  simp only [UpdateData, hE, hloc, hnode, habs, if_true]

/-- Witness of C5: key 200 is absent from the root leaf that holds key 100. -/
theorem UpdateData_absent_key_noop_witness :
    rootLeafTree.m_root ≠ NULL_PID ∧ locateLeaf rootLeafTree (200 : Int) = some 0 ∧
    UpdateData rootLeafTree ((200 : Int), (1 : Nat)) = some rootLeafTree :=
  ⟨by decide, by decide,
   UpdateData_absent_key_noop rootLeafTree (200, 1) 0
     (InsertNode 100 7 0 1 1 (LeafNode NULL_PID 0 NULL_PID NULL_PID []))
     (by decide) (by decide) rfl (by decide)⟩

/-- C6: every history of `InsertData`, `UpdateData`, `DeleteKey` and `DeleteData`
calls on the empty index returns, and on the index it leaves `SearchAll` returns a
list whose keys are in non-decreasing order. -/
theorem SearchAll_sorted_after_history {cfg : Config} (hA : cfg.Admissible)
    (ops : List (Op K V)) :
    ∃ t r, runOps cfg (BWTree.empty : BWTree K V) ops = some t ∧ SearchAll t = some r ∧
      r.Pairwise (fun a b => a.1 ≤ b.1) := by
  obtain ⟨t, m, h1, hM⟩ := runOps_models hA ops
    (Models_empty : Models (BWTree.empty : BWTree K V) _)
  obtain ⟨leaves, _, _, h2, h3, _⟩ := SearchAll_models hM
  exact ⟨t, _, h1, h2, h3⟩

/-- Witness of C6: a history with calls of the four operators under the default
thresholds. -/
theorem SearchAll_sorted_after_history_witness :
    defaultConfig.Admissible ∧
    ∃ t r, runOps defaultConfig (BWTree.empty : BWTree Int Nat) mixedOps = some t ∧
      SearchAll t = some r ∧ r.Pairwise (fun a b => a.1 ≤ b.1) :=
  ⟨defaultConfig_admissible, SearchAll_sorted_after_history defaultConfig_admissible mixedOps⟩

/-- C7: a sequence of `InsertData` calls on the empty index returns, and on the index
it leaves `SearchAll` returns the pairs of the leaves of the chain from
`m_headleaf` (each leaf once, followed by its `next`, up to `NULL_PID`), leaf by
leaf the materialized slots expanded by their values; the result is a permutation
of the inserted pairs, so its length is the number of inserts. -/
theorem SearchAll_after_inserts {cfg : Config} (hA : cfg.Admissible) (xs : List (K × V)) :
    ∃ t leaves, InsertAll cfg (BWTree.empty : BWTree K V) xs = some t ∧
      leaves.Nodup ∧ LeafChain t t.m_headleaf leaves ∧
      SearchAll t = some (leaves.flatMap (leafPairs t)) ∧
      (leaves.flatMap (leafPairs t)).Perm xs ∧
      (leaves.flatMap (leafPairs t)).length = xs.length := by
  obtain ⟨t, h1, hM⟩ := InsertAll_models hA xs (Models_empty : Models (BWTree.empty : BWTree K V) _)
  obtain ⟨leaves, h2, h3, h4, _, h6⟩ := SearchAll_models hM
  have hp : (leaves.flatMap (leafPairs t)).Perm xs :=
    perm_of_filter_eq (fun k => by rw [h6 k]; rfl)
  exact ⟨t, leaves, h1, h2, h3, h4, hp, hp.length_eq⟩

/-- Witness of C7: the keys 1 .. 10 inserted once each under the default thresholds
(the ninth insert splits the root leaf). -/
theorem SearchAll_after_inserts_witness :
    defaultConfig.Admissible ∧
    ∃ t leaves, InsertAll defaultConfig (BWTree.empty : BWTree Int Nat) (keysUpTo 10) = some t ∧
      leaves.Nodup ∧ LeafChain t t.m_headleaf leaves ∧
      SearchAll t = some (leaves.flatMap (leafPairs t)) ∧
      (leaves.flatMap (leafPairs t)).Perm (keysUpTo 10) ∧
      (leaves.flatMap (leafPairs t)).length = (keysUpTo 10).length :=
  ⟨defaultConfig_admissible, SearchAll_after_inserts defaultConfig_admissible (keysUpTo 10)⟩

/-- C8 (counterexample): on an index built with `unique_keys = true` that holds
`(100, 1)`, so that `Search 100` is not empty, `InsertData (100, 2)` is not
rejected: it returns and `Search 100` has the new pair. -/
theorem unique_keys_insert_not_rejected :
    uniqueConfig.unique_keys = true ∧
    (InsertData uniqueConfig (BWTree.empty : BWTree Int Nat) (100, 1)).bind
      (fun t => Search t 100) = some [(100, 1)] ∧
    ((InsertData uniqueConfig (BWTree.empty : BWTree Int Nat) (100, 1)).bind
      (fun t => InsertData uniqueConfig t (100, 2))).bind
      (fun t => Search t 100) = some [(100, 1), (100, 2)] := by
  decide

/-- C8 (amended): whatever the flag `unique_keys` of the configuration, `InsertData`
of `(k, v)` on a well-formed index is not rejected, also when `Search k` is not
empty before the call: it returns, `Search k` has the new pair after the former
pairs, and `Search` of every other key is unchanged. -/
theorem InsertData_adds_pair {cfg : Config} (hA : cfg.Admissible) {t : BWTree K V}
    (hW : WellFormed t) (x : K × V) :
    ∃ t' r, InsertData cfg t x = some t' ∧ Search t x.1 = some r ∧
      Search t' x.1 = some (r ++ [x]) ∧ ∀ k, k ≠ x.1 → Search t' k = Search t k := by
  obtain ⟨m, hM⟩ := hW
  obtain ⟨t', h1, hM'⟩ := InsertData_models hA hM x
  refine ⟨t', m x.1, h1, Search_models hM x.1, ?_, fun k hk => ?_⟩
  · rw [Search_models hM' x.1, if_pos rfl]
  · rw [Search_models hM' k, Search_models hM k, if_neg hk, List.append_nil]

/-- Witness of C8 (amended): the flag is `true`, the root leaf holds `(100, 7)`, and
`(100, 8)` is inserted. -/
theorem InsertData_adds_pair_witness :
    uniqueConfig.Admissible ∧ uniqueConfig.unique_keys = true ∧
    ∃ t' r, InsertData uniqueConfig rootLeafTree (100, 8) = some t' ∧
      Search rootLeafTree (100 : Int) = some r ∧
      Search t' (100 : Int) = some (r ++ [(100, 8)]) ∧
      ∀ k, k ≠ (100 : Int) → Search t' k = Search rootLeafTree k :=
  ⟨uniqueConfig_admissible, rfl,
   InsertData_adds_pair uniqueConfig_admissible rootLeafTree_wellFormed (100, 8)⟩

/-- C9 (the code at the failing input): after one insert of `(100, 7)` the search of
key 100 returns the pair, and after `ConsolidateLeafNode` of the root leaf it
returns nothing: the consolidated base is built from the node below the head, so
the most recent delta is lost. -/
theorem ConsolidateLeafNode_loses_head_delta :
    oneInsert.bind (fun t => Search t 100) = some [(100, 7)] ∧
    (oneInsert.bind (fun t => ConsolidateLeafNode t 0)).bind (fun t => Search t 100)
      = some [] := by
  decide

/-- C10 (the code at the failing input): the sibling leaf (PID 2) has parent 1 in
its base and one delta on top; after `ConsolidateLeafNode` the new head is a base
whose level, next and prev are those of the old base but whose parent is
`NULL_PID`, the parent field of the delta that was the head. -/
theorem ConsolidateLeafNode_parent_of_head :
    splitThenInsert.bind (fun t => (GetNode t 2).map
        (fun n => (n.GetLength, n.GetBaseNode.GetParent, n.GetBaseNode.GetLevel,
                   n.GetBaseNode.GetNext, n.GetBaseNode.GetPrev)))
      = some (1, 1, 0, NULL_PID, 0) ∧
    (splitThenInsert.bind (fun t => ConsolidateLeafNode t 2)).bind (fun t => (GetNode t 2).map
        (fun n => (n.IsDelta, n.GetParent, n.GetLevel, n.GetNext, n.GetPrev)))
      = some (false, NULL_PID, 0, NULL_PID, 0) := by
  decide

end Claims
/-! ## Claims on consolidation, the leaf chain and the stored sizes -/

section Claims2

variable {K V : Type} [LinearOrder K] [DecidableEq V]

/-- C11: for every PID `p` with a node and every reading of the cast, a call of
`ConsolidateLeafNode` returns and leaves on `p` a base leaf with the parent and the
level of the former head and the slots materialized from the node the call reads;
no other PID changes, nor do the root, the ends of the leaf chain and the PID
counter.  A second call on that state returns that state again, whatever the cast
reads: `p` holds the same base leaf, with the same slots, parent, level,
`next_leaf` and `prev_leaf`.  Where the node below the head is a base leaf (where
the embedding `ConsolidateLeafNode` has a result), `next_leaf` and `prev_leaf` are
those of that leaf and the result is the one of `ConsolidateLeafNode`. -/
theorem ConsolidateLeafNode_idempotent (readCast readCast2 : Node K V → PID × PID)
    (t : BWTree K V) (p : PID) (old : Node K V) (hold : GetNode t p = some old) :
    ∃ (t1 : BWTree K V) (next prev : PID),
      ConsolidateLeafNodeCast readCast t p = some t1 ∧
      GetNode t1 p = some (LeafNode old.GetParent old.GetLevel next prev
        (GetAllData (if old.IsDelta = true then old.GetBase else old))) ∧
      (∀ q : PID, q ≠ p → GetNode t1 q = GetNode t q) ∧
      t1.m_root = t.m_root ∧ t1.m_headleaf = t.m_headleaf ∧
      t1.m_tailleaf = t.m_tailleaf ∧ t1.next_pid = t.next_pid ∧
      ConsolidateLeafNodeCast readCast2 t1 p = some t1 ∧
      ConsolidateLeafNode t1 p = some t1 ∧
      (∀ t0 : BWTree K V, ConsolidateLeafNode t p = some t0 → t0 = t1) ∧
      (∀ (a : PID) (b : Nat) (c d : PID) (e : List (K × List V)),
        (if old.IsDelta = true then old.GetBase else old) = LeafNode a b c d e →
          ConsolidateLeafNode t p = some t1 ∧ next = c ∧ prev = d) := by
  obtain ⟨next, prev, hrun, hleaf⟩ := ConsolidateLeafNodeCast_result readCast t p old hold
  have hp : GetNode (t.Update p (LeafNode old.GetParent old.GetLevel next prev
      (GetAllData (if old.IsDelta = true then old.GetBase else old)))) p =
      some (LeafNode old.GetParent old.GetLevel next prev
        (GetAllData (if old.IsDelta = true then old.GetBase else old))) := by
    simp [GetNode, BWTree.Update]
  have h2 := ConsolidateLeafNode_base_leaf readCast2 _ p _ _ _ _ _ hp
  refine ⟨_, next, prev, hrun, hp, ?_, rfl, rfl, rfl, rfl, h2.2, h2.1, ?_, ?_⟩
  · intro q hq
    simp [GetNode, BWTree.Update, hq]
  · intro t0 h0
    have h3 := ConsolidateLeafNodeCast_of_defined readCast h0
    rw [hrun] at h3
    exact (Option.some.inj h3).symm
  · intro a b c d e he
    obtain ⟨hc, hd⟩ := hleaf a b c d e he
    refine ⟨?_, hc, hd⟩
    unfold ConsolidateLeafNode
    rw [hold]
    dsimp only
    rw [he, hc, hd]

/-- Witness of C11: the root leaf under two insert deltas, where the node below the
head is a delta and the cast reads the PIDs 5 and 6. -/
theorem ConsolidateLeafNode_idempotent_witness :
    ∃ (t1 : BWTree Int Nat) (next prev : PID),
      ConsolidateLeafNodeCast (fun _ => (5, 6)) twoDeltaLeaf 0 = some t1 ∧
      GetNode t1 0 = some (LeafNode NULL_PID 0 next prev [(100, [7])]) ∧
      (∀ q : PID, q ≠ 0 → GetNode t1 q = GetNode twoDeltaLeaf q) ∧
      t1.m_root = twoDeltaLeaf.m_root ∧ t1.m_headleaf = twoDeltaLeaf.m_headleaf ∧
      t1.m_tailleaf = twoDeltaLeaf.m_tailleaf ∧ t1.next_pid = twoDeltaLeaf.next_pid ∧
      ConsolidateLeafNodeCast (fun _ => (8, 9)) t1 0 = some t1 ∧
      ConsolidateLeafNode t1 0 = some t1 ∧
      (∀ t0 : BWTree Int Nat, ConsolidateLeafNode twoDeltaLeaf 0 = some t0 → t0 = t1) ∧
      (∀ (a : PID) (b : Nat) (c d : PID) (e : List (Int × List Nat)),
        InsertNode 100 7 0 1 1 (LeafNode NULL_PID 0 NULL_PID NULL_PID []) = LeafNode a b c d e →
          ConsolidateLeafNode twoDeltaLeaf 0 = some t1 ∧ next = c ∧ prev = d) :=
  ConsolidateLeafNode_idempotent (fun _ => (5, 6)) (fun _ => (8, 9)) twoDeltaLeaf 0
    (InsertNode 200 1 0 2 2
      (InsertNode 100 7 0 1 1 (LeafNode NULL_PID 0 NULL_PID NULL_PID []))) rfl

/-- The leaf chain where every call has a result in the embedding: in every state a sequential history of calls of the four modification
operators (with the splits they trigger) and of `ConsolidateLeafNode` returns from
the empty index there is a list of leaves, each one once, that is the chain of the
`next` pointers from `m_headleaf` to `NULL_PID` and holds every PID reachable from
the root whose head is a leaf; `SearchAll` returns, with the pairs of these leaves
in the order of the chain. -/
theorem leaf_chain_after_history (cfg : Config) (cs : List (Call K V)) (t : BWTree K V)
    (h : runCalls cfg BWTree.empty cs = some t) :
    ∃ L : List PID, L.Nodup ∧ LeafChain t t.m_headleaf L ∧
      (∀ (q : PID) (n : Node K V), Reachable t q → GetNode t q = some n →
        n.IsLeaf = true → q ∈ L) ∧
      SearchAll t = some (L.flatMap (leafPairs t)) := by
  obtain ⟨L, lv, hc⟩ := runCalls_chain cfg cs BWTree.empty t [] (fun _ => 0) ChainInv_empty h
  exact ⟨L, hc.nodup, hc.chain, fun q n _ hn hl => hc.leaf_mem hn hl, SearchAll_chain hc⟩

/-- An instance of `leaf_chain_after_history`: a history with two splits and three
consolidations, each of them on a chain where the cast reads a base leaf. -/
theorem leaf_chain_after_history_witness :
    ∃ t : BWTree Int Nat, runCalls defaultConfig BWTree.empty consolidateCalls = some t ∧
      ∃ L : List PID, L.Nodup ∧ LeafChain t t.m_headleaf L ∧
        (∀ (q : PID) (n : Node Int Nat), Reachable t q → GetNode t q = some n →
          n.IsLeaf = true → q ∈ L) ∧
        SearchAll t = some (L.flatMap (leafPairs t)) := by
  obtain ⟨t, ht⟩ := Option.isSome_iff_exists.mp
    (show (runCalls defaultConfig (BWTree.empty : BWTree Int Nat) consolidateCalls).isSome = true
      by decide)
  exact ⟨t, ht, leaf_chain_after_history defaultConfig consolidateCalls t ht⟩

/-- C12 (the code at the failing input): two inserts leave the root leaf PID 0 under
two insert deltas, with the chain of leaves `[0]` from `m_headleaf`.  The node
`ConsolidateLeafNode(0)` reads `next_leaf` from is the lower insert delta, not the
base leaf: the embedding `ConsolidateLeafNode` has no result, and for every reading
of the cast the call publishes on PID 0 a base leaf whose `next_leaf` is what the
cast reads from that delta.  Unless that happens to be `NULL_PID`, no list of leaves
is the chain of the `next` pointers from `m_headleaf` to `NULL_PID`, and the loop of
`SearchAll` has no result for any fuel. -/
theorem leaf_chain_broken_by_cast_read :
    runOps defaultConfig BWTree.empty [Op.insert (100, 7), Op.insert (200, 1)] =
      some twoDeltaLeaf ∧
    LeafChain twoDeltaLeaf twoDeltaLeaf.m_headleaf [0] ∧
    (GetNode twoDeltaLeaf 0).map (fun h => (h.IsDelta, h.GetBase.IsDelta, h.GetLength)) =
      some (true, true, 2) ∧
    ConsolidateLeafNode twoDeltaLeaf 0 = none ∧
    ∀ readCast : Node Int Nat → PID × PID,
      ∃ t1 : BWTree Int Nat,
        ConsolidateLeafNodeCast readCast twoDeltaLeaf 0 = some t1 ∧
        t1.m_root = 0 ∧ t1.m_headleaf = 0 ∧
        GetNode t1 0 = some (LeafNode NULL_PID 0
          (readCast (InsertNode 100 7 0 1 1 (LeafNode NULL_PID 0 NULL_PID NULL_PID []))).1
          (readCast (InsertNode 100 7 0 1 1 (LeafNode NULL_PID 0 NULL_PID NULL_PID []))).2
          [(100, [7])]) ∧
        ((readCast (InsertNode 100 7 0 1 1 (LeafNode NULL_PID 0 NULL_PID NULL_PID []))).1 =
            NULL_PID ∨
          ((¬ ∃ L : List PID, L.Nodup ∧ LeafChain t1 t1.m_headleaf L) ∧
            ∀ fuel : Nat,
              scanLeaves t1 fuel t1.m_headleaf (GetNode t1 t1.m_headleaf) = none)) := by
  refine ⟨rfl, ?_, by decide, rfl, ?_⟩
  · exact ⟨rfl, by decide, rfl⟩
  · intro readCast
    refine ⟨_, rfl, rfl, rfl, rfl, ?_⟩
    by_cases hn : (readCast
        (InsertNode 100 7 0 1 1 (LeafNode NULL_PID 0 NULL_PID NULL_PID []))).1 = NULL_PID
    · exact Or.inl hn
    · refine Or.inr (single_leaf_bad_next _ _ rfl ?_ hn)
      intro q hq
      have h := twoDeltaLeaf_other q hq
      simpa [GetNode, BWTree.Update, hq] using h

/-- C13: every history of inserts on the empty index returns, and in the index it
leaves, for every inner node and every child of its materialized routing table,
the child has a node and every key materialized from the child is at or above the
separator that bounds the child from below and below the separator that bounds it
from above; the keys of the child of a separator delta at the head of an inner
chain are at or above the key of the delta and below its right key. -/
theorem separators_bound_children (cfg : Config) (hcfg : cfg.Admissible) (xs : List (K × V)) :
    ∃ t, InsertAll cfg BWTree.empty xs = some t ∧
      ∀ (q : PID) (n : Node K V), GetNode t q = some n → n.IsLeaf = false →
        (∀ (c : PID) (l h : Option K),
          (c, l, h) ∈ childBounds (GetAllPointer n).1 none (GetAllPointer n).2 none →
          ∃ nc, GetNode t c = some nc ∧ nc.KeysWithin l h) ∧
        (∀ (sk : K) (r : Option K) (c : PID) (lev sz len : Nat) (b : Node K V),
          n = SeparatorNode sk r c lev sz len b →
          ∃ nc, GetNode t c = some nc ∧ nc.KeysWithin (some sk) r) := by
  obtain ⟨t, ht, m, hM⟩ := InsertAll_wellFormed hcfg xs
  refine ⟨t, ht, fun q n hn hl => ⟨fun c l h hm => ?_, ?_⟩⟩
  · obtain ⟨nc, h1, _, h2, h3⟩ := (Models_shape hM hn).2.2 hl c l h hm
    exact ⟨nc, h1, h2, h3⟩
  · intro sk r c lev sz len b e
    rw [e] at hn hl
    exact Models_separator hM hn hl

/-- Witness of C13: the inserts of the keys 1 .. 9 and of a second value for key 9
under the default thresholds. -/
theorem separators_bound_children_witness :
    defaultConfig.Admissible ∧
    ∃ t, InsertAll defaultConfig (BWTree.empty : BWTree Int Nat) (keysUpTo 9 ++ [(9, 1)]) =
        some t ∧
      ∀ (q : PID) (n : Node Int Nat), GetNode t q = some n → n.IsLeaf = false →
        (∀ (c : PID) (l h : Option Int),
          (c, l, h) ∈ childBounds (GetAllPointer n).1 none (GetAllPointer n).2 none →
          ∃ nc, GetNode t c = some nc ∧ nc.KeysWithin l h) ∧
        (∀ (sk : Int) (r : Option Int) (c : PID) (lev sz len : Nat) (b : Node Int Nat),
          n = SeparatorNode sk r c lev sz len b →
          ∃ nc, GetNode t c = some nc ∧ nc.KeysWithin (some sk) r) :=
  ⟨defaultConfig_admissible,
    separators_bound_children defaultConfig defaultConfig_admissible (keysUpTo 9 ++ [(9, 1)])⟩

/-- C14: every history of calls of the four modification operators on the empty
index returns, and in the index it leaves every delta of every chain has the level
of the node it is prepended to, the head of a chain has the level of its base, and
every child in the materialized routing table of an inner node of level `L` has a
node of level `L - 1`. -/
theorem children_one_level_below (cfg : Config) (hcfg : cfg.Admissible) (ops : List (Op K V)) :
    ∃ t, runOps cfg BWTree.empty ops = some t ∧
      ∀ (q : PID) (n : Node K V), GetNode t q = some n →
        n.ChainOK ∧ n.GetBaseNode.GetLevel = n.GetLevel ∧
        (n.IsLeaf = false →
          ∀ c ∈ (GetAllPointer n).1 :: (GetAllPointer n).2.map Prod.snd,
            ∃ nc, GetNode t c = some nc ∧ nc.GetLevel + 1 = n.GetLevel) := by
  obtain ⟨t, ht, m, hM⟩ := runOps_wellFormed hcfg ops
  refine ⟨t, ht, fun q n hn => ?_⟩
  obtain ⟨h1, h2, h3⟩ := Models_shape hM hn
  refine ⟨h1, h2, fun hl c hc => ?_⟩
  obtain ⟨l, h, hm⟩ := childBounds_of_pid (GetAllPointer n).1 none (GetAllPointer n).2 none hc
  obtain ⟨nc, a1, a2, _⟩ := h3 hl c l h hm
  exact ⟨nc, a1, a2⟩

/-- Witness of C14: the inserts of the keys 1 .. 9, which split the root leaf. -/
theorem children_one_level_below_witness :
    defaultConfig.Admissible ∧
    ∃ t, runOps defaultConfig (BWTree.empty : BWTree Int Nat)
        ((keysUpTo 9).map Op.insert) = some t ∧
      ∀ (q : PID) (n : Node Int Nat), GetNode t q = some n →
        n.ChainOK ∧ n.GetBaseNode.GetLevel = n.GetLevel ∧
        (n.IsLeaf = false →
          ∀ c ∈ (GetAllPointer n).1 :: (GetAllPointer n).2.map Prod.snd,
            ∃ nc, GetNode t c = some nc ∧ nc.GetLevel + 1 = n.GetLevel) :=
  ⟨defaultConfig_admissible,
    children_one_level_below defaultConfig defaultConfig_admissible
      ((keysUpTo 9).map Op.insert)⟩

/-- C15 (the code at the failing input): after `InsertData (100, 7)` and
`DeleteKey 100` on the empty index the chain of the root leaf materializes to no
slot, while the size stored in its head is 1: the delete delta copies the size of
the node below it. -/
theorem size_not_slot_count_after_delete :
    insertThenDeleteKey.bind (fun t => (GetNode t 0).map
      (fun n => (n.GetSize, (GetAllData n).length))) = some (1, 0) := by
  decide

/-- C16: on a well-formed index `Exists` and `Search` return for every key, and
`Exists` returns true exactly when the list `Search` returns is not empty; when the
PID `GetLeafNodePID` returns is negative `Exists` returns false and `Search`
returns the empty list. -/
theorem Exists_iff_Search_nonempty (t : BWTree K V) (hwf : WellFormed t) (k : K) :
    (∃ b r, Exists t k = some b ∧ Search t k = some r ∧ (b = true ↔ r ≠ [])) ∧
    (∀ p : PID, GetLeafNodePID t k = some p → p < 0 →
      Exists t k = some false ∧ Search t k = some []) := by
  obtain ⟨m, hM⟩ := hwf
  obtain ⟨b, h1, h2, h3⟩ := Exists_Search_models hM k
  refine ⟨⟨b, m k, h1, h2, h3⟩, fun p hp hneg => ?_⟩
  simp [Exists, Search, hp, hneg]

/-- Witness of C16: key 100 in the root leaf that holds it. -/
theorem Exists_iff_Search_nonempty_witness :
    WellFormed rootLeafTree ∧
    (∃ b r, Exists rootLeafTree (100 : Int) = some b ∧ Search rootLeafTree (100 : Int) = some r ∧
      (b = true ↔ r ≠ [])) ∧
    (∀ p : PID, GetLeafNodePID rootLeafTree (100 : Int) = some p → p < 0 →
      Exists rootLeafTree (100 : Int) = some false ∧ Search rootLeafTree (100 : Int) = some []) :=
  ⟨rootLeafTree_wellFormed, Exists_iff_Search_nonempty rootLeafTree rootLeafTree_wellFormed 100⟩

/-- C19: on an index with a root, `InsertData (k, v)` publishes on the head `h` of
the leaf it locates an insert delta with base `h` whose size is the size of `h`
when `h` contains `k` and the size of `h` plus one when it does not; the split
test is made on that delta. -/
theorem InsertData_delta_size (cfg : Config) (t : BWTree K V) (x : K × V) (p : PID)
    (h : Node K V) (hroot : t.m_root ≠ NULL_PID) (hloc : locateInsert t x.1 = some p)
    (hnode : GetNode t p = some h) :
    ∃ d : Node K V, d.IsDelta = true ∧ d.GetBase = h ∧
      d.GetSize = (if LeafContainsKey h x.1 = true then h.GetSize else h.GetSize + 1) ∧
      InsertData cfg t x =
        (if cfg.IsLeafFull d.GetSize d.GetLength = true then SplitLeaf cfg (t.Update p d) p
         else some (t.Update p d)) := by
  have hE : EnsureRoot t = t := by simp [EnsureRoot, hroot]
  unfold locateInsert at hloc
  refine ⟨InsertNode x.1 x.2 h.GetLevel
    ((if LeafContainsKey h x.1 then 0 else 1) + h.GetSize) (nextLength h) h, rfl, rfl, ?_, ?_⟩
  · show (if LeafContainsKey h x.1 = true then 0 else 1) + h.GetSize = _
    by_cases hc : LeafContainsKey h x.1 = true
    · rw [if_pos hc, if_pos hc, Nat.zero_add]
    · rw [if_neg hc, if_neg hc, Nat.add_comm]
  · simp only [InsertData, hE, hloc, hnode]

/-- Witness of C19: key 200 is not in the root leaf that holds key 100. -/
theorem InsertData_delta_size_witness :
    rootLeafTree.m_root ≠ NULL_PID ∧ locateInsert rootLeafTree (200 : Int) = some 0 ∧
    ∃ d : Node Int Nat, d.IsDelta = true ∧
      d.GetBase = InsertNode 100 7 0 1 1 (LeafNode NULL_PID 0 NULL_PID NULL_PID []) ∧
      d.GetSize = (if LeafContainsKey
          (InsertNode 100 7 0 1 1 (LeafNode NULL_PID 0 NULL_PID NULL_PID [])) (200 : Int) = true
        then (InsertNode (100 : Int) (7 : Nat) 0 1 1
          (LeafNode NULL_PID 0 NULL_PID NULL_PID [])).GetSize
        else (InsertNode (100 : Int) (7 : Nat) 0 1 1
          (LeafNode NULL_PID 0 NULL_PID NULL_PID [])).GetSize + 1) ∧
      InsertData defaultConfig rootLeafTree (200, 1) =
        (if defaultConfig.IsLeafFull d.GetSize d.GetLength = true then
          SplitLeaf defaultConfig (rootLeafTree.Update 0 d) 0
         else some (rootLeafTree.Update 0 d)) :=
  ⟨by decide, by decide,
   InsertData_delta_size defaultConfig rootLeafTree (200, 1) 0
     (InsertNode 100 7 0 1 1 (LeafNode NULL_PID 0 NULL_PID NULL_PID []))
     (by decide) (by decide) rfl⟩

/-- C20 (the code at the failing input): the root leaf holds key 100 once and its
head has size 1; the delete delta `DeleteKey 100` publishes on it has size 1, the
size of the head, not 1 minus the multiplicity 1 of the key. -/
theorem DeleteKey_delta_size_unchanged :
    (GetNode rootLeafTree 0).map
      (fun h => (h.GetSize, (matchSlots (GetAllData h) 100).length)) = some (1, 1) ∧
    ((DeleteKey rootLeafTree 100).bind (fun t => GetNode t 0)).map
      (fun d => (d.IsDelta, d.GetSize, d.GetBase.GetSize)) = some (true, 1, 1) := by
  decide

end Claims2
/-! ## Claims on the splits, the sibling walks and the lazily created root -/

section Claims3

variable {K V : Type} [LinearOrder K] [DecidableEq V]

/-- C21 (the code at the failing input): the root leaf holds the pair `(100, 7)` and
its head has size 1; the delete delta `DeleteData (100, 7)` publishes on it has
size 1, the size of the head, not 1 - 1 = 0. -/
theorem DeleteData_delta_size_unchanged :
    (GetNode rootLeafTree 0).map
      (fun h => (h.GetSize, decide ((100, 7) ∈ expandSlots (GetAllData h)))) = some (1, true) ∧
    ((DeleteData rootLeafTree (100, 7)).bind (fun t => GetNode t 0)).map
      (fun d => (d.IsDelta, d.GetSize, d.GetBase.GetSize, (GetAllData d).length)) =
        some (true, 1, 1, 0) := by
  decide

/-- The walk of `InsertData` on the indexes sequential histories reach: on a
well-formed index `InsertData` returns for every pair.  The sibling walk ends on a
leaf `p` with a node, the key is in the range of that leaf, and the insert delta is
published on it (the split test is made on that delta).  A leaf whose base has no
`next` has every key in its range, so on these indexes the walk never reaches a
leaf that lacks the key in its range and has no `next`. -/
theorem InsertData_terminates (cfg : Config) (hcfg : cfg.Admissible) (t : BWTree K V)
    (hwf : WellFormed t) (x : K × V) :
    ∃ (t' : BWTree K V) (p : PID) (h : Node K V),
      InsertData cfg t x = some t' ∧
      locateInsert (EnsureRoot t) x.1 = some p ∧ GetNode (EnsureRoot t) p = some h ∧
      h.IsLeaf = true ∧ isInRange h x.1 = true ∧
      InsertData cfg t x =
        (if cfg.IsLeafFull
            ((if LeafContainsKey h x.1 = true then 0 else 1) + h.GetSize) (nextLength h) = true
         then SplitLeaf cfg ((EnsureRoot t).Update p (InsertNode x.1 x.2 h.GetLevel
            ((if LeafContainsKey h x.1 = true then 0 else 1) + h.GetSize) (nextLength h) h)) p
         else some ((EnsureRoot t).Update p (InsertNode x.1 x.2 h.GetLevel
            ((if LeafContainsKey h x.1 = true then 0 else 1) + h.GetSize) (nextLength h) h))) ∧
      ∀ (q : PID) (n : Node K V), GetNode (EnsureRoot t) q = some n → n.IsLeaf = true →
        n.GetBaseNode.GetNext = NULL_PID → isInRange n x.1 = true := by
  obtain ⟨m, hM⟩ := hwf
  obtain ⟨t', ht', _⟩ := InsertData_models hcfg hM x
  obtain ⟨g, hI, hB, hS⟩ := EnsureRoot_models hM
  obtain ⟨p, h, hn, hok, _, hl, _, hhi, hloc, _, _⟩ := locate_inv hI x.1
  refine ⟨t', p, h, ht', hloc, hn, ?_, hok.inRange hl x.1 hhi, ?_, ?_⟩
  · rw [Node.IsLeaf_iff, hok.level]; exact hl
  · simp only [InsertData, hloc, GetNode, hn]
    rfl
  · intro q n hq hleaf hnext
    exact last_leaf_inRange_of_inv hI hq hleaf hnext x.1

/-- An instance of `InsertData_terminates`: an insert of key 200 into the root leaf
that holds key 100. -/
theorem InsertData_terminates_witness :
    defaultConfig.Admissible ∧ WellFormed rootLeafTree ∧
    ∃ (t' : BWTree Int Nat) (p : PID) (h : Node Int Nat),
      InsertData defaultConfig rootLeafTree (200, 1) = some t' ∧
      locateInsert (EnsureRoot rootLeafTree) (200 : Int) = some p ∧
      GetNode (EnsureRoot rootLeafTree) p = some h ∧
      h.IsLeaf = true ∧ isInRange h (200 : Int) = true ∧
      InsertData defaultConfig rootLeafTree (200, 1) =
        (if defaultConfig.IsLeafFull
            ((if LeafContainsKey h (200 : Int) = true then 0 else 1) + h.GetSize)
            (nextLength h) = true
         then SplitLeaf defaultConfig ((EnsureRoot rootLeafTree).Update p (InsertNode 200 1
            h.GetLevel ((if LeafContainsKey h (200 : Int) = true then 0 else 1) + h.GetSize)
            (nextLength h) h)) p
         else some ((EnsureRoot rootLeafTree).Update p (InsertNode 200 1 h.GetLevel
            ((if LeafContainsKey h (200 : Int) = true then 0 else 1) + h.GetSize)
            (nextLength h) h))) ∧
      ∀ (q : PID) (n : Node Int Nat), GetNode (EnsureRoot rootLeafTree) q = some n →
        n.IsLeaf = true → n.GetBaseNode.GetNext = NULL_PID → isInRange n (200 : Int) = true :=
  ⟨defaultConfig_admissible, rootLeafTree_wellFormed,
    InsertData_terminates defaultConfig defaultConfig_admissible rootLeafTree
      rootLeafTree_wellFormed (200, 1)⟩

/-- The walks of the other writers on the indexes sequential histories reach: on a
well-formed index with a root, for every key the descent of `UpdateData`,
`DeleteKey` and `DeleteData` ends on a PID `p` that is not `NULL_PID` and has a leaf
as node; the key is in the range of that leaf, so the sibling walk stops on `p`
without reading a `next` pointer, on the leaf the walk of `InsertData` stops on,
and the three writers take `p` as target.  A leaf whose base has no `next` has
every key in its range. -/
theorem walk_of_writers_stays_on_leaves (t : BWTree K V) (hwf : WellFormed t)
    (hroot : t.m_root ≠ NULL_PID) (k : K) :
    ∃ (p : PID) (h : Node K V),
      descend t k t.fuel t.m_root = some p ∧ p ≠ NULL_PID ∧ GetNode t p = some h ∧
      h.IsLeaf = true ∧ isInRange h k = true ∧
      walkLeaf t k t.fuel p = some p ∧ walkInsert t k t.fuel p = some p ∧
      (∀ v : V, UpdateData t (k, v) =
        (if LeafContainsKey h k = false then some t
         else some (t.Update p (UpdateNode k v h.GetLevel h.GetSize (nextLength h) h)))) ∧
      DeleteKey t k =
        some (t.Update p (DeleteNode k none h.GetLevel h.GetSize (nextLength h) h)) ∧
      (∀ v : V, DeleteData t (k, v) =
        some (t.Update p (DeleteNode k (some v) h.GetLevel h.GetSize (nextLength h) h))) ∧
      ∀ (q : PID) (n : Node K V), GetNode t q = some n → n.IsLeaf = true →
        n.GetBaseNode.GetNext = NULL_PID → isInRange n k = true := by
  have hE : EnsureRoot t = t := EnsureRoot_of_root hroot
  obtain ⟨m, hM⟩ := hwf
  rcases hM with ⟨hr, _, _, _, _⟩ | ⟨g, hI, _, _⟩
  · exact absurd hr hroot
  · obtain ⟨p, h, hd, hn, hok, hp0, hl, _, hhi⟩ := descend_root hI k
    have hr : isInRange h k = true := hok.inRange hl k hhi
    have hw : walkLeaf t k t.fuel p = some p := walkLeaf_inRange hn hr
    have hloc : (descend t k t.fuel t.m_root).bind (walkLeaf t k t.fuel) = some p := by
      rw [hd]; exact hw
    refine ⟨p, h, hd, ne_NULL_of_nonneg hp0, hn, ?_, hr, hw, walkInsert_inRange hn hr,
      ?_, ?_, ?_, ?_⟩
    · rw [Node.IsLeaf_iff, hok.level]; exact hl
    · intro v
      simp only [UpdateData, hE, hloc, GetNode, hn]
    · simp only [DeleteKey, hE, hloc, GetNode, hn]
    · intro v
      simp only [DeleteData, hE, hloc, GetNode, hn]
    · intro q n hq hleaf hnext
      exact last_leaf_inRange_of_inv hI hq hleaf hnext k

/-- An instance of `walk_of_writers_stays_on_leaves`: key 100 on the root leaf that
holds it. -/
theorem walk_of_writers_stays_on_leaves_witness :
    WellFormed rootLeafTree ∧ rootLeafTree.m_root ≠ NULL_PID ∧
    ∃ (p : PID) (h : Node Int Nat),
      descend rootLeafTree (100 : Int) rootLeafTree.fuel rootLeafTree.m_root = some p ∧
      p ≠ NULL_PID ∧ GetNode rootLeafTree p = some h ∧
      h.IsLeaf = true ∧ isInRange h (100 : Int) = true ∧
      walkLeaf rootLeafTree (100 : Int) rootLeafTree.fuel p = some p ∧
      walkInsert rootLeafTree (100 : Int) rootLeafTree.fuel p = some p ∧
      (∀ v : Nat, UpdateData rootLeafTree ((100 : Int), v) =
        (if LeafContainsKey h (100 : Int) = false then some rootLeafTree
         else some (rootLeafTree.Update p
           (UpdateNode 100 v h.GetLevel h.GetSize (nextLength h) h)))) ∧
      DeleteKey rootLeafTree (100 : Int) =
        some (rootLeafTree.Update p
          (DeleteNode 100 none h.GetLevel h.GetSize (nextLength h) h)) ∧
      (∀ v : Nat, DeleteData rootLeafTree ((100 : Int), v) =
        some (rootLeafTree.Update p
          (DeleteNode 100 (some v) h.GetLevel h.GetSize (nextLength h) h))) ∧
      ∀ (q : PID) (n : Node Int Nat), GetNode rootLeafTree q = some n → n.IsLeaf = true →
        n.GetBaseNode.GetNext = NULL_PID → isInRange n (100 : Int) = true :=
  ⟨rootLeafTree_wellFormed, by decide,
    walk_of_writers_stays_on_leaves rootLeafTree rootLeafTree_wellFormed (by decide) 100⟩

/-- C28: on a well-formed index without root, the opening block of each of the four
writers maps the next unused PID to a new empty leaf and makes it root, head and
tail of the leaf chain; every key is located on that leaf; `InsertData` publishes
its insert delta on it and returns an index with a root; `UpdateData` finds no
key to rewrite and returns the index with the new root; `DeleteKey` and
`DeleteData` publish their delete delta on the new root leaf. -/
theorem writers_create_root_leaf (cfg : Config) (hcfg : cfg.Admissible) (t : BWTree K V)
    (hwf : WellFormed t) (hroot : t.m_root = NULL_PID) (x : K × V) :
    GetNode t t.next_pid = none ∧
    (EnsureRoot t).m_root = t.next_pid ∧ (EnsureRoot t).m_headleaf = (EnsureRoot t).m_root ∧
    (EnsureRoot t).m_tailleaf = (EnsureRoot t).m_root ∧
    GetNode (EnsureRoot t) t.next_pid = some AllocateLeaf ∧
    GetAllData (AllocateLeaf : Node K V) = [] ∧
    locateInsert (EnsureRoot t) x.1 = some (t.next_pid : Int) ∧
    locateLeaf (EnsureRoot t) x.1 = some (t.next_pid : Int) ∧
    (∃ t', InsertData cfg t x = some t' ∧ t'.m_root ≠ NULL_PID ∧
      InsertData cfg t x =
        (if cfg.IsLeafFull 1 1 = true then
          SplitLeaf cfg ((EnsureRoot t).Update t.next_pid
            (InsertNode x.1 x.2 0 1 1 AllocateLeaf)) t.next_pid
         else some ((EnsureRoot t).Update t.next_pid
            (InsertNode x.1 x.2 0 1 1 AllocateLeaf)))) ∧
    UpdateData t x = some (EnsureRoot t) ∧
    DeleteKey t x.1 =
      some ((EnsureRoot t).Update t.next_pid (DeleteNode x.1 none 0 0 1 AllocateLeaf)) ∧
    DeleteData t x =
      some ((EnsureRoot t).Update t.next_pid
        (DeleteNode x.1 (some x.2) 0 0 1 AllocateLeaf)) ∧
    (EnsureRoot t).m_root ≠ NULL_PID := by
  obtain ⟨hM, hmap, _⟩ := hwf.of_root_null hroot
  obtain ⟨h1, h2, h3, _, h5⟩ := EnsureRoot_fresh hroot
  obtain ⟨hli, hll⟩ := locate_fresh_root hroot x.1
  have hli' := hli
  have hll' := hll
  unfold locateInsert at hli'
  unfold locateLeaf at hll'
  obtain ⟨t', ht', hM'⟩ := InsertData_models hcfg hM x
  have hne : t'.m_root ≠ NULL_PID :=
    hM'.root_of_content (k := x.1) (by simp)
  refine ⟨hmap _, h1, by rw [h2, h1], by rw [h3, h1], h5, rfl, hli, hll,
    ⟨t', ht', hne, ?_⟩, ?_, ?_, ?_, ?_⟩
  · simp only [InsertData, hli', GetNode, h5]
    rfl
  · simp only [UpdateData, hll', GetNode, h5]
    rfl
  · simp only [DeleteKey, hll', GetNode, h5]
    rfl
  · simp only [DeleteData, hll', GetNode, h5]
    rfl
  · rw [h1]
    exact ne_NULL_of_nonneg (Int.ofNat_nonneg _)

/-- Witness of C28: the empty index. -/
theorem writers_create_root_leaf_witness :
    defaultConfig.Admissible ∧ WellFormed (BWTree.empty : BWTree Int Nat) ∧
    (BWTree.empty : BWTree Int Nat).m_root = NULL_PID ∧
    (EnsureRoot (BWTree.empty : BWTree Int Nat)).m_root ≠ NULL_PID :=
  ⟨defaultConfig_admissible, ⟨_, Models_empty⟩, rfl,
    (writers_create_root_leaf defaultConfig defaultConfig_admissible
      (BWTree.empty : BWTree Int Nat) ⟨_, Models_empty⟩ rfl (100, 7)).2.2.2.2.2.2.2.2.2.2.2.2⟩

end Claims3
/-! ## Claims on the effect of the splits -/

section Claims4

variable {K V : Type} [LinearOrder K] [DecidableEq V]

/-- C22: on a well-formed index, `SplitLeaf` on a full leaf `p` whose materialized
content `b` holds a slot returns; the split key is the key of the middle slot
`b[⌊n/2⌋]`, the split delta on `p` records the size `⌊n/2⌋` and the new sibling `s`,
the sibling is a base leaf with the slots `b[⌊n/2⌋ ..]` in the same order.  The keys
of `b` are strictly increasing, so the sibling holds the slots with a key at or
above the split key, `p` keeps the `⌊n/2⌋` slots with a key below it, and the two
contents together are `b`. -/
theorem SplitLeaf_halves (cfg : Config) (hcfg : cfg.Admissible) (t : BWTree K V)
    (hwf : WellFormed t) (p : PID) (n : Node K V) (hn : GetNode t p = some n)
    (hleaf : n.IsLeaf = true) (hdata : GetAllData n ≠ [])
    (hfull : cfg.IsLeafFull n.GetSize n.GetLength = true) :
    ∃ (t' : BWTree K V) (s : PID) (s0 : K × List V) (np ns : Node K V),
      SplitLeaf cfg t p = some t' ∧ GetNode t s = none ∧
      (GetAllData n)[(GetAllData n).length / 2]? = some s0 ∧
      GetNode t' p = some np ∧
      np.asSplit = some (s0.1, s, (GetAllData n).length / 2) ∧
      GetNode t' s = some ns ∧ ns.IsDelta = false ∧ ns.IsLeaf = true ∧
      GetAllData ns = (GetAllData n).drop ((GetAllData n).length / 2) ∧
      (GetAllData n).Pairwise (fun a b => a.1 < b.1) ∧
      GetAllData ns = (GetAllData n).filter (fun a => decide (s0.1 ≤ a.1)) ∧
      ((GetAllData n).filter (fun a => decide (a.1 < s0.1))).length =
        (GetAllData n).length / 2 ∧
      GetAllData np = (GetAllData n).take ((GetAllData n).length / 2) ∧
      GetAllData np ++ GetAllData ns = GetAllData n := by
  obtain ⟨g, m, hI, hB, hS, hok⟩ := hwf.inv hn
  have hl : g.lvl p = 0 := by rw [← hok.level]; exact (Node.IsLeaf_iff n).mp hleaf
  obtain ⟨t', s, s0, np, ns, hs', hfresh, _, _, _, hs0, hnp, hns, hsplit, _, _, _, _, hnpd,
    hnsd, hnsl, hnsdata, _⟩ := SplitLeaf_leaves hcfg hI hB hS hn hl hdata hfull
  have hsorted := hok.sorted hl
  have htake := filter_lt_eq_take hsorted hs0
  have hdrop := filter_ge_eq_drop hsorted hs0
  refine ⟨t', s, s0, np, ns, hs', hfresh, hs0, hnp, hsplit, hns, hnsd,
    (Node.IsLeaf_iff ns).mpr hnsl, hnsdata, hsorted, ?_, ?_, ?_, ?_⟩
  · rw [hnsdata, hdrop]
  · rw [htake, List.length_take]
    exact Nat.min_eq_left (Nat.div_le_self _ _)
  · rw [hnpd, htake]
  · rw [hnpd, htake, hnsdata]
    exact List.take_append_drop _ _

/-- Witness of C22: the root leaf with the keys 10 and 20 under two insert deltas,
full under the thresholds with `δ_chain = 1`. -/
theorem SplitLeaf_halves_witness :
    cascadeConfig.Admissible ∧ WellFormed twoKeyLeaf ∧
    ∃ (t' : BWTree Int Nat) (s : PID) (np ns : Node Int Nat),
      SplitLeaf cascadeConfig twoKeyLeaf 0 = some t' ∧
      GetNode t' 0 = some np ∧ GetNode t' s = some ns ∧
      GetAllData np = [(10, [0])] ∧ GetAllData ns = [(20, [0])] := by
  refine ⟨cascadeConfig_admissible, twoKeyLeaf_wellFormed, ?_⟩
  obtain ⟨t', s, s0, np, ns, h1, _, _, h4, _, h6, _, _, h9, _, _, _, h13, _⟩ :=
    SplitLeaf_halves cascadeConfig cascadeConfig_admissible twoKeyLeaf twoKeyLeaf_wellFormed 0
      (InsertNode 20 0 0 2 2 (InsertNode 10 0 0 1 1 (LeafNode NULL_PID 0 NULL_PID NULL_PID [])))
      rfl rfl (by decide) (by decide)
  exact ⟨t', s, np, ns, h1, h4, h6, h13, h9⟩

/-- C23 (the code where the claim fails): under the thresholds with `δ_chain = 1` the
index after the inserts of the keys 10 and 20 has the full leaf PID 0 and no PID 3.
`SplitLeaf` on PID 0 creates the sibling PID 3; the separator delta reports the
parent PID 1 full, the parent is split, and at the return the base of PID 0 has the
parent PID 1 while the sibling PID 3 has the parent PID 5. -/
theorem SplitLeaf_sibling_under_other_parent :
    splitReady.map (fun t => ((GetNode t 0).map (fun n =>
        (n.IsLeaf, cascadeConfig.IsLeafFull n.GetSize n.GetLength)), (GetNode t 3).isNone)) =
      some (some (true, true), true) ∧
    (splitReady.bind (fun t => SplitLeaf cascadeConfig t 0)).map (fun t' =>
        ((GetNode t' 0).bind Node.asSplit,
         (GetNode t' 0).map (fun n => n.GetBaseNode.GetParent))) =
      some (some (10, 3, 0), some 1) ∧
    (splitReady.bind (fun t => SplitLeaf cascadeConfig t 0)).map (fun t' =>
        (GetNode t' 3).map (fun n => (n.IsLeaf, n.GetBaseNode.GetPrev,
          n.GetBaseNode.GetParent))) =
      some (some (true, 0, 5)) :=
  ⟨by decide, by decide, by decide⟩

/-- C23 (amended): on a well-formed index, `SplitLeaf` on a full leaf `p` that holds
a slot returns and creates the sibling `s`; with `q` the `next` of the base of `p`
before the call, at the return the base of `p` has `next = s`, the sibling is a
leaf with `prev = p` and `next = q`, and when `q` is not `NULL_PID` the base of `q`
has `prev = s`.  The sibling has the parent of the base of `p` when `p` was the
root or the separator delta (size of the parent plus one, one more delta) does not
report the parent full.  When `next` and `prev` were mutually inverse along the
leaves before the call, they are after it. -/
theorem SplitLeaf_sideways (cfg : Config) (hcfg : cfg.Admissible) (t : BWTree K V)
    (hwf : WellFormed t) (p : PID) (n : Node K V) (hn : GetNode t p = some n)
    (hleaf : n.IsLeaf = true) (hdata : GetAllData n ≠ [])
    (hfull : cfg.IsLeafFull n.GetSize n.GetLength = true) :
    ∃ (t' : BWTree K V) (s : PID) (np ns : Node K V),
      SplitLeaf cfg t p = some t' ∧ GetNode t s = none ∧
      GetNode t' p = some np ∧ np.asSplit.map (fun x => x.2.1) = some s ∧
      GetNode t' s = some ns ∧ ns.IsLeaf = true ∧
      np.GetBaseNode.GetNext = s ∧
      ns.GetBaseNode.GetPrev = p ∧ ns.GetBaseNode.GetNext = n.GetBaseNode.GetNext ∧
      (n.GetBaseNode.GetNext ≠ NULL_PID →
        ∃ nq, GetNode t' n.GetBaseNode.GetNext = some nq ∧ nq.IsLeaf = true ∧
          nq.GetBaseNode.GetPrev = s) ∧
      ((t.m_root = p ∨ ∃ parent, GetNode t n.GetBaseNode.GetParent = some parent ∧
          cfg.IsInnerFull (1 + parent.GetSize) (nextLength parent) = false) →
        ns.GetBaseNode.GetParent = np.GetBaseNode.GetParent) ∧
      (LeafLinks t → LeafLinks t') := by
  obtain ⟨g, m, hI, hB, hS, hok⟩ := hwf.inv hn
  have hnl : n.GetLevel = 0 := (Node.IsLeaf_iff n).mp hleaf
  have hl : g.lvl p = 0 := by rw [← hok.level]; exact hnl
  obtain ⟨t', s, s0, np, ns, hs', hfresh, _, _, hqp, _, hnp, hns, hsplit, hnpl, _, hnpn, hnpp,
    _, _, hnsl, _, hnsn, hnsp, hq, hfw, hbw, hpar⟩ :=
    SplitLeaf_leaves hcfg hI hB hS hn hl hdata hfull
  refine ⟨t', s, np, ns, hs', hfresh, hnp, by rw [hsplit]; rfl, hns,
    (Node.IsLeaf_iff ns).mpr hnsl, hnpn, hnsp, hnsn, fun hne => ?_, hpar, fun hL => ?_⟩
  · obtain ⟨nq, h1, h2, h3⟩ := hq hne
    exact ⟨nq, h1, (Node.IsLeaf_iff nq).mpr h2, h3⟩
  · exact LeafLinks_of_split hn hnl hqp hnp hns hnpl hnpn hnpp hnsl hnsn hnsp hfw hbw hL

/-- Witness of C23: the middle leaf PID 2 of three leaves under one root, full under
the thresholds with `δ_leaf = 0`; its next leaf is PID 3. -/
theorem SplitLeaf_sideways_witness :
    tightConfig.Admissible ∧ WellFormed threeLeaves ∧
    ∃ (t' : BWTree Int Nat) (s : PID) (np ns nq : Node Int Nat),
      SplitLeaf tightConfig threeLeaves 2 = some t' ∧
      GetNode t' 2 = some np ∧ GetNode t' s = some ns ∧ GetNode t' 3 = some nq ∧
      np.GetBaseNode.GetNext = s ∧ ns.GetBaseNode.GetPrev = 2 ∧
      ns.GetBaseNode.GetNext = 3 ∧ nq.GetBaseNode.GetPrev = s ∧
      ns.GetBaseNode.GetParent = np.GetBaseNode.GetParent := by
  refine ⟨tightConfig_admissible, threeLeaves_wellFormed, ?_⟩
  obtain ⟨t', s, np, ns, h1, _, h3, _, h5, _, h7, h8, h9, h10, h11, _⟩ :=
    SplitLeaf_sideways tightConfig tightConfig_admissible threeLeaves threeLeaves_wellFormed 2
      (SplitNode 20 3 0 1 2 (InsertNode 20 0 0 2 1 (LeafNode 1 0 3 0 [(10, [0])])))
      rfl rfl (by decide) (by decide)
  obtain ⟨nq, hq1, _, hq3⟩ := h10 (by decide)
  refine ⟨t', s, np, ns, nq, h1, h3, h5, hq1, h7, h8, h9, hq3, h11 (Or.inr ?_)⟩
  exact ⟨SeparatorNode 20 none 3 1 2 2 (SeparatorNode 10 none 2 1 1 1
    (InnerNode NULL_PID 1 NULL_PID 0 [])), rfl, by decide⟩

/-- C24 (the code where the claim fails): under the thresholds with `δ_chain = 1`,
`SplitLeaf` on the full leaf PID 0 of the index after the inserts of the keys 10
and 20 publishes the separator delta on the parent PID 1, the delta reports the
parent full and the parent is split: at the return the base of PID 0 has the parent
PID 1 and the chain head of PID 1 is a split delta, not a separator delta. -/
theorem parent_head_is_split_delta_after_cascade :
    (splitReady.bind (fun t => SplitLeaf cascadeConfig t 0)).map (fun t' =>
        ((GetNode t' 0).bind Node.asSplit,
         (GetNode t' 0).map (fun n => n.GetBaseNode.GetParent))) =
      some (some (10, 3, 0), some 1) ∧
    (splitReady.bind (fun t => SplitLeaf cascadeConfig t 0)).map (fun t' =>
        (GetNode t' 1).map Node.asSeparator) = some (some none) ∧
    (splitReady.bind (fun t => SplitLeaf cascadeConfig t 0)).map (fun t' =>
        (GetNode t' 1).bind Node.asSplit) = some (some (10, 5, 0)) :=
  ⟨by decide, by decide, by decide⟩

/-- C24 (amended): on a well-formed index, `SplitLeaf` on a full leaf `p` that holds
a slot and `SplitInner` on a full inner node `p` with a separator return.  After the
root growth (`t1`) and the publication of the split delta with split key `sk` and
sibling `s` (`t2`), the separator delta `d` published on the parent of `p` has left
key `sk`, right key `FindUpperKey (parent, sk)` (the first separator of the parent
above `sk`), child `s`, the previous head of the parent as base, the level of the
parent and the size of the parent plus one.  When `d` does not report the parent
full, which is the case when `p` was the root, `d` is the chain head of the parent
of `p` at the return. -/
theorem separator_delta_on_parent (cfg : Config) (hcfg : cfg.Admissible) (t : BWTree K V)
    (hwf : WellFormed t) (p : PID) (n r : Node K V) (hn : GetNode t p = some n)
    (hr : GetNode t t.m_root = some r) :
    (n.IsLeaf = true → GetAllData n ≠ [] → cfg.IsLeafFull n.GetSize n.GetLength = true →
      ∃ (t1 t2 t' : BWTree K V) (n1 parent d : Node K V) (s : PID) (sk : K),
        GrowRoot t p (fun _ => 1) = some t1 ∧ GetNode t1 p = some n1 ∧
        SplitLeafAt t1 p n1 = some (t2, s, sk) ∧
        GetNode t2 n1.GetBaseNode.GetParent = some parent ∧
        d = SeparatorNode sk (FindUpperKey t2 n1.GetBaseNode.GetParent sk) s parent.GetLevel
          (1 + parent.GetSize) (nextLength parent) parent ∧
        FindUpperKey t2 n1.GetBaseNode.GetParent sk = upperKey sk (GetAllPointer parent).2 ∧
        InstallSeparator t2 n1.GetBaseNode.GetParent sk s =
          some (t2.Update n1.GetBaseNode.GetParent d, d) ∧
        SplitLeaf cfg t p = some t' ∧
        (t.m_root = p → cfg.IsInnerFull d.GetSize d.GetLength = false) ∧
        (cfg.IsInnerFull d.GetSize d.GetLength = false →
          GetNode t' n1.GetBaseNode.GetParent = some d ∧
          ∃ np, GetNode t' p = some np ∧
            np.GetBaseNode.GetParent = n1.GetBaseNode.GetParent)) ∧
    (n.IsLeaf = false → (GetAllPointer n).2 ≠ [] →
      cfg.IsInnerFull n.GetSize n.GetLength = true →
      ∃ (t1 t2 t' : BWTree K V) (n1 parent d : Node K V) (s : PID) (sk : K),
        GrowRoot t p (fun b => b.GetLevel + 1) = some t1 ∧ GetNode t1 p = some n1 ∧
        SplitInnerAt t1 p n1 = some (t2, s, sk) ∧
        GetNode t2 n1.GetBaseNode.GetParent = some parent ∧
        d = SeparatorNode sk (FindUpperKey t2 n1.GetBaseNode.GetParent sk) s parent.GetLevel
          (1 + parent.GetSize) (nextLength parent) parent ∧
        FindUpperKey t2 n1.GetBaseNode.GetParent sk = upperKey sk (GetAllPointer parent).2 ∧
        InstallSeparator t2 n1.GetBaseNode.GetParent sk s =
          some (t2.Update n1.GetBaseNode.GetParent d, d) ∧
        SplitInner cfg (r.GetLevel + 1) t p = some t' ∧
        (t.m_root = p → cfg.IsInnerFull d.GetSize d.GetLength = false) ∧
        (cfg.IsInnerFull d.GetSize d.GetLength = false →
          GetNode t' n1.GetBaseNode.GetParent = some d ∧
          ∃ np, GetNode t' p = some np ∧
            np.GetBaseNode.GetParent = n1.GetBaseNode.GetParent)) := by
  obtain ⟨g, m, hI, hB, hS, hok⟩ := hwf.inv hn
  constructor
  · intro hleaf hdata hfull
    have hl : g.lvl p = 0 := by rw [← hok.level]; exact (Node.IsLeaf_iff n).mp hleaf
    obtain ⟨t1, t2, t', n1, nP, d, s0, hgrow, _, _, hn1, hsame, _, _, _, hfresh1, _, hat, _, hmp,
      _, _, _, _, _, hnP1, hnP, hnPlev, hdeq, hs', _, hnc, hrootfull, _, _⟩ :=
      SplitLeaf_steps hcfg hI hB hS hn hl hdata hfull
    have hup : FindUpperKey t2 n1.GetBaseNode.GetParent s0.1 =
        upperKey s0.1 (GetAllPointer nP).2 := by
      simp only [FindUpperKey, GetNode, hnP]
    refine ⟨t1, t2, t', n1, nP, d, t1.next_pid, s0.1, hgrow, hn1, hat, hnP, hdeq, hup, ?_,
      hs', hrootfull, fun hnf => ?_⟩
    · rw [hdeq]
      simp only [InstallSeparator, GetNode, hnP]
    · have e3 := hnc hnf
      have hPp : p ≠ n1.GetBaseNode.GetParent := by
        intro e
        rw [← e, hmp] at hnP
        rw [← Option.some.inj hnP] at hnPlev
        have h0 : n1.GetLevel = 0 := by
          rw [hsame.level, hok.level]; exact hl
        have : (SplitNode s0.1 (t1.next_pid : Int) n1.GetLevel ((GetAllData n1).length / 2)
          (nextLength n1) (n1.SetNext t1.next_pid)).GetLevel = n1.GetLevel := rfl
        omega
      rw [e3]
      have hp' : GetNode (t2.Update n1.GetBaseNode.GetParent d) p = t2.mapping_table p := by
        show (t2.Update n1.GetBaseNode.GetParent d).mapping_table p = _
        simp only [BWTree.Update, if_neg hPp]
      rw [hmp] at hp'
      exact ⟨by simp [GetNode, BWTree.Update], _, hp', Node.baseParent_SetNext _ _⟩
  · intro hinner htable hfull
    have hl : g.lvl p ≠ 0 := by
      rw [← hok.level]; exact (Node.IsLeaf_false_iff n).mp hinner
    have hne : (g.tbl p).2 ≠ [] := by rw [← hok.table hl]; exact htable
    have hf : g.lvl t.m_root < g.lvl p + (r.GetLevel + 1) := by
      rw [← (hI.node hr).level]; omega
    obtain ⟨t1, t2, t', n1, nP, d, e, hgrow, _, _, hn1, hsame, _, _, _, hfresh1, hat, _, hmp,
      _, _, _, _, hnP1, hnP, hnPlev, hdeq, hs', _, hnc, hrootfull, _⟩ :=
      SplitInner_steps hcfg r.GetLevel hI hB hS hn hl hne hf hfull
    have hup : FindUpperKey t2 n1.GetBaseNode.GetParent e.1 =
        upperKey e.1 (GetAllPointer nP).2 := by
      simp only [FindUpperKey, GetNode, hnP]
    refine ⟨t1, t2, t', n1, nP, d, t1.next_pid, e.1, hgrow, hn1, hat, hnP, hdeq, hup, ?_,
      hs', hrootfull, fun hnf => ?_⟩
    · rw [hdeq]
      simp only [InstallSeparator, GetNode, hnP]
    · have e3 := hnc hnf
      have hPp : p ≠ n1.GetBaseNode.GetParent := by
        intro e'
        rw [← e', hmp] at hnP
        rw [← Option.some.inj hnP] at hnPlev
        have h0 : n1.GetLevel = n.GetLevel := hsame.level
        have : (SplitNode e.1 (t1.next_pid : Int) n1.GetLevel
          (((GetAllPointer n1).2.length + 1) / 2 - 1)
          (nextLength n1) (n1.SetNext t1.next_pid)).GetLevel = n1.GetLevel := rfl
        omega
      rw [e3]
      have hp' : GetNode (t2.Update n1.GetBaseNode.GetParent d) p = t2.mapping_table p := by
        show (t2.Update n1.GetBaseNode.GetParent d).mapping_table p = _
        simp only [BWTree.Update, if_neg hPp]
      rw [hmp] at hp'
      exact ⟨by simp [GetNode, BWTree.Update], _, hp', Node.baseParent_SetNext _ _⟩

/-- Witness of C24: the root PID 1 of three leaves, an inner node under two
separator deltas, full under the thresholds with `δ_chain = 1`. -/
theorem separator_delta_on_parent_witness :
    cascadeConfig.Admissible ∧ WellFormed threeLeaves ∧
    ∃ (t' : BWTree Int Nat) (np d : Node Int Nat),
      SplitInner cascadeConfig 2 threeLeaves 1 = some t' ∧ GetNode t' 1 = some np ∧
      GetNode t' np.GetBaseNode.GetParent = some d ∧ d.asSeparator.isSome = true := by
  refine ⟨cascadeConfig_admissible, threeLeaves_wellFormed, ?_⟩
  obtain ⟨t1, t2, t', n1, parent, d, s, sk, _, _, _, _, h5, _, _, h8, h9, h10⟩ :=
    (separator_delta_on_parent cascadeConfig cascadeConfig_admissible threeLeaves
      threeLeaves_wellFormed 1
      (SeparatorNode 20 none 3 1 2 2 (SeparatorNode 10 none 2 1 1 1
        (InnerNode NULL_PID 1 NULL_PID 0 [])))
      (SeparatorNode 20 none 3 1 2 2 (SeparatorNode 10 none 2 1 1 1
        (InnerNode NULL_PID 1 NULL_PID 0 [])))
      rfl rfl).2 rfl (by decide) (by decide)
  obtain ⟨h11, np, h12, h13⟩ := h10 (h9 rfl)
  refine ⟨t', np, d, h8, h12, by rw [h13]; exact h11, ?_⟩
  rw [h5]
  rfl

/-- C25: on a well-formed index whose root is `p`, `SplitLeaf` on the full leaf `p`
that holds a slot and `SplitInner` on the full inner node `p` with a separator
return; the root is then the PID `next_pid` of the index before the call, which had
no node and is not `p`; the chain head of the new root is the separator delta of
the split (its left key and child are the split key and the sibling of the split
delta on `p`), directly over the new inner base `AllocateInner` with `p` as only
child; the parent of the base of `p` is the new root. -/
theorem split_of_root_grows_root (cfg : Config) (hcfg : cfg.Admissible) (t : BWTree K V)
    (hwf : WellFormed t) (p : PID) (n : Node K V) (hn : GetNode t p = some n)
    (hroot : t.m_root = p) :
    (n.IsLeaf = true → GetAllData n ≠ [] → cfg.IsLeafFull n.GetSize n.GetLength = true →
      ∃ (t' : BWTree K V) (d np : Node K V) (sk : K) (s : PID),
        SplitLeaf cfg t p = some t' ∧ GetNode t t.next_pid = none ∧
        t'.m_root = t.next_pid ∧ t'.m_root ≠ p ∧ t'.m_root ≠ NULL_PID ∧
        GetNode t' t'.m_root = some d ∧ d.GetBase = AllocateInner 1 p ∧
        childPIDs d.GetBase = [p] ∧
        GetNode t' p = some np ∧ np.GetBaseNode.GetParent = t'.m_root ∧
        np.asSplit.map (fun x => (x.1, x.2.1)) = some (sk, s) ∧
        d.asSeparator.map (fun x => (x.1, x.2.2)) = some (sk, s)) ∧
    (n.IsLeaf = false → (GetAllPointer n).2 ≠ [] →
      cfg.IsInnerFull n.GetSize n.GetLength = true →
      ∃ (t' : BWTree K V) (d np : Node K V) (sk : K) (s : PID),
        (∀ fuel : Nat, 0 < fuel → SplitInner cfg fuel t p = some t') ∧
        GetNode t t.next_pid = none ∧
        t'.m_root = t.next_pid ∧ t'.m_root ≠ p ∧ t'.m_root ≠ NULL_PID ∧
        GetNode t' t'.m_root = some d ∧
        d.GetBase = AllocateInner (n.GetBaseNode.GetLevel + 1) p ∧
        childPIDs d.GetBase = [p] ∧
        GetNode t' p = some np ∧ np.GetBaseNode.GetParent = t'.m_root ∧
        np.asSplit.map (fun x => (x.1, x.2.1)) = some (sk, s) ∧
        d.asSeparator.map (fun x => (x.1, x.2.2)) = some (sk, s)) := by
  obtain ⟨g, m, hI, hB, hS, hok⟩ := hwf.inv hn
  obtain ⟨hp0, hp1⟩ := hI.alloc p n hn
  have hNp : (t.next_pid : Int) ≠ p := Ne.symm (ne_of_lt hp1)
  have hNnull : (t.next_pid : Int) ≠ NULL_PID := ne_NULL_of_nonneg (Int.ofNat_nonneg _)
  constructor
  · intro hleaf hdata hfull
    have hl : g.lvl p = 0 := by rw [← hok.level]; exact (Node.IsLeaf_iff n).mp hleaf
    obtain ⟨t1, t2, t', n1, nP, d, s0, _, _, hr, _, _, _, _, _, _, _, _, hroot2, hmp,
      _, _, _, _, _, _, _, _, hdeq, hs', _, hnc, hrootfull, _, _⟩ :=
      SplitLeaf_steps hcfg hI hB hS hn hl hdata hfull
    obtain ⟨a1, _, a3, a4⟩ := hr hroot
    have hP : n1.GetBaseNode.GetParent = t.next_pid := by
      rw [a3, Node.baseParent_SetParent]
    have e3 := hnc (hrootfull hroot)
    rw [hP] at e3 hdeq
    have hrt : t'.m_root = t.next_pid := by
      rw [e3]
      show t2.m_root = _
      rw [hroot2, a1]
    have hd : GetNode t' (t.next_pid : Int) = some d := by
      rw [e3]; simp [GetNode, BWTree.Update]
    have hp' : GetNode t' p = t2.mapping_table p := by
      rw [e3]
      show (t2.Update (t.next_pid : Int) d).mapping_table p = _
      simp only [BWTree.Update, if_neg (Ne.symm hNp)]
    rw [hmp] at hp'
    refine ⟨t', d, _, s0.1, t1.next_pid, hs', hI.fresh, hrt, by rw [hrt]; exact hNp,
      by rw [hrt]; exact hNnull, by rw [hrt]; exact hd, ?_, ?_, hp', ?_, rfl, ?_⟩
    · rw [hdeq, a4]; rfl
    · rw [hdeq, a4]; rfl
    · show (n1.SetNext t1.next_pid).GetBaseNode.GetParent = _
      rw [Node.baseParent_SetNext, hP, hrt]
    · rw [hdeq]; rfl
  · intro hinner htable hfull
    have hl : g.lvl p ≠ 0 := by
      rw [← hok.level]; exact (Node.IsLeaf_false_iff n).mp hinner
    have hne : (g.tbl p).2 ≠ [] := by rw [← hok.table hl]; exact htable
    have hf : g.lvl t.m_root < g.lvl p + (0 + 1) := by
      rw [hroot]; omega
    obtain ⟨t1, t2, t', n1, nP, d, e, _, _, hr, _, _, _, _, _, _, _, hroot2, hmp,
      _, _, _, _, _, _, _, hdeq, hs', _, hnc, hrootfull, _⟩ :=
      SplitInner_steps hcfg 0 hI hB hS hn hl hne hf hfull
    obtain ⟨a1, _, a3, a4⟩ := hr hroot
    have hP : n1.GetBaseNode.GetParent = t.next_pid := by
      rw [a3, Node.baseParent_SetParent]
    have e3 := hnc (hrootfull hroot)
    rw [hP] at e3 hdeq
    have hrt : t'.m_root = t.next_pid := by
      rw [e3]
      show t2.m_root = _
      rw [hroot2, a1]
    have hd : GetNode t' (t.next_pid : Int) = some d := by
      rw [e3]; simp [GetNode, BWTree.Update]
    have hp' : GetNode t' p = t2.mapping_table p := by
      rw [e3]
      show (t2.Update (t.next_pid : Int) d).mapping_table p = _
      simp only [BWTree.Update, if_neg (Ne.symm hNp)]
    rw [hmp] at hp'
    refine ⟨t', d, _, e.1, t1.next_pid, fun fuel hfuel => SplitInner_fuel_le cfg hfuel hs',
      hI.fresh, hrt, by rw [hrt]; exact hNp, by rw [hrt]; exact hNnull,
      by rw [hrt]; exact hd, ?_, ?_, hp', ?_, rfl, ?_⟩
    · rw [hdeq, a4]; rfl
    · rw [hdeq, a4]; rfl
    · show (n1.SetNext t1.next_pid).GetBaseNode.GetParent = _
      rw [Node.baseParent_SetNext, hP, hrt]
    · rw [hdeq]; rfl

/-- Witness of C25: the root leaf with the keys 10 and 20, full under the thresholds
with `δ_chain = 1`. -/
theorem split_of_root_grows_root_witness :
    cascadeConfig.Admissible ∧ WellFormed twoKeyLeaf ∧ twoKeyLeaf.m_root = 0 ∧
    ∃ (t' : BWTree Int Nat) (d np : Node Int Nat),
      SplitLeaf cascadeConfig twoKeyLeaf 0 = some t' ∧ t'.m_root = 1 ∧
      GetNode t' 1 = some d ∧ d.GetBase = AllocateInner 1 0 ∧
      GetNode t' 0 = some np ∧ np.GetBaseNode.GetParent = 1 := by
  refine ⟨cascadeConfig_admissible, twoKeyLeaf_wellFormed, rfl, ?_⟩
  obtain ⟨t', d, np, sk, s, h1, _, h3, _, _, h6, h7, _, h9, h10, _⟩ :=
    (split_of_root_grows_root cascadeConfig cascadeConfig_admissible twoKeyLeaf
      twoKeyLeaf_wellFormed 0
      (InsertNode 20 0 0 2 2 (InsertNode 10 0 0 1 1 (LeafNode NULL_PID 0 NULL_PID NULL_PID [])))
      rfl rfl).1 rfl (by decide) (by decide)
  have e : t'.m_root = 1 := h3
  rw [e] at h6 h10
  exact ⟨t', d, np, h1, e, h6, h7, h9, h10⟩

/-- C29: on a well-formed index with root node `r`, `SplitInner` on a full inner
node `p` with a separator returns (with fuel for the levels up to the root) and
creates the inner sibling `s`, a new base node named by the split delta on `p`.
Every child PID stored in `s` (its leftmost child and the child of each of its
slots) has a node whose base has `s` as parent.  Every child PID that remains in
`p` was a child of `p`, is no child of `s`, and has the node it had before the
call, so its parent is unchanged. -/
theorem SplitInner_children_parents (cfg : Config) (hcfg : cfg.Admissible) (t : BWTree K V)
    (hwf : WellFormed t) (p : PID) (n r : Node K V) (hn : GetNode t p = some n)
    (hr : GetNode t t.m_root = some r) (hinner : n.IsLeaf = false)
    (htable : (GetAllPointer n).2 ≠ [])
    (hfull : cfg.IsInnerFull n.GetSize n.GetLength = true) :
    ∃ (t' : BWTree K V) (s : PID) (np ns : Node K V),
      SplitInner cfg (r.GetLevel + 1) t p = some t' ∧ GetNode t s = none ∧
      GetNode t' p = some np ∧ np.asSplit.map (fun x => x.2.1) = some s ∧
      GetNode t' s = some ns ∧ ns.IsLeaf = false ∧ ns.IsDelta = false ∧
      (∀ c ∈ childPIDs ns, ∃ nc, GetNode t' c = some nc ∧ nc.GetBaseNode.GetParent = s) ∧
      (∀ c ∈ childPIDs np, c ∈ childPIDs n ∧ c ∉ childPIDs ns ∧
        ∃ nc, GetNode t c = some nc ∧ GetNode t' c = some nc) := by
  obtain ⟨g, m, hI, hB, hS, hok⟩ := hwf.inv hn
  obtain ⟨m', hM⟩ := hwf
  have hl : g.lvl p ≠ 0 := by
    rw [← hok.level]; exact (Node.IsLeaf_false_iff n).mp hinner
  have hne : (g.tbl p).2 ≠ [] := by rw [← hok.table hl]; exact htable
  have hf : g.lvl t.m_root < g.lvl p + (r.GetLevel + 1) := by
    rw [← (hI.node hr).level]; omega
  have hkids : ∀ c ∈ childPIDs n, ∃ nc, t.mapping_table c = some nc ∧
      nc.GetLevel + 1 = n.GetLevel := by
    intro c hc
    obtain ⟨l, h, hm⟩ := childBounds_of_pid (GetAllPointer n).1 none (GetAllPointer n).2 none hc
    obtain ⟨nc, a1, a2, _⟩ := (Models_shape hM hn).2.2 hinner c l h hm
    exact ⟨nc, a1, a2⟩
  obtain ⟨t', s, np, ns, h1, h2, h3, h4, h5, h6, h7, h8, h9⟩ :=
    SplitInner_children hcfg r.GetLevel hI hB hS hn hl hne hf hfull hkids
  refine ⟨t', s, np, ns, h1, h2, h3, h4, h5, ?_, h7, h8, h9⟩
  rw [Node.IsLeaf_false_iff, h6, hok.level]
  exact hl

/-- Witness of C29: the root PID 1 of three leaves, an inner node under two
separator deltas, full under the thresholds with `δ_chain = 1`. -/
theorem SplitInner_children_parents_witness :
    cascadeConfig.Admissible ∧ WellFormed threeLeaves ∧
    ∃ (t' : BWTree Int Nat) (s : PID) (np ns : Node Int Nat),
      SplitInner cascadeConfig 2 threeLeaves 1 = some t' ∧
      GetNode t' 1 = some np ∧ GetNode t' s = some ns ∧
      (∀ c ∈ childPIDs ns, ∃ nc, GetNode t' c = some nc ∧ nc.GetBaseNode.GetParent = s) ∧
      (∀ c ∈ childPIDs np, ∃ nc, GetNode threeLeaves c = some nc ∧
        GetNode t' c = some nc) := by
  refine ⟨cascadeConfig_admissible, threeLeaves_wellFormed, ?_⟩
  obtain ⟨t', s, np, ns, h1, _, h3, _, h5, _, _, h8, h9⟩ :=
    SplitInner_children_parents cascadeConfig cascadeConfig_admissible threeLeaves
      threeLeaves_wellFormed 1
      (SeparatorNode 20 none 3 1 2 2 (SeparatorNode 10 none 2 1 1 1
        (InnerNode NULL_PID 1 NULL_PID 0 [])))
      (SeparatorNode 20 none 3 1 2 2 (SeparatorNode 10 none 2 1 1 1
        (InnerNode NULL_PID 1 NULL_PID 0 [])))
      rfl rfl rfl (by decide) (by decide)
  exact ⟨t', s, np, ns, h1, h3, h5, h8, fun c hc => (h9 c hc).2.2⟩

/-- C30: on a well-formed index with root node `r`, whose level is the height of
the index (no node has a higher level), `SplitLeaf` on a leaf `p` that holds a slot
returns a well-formed index; when the separator delta reports the parent full, the
cascade of `SplitInner` on the parent returns that index with any fuel from the
level of the root on, one activation per level above the leaves.  `SplitInner` on
an inner node `p` with a separator returns one well-formed index with any fuel
above the number of levels from `p` to the root: one activation per level from `p`
to the root, the last one on a root that grows. -/
theorem splits_terminate (cfg : Config) (hcfg : cfg.Admissible) (t : BWTree K V)
    (hwf : WellFormed t) (p : PID) (n r : Node K V) (hn : GetNode t p = some n)
    (hr : GetNode t t.m_root = some r) :
    n.GetLevel ≤ r.GetLevel ∧
    (n.IsLeaf = true → GetAllData n ≠ [] →
      ∃ t', SplitLeaf cfg t p = some t' ∧ WellFormed t' ∧
        (cfg.IsLeafFull n.GetSize n.GetLength = true →
          ∃ (t1 t2 t3 : BWTree K V) (n1 d : Node K V) (s : PID) (sk : K),
            GrowRoot t p (fun _ => 1) = some t1 ∧ GetNode t1 p = some n1 ∧
            SplitLeafAt t1 p n1 = some (t2, s, sk) ∧
            InstallSeparator t2 n1.GetBaseNode.GetParent sk s = some (t3, d) ∧
            (cfg.IsInnerFull d.GetSize d.GetLength = false → t' = t3) ∧
            (cfg.IsInnerFull d.GetSize d.GetLength = true → ∀ fuel : Nat, r.GetLevel ≤ fuel →
              SplitInner cfg fuel t3 n1.GetBaseNode.GetParent = some t'))) ∧
    (n.IsLeaf = false → (GetAllPointer n).2 ≠ [] →
      ∃ t', WellFormed t' ∧
        ∀ fuel : Nat, r.GetLevel < n.GetLevel + fuel → SplitInner cfg fuel t p = some t') := by
  obtain ⟨g, m, hI, hB, hS, hok⟩ := hwf.inv hn
  obtain ⟨hp0, hp1⟩ := hI.alloc p n hn
  have hrl : r.GetLevel = g.lvl t.m_root := (hI.node hr).level
  refine ⟨?_, ?_, ?_⟩
  · rw [hrl, hok.level]
    exact hI.ghost.lvl_root p hp0 hp1
  · intro hleaf hdata
    have hl : g.lvl p = 0 := by rw [← hok.level]; exact (Node.IsLeaf_iff n).mp hleaf
    obtain ⟨t', g', h1, hI', hB', hS'⟩ := SplitLeaf_models hcfg hI hB hS hn hl hdata
    refine ⟨t', h1, WellFormed.of_inv hI' hB' hS', fun hfull => ?_⟩
    obtain ⟨t1, t2, t'', n1, nP, d, s0, hgrow, _, _, hn1, _, _, _, _, _, _, hat, _, _,
      _, _, _, _, _, _, hnP, _, hdeq, hs', _, hnc, _, _, hcas⟩ :=
      SplitLeaf_steps hcfg hI hB hS hn hl hdata hfull
    have e : t'' = t' := by
      rw [h1] at hs'
      exact (Option.some.inj hs').symm
    rw [e] at hnc hcas
    refine ⟨t1, t2, t2.Update n1.GetBaseNode.GetParent d, n1, d, t1.next_pid, s0.1, hgrow, hn1,
      hat, ?_, hnc, fun hfd fuel hle => hcas hfd fuel (by rw [← hrl]; exact hle)⟩
    rw [hdeq]
    simp only [InstallSeparator, GetNode, hnP]
  · intro hinner htable
    have hl : g.lvl p ≠ 0 := by
      rw [← hok.level]; exact (Node.IsLeaf_false_iff n).mp hinner
    have hne : (g.tbl p).2 ≠ [] := by rw [← hok.table hl]; exact htable
    obtain ⟨t', g', h1, hI', hB', hS'⟩ := SplitInner_models hcfg (r.GetLevel + 1) hI hB hS hn
      hl hne (by rw [hrl]; omega)
    refine ⟨t', WellFormed.of_inv hI' hB' hS', fun fuel hfuel => ?_⟩
    obtain ⟨t'', g'', h2, _⟩ := SplitInner_models hcfg fuel hI hB hS hn hl hne
      (by rw [← hrl, ← hok.level]; exact hfuel)
    rw [SplitInner_fuel_unique cfg h1 h2]
    exact h2

/-- Witness of C30: the middle leaf PID 2 of three leaves under the root PID 1; under
the thresholds with `δ_chain = 1` the leaf is full and its separator delta reports
the root full, so the cascade splits the root. -/
theorem splits_terminate_witness :
    cascadeConfig.Admissible ∧ WellFormed threeLeaves ∧
    ∃ t', SplitLeaf cascadeConfig threeLeaves 2 = some t' ∧ WellFormed t' := by
  refine ⟨cascadeConfig_admissible, threeLeaves_wellFormed, ?_⟩
  obtain ⟨t', h1, h2, _⟩ :=
    (splits_terminate cascadeConfig cascadeConfig_admissible threeLeaves
      threeLeaves_wellFormed 2
      (SplitNode 20 3 0 1 2 (InsertNode 20 0 0 2 1 (LeafNode 1 0 3 0 [(10, [0])])))
      (SeparatorNode 20 none 3 1 2 2 (SeparatorNode 10 none 2 1 1 1
        (InnerNode NULL_PID 1 NULL_PID 0 [])))
      rfl rfl).2.1 rfl (by decide)
  exact ⟨t', h1, h2⟩

end Claims4
/-! ## Claims on the chain length, the reads, the frame of the writers, the inner
split and the table registry -/

section Claims5

variable {K V : Type} [LinearOrder K] [DecidableEq V]

/-- C31 (the code at the failing inputs): under the default thresholds a leaf is
full from chain length 9 on (`δ_chain = 8`).  On the empty index nine calls of
`DeleteKey (100)`, nine calls of `DeleteData ((100, 0))`, an insert of `(100, 0)`
followed by nine calls of `UpdateData ((100, 1))`, and the inserts of the keys
1 .. 9 (the last one splits the leaf) leave the leaf PID 0 with a chain of 9, 9,
10 and 10 deltas. -/
theorem leaf_chain_longer_than_threshold :
    (defaultConfig.IsLeafFull 0 8 = false ∧ defaultConfig.IsLeafFull 0 9 = true) ∧
    (runOps defaultConfig (BWTree.empty : BWTree Int Nat)
        (List.replicate 9 (Op.deleteKey 100))).map
      (fun t => (GetNode t 0).map (fun n => (n.IsLeaf, n.GetLength, n.deltaCount))) =
      some (some (true, 9, 9)) ∧
    (runOps defaultConfig (BWTree.empty : BWTree Int Nat)
        (List.replicate 9 (Op.deleteData (100, 0)))).map
      (fun t => (GetNode t 0).map (fun n => (n.IsLeaf, n.GetLength, n.deltaCount))) =
      some (some (true, 9, 9)) ∧
    (runOps defaultConfig (BWTree.empty : BWTree Int Nat)
        (Op.insert (100, 0) :: List.replicate 9 (Op.update (100, 1)))).map
      (fun t => (GetNode t 0).map (fun n => (n.IsLeaf, n.GetLength, n.deltaCount))) =
      some (some (true, 10, 10)) ∧
    (runOps defaultConfig (BWTree.empty : BWTree Int Nat)
        ((keysUpTo 9).map Op.insert)).map
      (fun t => (GetNode t 0).map (fun n => (n.IsLeaf, n.GetLength, n.deltaCount))) =
      some (some (true, 10, 10)) :=
  ⟨⟨by decide, by decide⟩, by decide, by decide, by decide, by decide⟩

/-- C32: on a well-formed index `Search` returns for every key.  In every index
state, when `Search (key)` returns, every pair of the result has the key as first
component; on an index without root (`GetLeafNodePID` negative) the result is
empty, else the result is the expansion, slot by slot and value by value, of the
slots of the materialized content of the located leaf whose key equals the key. -/
theorem Search_returns_pairs_of_key (t : BWTree K V) (hwf : WellFormed t) (key : K) :
    (∃ r, Search t key = some r) ∧
    ∀ (t0 : BWTree K V) (r0 : List (K × V)), Search t0 key = some r0 →
      (∀ x ∈ r0, x.1 = key) ∧
      ∃ p : PID, GetLeafNodePID t0 key = some p ∧ (p < 0 → r0 = []) ∧
        (0 ≤ p → ∃ leaf, GetNode t0 p = some leaf ∧
          r0 = expandSlots ((GetAllData leaf).filter (fun s => decide (key = s.1)))) := by
  constructor
  · obtain ⟨m, hM⟩ := hwf
    exact ⟨m key, Search_models hM key⟩
  · intro t0 r0 h
    unfold Search at h
    cases hp : GetLeafNodePID t0 key with
    | none => rw [hp] at h; cases h
    | some p =>
      rw [hp] at h
      simp only at h
      by_cases hneg : p < 0
      · rw [if_pos hneg] at h
        have e : r0 = [] := (Option.some.inj h).symm
        refine ⟨?_, p, rfl, fun _ => e, fun h0 => absurd hneg (not_lt.mpr h0)⟩
        rw [e]
        intro x hx
        cases hx
      · rw [if_neg hneg] at h
        cases hl : GetNode t0 p with
        | none => rw [hl] at h; cases h
        | some leaf =>
          rw [hl] at h
          have e : r0 = matchSlots (GetAllData leaf) key := (Option.some.inj h).symm
          refine ⟨?_, p, rfl, fun h0 => absurd h0 hneg, fun _ => ⟨leaf, hl, e⟩⟩
          intro x hx
          rw [e] at hx
          exact mem_matchSlots hx

/-- Witness of C32: key 100 in the root leaf that holds the pair `(100, 7)`. -/
theorem Search_returns_pairs_of_key_witness :
    WellFormed rootLeafTree ∧ Search rootLeafTree (100 : Int) = some [(100, 7)] ∧
    ∀ x ∈ [((100 : Int), (7 : Nat))], x.1 = 100 :=
  ⟨rootLeafTree_wellFormed, rfl,
    ((Search_returns_pairs_of_key rootLeafTree rootLeafTree_wellFormed (100 : Int)).2
      rootLeafTree [(100, 7)] rfl).1⟩

/-- C33: on a well-formed index with a root the four writers locate the same leaf
`p` with head `h` for the key of a pair.  `UpdateData` on a key that `h` does not
contain returns the index as it is.  Each of `DeleteKey`, `DeleteData`, `UpdateData`
on a key that `h` contains, and `InsertData` when its delta does not report the
leaf full, returns an index where `p` has a new delta whose base is the old head
`h`, so the entry of `p` is changed, and where `m_root`, `m_headleaf`, `m_tailleaf`
and the entry of every other PID are the same. -/
theorem writers_change_one_entry (cfg : Config) (t : BWTree K V) (hwf : WellFormed t)
    (hroot : t.m_root ≠ NULL_PID) (x : K × V) :
    ∃ (p : PID) (h : Node K V),
      locateLeaf t x.1 = some p ∧ locateInsert t x.1 = some p ∧
      GetNode t p = some h ∧ h.IsLeaf = true ∧
      (LeafContainsKey h x.1 = false → UpdateData t x = some t) ∧
      ∀ res ∈ [DeleteKey t x.1, DeleteData t x] ++
          (if LeafContainsKey h x.1 = true then [UpdateData t x] else []) ++
          (if cfg.IsLeafFull ((if LeafContainsKey h x.1 = true then 0 else 1) + h.GetSize)
              (nextLength h) = false then [InsertData cfg t x] else []),
        ∃ (t' : BWTree K V) (d : Node K V),
          res = some t' ∧ GetNode t' p = some d ∧ d.IsDelta = true ∧ d.GetBase = h ∧
          GetNode t' p ≠ GetNode t p ∧
          t'.m_root = t.m_root ∧ t'.m_headleaf = t.m_headleaf ∧
          t'.m_tailleaf = t.m_tailleaf ∧
          ∀ q : PID, q ≠ p → GetNode t' q = GetNode t q := by
  have hE : EnsureRoot t = t := EnsureRoot_of_root hroot
  obtain ⟨m, hM⟩ := hwf
  rcases hM with ⟨hr, _, _, _, _⟩ | ⟨g, hI, _, _⟩
  · exact absurd hr hroot
  · obtain ⟨p, h, hd, hn, hok, hp0, hl, _, hhi⟩ := descend_root hI x.1
    have hr : isInRange h x.1 = true := hok.inRange hl x.1 hhi
    have hloc : (descend t x.1 t.fuel t.m_root).bind (walkLeaf t x.1 t.fuel) = some p := by
      rw [hd]; exact walkLeaf_inRange hn hr
    have hlocI : (descend t x.1 t.fuel t.m_root).bind (walkInsert t x.1 t.fuel) = some p := by
      rw [hd]; exact walkInsert_inRange hn hr
    have key : ∀ d : Node K V, d.GetBase = h → d.IsDelta = true →
        d.GetLength = nextLength h →
        ∃ (t' : BWTree K V) (d' : Node K V),
          some (t.Update p d) = some t' ∧ GetNode t' p = some d' ∧ d'.IsDelta = true ∧
          d'.GetBase = h ∧ GetNode t' p ≠ GetNode t p ∧
          t'.m_root = t.m_root ∧ t'.m_headleaf = t.m_headleaf ∧
          t'.m_tailleaf = t.m_tailleaf ∧
          ∀ q : PID, q ≠ p → GetNode t' q = GetNode t q := by
      intro d hb hdel hlen
      have hp' : GetNode (t.Update p d) p = some d := by simp [GetNode, BWTree.Update]
      refine ⟨t.Update p d, d, rfl, hp', hdel, hb, ?_, rfl, rfl, rfl, fun q hq => ?_⟩
      · rw [hp']
        intro e
        have hn' : GetNode t p = some h := hn
        rw [hn'] at e
        have e2 : d = h := Option.some.inj e
        rw [e2, nextLength_eq] at hlen
        omega
      · simp [GetNode, BWTree.Update, hq]
    refine ⟨p, h, hloc, hlocI, hn, ?_, ?_, ?_⟩
    · rw [Node.IsLeaf_iff, hok.level]; exact hl
    · intro hc
      simp only [UpdateData, hE, hloc, GetNode, hn, hc, if_true]
    · intro res hres
      rw [List.mem_append, List.mem_append] at hres
      rcases hres with (hres | hres) | hres
      · rcases List.mem_cons.mp hres with e | hres
        · rw [e]
          have e1 : DeleteKey t x.1 =
              some (t.Update p (DeleteNode x.1 none h.GetLevel h.GetSize (nextLength h) h)) := by
            simp only [DeleteKey, hE, hloc, GetNode, hn]
          rw [e1]
          exact key (DeleteNode x.1 none h.GetLevel h.GetSize (nextLength h) h) rfl rfl rfl
        · rw [List.mem_singleton] at hres
          rw [hres]
          have e1 : DeleteData t x = some (t.Update p
              (DeleteNode x.1 (some x.2) h.GetLevel h.GetSize (nextLength h) h)) := by
            simp only [DeleteData, hE, hloc, GetNode, hn]
          rw [e1]
          exact key (DeleteNode x.1 (some x.2) h.GetLevel h.GetSize (nextLength h) h)
            rfl rfl rfl
      · by_cases hc : LeafContainsKey h x.1 = true
        · rw [if_pos hc, List.mem_singleton] at hres
          rw [hres]
          have e1 : UpdateData t x = some (t.Update p
              (UpdateNode x.1 x.2 h.GetLevel h.GetSize (nextLength h) h)) := by
            simp only [UpdateData, hE, hloc, GetNode, hn, hc, Bool.true_eq_false, if_false]
          rw [e1]
          exact key (UpdateNode x.1 x.2 h.GetLevel h.GetSize (nextLength h) h) rfl rfl rfl
        · rw [if_neg hc] at hres
          cases hres
      · by_cases hf : cfg.IsLeafFull
            ((if LeafContainsKey h x.1 = true then 0 else 1) + h.GetSize) (nextLength h) = false
        · rw [if_pos hf, List.mem_singleton] at hres
          rw [hres]
          have hins : InsertData cfg t x = some (t.Update p (InsertNode x.1 x.2 h.GetLevel
              ((if LeafContainsKey h x.1 = true then 0 else 1) + h.GetSize)
              (nextLength h) h)) := by
            simp only [InsertData, hE, hlocI, GetNode, hn]
            have hf' : cfg.IsLeafFull
                (InsertNode x.1 x.2 h.GetLevel
                  ((if LeafContainsKey h x.1 = true then 0 else 1) + h.GetSize)
                  (nextLength h) h).GetSize
                (InsertNode x.1 x.2 h.GetLevel
                  ((if LeafContainsKey h x.1 = true then 0 else 1) + h.GetSize)
                  (nextLength h) h).GetLength = false := hf
            rw [hf']
            rfl
          rw [hins]
          exact key (InsertNode x.1 x.2 h.GetLevel
            ((if LeafContainsKey h x.1 = true then 0 else 1) + h.GetSize) (nextLength h) h)
            rfl rfl rfl
        · rw [if_neg hf] at hres
          cases hres

/-- Witness of C33: key 100 on the root leaf that holds it; `DeleteKey` leaves the
root, the ends of the leaf chain and every PID but the root leaf as they are. -/
theorem writers_change_one_entry_witness :
    WellFormed rootLeafTree ∧ rootLeafTree.m_root ≠ NULL_PID ∧
    ∃ (p : PID) (t' : BWTree Int Nat),
      locateLeaf rootLeafTree (100 : Int) = some p ∧
      DeleteKey rootLeafTree (100 : Int) = some t' ∧
      GetNode t' p ≠ GetNode rootLeafTree p ∧ t'.m_root = rootLeafTree.m_root ∧
      ∀ q : PID, q ≠ p → GetNode t' q = GetNode rootLeafTree q := by
  refine ⟨rootLeafTree_wellFormed, by decide, ?_⟩
  obtain ⟨p, h, h1, _, _, _, _, h6⟩ :=
    writers_change_one_entry defaultConfig rootLeafTree rootLeafTree_wellFormed (by decide)
      ((100 : Int), (0 : Nat))
  obtain ⟨t', d, a1, _, _, _, a5, a6, _, _, a9⟩ :=
    h6 (DeleteKey rootLeafTree (100 : Int)) (by simp)
  exact ⟨p, t', h1, a1, a5, a6, a9⟩

/-- C34 (the code where the claim fails): the root PID 1 of `sameKeySeparators` is a
full inner node under the thresholds with `δ_chain = 1`, with the routing table
`(0, [(10, 2), (10, 3), (10, 4)])` (m = 4, pos = 2).  `SplitInner` publishes the
split key 10, the sibling PID 6 with the table `(3, [(10, 4)])` and the recorded
size 1; the split delta keeps the separators with a key below 10, so PID 1 is left
with the child 0 only and the child PID 2 is in neither node.  The three inserts
under thresholds with `δ_chain = 2` and `δ_leaf = 0` reach the same two tables. -/
theorem SplitInner_drops_child_of_equal_key :
    (GetNode sameKeySeparators 1).map (fun n =>
        (n.IsLeaf, cascadeConfig.IsInnerFull n.GetSize n.GetLength, GetAllPointer n)) =
      some (false, true, (0, [(10, 2), (10, 3), (10, 4)])) ∧
    (SplitInner cascadeConfig 2 sameKeySeparators 1).map (fun t' =>
        (GetNode t' 1).map (fun n => (n.asSplit, childPIDs n))) =
      some (some (some (10, 6, 1), [0])) ∧
    (SplitInner cascadeConfig 2 sameKeySeparators 1).map (fun t' =>
        (GetNode t' 6).map (fun n => (n.IsDelta, GetAllPointer n))) =
      some (some (false, (3, [(10, 4)]))) ∧
    (runOps (specConfig 2 0 128) (BWTree.empty : BWTree Int Nat)
        [Op.insert (10, 0), Op.insert (10, 1), Op.insert (10, 2)]).map (fun t' =>
        ((GetNode t' 1).map childPIDs, (GetNode t' 6).map childPIDs)) =
      some (some [0], some [3, 4]) :=
  ⟨by decide, by decide, by decide, by decide⟩

/-- C34 (amended): on a well-formed index with root node `r`, `SplitInner` on a full
inner node `p` whose routing table has `m ≥ 2` entries (the leftmost child and
`m - 1` separators) returns; with `pos = ⌊m/2⌋` the split key is the key of entry
`pos` (separator `pos - 1`), the new sibling `s` is a base node with the child of
that entry as leftmost child and the separators after it in order, the split delta
on `p` records the size `pos - 1` and keeps the separators with a key below the
split key.  When the separator keys are strictly increasing, `p` keeps the
separators before entry `pos`, the children of `p` followed by the children of `s`
are the children before the split, every child is in exactly one of the two nodes,
and the keys of `p`, the split key and the keys of `s` are the keys before. -/
theorem SplitInner_halves (cfg : Config) (hcfg : cfg.Admissible) (t : BWTree K V)
    (hwf : WellFormed t) (p : PID) (n r : Node K V) (hn : GetNode t p = some n)
    (hr : GetNode t t.m_root = some r) (hinner : n.IsLeaf = false)
    (htable : (GetAllPointer n).2 ≠ [])
    (hfull : cfg.IsInnerFull n.GetSize n.GetLength = true) :
    ∃ (t' : BWTree K V) (s : PID) (e : K × PID) (np ns : Node K V) (pos : Nat),
      pos = ((GetAllPointer n).2.length + 1) / 2 ∧ 1 ≤ pos ∧
      SplitInner cfg (r.GetLevel + 1) t p = some t' ∧ GetNode t s = none ∧
      (GetAllPointer n).2[pos - 1]? = some e ∧
      GetNode t' p = some np ∧ np.asSplit = some (e.1, s, pos - 1) ∧
      GetNode t' s = some ns ∧ ns.IsDelta = false ∧ ns.IsLeaf = false ∧
      GetAllPointer ns = (e.2, (GetAllPointer n).2.drop pos) ∧
      GetAllPointer np = ((GetAllPointer n).1,
        (GetAllPointer n).2.filter (fun a => decide (a.1 < e.1))) ∧
      (childPIDs n).Nodup ∧
      ((GetAllPointer n).2.Pairwise (fun a b => a.1 < b.1) →
        GetAllPointer np = ((GetAllPointer n).1, (GetAllPointer n).2.take (pos - 1)) ∧
        childPIDs np ++ childPIDs ns = childPIDs n ∧
        (∀ c ∈ childPIDs n, (c ∈ childPIDs np ∧ c ∉ childPIDs ns) ∨
          (c ∉ childPIDs np ∧ c ∈ childPIDs ns)) ∧
        (GetAllPointer np).2.map Prod.fst ++ e.1 :: (GetAllPointer ns).2.map Prod.fst =
          (GetAllPointer n).2.map Prod.fst) := by
  obtain ⟨g, m, hI, hB, hS, hok⟩ := hwf.inv hn
  have hl : g.lvl p ≠ 0 := by
    rw [← hok.level]; exact (Node.IsLeaf_false_iff n).mp hinner
  have hne : (g.tbl p).2 ≠ [] := by rw [← hok.table hl]; exact htable
  have hf : g.lvl t.m_root < g.lvl p + (r.GetLevel + 1) := by
    rw [← (hI.node hr).level]; omega
  obtain ⟨t', s, e, np, ns, h1, h2, h3, _, h5, h6, h7, h8, h9, h10, h11, h12⟩ :=
    SplitInner_tables hcfg r.GetLevel hI hB hS hn hl hne hf hfull
  have hlen : 0 < (GetAllPointer n).2.length := List.length_pos.mpr htable
  have hpos : 1 ≤ ((GetAllPointer n).2.length + 1) / 2 := by omega
  refine ⟨t', s, e, np, ns, _, rfl, hpos, h1, h2, h3, h6, h7, h9, h10, ?_, h12, h8, h5,
    fun hstrict => ?_⟩
  · rw [Node.IsLeaf_false_iff, h11, hok.level]; exact hl
  · have htake := routing_filter_eq_take hstrict h3
    have hcut := slots_cut h3
    rw [Nat.sub_add_cancel hpos] at hcut
    have hnp : GetAllPointer np = ((GetAllPointer n).1,
        (GetAllPointer n).2.take (((GetAllPointer n).2.length + 1) / 2 - 1)) := by
      rw [h8, htake]
    have happ : childPIDs np ++ childPIDs ns = childPIDs n := by
      unfold childPIDs
      rw [hnp, h12]
      show ((GetAllPointer n).1 :: ((GetAllPointer n).2.take _).map Prod.snd) ++
        (e.2 :: ((GetAllPointer n).2.drop _).map Prod.snd) =
        (GetAllPointer n).1 :: (GetAllPointer n).2.map Prod.snd
      conv_rhs => rw [hcut]
      simp
    refine ⟨hnp, happ, ?_, ?_⟩
    · intro c hc
      have hnd := h5
      rw [← happ] at hnd hc
      have hdis := (List.nodup_append.mp hnd).2.2
      rcases List.mem_append.mp hc with h | h
      · exact Or.inl ⟨h, fun h' => hdis h h'⟩
      · exact Or.inr ⟨fun h' => hdis h' h, h⟩
    · rw [hnp, h12]
      show ((GetAllPointer n).2.take _).map Prod.fst ++
        e.1 :: ((GetAllPointer n).2.drop _).map Prod.fst = _
      conv_rhs => rw [hcut]
      simp

/-- Witness of C34: the root PID 1 of three leaves with the separators 10 and 20,
full under the thresholds with `δ_chain = 1`. -/
theorem SplitInner_halves_witness :
    cascadeConfig.Admissible ∧ WellFormed threeLeaves ∧
    ∃ (t' : BWTree Int Nat) (s : PID) (np ns : Node Int Nat),
      SplitInner cascadeConfig 2 threeLeaves 1 = some t' ∧
      GetNode t' 1 = some np ∧ GetNode t' s = some ns ∧
      childPIDs np ++ childPIDs ns = [0, 2, 3] := by
  refine ⟨cascadeConfig_admissible, threeLeaves_wellFormed, ?_⟩
  obtain ⟨t', s, e, np, ns, pos, _, _, h3, _, _, h6, _, h8, _, _, _, _, _, h14⟩ :=
    SplitInner_halves cascadeConfig cascadeConfig_admissible threeLeaves
      threeLeaves_wellFormed 1
      (SeparatorNode 20 none 3 1 2 2 (SeparatorNode 10 none 2 1 1 1
        (InnerNode NULL_PID 1 NULL_PID 0 [])))
      (SeparatorNode 20 none 3 1 2 2 (SeparatorNode 10 none 2 1 1 1
        (InnerNode NULL_PID 1 NULL_PID 0 [])))
      rfl rfl rfl (by decide) (by decide)
  exact ⟨t', s, np, ns, h3, h6, h8, (h14 (by decide)).2.1⟩

/-- C35 (the code at the failing input): thresholds `δ_chain = 8`, `δ_leaf = 1`.
After `InsertData ((1, 0))` and `DeleteData ((1, 0))` on the empty index the head of
the root leaf has size 1 and chain length 2 and materializes to no slot.
`InsertData ((2, 0))` publishes an insert delta of size 2 and chain length 3, full
by its size (at size 1 the same chain is not full), and calls `SplitLeaf` on a
content of one slot: the split key is 2, the smallest key, the split delta on PID 0
records the size 0, the left node is empty and the sibling PID 2 holds the slot. -/
theorem SplitLeaf_by_size_on_one_slot :
    (runOps smallLeafConfig (BWTree.empty : BWTree Int Nat)
        [Op.insert (1, 0), Op.deleteData (1, 0)]).map (fun t =>
        (GetNode t 0).map (fun h => (h.GetSize, h.GetLength, LeafContainsKey h 2))) =
      some (some (1, 2, false)) ∧
    (runOps smallLeafConfig (BWTree.empty : BWTree Int Nat)
        [Op.insert (1, 0), Op.deleteData (1, 0)]).map (fun t =>
        (GetNode t 0).map GetAllData) = some (some []) ∧
    (smallLeafConfig.IsLeafFull 2 3 = true ∧ smallLeafConfig.IsLeafFull 1 3 = false) ∧
    (runOps smallLeafConfig (BWTree.empty : BWTree Int Nat)
        [Op.insert (1, 0), Op.deleteData (1, 0), Op.insert (2, 0)]).map (fun t =>
        (GetNode t 0).bind Node.asSplit) = some (some (2, 2, 0)) ∧
    (runOps smallLeafConfig (BWTree.empty : BWTree Int Nat)
        [Op.insert (1, 0), Op.deleteData (1, 0), Op.insert (2, 0)]).map (fun t =>
        (GetNode t 0).map GetAllData) = some (some []) ∧
    (runOps smallLeafConfig (BWTree.empty : BWTree Int Nat)
        [Op.insert (1, 0), Op.deleteData (1, 0), Op.insert (2, 0)]).map (fun t =>
        (GetNode t 2).map GetAllData) = some (some [(2, [0])]) :=
  ⟨by decide, by decide, ⟨by decide, by decide⟩, by decide, by decide, by decide⟩

/-- C36 (the code at the failing input): the registry holds `tableA` at index 0 and
`tableC` at index 1 of the iteration order of `table_oid_to_address`.
`GetTableByPosition (0)` returns `tableC`, the table at index 1, as does
`GetTableByPosition (1)`; `GetTableByPosition (2)` returns `nullptr`. -/
theorem GetTableByPosition_returns_last_table :
    twoTables.table_oid_to_address.map Prod.snd = [tableA, tableC] ∧ tableA ≠ tableC ∧
    twoTables.GetTableByPosition 0 = some tableC ∧
    twoTables.GetTableByPosition 1 = some tableC ∧
    twoTables.GetTableByPosition 2 = none :=
  ⟨rfl, by decide, by decide, by decide, by decide⟩

/-- C37 (the code where the claim fails): `AddTable (tableA)` and `AddTable (tableB)`
on the empty registry both return true; `tableB` has a new name and the oid 7 of
`tableA`.  After the second call `GetTableByName ("b")` and `GetTableById (7)`
return `tableA`, and `table_name_to_oid` maps `b` to 7 while `table_oid_to_name`
maps 7 to `a`. -/
theorem AddTable_same_oid_other_name :
    tableB ≠ tableA ∧
    ((Database.empty.AddTable tableA).bind (fun r1 => (r1.2.AddTable tableB).map (fun r2 =>
        (r1.1, r2.1, r2.2.GetTableByName "b", r2.2.GetTableById 7)))) =
      some (true, true, some (some tableA), some tableA) ∧
    ((Database.empty.AddTable tableA).bind (fun r1 => (r1.2.AddTable tableB).map (fun r2 =>
        (mapAt r2.2.table_name_to_oid "b", mapAt r2.2.table_oid_to_name 7)))) =
      some (some 7, some "a") :=
  ⟨by decide, by decide, by decide⟩

/-- C37 (amended): `AddTable` of a table with a name and an oid returns.  It returns
false exactly when the name has an entry in `table_name_to_oid`, and then leaves the
registry as it is.  When it returns true and the oid had no entry in
`table_oid_to_address`, `GetTableByName` of the name and `GetTableById` of the oid
return the table, and a consistent registry (`table_name_to_oid` and
`table_oid_to_name` mutually inverse, their oids the keys of `table_oid_to_address`)
stays consistent.  The empty registry is consistent, and every sequence of
`AddTable` calls from it on tables with names, oids and pairwise distinct oids
returns a consistent registry. -/
theorem AddTable_registers_table (db : Database) (table : DataTable)
    (hname : table.name ≠ "") (hoid : table.oid ≠ 0) :
    (∃ (r : Bool) (db' : Database), db.AddTable table = some (r, db') ∧
      (r = false ↔ ∃ o, mapAt db.table_name_to_oid table.name = some o) ∧
      (r = false → db' = db) ∧
      (r = true → mapAt db.table_oid_to_address table.oid = none →
        db'.GetTableByName table.name = some (some table) ∧
        db'.GetTableById table.oid = some table) ∧
      (db.Consistent → (r = true → mapAt db.table_oid_to_address table.oid = none) →
        db'.Consistent)) ∧
    Database.empty.Consistent ∧
    ∀ tables : List DataTable, (∀ t ∈ tables, t.name ≠ "" ∧ t.oid ≠ 0) →
      (tables.map DataTable.oid).Nodup →
      ∃ d, Database.empty.AddTables tables = some d ∧ d.Consistent := by
  refine ⟨?_, Database.empty_consistent, fun tables hv hnd => ?_⟩
  · have heq := AddTable_eq db table hname hoid
    cases hn : mapAt db.table_name_to_oid table.name with
    | some o =>
      rw [hn] at heq
      exact ⟨false, db, heq, ⟨fun _ => ⟨o, rfl⟩, fun _ => rfl⟩, fun _ => rfl,
        (fun h => nomatch h), fun hc _ => hc⟩
    | none =>
      rw [hn] at heq
      refine ⟨true, _, heq, ⟨(fun h => nomatch h), (fun ⟨_, ho⟩ => nomatch ho)⟩,
        (fun h => nomatch h), fun _ hfr => ⟨?_, ?_⟩, fun hc hfr => ?_⟩
      · have e1 : mapAt (mapInsert db.table_name_to_oid table.name table.oid) table.name =
            some table.oid := by
          rw [mapAt_mapInsert, if_pos rfl, hn]; rfl
        have e2 : mapAt (mapInsert db.table_oid_to_address table.oid table) table.oid =
            some table := by
          rw [mapAt_mapInsert, if_pos rfl, hfr]; rfl
        simp only [Database.GetTableByName, e1, e2]
      · show mapAt (mapInsert db.table_oid_to_address table.oid table) table.oid = some table
        rw [mapAt_mapInsert, if_pos rfl, hfr]; rfl
      · exact AddTable_consistent db _ table true hname hoid hc (fun _ => hfr rfl) heq
  · exact AddTables_consistent tables Database.empty Database.empty_consistent
      (fun t ht => ⟨(hv t ht).1, (hv t ht).2, rfl⟩) hnd

/-- Witness of C37: `tableA` on the empty registry. -/
theorem AddTable_registers_table_witness :
    tableA.name ≠ "" ∧ tableA.oid ≠ 0 ∧
    ∃ db' : Database, Database.empty.AddTable tableA = some (true, db') ∧
      db'.GetTableByName "a" = some (some tableA) ∧ db'.GetTableById 7 = some tableA := by
  refine ⟨by decide, by decide, ?_⟩
  obtain ⟨r, db', h1, h2, _, h4, _⟩ :=
    (AddTable_registers_table Database.empty tableA (by decide) (by decide)).1
  have hr : r = true := by
    cases r with
    | true => rfl
    | false =>
      obtain ⟨o, ho⟩ := h2.mp rfl
      cases ho
  rw [hr] at h1
  exact ⟨db', h1, h4 hr rfl⟩

end Claims5

end BwTree
